import Mathlib

/-! Verification development for the LLD lecture programs

Shallow embeddings of the lecture programs and theorems about them.

Conventions of the embedding:
* a C++ `int` is a Lean `Int`. The sums that the stock and the balance of the vending
  machine, the size of a folder and the score difference of the chess matchmaking are
  built from are reduced to the 32 bits of an `int` by `CppLib.wrapInt`, which is what
  the compiled programs do when a sum leaves the range of `int`; elsewhere the embedding
  describes the executions in which no signed overflow occurs;
* text written to `cout` is kept as a list of message values, one constructor per
  message of the source, carrying the numbers that the message prints;
* a method that mutates its object returns the updated object.
-/

/-! ## The 32-bit `int` of the lecture programs -/

namespace CppLib

/-- The value an `int` holds after an arithmetic result `x`: the result reduced to 32
bits in two's complement, so `2147483647 + 1` becomes `-2147483648`. -/
def wrapInt (x : Int) : Int :=
  (x + 2147483648) % 4294967296 - 2147483648

/-- The function `abs` on `int`: `-x` for a negative `x`, reduced to 32 bits like every
`int` result, so that `abs(-2147483648)` is `-2147483648`. -/
def abs (x : Int) : Int :=
  if x < 0 then wrapInt (-x) else x

/-- The values of an `int`: from `INT_MIN = -2147483648` to `INT_MAX = 2147483647`. -/
def InIntRange (x : Int) : Prop :=
  -2147483648 ≤ x ∧ x ≤ 2147483647

end CppLib

/-! ## Lecture 32: `StatePattern.cpp`, the vending machine -/

namespace Vending

/-- The four concrete `VendingState` classes. -/
inductive VendingState
  | NoCoinState
  | HasCoinState
  | DispenseState
  | SoldOutState
  deriving DecidableEq, Repr

/-- The lines the state classes write to `cout`. -/
inductive Msg
  | coinInserted (balance : Int)
  | insertCoinFirst
  | insertCoinAndSelectFirst
  | noCoinToReturn
  | itemsRefilling
  | additionalCoinInserted (balance : Int)
  | itemSelected
  | changeReturned (change : Int)
  | insufficientFunds (needed : Int)
  | selectItemFirst
  | coinReturned (coins : Int)
  | cantRefill
  | waitDispensingCoinReturned (coin : Int)
  | alreadyDispensing
  | itemDispensed
  | nowSoldOut
  | cannotReturnWhileDispensing
  | soldOutCoinReturned (coin : Int)
  | soldOut
  | soldOutNoCoin
  deriving DecidableEq, Repr

/-- The data members of `class VendingMachine`; the four state objects are stateless and
are represented by the constructors of `VendingState`. -/
structure VendingMachine where
  currentState : VendingState
  itemCount : Int
  itemPrice : Int
  insertedCoins : Int
  deriving DecidableEq, Repr

/-- What a state method yields: the state it returns, the machine after the method's
side effects, and the text it printed. -/
structure Outcome where
  next : VendingState
  machine : VendingMachine
  out : List Msg
  deriving DecidableEq, Repr

namespace VendingMachine

def decrementItemCount (m : VendingMachine) : VendingMachine :=
  { m with itemCount := m.itemCount - 1 }

/-- The statement `itemCount += count` on the `int` member. -/
def incrementItemCount (m : VendingMachine) (count : Int) : VendingMachine :=
  { m with itemCount := CppLib.wrapInt (m.itemCount + count) }

def setInsertedCoin (m : VendingMachine) (coin : Int) : VendingMachine :=
  { m with insertedCoins := coin }

/-- The statement `insertedCoins += coin` on the `int` member. -/
def addCoin (m : VendingMachine) (coin : Int) : VendingMachine :=
  { m with insertedCoins := CppLib.wrapInt (m.insertedCoins + coin) }

end VendingMachine

open VendingState

namespace NoCoinState

def insertCoin (machine : VendingMachine) (coin : Int) : Outcome :=
  ⟨HasCoinState, machine.setInsertedCoin coin, [Msg.coinInserted coin]⟩

def selectItem (machine : VendingMachine) : Outcome :=
  ⟨NoCoinState, machine, [Msg.insertCoinFirst]⟩

def dispense (machine : VendingMachine) : Outcome :=
  ⟨NoCoinState, machine, [Msg.insertCoinAndSelectFirst]⟩

def returnCoin (machine : VendingMachine) : Outcome :=
  ⟨NoCoinState, machine, [Msg.noCoinToReturn]⟩

def refill (machine : VendingMachine) (quantity : Int) : Outcome :=
  ⟨NoCoinState, machine.incrementItemCount quantity, [Msg.itemsRefilling]⟩

end NoCoinState

namespace HasCoinState

def insertCoin (machine : VendingMachine) (coin : Int) : Outcome :=
  let machine1 := machine.addCoin coin
  ⟨HasCoinState, machine1, [Msg.additionalCoinInserted machine1.insertedCoins]⟩

def selectItem (machine : VendingMachine) : Outcome :=
  if machine.insertedCoins ≥ machine.itemPrice then
    let change := machine.insertedCoins - machine.itemPrice
    let out := if change > 0 then [Msg.itemSelected, Msg.changeReturned change]
               else [Msg.itemSelected]
    ⟨DispenseState, machine.setInsertedCoin 0, out⟩
  else
    let needed := machine.itemPrice - machine.insertedCoins
    ⟨HasCoinState, machine, [Msg.insufficientFunds needed]⟩

def dispense (machine : VendingMachine) : Outcome :=
  ⟨HasCoinState, machine, [Msg.selectItemFirst]⟩

def returnCoin (machine : VendingMachine) : Outcome :=
  ⟨NoCoinState, machine.setInsertedCoin 0, [Msg.coinReturned machine.insertedCoins]⟩

def refill (machine : VendingMachine) (_quantity : Int) : Outcome :=
  ⟨HasCoinState, machine, [Msg.cantRefill]⟩

end HasCoinState

namespace DispenseState

def insertCoin (machine : VendingMachine) (coin : Int) : Outcome :=
  ⟨DispenseState, machine, [Msg.waitDispensingCoinReturned coin]⟩

def selectItem (machine : VendingMachine) : Outcome :=
  ⟨DispenseState, machine, [Msg.alreadyDispensing]⟩

def dispense (machine : VendingMachine) : Outcome :=
  let machine1 := machine.decrementItemCount
  if machine1.itemCount > 0 then
    ⟨NoCoinState, machine1, [Msg.itemDispensed]⟩
  else
    ⟨SoldOutState, machine1, [Msg.itemDispensed, Msg.nowSoldOut]⟩

def returnCoin (machine : VendingMachine) : Outcome :=
  ⟨DispenseState, machine, [Msg.cannotReturnWhileDispensing]⟩

def refill (machine : VendingMachine) (_quantity : Int) : Outcome :=
  ⟨DispenseState, machine, [Msg.cantRefill]⟩

end DispenseState

namespace SoldOutState

def insertCoin (machine : VendingMachine) (coin : Int) : Outcome :=
  ⟨SoldOutState, machine, [Msg.soldOutCoinReturned coin]⟩

def selectItem (machine : VendingMachine) : Outcome :=
  ⟨SoldOutState, machine, [Msg.soldOut]⟩

def dispense (machine : VendingMachine) : Outcome :=
  ⟨SoldOutState, machine, [Msg.soldOut]⟩

def returnCoin (machine : VendingMachine) : Outcome :=
  ⟨SoldOutState, machine, [Msg.soldOutNoCoin]⟩

def refill (machine : VendingMachine) (quantity : Int) : Outcome :=
  ⟨NoCoinState, machine.incrementItemCount quantity, [Msg.itemsRefilling]⟩

end SoldOutState

/-! Virtual dispatch on the dynamic type of the state object. -/

namespace VendingState

def insertCoin : VendingState → VendingMachine → Int → Outcome
  | NoCoinState => NoCoinState.insertCoin
  | HasCoinState => HasCoinState.insertCoin
  | DispenseState => DispenseState.insertCoin
  | SoldOutState => SoldOutState.insertCoin

def selectItem : VendingState → VendingMachine → Outcome
  | NoCoinState => NoCoinState.selectItem
  | HasCoinState => HasCoinState.selectItem
  | DispenseState => DispenseState.selectItem
  | SoldOutState => SoldOutState.selectItem

def dispense : VendingState → VendingMachine → Outcome
  | NoCoinState => NoCoinState.dispense
  | HasCoinState => HasCoinState.dispense
  | DispenseState => DispenseState.dispense
  | SoldOutState => SoldOutState.dispense

def returnCoin : VendingState → VendingMachine → Outcome
  | NoCoinState => NoCoinState.returnCoin
  | HasCoinState => HasCoinState.returnCoin
  | DispenseState => DispenseState.returnCoin
  | SoldOutState => SoldOutState.returnCoin

def refill : VendingState → VendingMachine → Int → Outcome
  | NoCoinState => NoCoinState.refill
  | HasCoinState => HasCoinState.refill
  | DispenseState => DispenseState.refill
  | SoldOutState => SoldOutState.refill

end VendingState

namespace VendingMachine

/-- The constructor `VendingMachine::VendingMachine(int itemCount, int itemPrice)`. -/
def new (itemCount itemPrice : Int) : VendingMachine :=
  { currentState := if itemCount > 0 then NoCoinState else SoldOutState
    itemCount := itemCount
    itemPrice := itemPrice
    insertedCoins := 0 }

/-- The assignment `currentState = currentState->method(this, ...)`. -/
def commit (o : Outcome) : VendingMachine × List Msg :=
  ({ o.machine with currentState := o.next }, o.out)

def insertCoin (m : VendingMachine) (coin : Int) : VendingMachine × List Msg :=
  commit (m.currentState.insertCoin m coin)

def selectItem (m : VendingMachine) : VendingMachine × List Msg :=
  commit (m.currentState.selectItem m)

def dispense (m : VendingMachine) : VendingMachine × List Msg :=
  commit (m.currentState.dispense m)

def returnCoin (m : VendingMachine) : VendingMachine × List Msg :=
  commit (m.currentState.returnCoin m)

def refill (m : VendingMachine) (quantity : Int) : VendingMachine × List Msg :=
  commit (m.currentState.refill m quantity)

end VendingMachine

/-- The five public operations of the machine, with their payloads. -/
inductive Action
  | insertCoin (coin : Int)
  | selectItem
  | dispense
  | returnCoin
  | refill (quantity : Int)
  deriving DecidableEq, Repr

/-- One call of a public operation on the machine. -/
def VendingMachine.perform (m : VendingMachine) : Action → VendingMachine × List Msg
  | Action.insertCoin coin => m.insertCoin coin
  | Action.selectItem => m.selectItem
  | Action.dispense => m.dispense
  | Action.returnCoin => m.returnCoin
  | Action.refill quantity => m.refill quantity

/-- The actions the specification lists as not valid in the machine's current state. -/
def notValidIn (m : VendingMachine) : Action → Prop
  | Action.insertCoin _ =>
      m.currentState = DispenseState ∨ m.currentState = SoldOutState
  | Action.selectItem =>
      m.currentState = NoCoinState ∨ m.currentState = DispenseState ∨
      m.currentState = SoldOutState ∨
      (m.currentState = HasCoinState ∧ m.insertedCoins < m.itemPrice)
  | Action.dispense =>
      m.currentState = NoCoinState ∨ m.currentState = HasCoinState ∨
      m.currentState = SoldOutState
  | Action.returnCoin =>
      m.currentState = NoCoinState ∨ m.currentState = DispenseState ∨
      m.currentState = SoldOutState
  | Action.refill _ =>
      m.currentState = HasCoinState ∨ m.currentState = DispenseState

/-- The amount announced by the "Change returned" line, zero when no such line is
printed. -/
def changeReturned : List Msg → Int
  | [] => 0
  | Msg.changeReturned change :: rest => change + changeReturned rest
  | _ :: rest => changeReturned rest

/-- The edges of the transition graph as the specification draws it. -/
def specEdge : VendingState → VendingState → Action → Prop
  | NoCoinState, HasCoinState, _ => True
  | HasCoinState, DispenseState, _ => True
  | DispenseState, NoCoinState, _ => True
  | DispenseState, SoldOutState, _ => True
  | SoldOutState, NoCoinState, Action.refill _ => True
  | _, _, _ => False

/-- The edges of the transition graph of the code: those of `specEdge` and the edge from
`HasCoinState` to `NoCoinState` taken by `returnCoin`. -/
def codeEdge : VendingState → VendingState → Action → Prop
  | NoCoinState, HasCoinState, _ => True
  | HasCoinState, DispenseState, _ => True
  | HasCoinState, NoCoinState, Action.returnCoin => True
  | DispenseState, NoCoinState, _ => True
  | DispenseState, SoldOutState, _ => True
  | SoldOutState, NoCoinState, Action.refill _ => True
  | _, _, _ => False

/-- The run of `main`, scenarios 2 to 6, on a machine with the given stock and price. -/
def demoRun (itemCount itemPrice : Int) : List (VendingMachine × List Msg) :=
  let m0 := VendingMachine.new itemCount itemPrice
  let r1 := m0.insertCoin 10
  let r2 := r1.1.selectItem
  let r3 := r2.1.insertCoin 10
  let r4 := r3.1.selectItem
  let r5 := r4.1.dispense
  [r1, r2, r3, r4, r5]

end Vending

/-! ## Lecture 22: `COR.cpp`, the cash dispenser chain -/

namespace COR

/-- The lines the handlers write to `cout`. -/
inductive Msg
  | dispensing (notes : Int) (denomination : Int)
  | cannotBeFulfilled (remainingAmount : Int)
  deriving DecidableEq, Repr

/-- The four concrete `MoneyHandler` classes, each with its `numNotes` member. -/
inductive MoneyHandler
  | ThousandHandler (numNotes : Int)
  | FiveHundredHandler (numNotes : Int)
  | TwoHundredHandler (numNotes : Int)
  | HundredHandler (numNotes : Int)
  deriving DecidableEq, Repr

namespace MoneyHandler

/-- The literal by which the class divides and multiplies in its `dispense`. -/
def denomination : MoneyHandler → Int
  | ThousandHandler _ => 1000
  | FiveHundredHandler _ => 500
  | TwoHundredHandler _ => 200
  | HundredHandler _ => 100

def numNotes : MoneyHandler → Int
  | ThousandHandler n => n
  | FiveHundredHandler n => n
  | TwoHundredHandler n => n
  | HundredHandler n => n

def setNumNotes : MoneyHandler → Int → MoneyHandler
  | ThousandHandler _, n => ThousandHandler n
  | FiveHundredHandler _, n => FiveHundredHandler n
  | TwoHundredHandler _, n => TwoHundredHandler n
  | HundredHandler _, n => HundredHandler n

end MoneyHandler

/-- The method `dispense(int amount)`, the same in the four classes up to the denomination.
A chain is the list of its handlers: the head is the handler that receives the call and
the tail is what its `nextHandler` points to (`nullptr` for the empty tail). The result
is the chain with the updated stocks and the printed lines. `Int.tdiv` is the division
of C++, which truncates towards zero. -/
def dispense : List MoneyHandler → Int → List MoneyHandler × List Msg
  | [], _ => ([], [])
  | h :: nextHandler, amount =>
    let wanted := Int.tdiv amount h.denomination
    let notesNeeded := if wanted > h.numNotes then h.numNotes else wanted
    let numNotes := if wanted > h.numNotes then 0 else h.numNotes - wanted
    let out := if notesNeeded > 0 then [Msg.dispensing notesNeeded h.denomination] else []
    let remainingAmount := amount - notesNeeded * h.denomination
    if remainingAmount > 0 then
      match nextHandler with
      | [] => ([h.setNumNotes numNotes], out ++ [Msg.cannotBeFulfilled remainingAmount])
      | n :: ns =>
        let r := dispense (n :: ns) remainingAmount
        (h.setNumNotes numNotes :: r.1, out ++ r.2)
    else
      (h.setNumNotes numNotes :: nextHandler, out)

/-- The chain that `main` links: 1000, then 500, then 200, then 100, then `nullptr`. -/
def chain (n1000 n500 n200 n100 : Int) : List MoneyHandler :=
  [MoneyHandler.ThousandHandler n1000, MoneyHandler.FiveHundredHandler n500,
   MoneyHandler.TwoHundredHandler n200, MoneyHandler.HundredHandler n100]

/-- The number of notes of one denomination announced by the printed lines. -/
def issued (denomination : Int) : List Msg → Int
  | [] => 0
  | Msg.dispensing notes d :: rest =>
      (if d = denomination then notes else 0) + issued denomination rest
  | Msg.cannotBeFulfilled _ :: rest => issued denomination rest

/-- The amounts reported as impossible to fulfil. -/
def unfulfilled : List Msg → List Int
  | [] => []
  | Msg.cannotBeFulfilled r :: rest => r :: unfulfilled rest
  | Msg.dispensing _ _ :: rest => unfulfilled rest

end COR

/-! ## Lecture 31: `SplitwiseApp.cpp`, group balances and debt simplification

A `double` is modelled by an exact rational number, so the tolerance `0.01` is `1/100`
and no rounding takes place. A `std::map<string, V>` is the list of its entries in the
order in which the map iterates over them, which is ascending key order. -/

namespace Splitwise

/-- A `std::map<string, V>`: its entries in iteration order. -/
abbrev StdMap (V : Type) := List (String × V)

namespace StdMap

variable {V : Type}

/-- The lookup `m.find(key)`; the walk stops at the first entry whose key is not below
`key`. `std::string::operator<` is the lexicographic order of the characters. -/
def find (m : StdMap V) (key : String) : Option V :=
  match m with
  | [] => none
  | (k, v) :: rest =>
    if key.data < k.data then none
    else if key = k then some v
    else find rest key

/-- The value that `m[key]` refers to; `operator[]` value-initialises an absent entry. -/
def getD (m : StdMap V) (key : String) (dflt : V) : V :=
  (find m key).getD dflt

/-- The assignment `m[key] = value`. -/
def set (m : StdMap V) (key : String) (value : V) : StdMap V :=
  match m with
  | [] => [(key, value)]
  | (k, v) :: rest =>
    if key.data < k.data then (key, value) :: (k, v) :: rest
    else if key = k then (key, value) :: rest
    else (k, v) :: set rest key value

/-- The call `m.erase(key)`. -/
def erase (m : StdMap V) (key : String) : StdMap V :=
  match m with
  | [] => []
  | (k, v) :: rest =>
    if key.data < k.data then (k, v) :: rest
    else if key = k then rest
    else (k, v) :: erase rest key

end StdMap

/-- The type `map<string, map<string, double>>` of `groupBalances`. -/
abbrev Balances := StdMap (StdMap ℚ)

/-- The compound assignment `balances[a][b] += amount`. -/
def Balances.add (balances : Balances) (a b : String) (amount : ℚ) : Balances :=
  let row := StdMap.getD balances a []
  StdMap.set balances a (StdMap.set row b (StdMap.getD row b 0 + amount))

/-- The assignment `balances[a][b] = amount`. -/
def Balances.assign (balances : Balances) (a b : String) (amount : ℚ) : Balances :=
  StdMap.set balances a (StdMap.set (StdMap.getD balances a []) b amount)

/-- The statement `if (abs(balances[a][b]) < 0.01) balances[a].erase(b);`. -/
def Balances.eraseIfZero (balances : Balances) (a b : String) : Balances :=
  let balances1 := Balances.add balances a b 0
  let row := StdMap.getD balances1 a []
  if |StdMap.getD row b 0| < 0.01 then StdMap.set balances1 a (StdMap.erase row b)
  else balances1

namespace DebtSimplifier

/-- The first two loops of `simplifyDebts`: every user of `groupBalances` starts at 0,
then every positive balance is credited to its row and debited from its column. -/
def netAmounts (groupBalances : Balances) : StdMap ℚ :=
  let init : StdMap ℚ := groupBalances.foldl (fun net userBalance =>
    StdMap.set net userBalance.1 0) []
  groupBalances.foldl (fun net userBalance =>
    userBalance.2.foldl (fun net balance =>
      if balance.2 > 0 then
        let net1 := StdMap.set net userBalance.1 (StdMap.getD net userBalance.1 0 + balance.2)
        StdMap.set net1 balance.1 (StdMap.getD net1 balance.1 0 - balance.2)
      else net) net) init

/-- The vector `creditors` before it is sorted. -/
def creditors (net : StdMap ℚ) : List (String × ℚ) :=
  net.filterMap (fun n => if n.2 > 0.01 then some (n.1, n.2) else none)

/-- The vector `debtors` before it is sorted; the amounts are stored positive. -/
def debtors (net : StdMap ℚ) : List (String × ℚ) :=
  net.filterMap (fun n =>
    if n.2 > 0.01 then none else if n.2 < -0.01 then some (n.1, -n.2) else none)

/-- The call `sort(v.begin(), v.end(), [](a, b) { return a.second > b.second; })`.
`std::sort` leaves the order of entries with equal amounts unspecified; this model keeps
them in their original order. -/
def sortLargestFirst (v : List (String × ℚ)) : List (String × ℚ) :=
  v.insertionSort (fun a b => a.2 ≥ b.2)

/-- The `while (i < creditors.size() && j < debtors.size())` loop. The two lists are the
parts of the vectors from index `i` and from index `j` on. -/
def settleLoop : List (String × ℚ) → List (String × ℚ) → Balances → Balances
  | (creditorId, creditorAmount) :: cs, (debtorId, debtorAmount) :: ds, simplified =>
    let settleAmount := min creditorAmount debtorAmount
    let simplified1 := Balances.assign simplified creditorId debtorId settleAmount
    let simplified2 := Balances.assign simplified1 debtorId creditorId (-settleAmount)
    if _hc : creditorAmount - settleAmount < 0.01 then
      if _hd : debtorAmount - settleAmount < 0.01 then
        settleLoop cs ds simplified2
      else
        settleLoop cs ((debtorId, debtorAmount - settleAmount) :: ds) simplified2
    else
      if _hd : debtorAmount - settleAmount < 0.01 then
        settleLoop ((creditorId, creditorAmount - settleAmount) :: cs) ds simplified2
      else
        settleLoop ((creditorId, creditorAmount - settleAmount) :: cs)
          ((debtorId, debtorAmount - settleAmount) :: ds) simplified2
  | _, _, simplified => simplified
termination_by cs ds _ => cs.length + ds.length
decreasing_by
  · simp only [List.length_cons]; omega
  · simp only [List.length_cons]; omega
  · simp only [List.length_cons]; omega
  · exfalso
    have hc : ¬ creditorAmount - min creditorAmount debtorAmount < 0.01 := _hc
    have hd : ¬ debtorAmount - min creditorAmount debtorAmount < 0.01 := _hd
    rcases le_total creditorAmount debtorAmount with h | h
    · rw [min_eq_left h, sub_self] at hc
      exact hc (by norm_num)
    · rw [min_eq_right h, sub_self] at hd
      exact hd (by norm_num)

/-- The function `DebtSimplifier::simplifyDebts`. -/
def simplifyDebts (groupBalances : Balances) : Balances :=
  let net := netAmounts groupBalances
  let simplifiedBalances : Balances := groupBalances.foldl (fun sb userBalance =>
    StdMap.set sb userBalance.1 []) []
  settleLoop (sortLargestFirst (creditors net)) (sortLargestFirst (debtors net))
    simplifiedBalances

end DebtSimplifier

/-- The final values of `struct Split`. -/
structure Split where
  userId : String
  amount : ℚ
  deriving DecidableEq

inductive SplitType
  | EQUAL
  | EXACT
  | PERCENTAGE
  deriving DecidableEq, Repr

/-- The three `calculateSplit` methods, chosen by `SplitFactory::getSplitStrategy`.
`ExactSplit` and `PercentageSplit` read `values[i]` for every index of `userIds`; the
model pairs the two vectors, so it covers the calls in which `values` is long enough. -/
def calculateSplit (type : SplitType) (totalAmount : ℚ) (userIds : List String)
    (values : List ℚ) : List Split :=
  match type with
  | SplitType.EQUAL => userIds.map (fun userId => ⟨userId, totalAmount / userIds.length⟩)
  | SplitType.EXACT => List.zipWith (fun userId value => ⟨userId, value⟩) userIds values
  | SplitType.PERCENTAGE =>
      List.zipWith (fun userId value => ⟨userId, (totalAmount * value) / 100⟩) userIds values

/-- The members and the balances of `class Group`; a member is kept by its `userId`. -/
structure Group where
  members : List String
  groupBalances : Balances
  deriving DecidableEq

namespace Group

def empty : Group := ⟨[], []⟩

def addMember (g : Group) (userId : String) : Group :=
  { members := g.members ++ [userId]
    groupBalances := StdMap.set g.groupBalances userId [] }

def isMember (g : Group) (userId : String) : Bool :=
  (StdMap.find g.groupBalances userId).isSome

def updateGroupBalance (g : Group) (fromUserId toUserId : String) (amount : ℚ) : Group :=
  let b1 := Balances.add g.groupBalances fromUserId toUserId amount
  let b2 := Balances.add b1 toUserId fromUserId (-amount)
  let b3 := Balances.eraseIfZero b2 fromUserId toUserId
  let b4 := Balances.eraseIfZero b3 toUserId fromUserId
  { g with groupBalances := b4 }

/-- The method `Group::addExpense`, without the expense book and the notifications. A
thrown `runtime_error` is the `Except.error` with its message. -/
def addExpense (g : Group) (amount : ℚ) (paidByUserId : String)
    (involvedUsers : List String) (splitType : SplitType) (splitValues : List ℚ) :
    Except String Group :=
  if !g.isMember paidByUserId then
    Except.error "user is not a part of this group"
  else if involvedUsers.any (fun userId => !g.isMember userId) then
    Except.error "involvedUsers are not a part of this group"
  else
    let splits := calculateSplit splitType amount involvedUsers splitValues
    Except.ok (splits.foldl (fun g split =>
      if split.userId ≠ paidByUserId then
        g.updateGroupBalance paidByUserId split.userId split.amount
      else g) g)

def simplifyGroupDebts (g : Group) : Group :=
  { g with groupBalances := DebtSimplifier.simplifyDebts g.groupBalances }

end Group

/-- The hostel group of `main` after its four `addUserToGroup` calls and its two
`addExpenseToGroup` calls (lunch and dinner). -/
def demoGroup : Except String Group :=
  let members := ["user1", "user2", "user3", "user4"]
  let g := members.foldl Group.addMember Group.empty
  (g.addExpense 800 "user1" members SplitType.EQUAL []).bind (fun g1 =>
    g1.addExpense 700 "user3" ["user1", "user3", "user4"] SplitType.EXACT [200, 300, 200])

/-- The balances of the hostel group that `main` prints before the simplification:
user2 and user4 owe user1 200 each, user4 owes user3 200. -/
def demoBalances : Balances :=
  [("user1", [("user2", 200), ("user4", 200)]),
   ("user2", [("user1", -200)]),
   ("user3", [("user4", 200)]),
   ("user4", [("user1", -200), ("user3", -200)])]

/-- The entries `(row, column, amount)` of a balance map whose amount satisfies `p`, in
iteration order. -/
def entriesWhere (p : ℚ → Bool) (balances : Balances) : List (String × String × ℚ) :=
  balances.flatMap (fun row =>
    (row.2.filter (fun b => p b.2)).map (fun b => (row.1, b.1, b.2)))

/-- The settlements a balance map records: `(creditor, debtor, amount)` for every entry
with a positive amount, which reads "debtor owes creditor amount". -/
def settlements (balances : Balances) : List (String × String × ℚ) :=
  entriesWhere (fun amount => decide (amount > 0)) balances

/-- The mirrored entries `(debtor, creditor, amount)` with a negative amount. -/
def mirrored (balances : Balances) : List (String × String × ℚ) :=
  entriesWhere (fun amount => decide (amount < 0)) balances

end Splitwise


/-! ## Lecture 26: `ZeptoClone.cpp`, the nearby dark stores

`std::sqrt` and `std::sort` are library functions. `sqrt` is a parameter of the model:
a function from `double` to `double`, that is from rationals to rationals. `std::sort`
is a parameter too: the C++ standard promises that its result is a rearrangement of its
input in which no later element compares less than an earlier one, and promises nothing
about the order of elements that compare equal (`IsStdSort`). What the program does
with elements that compare equal is decided by the `std::sort` of the library, which is
embedded as `CppLib.sort` further down. -/

namespace Zepto

/-- The location of a `DarkStore` and the stock of its `DbInventoryStore`
(SKU and quantity, as `map<int,int>` iterates). -/
structure DarkStore where
  name : String
  x : ℚ
  y : ℚ
  stock : List (Int × Int)
  deriving DecidableEq

/-- The method `DarkStore::distanceTo`. -/
def DarkStore.distanceTo (sqrt : ℚ → ℚ) (ds : DarkStore) (ux uy : ℚ) : ℚ :=
  sqrt ((ds.x - ux) * (ds.x - ux) + (ds.y - uy) * (ds.y - uy))

/-- What the C++ standard promises of `std::sort(first, last, comp)` with the comparison
`a.first < b.first`: a permutation of the input, sorted with respect to `comp`. -/
def IsStdSort (sort : List (ℚ × DarkStore) → List (ℚ × DarkStore)) : Prop :=
  ∀ l, (sort l).Perm l ∧ (sort l).Pairwise (fun a b => ¬ b.1 < a.1)

/-- The vector `distList` of `getNearbyDarkStores` before it is sorted. -/
def distList (sqrt : ℚ → ℚ) (darkStores : List DarkStore) (ux uy maxDistance : ℚ) :
    List (ℚ × DarkStore) :=
  darkStores.filterMap (fun ds =>
    let d := ds.distanceTo sqrt ux uy
    if d ≤ maxDistance then some (d, ds) else none)

/-- The method `DarkStoreManager::getNearbyDarkStores`; `darkStores` is the vector of
registered stores in registration order. -/
def getNearbyDarkStores (sqrt : ℚ → ℚ)
    (sort : List (ℚ × DarkStore) → List (ℚ × DarkStore))
    (darkStores : List DarkStore) (ux uy maxDistance : ℚ) : List DarkStore :=
  (sort (distList sqrt darkStores ux uy maxDistance)).map (fun p => p.2)

/-- Stores within reach and at exactly the same distance appear in `result` in the order
in which they were registered. -/
def TiesKeepRegistrationOrder (sqrt : ℚ → ℚ) (darkStores result : List DarkStore)
    (ux uy maxDistance : ℚ) : Prop :=
  ∀ a b : DarkStore, a.distanceTo sqrt ux uy = b.distanceTo sqrt ux uy →
    a.distanceTo sqrt ux uy ≤ maxDistance →
    [a, b].Sublist darkStores → [a, b].Sublist result

/-- The three stores of `ZeptoHelper::initialize` with the stock it adds to them. -/
def darkStoreA : DarkStore := ⟨"DarkStoreA", 0, 0, [(101, 5), (102, 2)]⟩

def darkStoreB : DarkStore := ⟨"DarkStoreB", 4, 1, [(101, 3), (103, 10)]⟩

def darkStoreC : DarkStore := ⟨"DarkStoreC", 2, 3, [(102, 5), (201, 7)]⟩

/-- The stores in the order in which `initialize` registers them. -/
def demoStores : List DarkStore := [darkStoreA, darkStoreB, darkStoreC]

/-- The square root, rounded to two decimals, of the numbers whose root the demo runs
take: 1, 2, 5 and 9. -/
def roundedSqrt (q : ℚ) : ℚ :=
  if q = 1 then 1 else if q = 2 then 1.41 else if q = 5 then 2.24 else if q = 9 then 3
  else 0

/-- A stable sort by distance: insertion sort that keeps equal keys in input order. -/
def stableSort (l : List (ℚ × DarkStore)) : List (ℚ × DarkStore) :=
  l.insertionSort (fun a b => a.1 ≤ b.1)

/-- Two stores at the same place, registered one after the other. -/
def twinStores : List DarkStore := [⟨"First", 1, 0, []⟩, ⟨"Second", 1, 0, []⟩]

end Zepto

/-! ## Lecture 23: `PaymentGatewayApplication.cpp`, the retrying proxy

The wrapped gateway draws random numbers, so its outcomes are a parameter of the model:
`realGateway k` is what the call number `k` (counted from 0) of
`realGateway->processPayment(request)` returns. -/

namespace PaymentGateway

/-- The lines the proxy writes to `cout`. -/
inductive Msg
  | retrying (attempt : Int)
  | failedAfter (retries : Int)
  deriving DecidableEq, Repr

/-- What a run of the proxy yields: the returned value, the number of calls of the
wrapped gateway, and the printed lines. -/
structure ProxyRun where
  result : Bool
  calls : Nat
  out : List Msg
  deriving DecidableEq, Repr

/-- The `for (int attempt = 0; attempt < retries; ++attempt)` loop of
`PaymentGatewayProxy::processPayment`, from the given value of `attempt` on. Every round
makes one call, so `attempt` is also the number of calls made so far. -/
def attemptLoop (realGateway : Nat → Bool) (retries : Int) (attempt : Nat) : ProxyRun :=
  if (attempt : Int) < retries then
    let out := if attempt > 0 then [Msg.retrying (attempt + 1)] else []
    let result := realGateway attempt
    if result then
      ⟨true, attempt + 1, out⟩
    else
      let rest := attemptLoop realGateway retries (attempt + 1)
      ⟨rest.result, rest.calls, out ++ rest.out⟩
  else
    ⟨false, attempt, []⟩
termination_by (retries - attempt).toNat
decreasing_by
  simp_wf
  omega

/-- The method `PaymentGatewayProxy::processPayment`. -/
def processPayment (realGateway : Nat → Bool) (retries : Int) : ProxyRun :=
  let run := attemptLoop realGateway retries 0
  ⟨run.result, run.calls,
    run.out ++ (if run.result then [] else [Msg.failedAfter retries])⟩

inductive GatewayType
  | PAYTM
  | RAZORPAY
  deriving DecidableEq, Repr

/-- The retry count that `GatewayFactory::getGateway` gives to the proxy. -/
def GatewayFactory.retries : GatewayType → Int
  | GatewayType.PAYTM => 3
  | GatewayType.RAZORPAY => 1

end PaymentGateway

/-! ## Lecture 39: `MementoPattern.cpp`, the database and its transaction manager

The printed text is left out: it does not influence the records. -/

namespace Memento

open Splitwise (StdMap)

/-- The snapshot held by a `DatabaseMemento`. -/
structure DatabaseMemento where
  data : StdMap String
  deriving DecidableEq

/-- The `records` of `class Database`. -/
structure Database where
  records : StdMap String
  deriving DecidableEq

namespace Database

def insert (db : Database) (key value : String) : Database :=
  { records := StdMap.set db.records key value }

def update (db : Database) (key value : String) : Database :=
  if (StdMap.find db.records key).isSome then
    { records := StdMap.set db.records key value }
  else db

def remove (db : Database) (key : String) : Database :=
  if (StdMap.find db.records key).isSome then
    { records := StdMap.erase db.records key }
  else db

def createMemento (db : Database) : DatabaseMemento :=
  ⟨db.records⟩

def restoreFromMemento (_db : Database) (memento : DatabaseMemento) : Database :=
  { records := memento.data }

end Database

/-- The pointer `backup` of `class TransactionManager`; `none` is `nullptr`. -/
structure TransactionManager where
  backup : Option DatabaseMemento
  deriving DecidableEq

namespace TransactionManager

/-- The constructor, `backup(nullptr)`. -/
def new : TransactionManager := ⟨none⟩

def beginTransaction (_tx : TransactionManager) (db : Database) : TransactionManager :=
  ⟨some db.createMemento⟩

def commitTransaction (_tx : TransactionManager) : TransactionManager :=
  ⟨none⟩

def rollbackTransaction (tx : TransactionManager) (db : Database) :
    TransactionManager × Database :=
  match tx.backup with
  | some backup => (⟨none⟩, db.restoreFromMemento backup)
  | none => (tx, db)

end TransactionManager

/-- A modifying operation of the database. -/
inductive Op
  | insert (key value : String)
  | update (key value : String)
  | remove (key : String)
  deriving DecidableEq

def Op.apply (db : Database) : Op → Database
  | Op.insert key value => db.insert key value
  | Op.update key value => db.update key value
  | Op.remove key => db.remove key

/-- The database of `main` after its first, committed transaction. -/
def demoCommitted : Database :=
  [Op.insert "user1" "Aditya", Op.insert "user2" "Rohit"].foldl Op.apply ⟨[]⟩

end Memento

/-! ## Lecture 18: `MusicPlayerSystem`, the play strategies and the facade

A `Song*` is modelled by the value of the song and a `Playlist*` by the value of the
playlist, which covers the runs in which a playlist is not changed once it is loaded, as
in `main`. A method that can throw returns an `Except`; a dereferenced null pointer or a
vector indexed outside its bounds is `Failure.undefinedBehaviour`. The printed text is
left out. `rand()` is a parameter: the `k`-th call returns `rand k`. -/

namespace MusicPlayer

open Splitwise (StdMap)

structure Song where
  title : String
  artist : String
  filePath : String
  deriving DecidableEq, Repr

structure Playlist where
  playlistName : String
  songList : List Song
  deriving DecidableEq, Repr

def Playlist.getSize (p : Playlist) : Int := p.songList.length

inductive Failure
  | runtime_error (what : String)
  | undefinedBehaviour
  deriving DecidableEq, Repr

/-- The expression `playlist->getSongs()[index]`. -/
def Playlist.songAt (p : Playlist) (index : Int) : Except Failure Song :=
  if 0 ≤ index then
    match p.songList[index.toNat]? with
    | some song => Except.ok song
    | none => Except.error Failure.undefinedBehaviour
  else Except.error Failure.undefinedBehaviour

/-- Modelled from the spec: the header `enums/PlayStrategyType.hpp` is not among the
sources; the enumerators are those that `StrategyManager::getStrategy` and `main` name. -/
inductive PlayStrategyType
  | SEQUENTIAL
  | RANDOM
  | CUSTOM_QUEUE
  deriving DecidableEq, Repr

/-- Modelled from the spec: the header `enums/DeviceType.hpp` is not among the sources;
the enumerators are those that `DeviceManager::connect` names. -/
inductive DeviceType
  | BLUETOOTH
  | WIRED
  | HEADPHONES
  deriving DecidableEq, Repr

structure SequentialPlayStrategy where
  currentPlaylist : Option Playlist
  currentIndex : Int
  deriving DecidableEq, Repr

namespace SequentialPlayStrategy

def new : SequentialPlayStrategy := ⟨none, -1⟩

def setPlaylist (_s : SequentialPlayStrategy) (playlist : Option Playlist) :
    SequentialPlayStrategy :=
  ⟨playlist, -1⟩

def hasNext (s : SequentialPlayStrategy) : Except Failure Bool :=
  match s.currentPlaylist with
  | none => Except.error Failure.undefinedBehaviour
  | some playlist => Except.ok (decide (s.currentIndex + 1 < playlist.getSize))

def next (s : SequentialPlayStrategy) : Except Failure (Song × SequentialPlayStrategy) :=
  match s.currentPlaylist with
  | none => Except.error (Failure.runtime_error "No playlist loaded or playlist is empty.")
  | some playlist =>
    if playlist.getSize = 0 then
      Except.error (Failure.runtime_error "No playlist loaded or playlist is empty.")
    else
      match playlist.songAt (s.currentIndex + 1) with
      | Except.ok song => Except.ok (song, { s with currentIndex := s.currentIndex + 1 })
      | Except.error f => Except.error f

def hasPrevious (s : SequentialPlayStrategy) : Bool :=
  decide (s.currentIndex - 1 > 0)

def previous (s : SequentialPlayStrategy) :
    Except Failure (Song × SequentialPlayStrategy) :=
  match s.currentPlaylist with
  | none => Except.error (Failure.runtime_error "No playlist loaded or playlist is empty.")
  | some playlist =>
    if playlist.getSize = 0 then
      Except.error (Failure.runtime_error "No playlist loaded or playlist is empty.")
    else
      match playlist.songAt (s.currentIndex - 1) with
      | Except.ok song => Except.ok (song, { s with currentIndex := s.currentIndex - 1 })
      | Except.error f => Except.error f

end SequentialPlayStrategy

/-- The members of `CustomQueueStrategy`; the head of `nextQueue` is the front of the
queue and the head of `prevStack` is the top of the stack. -/
structure CustomQueueStrategy where
  currentPlaylist : Option Playlist
  currentIndex : Int
  nextQueue : List Song
  prevStack : List Song
  deriving DecidableEq, Repr

namespace CustomQueueStrategy

def new : CustomQueueStrategy := ⟨none, -1, [], []⟩

def setPlaylist (_s : CustomQueueStrategy) (playlist : Option Playlist) :
    CustomQueueStrategy :=
  ⟨playlist, -1, [], []⟩

def hasNext (s : CustomQueueStrategy) : Except Failure Bool :=
  match s.currentPlaylist with
  | none => Except.error Failure.undefinedBehaviour
  | some playlist => Except.ok (decide (s.currentIndex + 1 < playlist.getSize))

/-- The loop that sets `currentIndex` to the first position of `song` in the playlist,
and leaves it as it is when the song is not in the playlist. -/
def indexAfter (playlist : Playlist) (song : Song) (currentIndex : Int) : Int :=
  if playlist.songList.indexOf song < playlist.songList.length then
    (playlist.songList.indexOf song : Int)
  else currentIndex

def next (s : CustomQueueStrategy) : Except Failure (Song × CustomQueueStrategy) :=
  match s.currentPlaylist with
  | none => Except.error (Failure.runtime_error "No playlist loaded or playlist is empty.")
  | some playlist =>
    if playlist.getSize = 0 then
      Except.error (Failure.runtime_error "No playlist loaded or playlist is empty.")
    else
      match s.nextQueue with
      | song :: rest =>
        Except.ok (song, { s with nextQueue := rest, prevStack := song :: s.prevStack,
                                  currentIndex := indexAfter playlist song s.currentIndex })
      | [] =>
        match playlist.songAt (s.currentIndex + 1) with
        | Except.ok song => Except.ok (song, { s with currentIndex := s.currentIndex + 1 })
        | Except.error f => Except.error f

def hasPrevious (s : CustomQueueStrategy) : Bool :=
  decide (s.currentIndex - 1 > 0)

def previous (s : CustomQueueStrategy) : Except Failure (Song × CustomQueueStrategy) :=
  match s.currentPlaylist with
  | none => Except.error (Failure.runtime_error "No playlist loaded or playlist is empty.")
  | some playlist =>
    if playlist.getSize = 0 then
      Except.error (Failure.runtime_error "No playlist loaded or playlist is empty.")
    else
      match s.prevStack with
      | song :: rest =>
        Except.ok (song, { s with prevStack := rest,
                                  currentIndex := indexAfter playlist song s.currentIndex })
      | [] =>
        match playlist.songAt (s.currentIndex - 1) with
        | Except.ok song => Except.ok (song, { s with currentIndex := s.currentIndex - 1 })
        | Except.error f => Except.error f

def addToNext (s : CustomQueueStrategy) (song : Song) : CustomQueueStrategy :=
  { s with nextQueue := s.nextQueue ++ [song] }

end CustomQueueStrategy

/-- The members of `RandomPlayStrategy`; the head of `history` is the top of the stack. -/
structure RandomPlayStrategy where
  currentPlaylist : Option Playlist
  remainingSongs : List Song
  history : List Song
  deriving DecidableEq, Repr

namespace RandomPlayStrategy

def new : RandomPlayStrategy := ⟨none, [], []⟩

def setPlaylist (s : RandomPlayStrategy) (playlist : Option Playlist) :
    RandomPlayStrategy :=
  match playlist with
  | none => { s with currentPlaylist := none }
  | some p =>
    if p.getSize = 0 then { s with currentPlaylist := some p }
    else ⟨some p, p.songList, []⟩

def hasNext (s : RandomPlayStrategy) : Bool :=
  s.currentPlaylist.isSome && !s.remainingSongs.isEmpty

/-- The method `next`, where `r` is the value that `rand()` returns. -/
def next (s : RandomPlayStrategy) (r : Nat) : Except Failure (Song × RandomPlayStrategy) :=
  match s.currentPlaylist with
  | none => Except.error (Failure.runtime_error "No playlist loaded or playlist is empty.")
  | some playlist =>
    if playlist.getSize = 0 then
      Except.error (Failure.runtime_error "No playlist loaded or playlist is empty.")
    else
      match s.remainingSongs.getLast? with
      | none => Except.error (Failure.runtime_error "No songs left to play")
      | some last =>
        let idx := r % s.remainingSongs.length
        match s.remainingSongs[idx]? with
        | none => Except.error Failure.undefinedBehaviour
        | some selectedSong =>
          Except.ok (selectedSong,
            { s with remainingSongs := (s.remainingSongs.set idx last).dropLast,
                     history := selectedSong :: s.history })

def hasPrevious (s : RandomPlayStrategy) : Bool :=
  decide (s.history.length > 0)

def previous (s : RandomPlayStrategy) : Except Failure (Song × RandomPlayStrategy) :=
  match s.history with
  | [] => Except.error (Failure.runtime_error "No previous song available.")
  | song :: rest => Except.ok (song, { s with history := rest })

end RandomPlayStrategy

structure AudioEngine where
  currentSong : Option Song
  songIsPaused : Bool
  deriving DecidableEq, Repr

namespace AudioEngine

def new : AudioEngine := ⟨none, false⟩

/-- The method `play` for a song that is not null. -/
def play (e : AudioEngine) (song : Song) : AudioEngine :=
  if e.songIsPaused && decide (e.currentSong = some song) then
    { e with songIsPaused := false }
  else
    ⟨some song, false⟩

end AudioEngine

/-- The state of the singletons `MusicPlayerFacade`, `StrategyManager`, `DeviceManager`
and `PlaylistManager`, with the random numbers still to be drawn. -/
structure Player where
  audioEngine : AudioEngine
  loadedPlaylist : Option Playlist
  playStrategy : Option PlayStrategyType
  sequentialStrategy : SequentialPlayStrategy
  randomStrategy : RandomPlayStrategy
  customQueueStrategy : CustomQueueStrategy
  currentOutputDevice : Option DeviceType
  playlists : StdMap Playlist
  rand : Nat → Nat
  randCalls : Nat

namespace Player

/-- The state in which the singletons are created. -/
def new (rand : Nat → Nat) : Player :=
  { audioEngine := AudioEngine.new
    loadedPlaylist := none
    playStrategy := none
    sequentialStrategy := SequentialPlayStrategy.new
    randomStrategy := RandomPlayStrategy.new
    customQueueStrategy := CustomQueueStrategy.new
    currentOutputDevice := none
    playlists := []
    rand := rand
    randCalls := 0 }

def connectDevice (p : Player) (deviceType : DeviceType) : Player :=
  { p with currentOutputDevice := some deviceType }

def setPlayStrategy (p : Player) (strategyType : PlayStrategyType) : Player :=
  { p with playStrategy := some strategyType }

/-- The call `playStrategy->setPlaylist(loadedPlaylist)`. -/
def strategySetPlaylist (p : Player) (strategyType : PlayStrategyType) : Player :=
  match strategyType with
  | PlayStrategyType.SEQUENTIAL =>
    { p with sequentialStrategy := p.sequentialStrategy.setPlaylist p.loadedPlaylist }
  | PlayStrategyType.RANDOM =>
    { p with randomStrategy := p.randomStrategy.setPlaylist p.loadedPlaylist }
  | PlayStrategyType.CUSTOM_QUEUE =>
    { p with customQueueStrategy := p.customQueueStrategy.setPlaylist p.loadedPlaylist }

def loadPlaylist (p : Player) (name : String) : Player × Option Failure :=
  match StdMap.find p.playlists name with
  | none => (p, some (Failure.runtime_error ("Playlist \"" ++ name ++ "\" not found.")))
  | some playlist =>
    let p1 := { p with loadedPlaylist := some playlist }
    match p1.playStrategy with
    | none => (p1, some (Failure.runtime_error "Play strategy not set before loading."))
    | some strategyType => (p1.strategySetPlaylist strategyType, none)

/-- The call `playStrategy->hasNext()`. -/
def strategyHasNext (p : Player) : Except Failure Bool :=
  match p.playStrategy with
  | none => Except.error Failure.undefinedBehaviour
  | some PlayStrategyType.SEQUENTIAL => p.sequentialStrategy.hasNext
  | some PlayStrategyType.RANDOM => Except.ok p.randomStrategy.hasNext
  | some PlayStrategyType.CUSTOM_QUEUE => p.customQueueStrategy.hasNext

/-- The call `playStrategy->next()`. -/
def strategyNext (p : Player) : Except Failure (Song × Player) :=
  match p.playStrategy with
  | none => Except.error Failure.undefinedBehaviour
  | some PlayStrategyType.SEQUENTIAL =>
    match p.sequentialStrategy.next with
    | Except.ok (song, s) => Except.ok (song, { p with sequentialStrategy := s })
    | Except.error f => Except.error f
  | some PlayStrategyType.RANDOM =>
    match p.randomStrategy.next (p.rand p.randCalls) with
    | Except.ok (song, s) =>
      Except.ok (song, { p with randomStrategy := s, randCalls := p.randCalls + 1 })
    | Except.error f => Except.error f
  | some PlayStrategyType.CUSTOM_QUEUE =>
    match p.customQueueStrategy.next with
    | Except.ok (song, s) => Except.ok (song, { p with customQueueStrategy := s })
    | Except.error f => Except.error f

/-- The call `playStrategy->hasPrevious()`. -/
def strategyHasPrevious (p : Player) : Except Failure Bool :=
  match p.playStrategy with
  | none => Except.error Failure.undefinedBehaviour
  | some PlayStrategyType.SEQUENTIAL => Except.ok p.sequentialStrategy.hasPrevious
  | some PlayStrategyType.RANDOM => Except.ok p.randomStrategy.hasPrevious
  | some PlayStrategyType.CUSTOM_QUEUE => Except.ok p.customQueueStrategy.hasPrevious

/-- The call `playStrategy->previous()`. -/
def strategyPrevious (p : Player) : Except Failure (Song × Player) :=
  match p.playStrategy with
  | none => Except.error Failure.undefinedBehaviour
  | some PlayStrategyType.SEQUENTIAL =>
    match p.sequentialStrategy.previous with
    | Except.ok (song, s) => Except.ok (song, { p with sequentialStrategy := s })
    | Except.error f => Except.error f
  | some PlayStrategyType.RANDOM =>
    match p.randomStrategy.previous with
    | Except.ok (song, s) => Except.ok (song, { p with randomStrategy := s })
    | Except.error f => Except.error f
  | some PlayStrategyType.CUSTOM_QUEUE =>
    match p.customQueueStrategy.previous with
    | Except.ok (song, s) => Except.ok (song, { p with customQueueStrategy := s })
    | Except.error f => Except.error f

/-- The two statements `device = DeviceManager::getInstance()->getOutputDevice();
audioEngine->play(device, song);`. -/
def playOnDevice (p : Player) (song : Song) : Player × Option Failure :=
  match p.currentOutputDevice with
  | none => (p, some (Failure.runtime_error "No output device is connected."))
  | some _ => ({ p with audioEngine := p.audioEngine.play song }, none)

/-- The loop `while (playStrategy->hasNext()) { ... }` of `playAllTracks`, run for at
most `fuel` rounds; `none` when the rounds do not suffice. -/
def playLoop : Nat → Player → Option (Player × Option Failure)
  | 0, _ => none
  | fuel + 1, p =>
    match p.strategyHasNext with
    | Except.error f => some (p, some f)
    | Except.ok false => some (p, none)
    | Except.ok true =>
      match p.strategyNext with
      | Except.error f => some (p, some f)
      | Except.ok (song, p1) =>
        match p1.playOnDevice song with
        | (p2, some f) => some (p2, some f)
        | (p2, none) => playLoop fuel p2

/-- The method `playAllTracks`, with at most `fuel` rounds of its loop. -/
def playAllTracks (fuel : Nat) (p : Player) : Option (Player × Option Failure) :=
  match p.loadedPlaylist with
  | none => some (p, some (Failure.runtime_error "No playlist loaded."))
  | some _ => playLoop fuel p

def playNextTrack (p : Player) : Player × Option Failure :=
  match p.loadedPlaylist with
  | none => (p, some (Failure.runtime_error "No playlist loaded."))
  | some _ =>
    match p.strategyHasNext with
    | Except.error f => (p, some f)
    | Except.ok false => (p, none)
    | Except.ok true =>
      match p.strategyNext with
      | Except.error f => (p, some f)
      | Except.ok (song, p1) => p1.playOnDevice song

def playPreviousTrack (p : Player) : Player × Option Failure :=
  match p.loadedPlaylist with
  | none => (p, some (Failure.runtime_error "No playlist loaded."))
  | some _ =>
    match p.strategyHasPrevious with
    | Except.error f => (p, some f)
    | Except.ok false => (p, none)
    | Except.ok true =>
      match p.strategyPrevious with
      | Except.error f => (p, some f)
      | Except.ok (song, p1) => p1.playOnDevice song

/-- The method `enqueueNext`, for a song that is not null: `addToNext` does nothing in
the base class and queues the song in `CustomQueueStrategy`. -/
def enqueueNext (p : Player) (song : Song) : Player × Option Failure :=
  match p.playStrategy with
  | none => (p, some Failure.undefinedBehaviour)
  | some PlayStrategyType.CUSTOM_QUEUE =>
    ({ p with customQueueStrategy := p.customQueueStrategy.addToNext song }, none)
  | some _ => (p, none)

end Player

/-- The four songs that `main` adds to the playlist "Bollywood Vibes", in order. -/
def demoPlaylist : Playlist :=
  ⟨"Bollywood Vibes",
   [⟨"Kesariya", "Arijit Singh", "/music/kesariya.mp3"⟩,
    ⟨"Chaiyya Chaiyya", "Sukhwinder Singh", "/music/chaiyya_chaiyya.mp3"⟩,
    ⟨"Tum Hi Ho", "Arijit Singh", "/music/tum_hi_ho.mp3"⟩,
    ⟨"Jai Ho", "A. R. Rahman", "/music/jai_ho.mp3"⟩]⟩

/-- The player of `main` at "Play Previous in Sequential": the playlist exists, the
Bluetooth device is connected, the sequential strategy is selected and the playlist is
loaded. -/
def demoSequential : Player :=
  ((({ Player.new (fun _ => 0) with playlists := [("Bollywood Vibes", demoPlaylist)] }
    ).connectDevice DeviceType.BLUETOOTH).setPlayStrategy
      PlayStrategyType.SEQUENTIAL).loadPlaylist "Bollywood Vibes" |>.1

/-- A player with the custom queue strategy on the playlist of `main`: the first song of
the playlist is queued, then three tracks are played (the queued song, then the songs at
index 1 and 2). -/
def demoCustomQueue : Player :=
  let p0 := ((({ Player.new (fun _ => 0) with
      playlists := [("Bollywood Vibes", demoPlaylist)] }
    ).connectDevice DeviceType.BLUETOOTH).setPlayStrategy
      PlayStrategyType.CUSTOM_QUEUE).loadPlaylist "Bollywood Vibes" |>.1
  let p1 := (p0.enqueueNext ⟨"Kesariya", "Arijit Singh", "/music/kesariya.mp3"⟩).1
  p1.playNextTrack.1.playNextTrack.1.playNextTrack.1

end MusicPlayer

/-! ## Lecture 31, continued: leaving a group -/

namespace Splitwise

/-- The invariant of a `std::map`: its keys are strictly ascending. -/
def StdMap.WF {V : Type} (m : StdMap V) : Prop :=
  (m.map (fun e => e.1.data)).Pairwise (fun a b => a < b)

instance {V : Type} (m : StdMap V) : Decidable (StdMap.WF m) :=
  inferInstanceAs (Decidable
    ((m.map (fun e : String × V => e.1.data)).Pairwise (fun a b => a < b)))

/-- The invariant of `map<string, map<string, double>>`. -/
def Balances.WF (balances : Balances) : Prop :=
  StdMap.WF balances ∧ ∀ row ∈ balances, StdMap.WF row.2

instance (balances : Balances) : Decidable (Balances.WF balances) :=
  inferInstanceAs (Decidable (StdMap.WF balances ∧ ∀ row ∈ balances, StdMap.WF row.2))

namespace Group

/-- The method `Group::canUserLeaveGroup`; the thrown `runtime_error` is the
`Except.error` with its message. -/
def canUserLeaveGroup (g : Group) (userId : String) : Except String Bool :=
  if !g.isMember userId then
    Except.error "user is not a part of this group"
  else
    Except.ok (!(StdMap.getD g.groupBalances userId []).any
      (fun balance => decide (|balance.2| > 0.01)))

/-- The method `Group::removeMember`: the returned value and the group afterwards. A
member is a `User*` in the source and its `userId` here, so erasing the pointer of the
first member with that id erases every occurrence of the id. -/
def removeMember (g : Group) (userId : String) : Except String (Bool × Group) :=
  match g.canUserLeaveGroup userId with
  | Except.error e => Except.error e
  | Except.ok false => Except.ok (false, g)
  | Except.ok true =>
    Except.ok (true,
      { members := g.members.filter (fun member => decide (member ≠ userId))
        groupBalances := (StdMap.erase g.groupBalances userId).map
          (fun memberBalance => (memberBalance.1, StdMap.erase memberBalance.2 userId)) })

/-- The method `Group::settlePayment`, without the notifications. -/
def settlePayment (g : Group) (fromUserId toUserId : String) (amount : ℚ) : Bool × Group :=
  if !g.isMember fromUserId || !g.isMember toUserId then (false, g)
  else (true, g.updateGroupBalance fromUserId toUserId amount)

/-- Whether the member has a balance of absolute value above 0.01 in its own sheet. -/
def hasOutstandingBalance (g : Group) (userId : String) : Prop :=
  ∃ balance ∈ StdMap.getD g.groupBalances userId [], |balance.2| > 0.01

instance (g : Group) (userId : String) : Decidable (g.hasOutstandingBalance userId) :=
  inferInstanceAs (Decidable
    (∃ balance ∈ StdMap.getD g.groupBalances userId [], |balance.2| > 0.01))

end Group

/-- The hostel group of `main` after the debt simplification. -/
def demoSimplified : Group :=
  (⟨["user1", "user2", "user3", "user4"], demoBalances⟩ : Group).simplifyGroupDebts

end Splitwise

/-! ## Lecture 31, continued: what the simplified balances add up to -/

namespace Splitwise

/-- The entry `balances[a][c]`, zero when there is none. -/
def Balances.lookup (balances : Balances) (a c : String) : ℚ :=
  StdMap.getD (StdMap.getD balances a []) c 0

/-- The sum of the balances of `p`: the amounts in the sheet `balances[p]`. -/
def Balances.rowSum (balances : Balances) (p : String) : ℚ :=
  ((StdMap.getD balances p []).map (fun e => e.2)).sum

/-- The sum of all balances of all participants. -/
def Balances.total (balances : Balances) : ℚ :=
  (balances.map (fun row => (row.2.map (fun e => e.2)).sum)).sum

/-- An antisymmetric balance map: what `c` owes `a` is the negative of what `a` owes `c`. -/
def Balances.Antisymmetric (balances : Balances) : Prop :=
  ∀ a c, balances.lookup a c = - balances.lookup c a

/-- Every amount of the balance map is a whole number. -/
def Balances.WholeNumbers (balances : Balances) : Prop :=
  ∀ row ∈ balances, ∀ e ∈ row.2, ∃ n : ℤ, e.2 = n

/-- What the entry `balances[a][c] = v` adds to the net amount of `p` in the second loop
of `simplifyDebts`. -/
def contribution (a c : String) (v : ℚ) (p : String) : ℚ :=
  if v > 0 then (if p = a then v else 0) - (if p = c then v else 0) else 0

/-- The net amount that the loops of `simplifyDebts` compute for `p`, as a sum over the
entries of the balance map. -/
def netPos (balances : Balances) (p : String) : ℚ :=
  (balances.map (fun row => (row.2.map (fun e => contribution row.1 e.1 e.2 p)).sum)).sum

/-- The sum of the amounts that a vector of creditors or debtors holds for `p`, each
weighted by `w`. -/
def weighted (w : String → ℚ) (l : List (String × ℚ)) : ℚ :=
  (l.map (fun e => w e.1 * e.2)).sum

/-- The amount that a vector of creditors or debtors holds for `p`. -/
def credit (l : List (String × ℚ)) (p : String) : ℚ :=
  weighted (fun k => if k = p then 1 else 0) l

end Splitwise

/-! ## Lecture 37: the chess system (`Chess.cpp`)

The board of the source is the array `Piece* board[8][8]` together with the map
`map<Position, Piece*> piecePositions`. Both are modelled as tables of 64 slots in
row-major order (slot `row * 8 + col`), so that walking the table from slot 0 on is the
iteration of the map in the order of `Position::operator<`. A piece is the value of the
object a `Piece*` points to; `none` is `nullptr`. A call that would index the array with
a position off the board, or that would dereference `nullptr`, has no result (`none`). -/

namespace Chess

inductive Color
  | WHITE
  | BLACK
  deriving DecidableEq, Repr

inductive PieceType
  | KING
  | QUEEN
  | ROOK
  | BISHOP
  | KNIGHT
  | PAWN
  deriving DecidableEq, Repr

inductive GameStatus
  | WAITING
  | IN_PROGRESS
  | COMPLETED
  | ABORTED
  deriving DecidableEq, Repr

/-- The class `Position`. -/
structure Position where
  row : Int
  col : Int
  deriving DecidableEq, Repr

/-- The method `Position::isValid`. -/
def Position.isValid (p : Position) : Bool :=
  decide (p.row ≥ 0) && decide (p.row < 8) && decide (p.col ≥ 0) && decide (p.col < 8)

/-- The slot of `board[row][col]` in the row-major table. -/
def Position.slot (p : Position) : Nat :=
  (p.row * 8 + p.col).toNat

/-- The position whose slot is `i`. -/
def Position.ofSlot (i : Nat) : Position :=
  ⟨((i / 8 : Nat) : Int), ((i % 8 : Nat) : Int)⟩

/-- The fields of the class `Piece`; the subclass is named by `type`. -/
structure Piece where
  color : Color
  type : PieceType
  hasMoved : Bool
  deriving DecidableEq, Repr

/-- The call `PieceFactory::createPiece`: a new piece has not moved. -/
def PieceFactory.createPiece (type : PieceType) (color : Color) : Piece :=
  ⟨color, type, false⟩

/-- The class `Move`, its fields named by their accessors. -/
structure Move where
  getFrom : Position
  getTo : Position
  getPiece : Option Piece
  getCapturedPiece : Option Piece
  deriving DecidableEq, Repr

/-- The class `Board`: the array and the map. -/
structure Board where
  board : List (Option Piece)
  piecePositions : List (Option Piece)
  deriving DecidableEq, Repr

namespace Board

/-- The method `Board::placePiece`. -/
def placePiece (b : Board) (pos : Position) (piece : Piece) : Board :=
  { board := b.board.set pos.slot (some piece),
    piecePositions := b.piecePositions.set pos.slot (some piece) }

/-- The method `Board::removePiece`. -/
def removePiece (b : Board) (pos : Position) : Board :=
  { board := b.board.set pos.slot none,
    piecePositions := b.piecePositions.set pos.slot none }

/-- The method `Board::getPiece`. -/
def getPiece (b : Board) (pos : Position) : Option Piece :=
  b.board.getD pos.slot none

/-- The method `Board::isOccupied`. -/
def isOccupied (b : Board) (pos : Position) : Bool :=
  (b.getPiece pos).isSome

/-- The method `Board::isOccupiedBySameColor`. -/
def isOccupiedBySameColor (b : Board) (pos : Position) (color : Color) : Bool :=
  match b.getPiece pos with
  | some piece => decide (piece.color = color)
  | none => false

/-- The method `Board::movePiece`. The moved piece is one object seen from the array and
from the map, so `setMoved(true)` shows in both. -/
def movePiece (b : Board) (fromPos toPos : Position) : Board :=
  match b.getPiece fromPos with
  | none => b
  | some piece =>
    let capturedPiece := b.getPiece toPos
    let positions1 :=
      if capturedPiece.isSome then b.piecePositions.set toPos.slot none else b.piecePositions
    let moved : Piece := { piece with hasMoved := true }
    { board := (b.board.set fromPos.slot none).set toPos.slot (some moved),
      piecePositions := (positions1.set fromPos.slot none).set toPos.slot (some moved) }

/-- The loop of `Board::findKing` over the entries of the map from slot `i` on. -/
def findKingFrom (color : Color) : List (Option Piece) → Nat → Position
  | [], _ => ⟨-1, -1⟩
  | none :: rest, i => findKingFrom color rest (i + 1)
  | some piece :: rest, i =>
    if piece.type = PieceType.KING ∧ piece.color = color then Position.ofSlot i
    else findKingFrom color rest (i + 1)

/-- The method `Board::findKing`. -/
def findKing (b : Board) (color : Color) : Position :=
  findKingFrom color b.piecePositions 0

/-- The loop of `Board::getAllPiecesOfColor` over the entries of the map from slot `i`
on. -/
def piecesOfColorFrom (color : Color) : List (Option Piece) → Nat → List Position
  | [], _ => []
  | none :: rest, i => piecesOfColorFrom color rest (i + 1)
  | some piece :: rest, i =>
    if piece.color = color then Position.ofSlot i :: piecesOfColorFrom color rest (i + 1)
    else piecesOfColorFrom color rest (i + 1)

/-- The method `Board::getAllPiecesOfColor`. -/
def getAllPiecesOfColor (b : Board) (color : Color) : List Position :=
  piecesOfColorFrom color b.piecePositions 0

/-- The board before `initializeBoard`: every array cell `nullptr`, the map empty. -/
def cleared : Board :=
  { board := List.replicate 64 none, piecePositions := List.replicate 64 none }

/-- The back rank of `initializeBoard`, in the order of its `placePiece` calls. -/
def backRank : List PieceType :=
  [PieceType.ROOK, PieceType.KNIGHT, PieceType.BISHOP, PieceType.QUEEN, PieceType.KING,
   PieceType.BISHOP, PieceType.KNIGHT, PieceType.ROOK]

/-- The `placePiece` calls of `initializeBoard` for one colour: the back rank on
`backRow`, then the eight pawns on `pawnRow`. -/
def placeSide (b : Board) (color : Color) (backRow pawnRow : Int) : Board :=
  let b1 := (backRank.enum).foldl (fun acc e =>
    acc.placePiece ⟨backRow, (e.1 : Int)⟩ (PieceFactory.createPiece e.2 color)) b
  (List.range 8).foldl (fun acc i =>
    acc.placePiece ⟨pawnRow, (i : Int)⟩ (PieceFactory.createPiece PieceType.PAWN color)) b1

/-- The method `Board::initializeBoard`. -/
def initializeBoard (b : Board) : Board :=
  placeSide (placeSide b Color.WHITE 7 6) Color.BLACK 0 1

/-- The constructor `Board()`. -/
def new : Board :=
  initializeBoard cleared

/-- The class invariant of `Board`: 64 cells, and the map holds exactly the pieces of
the array. -/
def WF (b : Board) : Prop :=
  b.board.length = 64 ∧ b.piecePositions = b.board

instance (b : Board) : Decidable (WF b) :=
  inferInstanceAs (Decidable (b.board.length = 64 ∧ b.piecePositions = b.board))

end Board

/-- The offsets of `King::getPossibleMoves`, also the directions of the queen. -/
def kingDirections : List (Int × Int) :=
  [(-1, -1), (-1, 0), (-1, 1), (0, -1), (0, 1), (1, -1), (1, 0), (1, 1)]

def rookDirections : List (Int × Int) :=
  [(-1, 0), (1, 0), (0, -1), (0, 1)]

def bishopDirections : List (Int × Int) :=
  [(-1, -1), (-1, 1), (1, -1), (1, 1)]

def knightMoves : List (Int × Int) :=
  [(-2, -1), (-2, 1), (-1, -2), (-1, 2), (1, -2), (1, 2), (2, -1), (2, 1)]

/-- The loop of `King::getPossibleMoves` and of `Knight::getPossibleMoves`. -/
def stepMoves (b : Board) (color : Color) (currentPos : Position)
    (offsets : List (Int × Int)) : List Position :=
  offsets.filterMap (fun d =>
    let newPos : Position := ⟨currentPos.row + d.1, currentPos.col + d.2⟩
    if newPos.isValid && !b.isOccupiedBySameColor newPos color then some newPos else none)

/-- The inner loop `for (int i = 1; i < 8; i++)` of the queen, the rook and the bishop,
for the remaining values of `i`. -/
def slide (b : Board) (color : Color) (currentPos : Position) (d : Int × Int) :
    List Int → List Position
  | [] => []
  | i :: rest =>
    let newPos : Position := ⟨currentPos.row + d.1 * i, currentPos.col + d.2 * i⟩
    if !newPos.isValid then []
    else if b.isOccupiedBySameColor newPos color then []
    else if b.isOccupied newPos then [newPos]
    else newPos :: slide b color currentPos d rest

/-- The two loops of `Queen::`, `Rook::` and `Bishop::getPossibleMoves`. -/
def slideMoves (b : Board) (color : Color) (currentPos : Position)
    (directions : List (Int × Int)) : List Position :=
  directions.flatMap (fun d => slide b color currentPos d [1, 2, 3, 4, 5, 6, 7])

/-- The method `Pawn::getPossibleMoves`. -/
def pawnMoves (b : Board) (color : Color) (hasMoved : Bool) (currentPos : Position) :
    List Position :=
  let direction : Int := if color = Color.WHITE then -1 else 1
  let oneStep : Position := ⟨currentPos.row + direction, currentPos.col⟩
  let twoStep : Position := ⟨currentPos.row + 2 * direction, currentPos.col⟩
  let forward : List Position :=
    if oneStep.isValid && !b.isOccupied oneStep then
      oneStep :: (if !hasMoved then
        (if twoStep.isValid && !b.isOccupied twoStep then [twoStep] else [])
      else [])
    else []
  let leftCapture : Position := ⟨currentPos.row + direction, currentPos.col - 1⟩
  let rightCapture : Position := ⟨currentPos.row + direction, currentPos.col + 1⟩
  let left : List Position :=
    if leftCapture.isValid && b.isOccupied leftCapture
        && !b.isOccupiedBySameColor leftCapture color then [leftCapture] else []
  let right : List Position :=
    if rightCapture.isValid && b.isOccupied rightCapture
        && !b.isOccupiedBySameColor rightCapture color then [rightCapture] else []
  forward ++ left ++ right

/-- The virtual method `Piece::getPossibleMoves`. -/
def Piece.getPossibleMoves (piece : Piece) (currentPos : Position) (b : Board) :
    List Position :=
  match piece.type with
  | PieceType.KING => stepMoves b piece.color currentPos kingDirections
  | PieceType.QUEEN => slideMoves b piece.color currentPos kingDirections
  | PieceType.ROOK => slideMoves b piece.color currentPos rookDirections
  | PieceType.BISHOP => slideMoves b piece.color currentPos bishopDirections
  | PieceType.KNIGHT => stepMoves b piece.color currentPos knightMoves
  | PieceType.PAWN => pawnMoves b piece.color piece.hasMoved currentPos

/-- The opponent colour `(color == WHITE) ? BLACK : WHITE`. -/
def Color.opponent (color : Color) : Color :=
  if color = Color.WHITE then Color.BLACK else Color.WHITE

namespace StandardChessRules

/-- The loop of `isInCheck` over the opponent's pieces. -/
def attacked (b : Board) (kingPos : Position) : List Position → Option Bool
  | [] => some false
  | pos :: rest =>
    match b.getPiece pos with
    | none => none
    | some piece =>
      if (piece.getPossibleMoves pos b).any (fun targetPos => decide (targetPos = kingPos))
      then some true
      else attacked b kingPos rest

/-- The method `StandardChessRules::isInCheck`. -/
def isInCheck (color : Color) (b : Board) : Option Bool :=
  let kingPos := b.findKing color
  if kingPos.row = -1 then some false
  else attacked b kingPos (b.getAllPiecesOfColor color.opponent)

/-- The method `StandardChessRules::wouldMoveCauseCheck`; the result carries the board
the call leaves behind. -/
def wouldMoveCauseCheck (move : Move) (b : Board) (kingColor : Color) :
    Option (Bool × Board) :=
  if !(move.getFrom.isValid && move.getTo.isValid) then none
  else
    let capturedPiece := b.getPiece move.getTo
    match b.getPiece move.getFrom with
    | none => some (true, b)
    | some movingPiece =>
      let b1 := b.removePiece move.getFrom
      let b2 := if capturedPiece.isSome then b1.removePiece move.getTo else b1
      let b3 := b2.placePiece move.getTo movingPiece
      match isInCheck kingColor b3 with
      | none => none
      | some inCheck =>
        let b4 := b3.removePiece move.getTo
        let b5 := b4.placePiece move.getFrom movingPiece
        let b6 :=
          match capturedPiece with
          | some captured => b5.placePiece move.getTo captured
          | none => b5
        some (inCheck, b6)

/-- The method `StandardChessRules::isValidMove`. -/
def isValidMove (move : Move) (b : Board) : Option (Bool × Board) :=
  match move.getPiece with
  | none => none
  | some piece =>
    let possibleMoves := piece.getPossibleMoves move.getFrom b
    if !(possibleMoves.any (fun pos => decide (pos = move.getTo))) then some (false, b)
    else
      match wouldMoveCauseCheck move b piece.color with
      | none => none
      | some (inCheck, b1) => some (!inCheck, b1)

/-- The inner loop of `isCheckmate` and `isStalemate` over the targets of one piece:
whether one of them is a valid move. -/
def hasValidTarget (pos : Position) (piece : Piece) :
    List Position → Board → Option (Bool × Board)
  | [], b => some (false, b)
  | targetPos :: rest, b =>
    match isValidMove ⟨pos, targetPos, some piece, b.getPiece targetPos⟩ b with
    | none => none
    | some (true, b1) => some (true, b1)
    | some (false, b1) => hasValidTarget pos piece rest b1

/-- The outer loop of `isCheckmate` and `isStalemate` over the pieces of the colour. -/
def hasValidMove : List Position → Board → Option (Bool × Board)
  | [], b => some (false, b)
  | pos :: rest, b =>
    match b.getPiece pos with
    | none => none
    | some piece =>
      match hasValidTarget pos piece (piece.getPossibleMoves pos b) b with
      | none => none
      | some (true, b1) => some (true, b1)
      | some (false, b1) => hasValidMove rest b1

/-- The method `StandardChessRules::isCheckmate`. -/
def isCheckmate (color : Color) (b : Board) : Option (Bool × Board) :=
  match isInCheck color b with
  | none => none
  | some false => some (false, b)
  | some true =>
    match hasValidMove (b.getAllPiecesOfColor color) b with
    | none => none
    | some (found, b1) => some (!found, b1)

/-- The method `StandardChessRules::isStalemate`. -/
def isStalemate (color : Color) (b : Board) : Option (Bool × Board) :=
  match isInCheck color b with
  | none => none
  | some true => some (false, b)
  | some false =>
    match hasValidMove (b.getAllPiecesOfColor color) b with
    | none => none
    | some (found, b1) => some (!found, b1)

end StandardChessRules

/-- The fields of the class `User` that the match reads and writes. -/
structure User where
  id : String
  name : String
  score : Int
  deriving DecidableEq, Repr

/-- The constructor `User(userId, userName)`. -/
def User.new (userId userName : String) : User :=
  ⟨userId, userName, 1000⟩

/-- The `User*` handed to a method of `Match`: one of the two players of the match. -/
inductive Player
  | white
  | black
  deriving DecidableEq, Repr

/-- The class `Match` without its chat; the two users are the objects its pointers
`whitePlayer` and `blackPlayer` point to. -/
structure Match where
  matchId : String
  whitePlayer : User
  blackPlayer : User
  board : Board
  currentTurn : Color
  status : GameStatus
  moveHistory : List Move
  deriving DecidableEq, Repr

namespace Match

/-- The constructor `Match(mId, white, black)`. -/
def new (mId : String) (white black : User) : Match :=
  { matchId := mId, whitePlayer := white, blackPlayer := black, board := Board.new,
    currentTurn := Color.WHITE, status := GameStatus.IN_PROGRESS, moveHistory := [] }

/-- The method `Match::getPlayerColor`. -/
def getPlayerColor (_m : Match) (player : Player) : Color :=
  if player = Player.white then Color.WHITE else Color.BLACK

/-- The method `Match::endGame` with a winner: the winner gains 30, the other player
loses 20. -/
def endGame (m : Match) (winner : Player) : Match :=
  match winner with
  | Player.white =>
    { m with status := GameStatus.COMPLETED,
             whitePlayer := { m.whitePlayer with score := m.whitePlayer.score + 30 },
             blackPlayer := { m.blackPlayer with score := m.blackPlayer.score - 20 } }
  | Player.black =>
    { m with status := GameStatus.COMPLETED,
             blackPlayer := { m.blackPlayer with score := m.blackPlayer.score + 30 },
             whitePlayer := { m.whitePlayer with score := m.whitePlayer.score - 20 } }

/-- The method `Match::makeMove`: the value it returns and the match it leaves. -/
def makeMove (m : Match) (fromPos toPos : Position) (player : Player) : Option (Bool × Match) :=
  if m.status ≠ GameStatus.IN_PROGRESS then some (false, m)
  else
    let playerColor := m.getPlayerColor player
    if playerColor ≠ m.currentTurn then some (false, m)
    else if !fromPos.isValid then none
    else
      match m.board.getPiece fromPos with
      | none => some (false, m)
      | some piece =>
        if piece.color ≠ playerColor then some (false, m)
        else if !toPos.isValid then none
        else
          let move : Move := ⟨fromPos, toPos, some piece, m.board.getPiece toPos⟩
          match StandardChessRules.isValidMove move m.board with
          | none => none
          | some (false, b1) => some (false, { m with board := b1 })
          | some (true, b1) =>
            let b2 := b1.movePiece fromPos toPos
            let history := m.moveHistory ++ [move]
            let opponentColor := m.currentTurn.opponent
            match StandardChessRules.isCheckmate opponentColor b2 with
            | none => none
            | some (true, b3) =>
              some (true, endGame { m with board := b3, moveHistory := history } player)
            | some (false, b3) =>
              match StandardChessRules.isStalemate opponentColor b3 with
              | none => none
              | some (true, b4) =>
                some (true, endGame { m with board := b4, moveHistory := history } player)
              | some (false, b4) =>
                match StandardChessRules.isInCheck opponentColor b4 with
                | none => none
                | some _ =>
                  some (true, { m with board := b4, moveHistory := history,
                                       currentTurn := opponentColor })

/-- A sequence of `makeMove` calls, with the values they return. -/
def makeMoves : Match → List (Position × Position × Player) → Option (List Bool × Match)
  | m, [] => some ([], m)
  | m, (fromPos, toPos, player) :: rest =>
    match m.makeMove fromPos toPos player with
    | none => none
    | some (accepted, m1) =>
      match makeMoves m1 rest with
      | none => none
      | some (results, m2) => some (accepted :: results, m2)

end Match

/-- The seven `makeMove` calls of `ChessSystemDemo::demonstrateScholarsMate`. -/
def scholarsMateMoves : List (Position × Position × Player) :=
  [(⟨6, 4⟩, ⟨4, 4⟩, Player.white),
   (⟨1, 4⟩, ⟨3, 4⟩, Player.black),
   (⟨7, 5⟩, ⟨4, 2⟩, Player.white),
   (⟨0, 1⟩, ⟨2, 2⟩, Player.black),
   (⟨7, 3⟩, ⟨3, 7⟩, Player.white),
   (⟨0, 6⟩, ⟨2, 5⟩, Player.black),
   (⟨3, 7⟩, ⟨1, 5⟩, Player.white)]

/-- The match of `demonstrateScholarsMate` before its first move. -/
def demoMatch : Match :=
  Match.new "DEMO_MATCH" (User.new "DEMO_1" "Aditya") (User.new "DEMO_2" "Rohit")

end Chess

/-! ## Lecture 29: `IteratorPattern.cpp`, the in-order iterator of a binary tree

A `BinaryTree*` is `nil` (the null pointer) or a node with its `data` and its two child
pointers; the trees of this type are the finite trees without sharing. -/

namespace IteratorPattern

inductive BinaryTree
  | nil
  | node (data : Int) (left right : BinaryTree)
  deriving DecidableEq, Repr

/-- The number of nodes of a tree. -/
def BinaryTree.size : BinaryTree → Nat
  | BinaryTree.nil => 0
  | BinaryTree.node _ left right => left.size + 1 + right.size

/-- The recursive in-order traversal: left subtree, node, right subtree. -/
def inorder : BinaryTree → List Int
  | BinaryTree.nil => []
  | BinaryTree.node data left right => inorder left ++ data :: inorder right

/-- The fields of `BinaryTreeInorderIterator`; the head of `stk` is the top of the
stack. -/
structure BinaryTreeInorderIterator where
  stk : List BinaryTree
  curr : BinaryTree
  deriving DecidableEq, Repr

namespace BinaryTreeInorderIterator

/-- The method `pushLefts`: the loop `while (node) { stk.push(node); node = node->left; }`. -/
def pushLefts (stk : List BinaryTree) : BinaryTree → List BinaryTree
  | BinaryTree.nil => stk
  | BinaryTree.node data left right =>
    pushLefts (BinaryTree.node data left right :: stk) left

/-- The constructor `BinaryTreeInorderIterator(root)`. -/
def new (root : BinaryTree) : BinaryTreeInorderIterator :=
  { stk := pushLefts [] root, curr := root }

/-- The method `hasNext`. -/
def hasNext (it : BinaryTreeInorderIterator) : Bool :=
  !it.stk.isEmpty

/-- The method `next`: the value it returns and the iterator it leaves. Reading the top
of an empty stack, or the data of a null node, has no result. -/
def next (it : BinaryTreeInorderIterator) : Option (Int × BinaryTreeInorderIterator) :=
  match it.stk with
  | [] => none
  | BinaryTree.nil :: _ => none
  | BinaryTree.node data _ right :: rest =>
    some (data, { it with stk := pushLefts rest right })

/-- The loop `while (it->hasNext()) { cout << it->next(); }` of `main`, run for at most
`fuel` calls of `next`: the values printed and the iterator the loop ends with. -/
def drain : Nat → BinaryTreeInorderIterator → Option (List Int × BinaryTreeInorderIterator)
  | fuel, it =>
    if it.hasNext then
      match fuel with
      | 0 => none
      | fuel + 1 =>
        match it.next with
        | none => none
        | some (val, it1) =>
          match drain fuel it1 with
          | none => none
          | some (vals, it2) => some (val :: vals, it2)
    else some ([], it)

end BinaryTreeInorderIterator

/-- What a stack of nodes still has to return: for every node on it, from the top down,
its data and then the in-order traversal of its right subtree. -/
def pending : List BinaryTree → List Int
  | [] => []
  | BinaryTree.nil :: rest => pending rest
  | BinaryTree.node data _ right :: rest => data :: (inorder right ++ pending rest)

/-- The tree of `main`: 2 with the children 1 and 3. -/
def demoTree : BinaryTree :=
  BinaryTree.node 2 (BinaryTree.node 1 BinaryTree.nil BinaryTree.nil)
    (BinaryTree.node 3 BinaryTree.nil BinaryTree.nil)

end IteratorPattern

/-! ## The C++ library function `std::to_string(int)`

The decimal digits of the number, with a leading minus sign for a negative number. -/

namespace CppLib

/-- The function `std::to_string` on `int`. -/
def to_string (n : Int) : String :=
  match n with
  | Int.ofNat m => ⟨Nat.toDigits 10 m⟩
  | Int.negSucc m => ⟨'-' :: Nat.toDigits 10 (m + 1)⟩

end CppLib

/-! ## Lecture 37, continued: quitting a match and the matchmaking of `GameManager`

A `User*` of the waiting list is modelled by the value of the user it points to; users
are told apart by their fields, as the users of a run differ in their `id`. -/

namespace Chess

open Splitwise (StdMap)

/-- The constant `INT_MAX` of a 32-bit `int`. -/
def INT_MAX : Int := 2147483647

namespace ScoreBasedMatching

/-- One round of the loop of `findMatch`; the state is `(bestMatch, bestScoreDiff)`. The
difference of the two scores and its `abs` are `int` results. -/
def step (scoreTolerance : Int) (user : User) (st : Option User × Int) (waitingUser : User) :
    Option User × Int :=
  if waitingUser.id ≠ user.id then
    let scoreDiff := CppLib.abs (CppLib.wrapInt (waitingUser.score - user.score))
    if scoreDiff ≤ scoreTolerance ∧ scoreDiff < st.2 then (some waitingUser, scoreDiff)
    else st
  else st

/-- The method `ScoreBasedMatching::findMatch`. -/
def findMatch (scoreTolerance : Int) (user : User) (waitingUsers : List User) :
    Option User :=
  (waitingUsers.foldl (step scoreTolerance user) (none, INT_MAX)).1

/-- A waiting user that `findMatch` may return: another id, and a score within the
tolerance. -/
def Eligible (scoreTolerance : Int) (user w : User) : Prop :=
  w.id ≠ user.id ∧ |w.score - user.score| ≤ scoreTolerance

/-- What the loop of `findMatch` knows after the waiting users `seen`: nobody eligible
so far, or the earliest of the eligible users with the least score difference. -/
def LoopInvariant (scoreTolerance : Int) (user : User) (seen : List User)
    (st : Option User × Int) : Prop :=
  (st.1 = none ∧ st.2 = INT_MAX ∧ ∀ w ∈ seen, ¬ Eligible scoreTolerance user w) ∨
  (∃ m l1 l2, st.1 = some m ∧ st.2 = |m.score - user.score| ∧ seen = l1 ++ m :: l2 ∧
    Eligible scoreTolerance user m ∧
    (∀ w ∈ l1, Eligible scoreTolerance user w →
      |m.score - user.score| < |w.score - user.score|) ∧
    (∀ w ∈ l2, Eligible scoreTolerance user w →
      |m.score - user.score| ≤ |w.score - user.score|))

end ScoreBasedMatching

/-- The members of the singleton `GameManager`; `scoreTolerance` is the tolerance of its
`ScoreBasedMatching`. -/
structure GameManager where
  activeMatches : StdMap Match
  waitingUsers : List User
  scoreTolerance : Int
  matchCounter : Int

namespace GameManager

/-- The constructor `GameManager()`: a tolerance of 100 points. -/
def new : GameManager :=
  { activeMatches := [], waitingUsers := [], scoreTolerance := 100, matchCounter := 0 }

/-- The method `GameManager::requestMatch`. -/
def requestMatch (gm : GameManager) (user : User) : GameManager :=
  match ScoreBasedMatching.findMatch gm.scoreTolerance user gm.waitingUsers with
  | some opponent =>
    let waitingUsers := gm.waitingUsers.filter (fun w => decide (w ≠ opponent))
    let matchCounter := gm.matchCounter + 1
    let matchId := "MATCH_" ++ CppLib.to_string matchCounter
    { gm with waitingUsers := waitingUsers, matchCounter := matchCounter,
              activeMatches := StdMap.set gm.activeMatches matchId
                (Match.new matchId user opponent) }
  | none => { gm with waitingUsers := gm.waitingUsers ++ [user] }

end GameManager

/-- A user brought to the score `INT_MAX = 2147483647` by `incrementScore(2147482647)`. -/
def topScorer : User := { User.new "USER_7" "Top" with score := 2147483647 }

/-- A user brought to the score `1000 - INT_MAX` by `decrementScore(2147483647)`. -/
def lowScorer : User := { User.new "USER_8" "Low" with score := -2147482647 }

/-- A user brought to the score `-2147483599` by `decrementScore(2147483647)` and
`decrementScore(952)`. -/
def farScorer : User := { User.new "USER_9" "Far" with score := -2147483599 }

/-- The three users of `main`. -/
def saurav : User := User.new "USER_1" "Saurav"

def manish : User := User.new "USER_2" "Manish"

def abhishek : User := User.new "USER_3" "Abishek"

end Chess

/-! ## Lecture 19: `CompositePattern.cpp`, files and folders -/

namespace CompositePattern

/-- The two classes that implement `FileSystemItem`: a `File` with its name and size,
and a `Folder` with its name and its children in the order of `add`. -/
inductive FileSystemItem
  | File (name : String) (size : Int)
  | Folder (name : String) (children : List FileSystemItem)

mutual

/-- The methods `File::getSize` and `Folder::getSize`. -/
def FileSystemItem.getSize : FileSystemItem → Int
  | FileSystemItem.File _ size => size
  | FileSystemItem.Folder _ children => sumSizes children 0

/-- The loop `for (auto child : children) total += child->getSize();` from the value
`total` on; `total` is an `int`. -/
def sumSizes : List FileSystemItem → Int → Int
  | [], total => total
  | child :: rest, total => sumSizes rest (CppLib.wrapInt (total + child.getSize))

end

mutual

/-- The sizes of all `File` leaves anywhere below an item, the item itself included. -/
def FileSystemItem.leafSizes : FileSystemItem → List Int
  | FileSystemItem.File _ size => [size]
  | FileSystemItem.Folder _ children => leafSizesOf children

/-- The sizes of all `File` leaves anywhere below the items of a list. -/
def leafSizesOf : List FileSystemItem → List Int
  | [] => []
  | child :: rest => child.leafSizes ++ leafSizesOf rest

end

/-- The method `Folder::add`; a `File` has no such method. -/
def FileSystemItem.add : FileSystemItem → FileSystemItem → FileSystemItem
  | FileSystemItem.Folder name children, item => FileSystemItem.Folder name (children ++ [item])
  | FileSystemItem.File name size, _ => FileSystemItem.File name size

/-- A folder with a file of size `INT_MAX = 2147483647` and a file of size 1. -/
def bigFolder : FileSystemItem :=
  ((FileSystemItem.Folder "big" []).add (FileSystemItem.File "large.bin" 2147483647)).add
    (FileSystemItem.File "small.txt" 1)

/-- The folder `docs` of `main`. -/
def docs : FileSystemItem :=
  ((FileSystemItem.Folder "docs" []).add (FileSystemItem.File "resume.pdf" 1)).add
    (FileSystemItem.File "notes.txt" 1)

/-- The folder `images` of `main`. -/
def images : FileSystemItem :=
  (FileSystemItem.Folder "images" []).add (FileSystemItem.File "photo.jpg" 1)

/-- The folder `root` of `main`. -/
def root : FileSystemItem :=
  ((((FileSystemItem.Folder "root" []).add (FileSystemItem.File "file1.txt" 1)).add
    (FileSystemItem.File "file2.txt" 1)).add docs).add images

end CompositePattern

/-! ## Lecture 35: `MediatorPattern.cpp`, the chat room -/

namespace MediatorPattern

/-- The lines written to `cout` by `send` and by `User::receive`. -/
inductive Msg
  | broadcasts (sender : String) (msg : String)
  | gotFrom (name : String) (sender : String) (msg : String)
  deriving DecidableEq, Repr

/-- The members of `ChatMediator`: the registered colleagues, each given by the name its
`getName()` returns, in registration order, and the pairs `(muter, muted)`. -/
structure ChatMediator where
  colleagues : List String
  mutes : List (String × String)
  deriving DecidableEq, Repr

namespace ChatMediator

/-- The method `registerColleague`. -/
def registerColleague (m : ChatMediator) (c : String) : ChatMediator :=
  { m with colleagues := m.colleagues ++ [c] }

/-- The method `mute`. -/
def mute (m : ChatMediator) (who whom : String) : ChatMediator :=
  { m with mutes := m.mutes ++ [(who, whom)] }

/-- The inner loop of `send` over the mute list: the value of `isMuted` for the
colleague `c`. -/
def isMuted (sender c : String) : List (String × String) → Bool
  | [] => false
  | p :: rest => if sender = p.2 ∧ c = p.1 then true else isMuted sender c rest

/-- The outer loop of `send` over the colleagues: the lines of the calls of `receive`. -/
def deliver (mutes : List (String × String)) (sender msg : String) : List String → List Msg
  | [] => []
  | c :: rest =>
    if c = sender then deliver mutes sender msg rest
    else if isMuted sender c mutes then deliver mutes sender msg rest
    else Msg.gotFrom c sender msg :: deliver mutes sender msg rest

/-- The method `ChatMediator::send`. -/
def send (m : ChatMediator) (sender msg : String) : List Msg :=
  Msg.broadcasts sender msg :: deliver m.mutes sender msg m.colleagues

end ChatMediator

/-- The chat room of `main` after the three users have registered and Rohan has muted
Mohan. -/
def chatRoom : ChatMediator :=
  ((((ChatMediator.mk [] []).registerColleague "Rohan").registerColleague
    "Neha").registerColleague "Mohan").mute "Rohan" "Mohan"

end MediatorPattern

/-! ## Lecture 18, continued: playing a playlist in random order -/

namespace MusicPlayer

namespace RandomPlayStrategy

/-- The loop `while (hasNext()) next();` on a random strategy, run for at most `fuel`
calls of `next`; `k` calls of `rand()` have been made before. The result is the songs
returned, in order, and the strategy the loop ends with; there is none when `next` throws
or when the calls allowed do not suffice. -/
def playWhileHasNext (rand : Nat → Nat) :
    Nat → Nat → RandomPlayStrategy → Option (List Song × RandomPlayStrategy)
  | fuel, k, s =>
    if s.hasNext then
      match fuel with
      | 0 => none
      | fuel + 1 =>
        match s.next (rand k) with
        | Except.error _ => none
        | Except.ok (song, s1) =>
          match playWhileHasNext rand fuel (k + 1) s1 with
          | none => none
          | some (songs, s2) => some (song :: songs, s2)
    else some ([], s)

end RandomPlayStrategy

end MusicPlayer

/-! ## Lecture 24: `DiscountCoupon.cpp`, the chain of coupons

A `double` is an exact rational. A coupon is any object of a subclass of `Coupon`: its
three virtual methods; the chain that the `next` pointers form is a list. -/

namespace DiscountCoupon

/-- The three subclasses of `DiscountStrategy` with their members. -/
inductive DiscountStrategy
  | FlatDiscountStrategy (amount : ℚ)
  | PercentageDiscountStrategy (percent : ℚ)
  | PercentageWithCapStrategy (percent cap : ℚ)
  deriving DecidableEq

/-- The method `calculate` of the three strategies. -/
def DiscountStrategy.calculate : DiscountStrategy → ℚ → ℚ
  | FlatDiscountStrategy amount, baseAmount => min amount baseAmount
  | PercentageDiscountStrategy percent, baseAmount => (percent / 100) * baseAmount
  | PercentageWithCapStrategy percent cap, baseAmount =>
    let disc := (percent / 100) * baseAmount
    if disc > cap then cap else disc

inductive StrategyType
  | FLAT
  | PERCENT
  | PERCENT_WITH_CAP
  deriving DecidableEq, Repr

/-- The method `DiscountStrategyManager::getStrategy`. -/
def getStrategy (type : StrategyType) (param1 : ℚ) (param2 : ℚ) : DiscountStrategy :=
  match type with
  | StrategyType.FLAT => DiscountStrategy.FlatDiscountStrategy param1
  | StrategyType.PERCENT => DiscountStrategy.PercentageDiscountStrategy param1
  | StrategyType.PERCENT_WITH_CAP => DiscountStrategy.PercentageWithCapStrategy param1 param2

structure Product where
  name : String
  category : String
  price : ℚ
  deriving DecidableEq

structure CartItem where
  product : Product
  quantity : Int
  deriving DecidableEq

/-- The method `CartItem::itemTotal`. -/
def CartItem.itemTotal (item : CartItem) : ℚ :=
  item.product.price * item.quantity

structure Cart where
  items : List CartItem
  originalTotal : ℚ
  currentTotal : ℚ
  loyaltyMember : Bool
  paymentBank : String
  deriving DecidableEq

namespace Cart

/-- The constructor `Cart()`. -/
def new : Cart := ⟨[], 0, 0, false, ""⟩

/-- The method `Cart::addProduct`. -/
def addProduct (cart : Cart) (prod : Product) (qty : Int) : Cart :=
  let item : CartItem := ⟨prod, qty⟩
  { cart with items := cart.items ++ [item],
              originalTotal := cart.originalTotal + item.itemTotal,
              currentTotal := cart.currentTotal + item.itemTotal }

/-- The method `Cart::applyDiscount`: the total does not go below 0. -/
def applyDiscount (cart : Cart) (d : ℚ) : Cart :=
  let currentTotal := cart.currentTotal - d
  { cart with currentTotal := if currentTotal < 0 then 0 else currentTotal }

def setLoyaltyMember (cart : Cart) (member : Bool) : Cart :=
  { cart with loyaltyMember := member }

def setPaymentBank (cart : Cart) (bank : String) : Cart :=
  { cart with paymentBank := bank }

/-- The loop of `SeasonalOffer::getDiscount`: the total of the items of a category. -/
def categorySubtotal (cart : Cart) (category : String) : ℚ :=
  cart.items.foldl (fun subtotal item =>
    if item.product.category = category then subtotal + item.itemTotal else subtotal) 0

end Cart

/-- The virtual methods of a subclass of `Coupon`. -/
structure Coupon where
  isApplicable : Cart → Bool
  getDiscount : Cart → ℚ
  isCombinable : Bool

/-- The class `SeasonalOffer`. -/
def SeasonalOffer (pct : ℚ) (cat : String) : Coupon :=
  { isApplicable := fun cart => cart.items.any (fun item => decide (item.product.category = cat)),
    getDiscount := fun cart =>
      (getStrategy StrategyType.PERCENT pct 0).calculate (cart.categorySubtotal cat),
    isCombinable := true }

/-- The class `LoyaltyDiscount`. -/
def LoyaltyDiscount (pct : ℚ) : Coupon :=
  { isApplicable := fun cart => cart.loyaltyMember,
    getDiscount := fun cart =>
      (getStrategy StrategyType.PERCENT pct 0).calculate cart.currentTotal,
    isCombinable := true }

/-- The class `BulkPurchaseDiscount`. -/
def BulkPurchaseDiscount (thr off : ℚ) : Coupon :=
  { isApplicable := fun cart => decide (cart.originalTotal ≥ thr),
    getDiscount := fun cart =>
      (getStrategy StrategyType.FLAT off 0).calculate cart.currentTotal,
    isCombinable := true }

/-- The class `BankingCoupon`; its strategy is built from the constructor arguments
`percent` and `offCap`. -/
def BankingCoupon (b : String) (ms percent offCap : ℚ) : Coupon :=
  { isApplicable := fun cart =>
      decide (cart.paymentBank = b) && decide (cart.originalTotal ≥ ms),
    getDiscount := fun cart =>
      (getStrategy StrategyType.PERCENT_WITH_CAP percent offCap).calculate cart.currentTotal,
    isCombinable := true }

/-- The method `Coupon::applyDiscount` on the coupon at the head of a chain; the empty
chain is a null pointer, on which nothing is called. -/
def applyDiscount : List Coupon → Cart → Cart
  | [], cart => cart
  | coupon :: next, cart =>
    if coupon.isApplicable cart then
      let discount := coupon.getDiscount cart
      let cart1 := cart.applyDiscount discount
      if !coupon.isCombinable then cart1
      else applyDiscount next cart1
    else applyDiscount next cart

namespace CouponManager

/-- The method `registerCoupon`: the coupon becomes the last of the chain of `head`. -/
def registerCoupon (head : List Coupon) (coupon : Coupon) : List Coupon :=
  head ++ [coupon]

/-- The method `applyAll`: the value it returns. -/
def applyAll (head : List Coupon) (cart : Cart) : ℚ :=
  (applyDiscount head cart).currentTotal

end CouponManager

/-- The four coupons of `main`, registered in its order. -/
def demoCoupons : List Coupon :=
  CouponManager.registerCoupon (CouponManager.registerCoupon (CouponManager.registerCoupon
    (CouponManager.registerCoupon [] (SeasonalOffer 10 "Clothing")) (LoyaltyDiscount 5))
    (BulkPurchaseDiscount 1000 100)) (BankingCoupon "ABC" 2000 15 500)

/-- The cart of `main`. -/
def demoCart : Cart :=
  (((((Cart.new.addProduct ⟨"Winter Jacket", "Clothing", 1000⟩ 1).addProduct
    ⟨"Smartphone", "Electronics", 20000⟩ 1).addProduct ⟨"Jeans", "Clothing", 1000⟩ 2).addProduct
    ⟨"Headphones", "Electronics", 2000⟩ 1).setLoyaltyMember true).setPaymentBank "ABC"

/-- A cart with one jacket of 1000. -/
def jacketCart : Cart :=
  Cart.new.addProduct ⟨"Winter Jacket", "Clothing", 1000⟩ 1

/-- A flat 950 off over 500, registered before 10 % off Clothing. -/
def flatThenSeasonal : List Coupon :=
  CouponManager.registerCoupon (CouponManager.registerCoupon [] (BulkPurchaseDiscount 500 950))
    (SeasonalOffer 10 "Clothing")

end DiscountCoupon

/-! ## Lecture 30: `WithFlyWeight.cpp`, the shared asteroids

The pointer to a flyweight is modelled by the position of the flyweight in the order of
creation: two pointers are equal exactly when the positions are. The `unordered_map` of
the factory is the list of its entries in that order. -/

namespace Flyweight

/-- The intrinsic state of the class `AsteroidFlyweight`. -/
structure AsteroidFlyweight where
  length : Int
  width : Int
  weight : Int
  color : String
  texture : String
  material : String
  deriving DecidableEq, Repr

/-- The constructor `AsteroidFlyweight(l, w, wt, col, tex, mat)`; it stores `w` as the
weight. -/
def AsteroidFlyweight.new (l w _wt : Int) (col tex mat : String) : AsteroidFlyweight :=
  { length := l, width := w, weight := w, color := col, texture := tex, material := mat }

/-- The six arguments of a call of `AsteroidFactory::getAsteroid`. -/
structure Request where
  length : Int
  width : Int
  weight : Int
  color : String
  texture : String
  material : String
  deriving DecidableEq, Repr

/-- The string `key` that `getAsteroid` builds from its arguments. -/
def Request.key (r : Request) : String :=
  CppLib.to_string r.length ++ "_" ++ CppLib.to_string r.width ++ "_"
    ++ CppLib.to_string r.weight ++ "_" ++ r.color ++ "_" ++ r.texture ++ "_" ++ r.material

/-- The position of the entry with a given key, if there is one:
`flyweights.find(key)`. -/
def position (key : String) : List (String × AsteroidFlyweight) → Option Nat
  | [] => none
  | e :: rest => if e.1 = key then some 0 else (position key rest).map (fun i => i + 1)

namespace AsteroidFactory

/-- The method `AsteroidFactory::getAsteroid`: the flyweight it returns and the map it
leaves. -/
def getAsteroid (flyweights : List (String × AsteroidFlyweight)) (r : Request) :
    Nat × List (String × AsteroidFlyweight) :=
  match position r.key flyweights with
  | some i => (i, flyweights)
  | none =>
    (flyweights.length,
     flyweights ++ [(r.key,
       AsteroidFlyweight.new r.length r.width r.weight r.color r.texture r.material)])

/-- The method `getFlyweightCount`. -/
def getFlyweightCount (flyweights : List (String × AsteroidFlyweight)) : Int :=
  flyweights.length

/-- A run of calls of `getAsteroid`: the flyweights returned, in the order of the calls,
and the map the run leaves. -/
def getAsteroids (flyweights : List (String × AsteroidFlyweight)) :
    List Request → List Nat × List (String × AsteroidFlyweight)
  | [] => ([], flyweights)
  | r :: rest =>
    let first := getAsteroid flyweights r
    let others := getAsteroids first.2 rest
    (first.1 :: others.1, others.2)

end AsteroidFactory

/-- The extrinsic state of the class `AsteroidContext` with its flyweight. -/
structure AsteroidContext where
  flyweight : Nat
  posX : Int
  posY : Int
  velocityX : Int
  velocityY : Int
  deriving DecidableEq, Repr

/-- The request of `spawnAsteroids` for the type `i % 3`. -/
def requestOfType (type : Nat) : Request :=
  let sizes : Int := [25, 35, 45].getD type 0
  { length := sizes, width := sizes, weight := sizes * 10,
    color := ["Red", "Blue", "Gray"].getD type "",
    texture := ["Rocky", "Metallic", "Icy"].getD type "",
    material := ["Iron", "Stone", "Ice"].getD type "" }

/-- The state of the game and of the factory. -/
structure SpaceGameWithFlyweight where
  asteroids : List AsteroidContext
  flyweights : List (String × AsteroidFlyweight)
  deriving DecidableEq, Repr

/-- One round of the loop of `spawnAsteroids`. -/
def spawnOne (g : SpaceGameWithFlyweight) (i : Nat) : SpaceGameWithFlyweight :=
  let got := AsteroidFactory.getAsteroid g.flyweights (requestOfType (i % 3))
  { asteroids := g.asteroids ++ [⟨got.1, 100 + (i : Int) * 50, 200 + (i : Int) * 30, 1, 2⟩],
    flyweights := got.2 }

/-- The method `spawnAsteroids(count)`; the loop `for (int i = 0; i < count; i++)` does
not run for a count below 1. -/
def spawnAsteroids (g : SpaceGameWithFlyweight) (count : Int) : SpaceGameWithFlyweight :=
  (List.range count.toNat).foldl spawnOne g

/-- A handle `h` stands for the key `k` in a map: the entry at `h` is the first with the
key `k`. -/
def Owns (flyweights : List (String × AsteroidFlyweight)) (h : Nat) (k : String) : Prop :=
  position k flyweights = some h

/-- Two requests whose colour and texture are cut differently around an underscore. -/
def requestAB_C : Request := ⟨1, 1, 1, "a_b", "c", "m"⟩

def requestA_BC : Request := ⟨1, 1, 1, "a", "b_c", "m"⟩

end Flyweight

/-! ## Lecture 26, continued: `OrderManager::placeOrder` and the stock of the stores

A `map<int,int>` is the list of its entries in the order of its keys. The `DarkStore`
objects of a run are the entries of a list `stores`, and a `DarkStore*` is the position
of its object in that list: a store that is registered twice is one object, and what one
visit takes from it is gone at the next visit. Following a pointer to no object has no
result (`none`). -/

namespace Zepto

/-- The lookup `m.find(sku)` in a `map<int,int>`. -/
def mapFind (m : List (Int × Int)) (sku : Int) : Option Int :=
  (m.find? (fun e => decide (e.1 = sku))).map (fun e => e.2)

/-- The assignment `m[sku] = qty`: the entry is overwritten, or put in at the place of
its key. -/
def mapSet (m : List (Int × Int)) (sku qty : Int) : List (Int × Int) :=
  if m.any (fun e => decide (e.1 = sku)) then
    m.map (fun e => if e.1 = sku then (sku, qty) else e)
  else m.orderedInsert (fun a b => a.1 ≤ b.1) (sku, qty)

/-- The call `m.erase(sku)`. -/
def mapErase (m : List (Int × Int)) (sku : Int) : List (Int × Int) :=
  m.filter (fun e => decide (e.1 ≠ sku))

/-- The method `DbInventoryStore::checkStock`. -/
def DbInventoryStore.checkStock (stock : List (Int × Int)) (sku : Int) : Int :=
  match mapFind stock sku with
  | none => 0
  | some qty => qty

/-- The method `DbInventoryStore::removeProduct`. -/
def DbInventoryStore.removeProduct (stock : List (Int × Int)) (sku qty : Int) :
    List (Int × Int) :=
  match mapFind stock sku with
  | none => stock
  | some currentQuantity =>
    let remainingQuantity := currentQuantity - qty
    if remainingQuantity > 0 then mapSet stock sku remainingQuantity
    else mapErase stock sku

/-- The method `DarkStore::checkStock`. -/
def DarkStore.checkStock (ds : DarkStore) (sku : Int) : Int :=
  DbInventoryStore.checkStock ds.stock sku

/-- The method `DarkStore::removeStock`. -/
def DarkStore.removeStock (ds : DarkStore) (sku qty : Int) : DarkStore :=
  { ds with stock := DbInventoryStore.removeProduct ds.stock sku qty }

/-- The state of the loop `for (auto& [sku, qtyNeeded] : allItems)` of `placeOrder` for
one store: the store, the map `allItems`, the vector `toErase` and the pairs
`(sku, takenQty)` this store has supplied so far. -/
structure SupplyState where
  store : DarkStore
  allItems : List (Int × Int)
  toErase : List Int
  supplied : List (Int × Int)

/-- The loop over the entries of `allItems` that are still to be visited. -/
def supplyLoop : List (Int × Int) → SupplyState → SupplyState
  | [], st => st
  | (sku, qtyNeeded) :: rest, st =>
    let availableQty := st.store.checkStock sku
    if availableQty ≤ 0 then supplyLoop rest st
    else
      let takenQty := min availableQty qtyNeeded
      let store1 := st.store.removeStock sku takenQty
      let supplied1 := st.supplied ++ [(sku, takenQty)]
      if qtyNeeded > takenQty then
        supplyLoop rest
          { store := store1, allItems := mapSet st.allItems sku (qtyNeeded - takenQty),
            toErase := st.toErase, supplied := supplied1 }
      else
        supplyLoop rest
          { store := store1, allItems := st.allItems, toErase := st.toErase ++ [sku],
            supplied := supplied1 }

/-- The visit of one store: the loop over `allItems`, then
`for (int sku : toErase) allItems.erase(sku);`. The result is the store as it is left,
what it has supplied, and `allItems`. -/
def visitStore (store : DarkStore) (allItems : List (Int × Int)) :
    (DarkStore × List (Int × Int)) × List (Int × Int) :=
  let st := supplyLoop allItems ⟨store, allItems, [], []⟩
  ((st.store, st.supplied), st.toErase.foldl mapErase st.allItems)

/-- The loop `for (DarkStore* store : nearbyDarkStores)` of the split branch, which ends
at the `break` once `allItems` is empty. The result is the store objects as they are
left, the visits made, each with the pointer to its store and the pairs `(sku, takenQty)`
the store supplied, and what is left of `allItems`. -/
def splitAcross : List Nat → List DarkStore → List (Int × Int) →
    Option ((List DarkStore × List (Nat × List (Int × Int))) × List (Int × Int))
  | [], stores, allItems => some ((stores, []), allItems)
  | p :: rest, stores, allItems =>
    if allItems.isEmpty then some ((stores, []), allItems)
    else
      match stores[p]? with
      | none => none
      | some store =>
        let visit := visitStore store allItems
        match splitAcross rest (stores.set p visit.1.1) visit.2 with
        | none => none
        | some others => some ((others.1.1, (p, visit.1.2) :: others.1.2), others.2)

/-- What `placeOrder` does to the stores: the store objects as it leaves them and, for a
split order, the visits and the map `allItems` that is printed under "Could not
fulfill". -/
inductive OrderOutcome
  | noStore
  | allAtFirst (stores : List DarkStore)
  | split (stores : List DarkStore) (visits : List (Nat × List (Int × Int)))
      (couldNotFulfill : List (Int × Int))
  deriving DecidableEq

/-- The method `OrderManager::placeOrder` from the vector of nearby stores on;
`requestedItems` are the pairs `(sku, qty)` of the cart. -/
def placeOrder (stores : List DarkStore) (nearbyDarkStores : List Nat)
    (requestedItems : List (Int × Int)) : Option OrderOutcome :=
  match nearbyDarkStores with
  | [] => some OrderOutcome.noStore
  | first :: others =>
    match stores[first]? with
    | none => none
    | some firstStore =>
      let allInFirst := requestedItems.all (fun item =>
        !decide (firstStore.checkStock item.1 < item.2))
      if allInFirst then
        some (OrderOutcome.allAtFirst (stores.set first
          (requestedItems.foldl (fun store item => store.removeStock item.1 item.2)
            firstStore)))
      else
        let allItems := requestedItems.foldl (fun m item => mapSet m item.1 item.2) []
        match splitAcross (first :: others) stores allItems with
        | none => none
        | some r => some (OrderOutcome.split r.1.1 r.1.2 r.2)

/-- The cart of `main`: 101 x4, 102 x3, 103 x2. -/
def demoCart : List (Int × Int) := [(101, 4), (102, 3), (103, 2)]

end Zepto

/-! ## Lecture 32: sequences of calls on the vending machine -/

namespace Vending

/-- A sequence of calls of the public operations, one after the other, on the same
machine: the machine after the last call. -/
def VendingMachine.run (m : VendingMachine) : List Action → VendingMachine
  | [] => m
  | a :: rest => VendingMachine.run (m.perform a).1 rest

/-- The quantity of a `refill` call is positive; the other calls carry no quantity. -/
def Action.positiveRefill : Action → Prop
  | Action.refill quantity => 0 < quantity
  | _ => True

/-- A `refill` call that the current state accepts (NoCoin and SoldOut) does not take the
stock beyond `INT_MAX = 2147483647`. -/
def Action.refillFits (m : VendingMachine) : Action → Prop
  | Action.refill quantity =>
      (m.currentState = VendingState.NoCoinState ∨
        m.currentState = VendingState.SoldOutState) →
      m.itemCount + quantity ≤ 2147483647
  | _ => True

/-- No accepted refill of a sequence of calls takes the stock beyond `INT_MAX`, each call
taken on the machine as the calls before it left it. -/
def VendingMachine.refillsFit (m : VendingMachine) : List Action → Prop
  | [] => True
  | a :: rest => a.refillFits m ∧ VendingMachine.refillsFit (m.perform a).1 rest

/-- The calls that `main` makes on its machine, in order. -/
def mainCalls : List Action :=
  [Action.selectItem, Action.insertCoin 10, Action.selectItem, Action.insertCoin 10,
   Action.selectItem, Action.dispense, Action.insertCoin 20, Action.selectItem,
   Action.dispense, Action.insertCoin 5, Action.refill 2]

end Vending

/-! ## Lecture 22: selections of the stocked notes -/

namespace COR

/-- A selection of `x1000`, `x500`, `x200` and `x100` notes, each count at most the stocked
count of its denomination, sums to the amount. -/
def MakesUp (n1000 n500 n200 n100 amount x1000 x500 x200 x100 : Int) : Prop :=
  (0 ≤ x1000 ∧ x1000 ≤ n1000) ∧ (0 ≤ x500 ∧ x500 ≤ n500) ∧
  (0 ≤ x200 ∧ x200 ≤ n200) ∧ (0 ≤ x100 ∧ x100 ≤ n100) ∧
  1000 * x1000 + 500 * x500 + 200 * x200 + 100 * x100 = amount

end COR

/-! ## The C++ library function `std::sort`

`std::sort(first, last, comp)` as libstdc++ defines it in `bits/stl_algo.h` and
`bits/stl_heap.h` (GCC 12): an introsort, that is quicksort on the ranges of more than 16
elements, with heapsort once the depth limit is used up, followed by an insertion sort
of the whole range. The array is the list of its elements and an iterator is a position
in it. -/

namespace CppLib

variable {α : Type}

/-- The call `comp(i, j)` on the elements at two positions. -/
def compAt (comp : α → α → Bool) (a : List α) (i j : Nat) : Bool :=
  match a[i]?, a[j]? with
  | some x, some y => comp x y
  | _, _ => false

/-- The function `std::iter_swap`. -/
def iter_swap (a : List α) (i j : Nat) : List α :=
  match a[i]?, a[j]? with
  | some x, some y => (a.set i y).set j x
  | _, _ => a

/-- The function `__move_median_to_first(result, a, b, c, comp)`. -/
def move_median_to_first (comp : α → α → Bool) (a : List α) (result ia ib ic : Nat) :
    List α :=
  if compAt comp a ia ib then
    if compAt comp a ib ic then iter_swap a result ib
    else if compAt comp a ia ic then iter_swap a result ic
    else iter_swap a result ia
  else if compAt comp a ia ic then iter_swap a result ia
  else if compAt comp a ib ic then iter_swap a result ic
  else iter_swap a result ib

/-- The loop `while (comp(first, pivot)) ++first;`, at most `fuel` rounds. -/
def scanUp (comp : α → α → Bool) (a : List α) (pivot : Nat) : Nat → Nat → Nat
  | 0, first => first
  | fuel + 1, first =>
    if compAt comp a first pivot then scanUp comp a pivot fuel (first + 1) else first

/-- The loop `while (comp(pivot, last)) --last;`, at most `fuel` rounds. -/
def scanDown (comp : α → α → Bool) (a : List α) (pivot : Nat) : Nat → Nat → Nat
  | 0, last => last
  | fuel + 1, last =>
    if compAt comp a pivot last then scanDown comp a pivot fuel (last - 1) else last

/-- The function `__unguarded_partition(first, last, pivot, comp)`, at most `fuel` rounds
of its outer loop: the array it leaves and the position it returns. -/
def unguarded_partition (comp : α → α → Bool) (pivot : Nat) :
    Nat → List α → Nat → Nat → List α × Nat
  | 0, a, first, _ => (a, first)
  | fuel + 1, a, first, last =>
    let first1 := scanUp comp a pivot a.length first
    let last1 := scanDown comp a pivot a.length (last - 1)
    if first1 < last1 then
      unguarded_partition comp pivot fuel (iter_swap a first1 last1) (first1 + 1) last1
    else (a, first1)

/-- The function `__unguarded_partition_pivot(first, last, comp)`. -/
def unguarded_partition_pivot (comp : α → α → Bool) (a : List α) (first last : Nat) :
    List α × Nat :=
  let mid := first + (last - first) / 2
  let a1 := move_median_to_first comp a first (first + 1) mid (last - 1)
  unguarded_partition comp first a1.length a1 (first + 1) last

/-- The function `__push_heap(first, holeIndex, topIndex, value, comp)`, at most `fuel`
rounds of its loop. -/
def push_heap (comp : α → α → Bool) (first topIndex : Nat) (value : α) :
    Nat → List α → Nat → List α
  | 0, a, holeIndex => a.set (first + holeIndex) value
  | fuel + 1, a, holeIndex =>
    let parent := (holeIndex - 1) / 2
    match a[first + parent]? with
    | some p =>
      if holeIndex > topIndex ∧ comp p value = true then
        push_heap comp first topIndex value fuel (a.set (first + holeIndex) p) parent
      else a.set (first + holeIndex) value
    | none => a.set (first + holeIndex) value

/-- The first loop of `__adjust_heap`: the hole moves down to the larger child, at most
`fuel` rounds. The result is the array, `holeIndex` and `secondChild`. -/
def adjust_down (comp : α → α → Bool) (first len : Nat) :
    Nat → List α → Nat → Nat → List α × Nat × Nat
  | 0, a, holeIndex, secondChild => (a, holeIndex, secondChild)
  | fuel + 1, a, holeIndex, secondChild =>
    if secondChild < (len - 1) / 2 then
      let child := 2 * (secondChild + 1)
      let child1 := if compAt comp a (first + child) (first + (child - 1)) then child - 1
                    else child
      match a[first + child1]? with
      | some c => adjust_down comp first len fuel (a.set (first + holeIndex) c) child1 child1
      | none => (a, holeIndex, secondChild)
    else (a, holeIndex, secondChild)

/-- The function `__adjust_heap(first, holeIndex, len, value, comp)`. -/
def adjust_heap (comp : α → α → Bool) (a : List α) (first holeIndex len : Nat) (value : α) :
    List α :=
  let topIndex := holeIndex
  let r := adjust_down comp first len a.length a holeIndex holeIndex
  let a1 := r.1
  let holeIndex1 := r.2.1
  let secondChild := r.2.2
  if len % 2 = 0 ∧ (secondChild : Int) = Int.tdiv ((len : Int) - 2) 2 then
    let child := 2 * (secondChild + 1)
    match a1[first + (child - 1)]? with
    | some c =>
      push_heap comp first topIndex value a1.length (a1.set (first + holeIndex1) c) (child - 1)
    | none => push_heap comp first topIndex value a1.length a1 holeIndex1
  else push_heap comp first topIndex value a1.length a1 holeIndex1

/-- The function `__pop_heap(first, last, result, comp)`. -/
def pop_heap (comp : α → α → Bool) (a : List α) (first last result : Nat) : List α :=
  match a[result]?, a[first]? with
  | some value, some top => adjust_heap comp (a.set result top) first 0 (last - first) value
  | _, _ => a

/-- The loop of `__make_heap` from `parent` down to 0. -/
def make_heap_loop (comp : α → α → Bool) (first len : Nat) : Nat → List α → List α
  | 0, a =>
    match a[first]? with
    | some value => adjust_heap comp a first 0 len value
    | none => a
  | parent + 1, a =>
    match a[first + (parent + 1)]? with
    | some value => make_heap_loop comp first len parent
        (adjust_heap comp a first (parent + 1) len value)
    | none => a

/-- The function `__make_heap(first, last, comp)`. -/
def make_heap (comp : α → α → Bool) (a : List α) (first last : Nat) : List α :=
  if last - first < 2 then a
  else make_heap_loop comp first (last - first) ((last - first - 2) / 2) a

/-- The function `__sort_heap(first, last, comp)`, at most `fuel` rounds. -/
def sort_heap (comp : α → α → Bool) (first : Nat) : Nat → List α → Nat → List α
  | 0, a, _ => a
  | fuel + 1, a, last =>
    if last - first > 1 then
      sort_heap comp first fuel (pop_heap comp a first (last - 1) (last - 1)) (last - 1)
    else a

/-- The loop of `__heap_select` over the positions from `i` to `last`, at most `fuel`
rounds. -/
def heap_select_loop (comp : α → α → Bool) (first middle last : Nat) :
    Nat → List α → Nat → List α
  | 0, a, _ => a
  | fuel + 1, a, i =>
    if i < last then
      if compAt comp a i first then
        heap_select_loop comp first middle last fuel (pop_heap comp a first middle i) (i + 1)
      else heap_select_loop comp first middle last fuel a (i + 1)
    else a

/-- The function `__heap_select(first, middle, last, comp)`. -/
def heap_select (comp : α → α → Bool) (a : List α) (first middle last : Nat) : List α :=
  let a1 := make_heap comp a first middle
  heap_select_loop comp first middle last a1.length a1 middle

/-- The function `__partial_sort(first, middle, last, comp)`. -/
def partial_sort (comp : α → α → Bool) (a : List α) (first middle last : Nat) : List α :=
  let a1 := heap_select comp a first middle last
  sort_heap comp first a1.length a1 middle

/-- The function `__introsort_loop(first, last, depth_limit, comp)`; every round of its
loop takes one from `depth_limit`. -/
def introsort_loop (comp : α → α → Bool) : Nat → List α → Nat → Nat → List α
  | 0, a, first, last =>
    if last - first > 16 then partial_sort comp a first last last else a
  | depth_limit + 1, a, first, last =>
    if last - first > 16 then
      let p := unguarded_partition_pivot comp a first last
      let a1 := introsort_loop comp depth_limit p.1 p.2 last
      introsort_loop comp depth_limit a1 first p.2
    else a

/-- The function `__unguarded_linear_insert(last, comp)`: the value at `last` moves
towards the front past every element that it compares less than. The elements before
`last` are given from `last - 1` back to the front; the result is in the same order. The
library does not look for the front of the array; here the value stops there. -/
def unguarded_linear_insert (comp : α → α → Bool) (val : α) : List α → List α
  | [] => [val]
  | next :: before =>
    if comp val next then next :: unguarded_linear_insert comp val before
    else val :: next :: before

/-- One round of the loop of `__insertion_sort`: the element `val` at `i` goes to the
front when `comp(i, first)`, and is put in by `__unguarded_linear_insert` otherwise. The
elements before `i` are given from `i - 1` back to the front. -/
def insertion_step (comp : α → α → Bool) (before : List α) (val : α) : List α :=
  match before.getLast? with
  | none => [val]
  | some front =>
    if comp val front then before ++ [val]
    else unguarded_linear_insert comp val before

/-- The function `__insertion_sort(first, last, comp)` on the whole of a list. -/
def insertion_sort (comp : α → α → Bool) (a : List α) : List α :=
  (a.foldl (insertion_step comp) []).reverse

/-- The function `__unguarded_insertion_sort(first, last, comp)`: `sorted` are the
elements before `first`, `rest` those from `first` to `last`. -/
def unguarded_insertion_sort (comp : α → α → Bool) (sorted rest : List α) : List α :=
  (rest.foldl (fun before val => unguarded_linear_insert comp val before)
    sorted.reverse).reverse

/-- The function `__final_insertion_sort(first, last, comp)` on the whole of a list. -/
def final_insertion_sort (comp : α → α → Bool) (a : List α) : List α :=
  if a.length > 16 then
    unguarded_insertion_sort comp (insertion_sort comp (a.take 16)) (a.drop 16)
  else insertion_sort comp a

/-- The function `std::sort(first, last, comp)` on the whole of a list; `Nat.log2` is the
`std::__lg` of the library. -/
def sort (comp : α → α → Bool) (a : List α) : List α :=
  if a.length = 0 then a
  else final_insertion_sort comp (introsort_loop comp (Nat.log2 a.length * 2) a 0 a.length)

end CppLib

/-! ## Lecture 26, continued: `getNearbyDarkStores` with the `std::sort` of the library -/

namespace Zepto

/-- The comparison `[](auto &a, auto &b){ return a.first < b.first; }` that
`getNearbyDarkStores` hands to `std::sort`. -/
def byDistance (a b : ℚ × DarkStore) : Bool :=
  decide (a.1 < b.1)

/-- The call `sort(distList.begin(), distList.end(), ...)` of `getNearbyDarkStores`. -/
def stdSort (l : List (ℚ × DarkStore)) : List (ℚ × DarkStore) :=
  CppLib.sort byDistance l

/-- Seventeen stores at the same place, registered as Store1, Store2, and so on. -/
def seventeenStores : List DarkStore :=
  ["Store1", "Store2", "Store3", "Store4", "Store5", "Store6", "Store7", "Store8",
   "Store9", "Store10", "Store11", "Store12", "Store13", "Store14", "Store15", "Store16",
   "Store17"].map (fun name => ⟨name, 1, 0, []⟩)

end Zepto

/-! ## Theorems: the 32-bit `int` -/

namespace CppLib

/-- A result within the range of `int` is kept as it is. -/
theorem wrapInt_of_inRange (x : Int) (h : InIntRange x) : wrapInt x = x := by
  unfold InIntRange at h
  unfold wrapInt
  omega

/-- What an `int` holds is a value of `int`. -/
theorem wrapInt_inRange (x : Int) : InIntRange (wrapInt x) := by
  unfold InIntRange wrapInt
  omega

/-- Reducing a summand first does not change the reduced sum. -/
theorem wrapInt_add_wrapInt (a b : Int) : wrapInt (a + wrapInt b) = wrapInt (a + b) := by
  unfold wrapInt
  omega

/-- Reducing the running total first does not change the reduced sum. -/
theorem wrapInt_wrapInt_add (a b : Int) : wrapInt (wrapInt a + b) = wrapInt (a + b) := by
  unfold wrapInt
  omega

end CppLib

/-! ## Theorems: the vending machine -/

namespace Vending

open VendingState

/-- C1: every action that the specification lists as not valid in the current state
(NoCoin: selectItem, dispense, returnCoin; HasCoin: dispense, refill, and selectItem with
insertedCoins below the price; Dispensing: insertCoin, selectItem, returnCoin, refill;
SoldOut: insertCoin, selectItem, dispense, returnCoin) returns, for every payload, and
leaves the whole machine as it was, in particular currentState, itemCount and
insertedCoins; applying it twice therefore equals applying it once. -/
theorem invalid_action_is_noop (m : VendingMachine) (a : Action) (h : notValidIn m a) :
    (m.perform a).1 = m ∧
    (m.perform a).1.currentState = m.currentState ∧
    (m.perform a).1.itemCount = m.itemCount ∧
    (m.perform a).1.insertedCoins = m.insertedCoins ∧
    ((m.perform a).1.perform a).1 = (m.perform a).1 := by
  have key : (m.perform a).1 = m := by
    obtain ⟨s, n, p, c⟩ := m
    cases a <;> cases s <;>
      simp_all [notValidIn, VendingMachine.perform, VendingMachine.insertCoin,
        VendingMachine.selectItem, VendingMachine.dispense, VendingMachine.returnCoin,
        VendingMachine.refill, VendingMachine.commit, VendingState.insertCoin,
        VendingState.selectItem, VendingState.dispense, VendingState.returnCoin,
        VendingState.refill, NoCoinState.selectItem, NoCoinState.dispense,
        NoCoinState.returnCoin, HasCoinState.selectItem, HasCoinState.dispense,
        HasCoinState.refill, DispenseState.insertCoin, DispenseState.selectItem,
        DispenseState.returnCoin, DispenseState.refill, SoldOutState.insertCoin,
        SoldOutState.selectItem, SoldOutState.dispense, SoldOutState.returnCoin]
    have hlt : ¬ p ≤ c := not_le.mpr h
    simp [hlt]
  refine ⟨key, ?_, ?_, ?_, ?_⟩
  · rw [key]
  · rw [key]
  · rw [key]
  · rw [key, key]

/-- Scenario 8 of `main`: a coin inserted into the sold-out machine changes nothing. -/
theorem invalid_action_is_noop_witness :
    let m : VendingMachine := ⟨SoldOutState, 0, 20, 0⟩
    notValidIn m (Action.insertCoin 5) ∧ (m.perform (Action.insertCoin 5)).1 = m :=
  ⟨Or.inr rfl, (invalid_action_is_noop ⟨SoldOutState, 0, 20, 0⟩ (Action.insertCoin 5)
    (Or.inr rfl)).1⟩

/-- C4 as stated fails at the ends of the range of `int`: the machine constructed with
`itemCount = -2147483648` is sold out, and `refill(-1)` leaves it in NoCoin with
`itemCount = 2147483647`, which is not `-2147483648 + -1`. -/
theorem refill_leaves_int_range :
    (VendingMachine.new (-2147483648) 20).currentState = SoldOutState ∧
    ((VendingMachine.new (-2147483648) 20).refill (-1)).1.currentState = NoCoinState ∧
    ((VendingMachine.new (-2147483648) 20).refill (-1)).1.itemCount = 2147483647 ∧
    ((VendingMachine.new (-2147483648) 20).refill (-1)).1.itemCount
      ≠ (VendingMachine.new (-2147483648) 20).itemCount + -1 := by
  decide

/-- C4 amended: for every quantity n, refill(n) in the SoldOut state moves the machine to
NoCoin and leaves insertedCoins unchanged; itemCount becomes the `int` sum of itemCount
and n, which is itemCount + n whenever itemCount + n is within the range of `int`. -/
theorem refill_in_soldOut (m : VendingMachine) (n : Int)
    (hs : m.currentState = SoldOutState) :
    (m.refill n).1.currentState = NoCoinState ∧
    (m.refill n).1.itemCount = CppLib.wrapInt (m.itemCount + n) ∧
    (CppLib.InIntRange (m.itemCount + n) → (m.refill n).1.itemCount = m.itemCount + n) ∧
    (m.refill n).1.insertedCoins = m.insertedCoins := by
  obtain ⟨s, k, p, c⟩ := m
  simp only at hs
  subst hs
  refine ⟨rfl, rfl, fun h => ?_, rfl⟩
  exact CppLib.wrapInt_of_inRange _ h

/-- Scenario 9 of `main`: the sold-out machine is refilled with 2 items. -/
theorem refill_in_soldOut_witness :
    let m : VendingMachine := ⟨SoldOutState, 0, 20, 0⟩
    (m.refill 2).1.currentState = NoCoinState ∧ (m.refill 2).1.itemCount = 0 + 2 ∧
    (m.refill 2).1.insertedCoins = 0 :=
  have h := refill_in_soldOut ⟨SoldOutState, 0, 20, 0⟩ 2 rfl
  ⟨h.1, h.2.2.1 ⟨by decide, by decide⟩, h.2.2.2⟩

/-- C5 as stated fails when the balance leaves the range of `int`: after
`insertCoin(2147483647)` the machine of `main` is in HasCoin, and `insertCoin(1)` leaves
`insertedCoins = -2147483648`, which is not `2147483647 + 1`. -/
theorem insertCoin_leaves_int_range :
    ((VendingMachine.new 2 20).insertCoin 2147483647).1.currentState = HasCoinState ∧
    ((VendingMachine.new 2 20).insertCoin 2147483647).1.insertedCoins = 2147483647 ∧
    (((VendingMachine.new 2 20).insertCoin 2147483647).1.insertCoin 1).1.insertedCoins
      = -2147483648 ∧
    (((VendingMachine.new 2 20).insertCoin 2147483647).1.insertCoin 1).1.insertedCoins
      ≠ ((VendingMachine.new 2 20).insertCoin 2147483647).1.insertedCoins + 1 := by
  decide

/-- C5 amended: insertCoin(c) in NoCoin sets insertedCoins to c and moves to HasCoin;
insertCoin(c) in HasCoin stays in HasCoin and makes insertedCoins the `int` sum of
insertedCoins and c, which is insertedCoins + c whenever insertedCoins + c is within the
range of `int`; and on a machine with 2 items at price 20 the run insert 10, select,
insert 10, select, dispense passes through (HasCoin, balance 10), (HasCoin, balance 10,
refused), (HasCoin, balance 20), (Dispensing, balance 0, no change line, so change 0) and
ends in NoCoin with itemCount 1. -/
theorem insertCoin_and_demo_run :
    (∀ (m : VendingMachine) (c : Int), m.currentState = NoCoinState →
      (m.insertCoin c).1.currentState = HasCoinState ∧
      (m.insertCoin c).1.insertedCoins = c ∧
      (m.insertCoin c).1.itemCount = m.itemCount) ∧
    (∀ (m : VendingMachine) (c : Int), m.currentState = HasCoinState →
      (m.insertCoin c).1.currentState = HasCoinState ∧
      (m.insertCoin c).1.insertedCoins = CppLib.wrapInt (m.insertedCoins + c) ∧
      (CppLib.InIntRange (m.insertedCoins + c) →
        (m.insertCoin c).1.insertedCoins = m.insertedCoins + c) ∧
      (m.insertCoin c).1.itemCount = m.itemCount) ∧
    demoRun 2 20 =
      [(⟨HasCoinState, 2, 20, 10⟩, [Msg.coinInserted 10]),
       (⟨HasCoinState, 2, 20, 10⟩, [Msg.insufficientFunds 10]),
       (⟨HasCoinState, 2, 20, 20⟩, [Msg.additionalCoinInserted 20]),
       (⟨DispenseState, 2, 20, 0⟩, [Msg.itemSelected]),
       (⟨NoCoinState, 1, 20, 0⟩, [Msg.itemDispensed])] ∧
    (demoRun 2 20).map (fun r => changeReturned r.2) = [0, 0, 0, 0, 0] := by
  refine ⟨?_, ?_, by decide, by decide⟩
  · rintro ⟨s, n, p, k⟩ c hs
    simp only at hs
    subst hs
    simp [VendingMachine.insertCoin, VendingState.insertCoin, NoCoinState.insertCoin,
      VendingMachine.commit, VendingMachine.setInsertedCoin]
  · rintro ⟨s, n, p, k⟩ c hs
    simp only at hs
    subst hs
    refine ⟨rfl, rfl, fun h => ?_, rfl⟩
    exact CppLib.wrapInt_of_inRange _ h

/-- Scenarios 2 and 4 of `main`: the first coin sets the balance, the second adds to it. -/
theorem insertCoin_and_demo_run_witness :
    ((VendingMachine.new 2 20).insertCoin 10).1.insertedCoins = 10 ∧
    ((⟨HasCoinState, 2, 20, 10⟩ : VendingMachine).insertCoin 10).1.insertedCoins = 10 + 10 :=
  ⟨(insertCoin_and_demo_run.1 (VendingMachine.new 2 20) 10 rfl).2.1,
   (insertCoin_and_demo_run.2.1 ⟨HasCoinState, 2, 20, 10⟩ 10 rfl).2.2.1
     ⟨by decide, by decide⟩⟩

/-- C6: a machine constructed with itemCount > 0 starts in NoCoin and one constructed
with itemCount <= 0 starts in SoldOut, in both cases with insertedCoins = 0 (and with the
stock and the price it was given). -/
theorem constructor_initial_state (itemCount itemPrice : Int) :
    (itemCount > 0 → (VendingMachine.new itemCount itemPrice).currentState = NoCoinState) ∧
    (itemCount ≤ 0 → (VendingMachine.new itemCount itemPrice).currentState = SoldOutState) ∧
    (VendingMachine.new itemCount itemPrice).insertedCoins = 0 ∧
    (VendingMachine.new itemCount itemPrice).itemCount = itemCount ∧
    (VendingMachine.new itemCount itemPrice).itemPrice = itemPrice := by
  refine ⟨fun h => ?_, fun h => ?_, rfl, rfl, rfl⟩
  · simp [VendingMachine.new, h]
  · have h1 : ¬ itemCount > 0 := by omega
    simp [VendingMachine.new, h1]

/-- The machine of `main` (2 items) starts in NoCoin, an empty one in SoldOut. -/
theorem constructor_initial_state_witness :
    (VendingMachine.new 2 20).currentState = NoCoinState ∧
    (VendingMachine.new 0 20).currentState = SoldOutState :=
  ⟨(constructor_initial_state 2 20).1 (by decide),
   (constructor_initial_state 0 20).2.1 (by decide)⟩

/-- C7 as stated fails: `returnCoin` takes a machine in HasCoin to NoCoin, and the pair
HasCoin, NoCoin is not an edge of the graph the specification draws; so not every
state-changing action follows one of the listed edges. -/
theorem returnCoin_leaves_spec_graph :
    ((⟨HasCoinState, 2, 20, 10⟩ : VendingMachine).perform Action.returnCoin).1.currentState
      = NoCoinState ∧
    ¬ specEdge HasCoinState NoCoinState Action.returnCoin ∧
    ¬ ∀ (m : VendingMachine) (a : Action),
        (m.perform a).1.currentState ≠ m.currentState →
        specEdge m.currentState (m.perform a).1.currentState a := by
  refine ⟨rfl, fun h => h, fun h => ?_⟩
  exact h ⟨HasCoinState, 2, 20, 10⟩ Action.returnCoin (by decide)

/-- C7 amended: every single action that changes the current state follows one of the
edges NoCoin→HasCoin, HasCoin→Dispensing, HasCoin→NoCoin (only by returnCoin),
Dispensing→NoCoin, Dispensing→SoldOut, or SoldOut→NoCoin (only by refill); no action
takes the machine between any other pair of distinct states, and from SoldOut only refill
changes the state. -/
theorem transition_follows_code_graph (m : VendingMachine) (a : Action)
    (h : (m.perform a).1.currentState ≠ m.currentState) :
    codeEdge m.currentState (m.perform a).1.currentState a ∧
    (m.currentState = SoldOutState → ∃ n, a = Action.refill n) := by
  obtain ⟨s, n, p, c⟩ := m
  cases a <;> cases s <;>
    simp_all [codeEdge, VendingMachine.perform, VendingMachine.insertCoin,
      VendingMachine.selectItem, VendingMachine.dispense, VendingMachine.returnCoin,
      VendingMachine.refill, VendingMachine.commit, VendingState.insertCoin,
      VendingState.selectItem, VendingState.dispense, VendingState.returnCoin,
      VendingState.refill, NoCoinState.insertCoin, NoCoinState.selectItem,
      NoCoinState.dispense, NoCoinState.returnCoin, NoCoinState.refill,
      HasCoinState.insertCoin, HasCoinState.selectItem, HasCoinState.dispense,
      HasCoinState.returnCoin, HasCoinState.refill, DispenseState.insertCoin,
      DispenseState.selectItem, DispenseState.dispense, DispenseState.returnCoin,
      DispenseState.refill, SoldOutState.insertCoin, SoldOutState.selectItem,
      SoldOutState.dispense, SoldOutState.returnCoin, SoldOutState.refill]
  all_goals split_ifs at h ⊢ <;> simp_all [codeEdge]

/-- The coin return of a machine in HasCoin follows the edge HasCoin→NoCoin. -/
theorem transition_follows_code_graph_witness :
    codeEdge HasCoinState NoCoinState Action.returnCoin :=
  (transition_follows_code_graph ⟨HasCoinState, 2, 20, 10⟩ Action.returnCoin
    (by decide)).1

end Vending

/-! ## Theorems: the cash dispenser chain -/

namespace COR

/-- A request whose truncated quotient is positive is itself non-negative, so the
truncated quotient is the floor quotient. -/
theorem tdiv_eq_ediv_of_pos {a d : Int} (hd : 0 < d) (hq : 0 < Int.tdiv a d) :
    0 ≤ a ∧ Int.tdiv a d = a / d := by
  have ha : 0 ≤ a := by
    by_contra hneg
    have h1 : 0 ≤ Int.tdiv (-a) d := Int.tdiv_nonneg (by omega) (le_of_lt hd)
    rw [Int.neg_tdiv] at h1
    omega
  exact ⟨ha, Int.tdiv_eq_ediv ha (le_of_lt hd)⟩

theorem denomination_pos (h : MoneyHandler) : 0 < h.denomination := by
  cases h <;> simp [MoneyHandler.denomination]

/-- C8: on the chain [1000, 500, 200, 100], for every amount that is a positive multiple
of 1000 with amount/1000 not exceeding the 1000-note stock, dispense(amount) prints the
single line for amount/1000 notes of 1000, so it issues exactly amount/1000 notes of 1000
and no note of 500, 200 or 100, it reduces only the 1000-note stock, by amount/1000, and
it reports no unfulfilled remainder. -/
theorem dispense_multiple_of_thousand (amount n1000 n500 n200 n100 : Int)
    (hpos : amount > 0) (hmul : amount % 1000 = 0) (hstock : amount / 1000 ≤ n1000) :
    dispense (chain n1000 n500 n200 n100) amount =
      (chain (n1000 - amount / 1000) n500 n200 n100,
       [Msg.dispensing (amount / 1000) 1000]) ∧
    issued 1000 (dispense (chain n1000 n500 n200 n100) amount).2 = amount / 1000 ∧
    issued 500 (dispense (chain n1000 n500 n200 n100) amount).2 = 0 ∧
    issued 200 (dispense (chain n1000 n500 n200 n100) amount).2 = 0 ∧
    issued 100 (dispense (chain n1000 n500 n200 n100) amount).2 = 0 ∧
    unfulfilled (dispense (chain n1000 n500 n200 n100) amount).2 = [] := by
  have hq : Int.tdiv amount 1000 = amount / 1000 :=
    Int.tdiv_eq_ediv (le_of_lt hpos) (by norm_num)
  have h1 : ¬ amount / 1000 > n1000 := by omega
  have h2 : amount / 1000 > 0 := by omega
  have h3 : ¬ amount - amount / 1000 * 1000 > 0 := by omega
  have key : dispense (chain n1000 n500 n200 n100) amount =
      (chain (n1000 - amount / 1000) n500 n200 n100,
       [Msg.dispensing (amount / 1000) 1000]) := by
    simp only [chain, dispense, MoneyHandler.denomination, MoneyHandler.numNotes, hq, h1,
      h2, h3, if_true, if_false, MoneyHandler.setNumNotes]
  rw [key]
  simp [issued, unfulfilled]

/-- The request of `main`, 4000, against a stock of five 1000-notes: 4 x 1000. -/
theorem dispense_multiple_of_thousand_witness :
    dispense (chain 5 5 10 20) 4000 =
      (chain (5 - 4000 / 1000) 5 10 20, [Msg.dispensing (4000 / 1000) 1000]) :=
  (dispense_multiple_of_thousand 4000 5 5 10 20 (by decide) (by decide) (by decide)).1

/-- C9: when the stock k of a handler that has a next handler is less than amount divided
by its denomination, the handler issues exactly k notes, empties its stock and forwards
amount - denomination * k to the next handler, whose result is appended unchanged (the
handler is not visited again); this is the rule of the 1000 handler towards the 500
handler, of the 500 handler towards the 200 handler and of the 200 handler towards the
100 handler, in the strictly descending order 1000, 500, 200, 100 of the chain of `main`.
With stocks (3, 5, 10, 20) and amount 4000 the result is exactly 3 x 1000 and 2 x 500. -/
theorem dispense_forwards_remainder (h n : MoneyHandler) (ns : List MoneyHandler)
    (amount : Int) (hk0 : 0 ≤ h.numNotes)
    (hk : h.numNotes < Int.tdiv amount h.denomination) :
    dispense (h :: n :: ns) amount =
      (h.setNumNotes 0 :: (dispense (n :: ns) (amount - h.numNotes * h.denomination)).1,
       (if h.numNotes > 0 then [Msg.dispensing h.numNotes h.denomination] else []) ++
         (dispense (n :: ns) (amount - h.numNotes * h.denomination)).2) ∧
    issued h.denomination
      (if h.numNotes > 0 then [Msg.dispensing h.numNotes h.denomination] else [])
      = h.numNotes ∧
    (∀ a b c d : Int, (chain a b c d).map MoneyHandler.denomination = [1000, 500, 200, 100]) ∧
    dispense (chain 3 5 10 20) 4000 =
      (chain 0 3 10 20, [Msg.dispensing 3 1000, Msg.dispensing 2 500]) := by
  have hd := denomination_pos h
  obtain ⟨ha, hq⟩ := tdiv_eq_ediv_of_pos hd (lt_of_le_of_lt hk0 hk)
  have hrem : amount - h.numNotes * h.denomination > 0 := by
    have h1 : h.numNotes + 1 ≤ amount / h.denomination := by omega
    have h2 : (h.numNotes + 1) * h.denomination ≤ amount / h.denomination * h.denomination :=
      Int.mul_le_mul_of_nonneg_right h1 (le_of_lt hd)
    have h3 : amount / h.denomination * h.denomination ≤ amount :=
      Int.ediv_mul_le amount (ne_of_gt hd)
    have h4 : (h.numNotes + 1) * h.denomination
        = h.numNotes * h.denomination + h.denomination := by ring
    omega
  refine ⟨?_, ?_, fun a b c d => rfl, by decide⟩
  · have hgt : Int.tdiv amount h.denomination > h.numNotes := hk
    simp only [dispense, hgt, if_true, hrem]
  · by_cases hp : h.numNotes > 0
    · simp [hp, issued]
    · simp only [hp, if_false, issued]
      omega

/-- The run of `main`: three 1000-notes in stock for a request of 4000, so the 1000
handler hands 1000 to the 500 handler. -/
theorem dispense_forwards_remainder_witness :
    dispense (chain 3 5 10 20) 4000 =
      (MoneyHandler.ThousandHandler 0 ::
        (dispense [MoneyHandler.FiveHundredHandler 5, MoneyHandler.TwoHundredHandler 10,
          MoneyHandler.HundredHandler 20] (4000 - 3 * 1000)).1,
       [Msg.dispensing 3 1000] ++
        (dispense [MoneyHandler.FiveHundredHandler 5, MoneyHandler.TwoHundredHandler 10,
          MoneyHandler.HundredHandler 20] (4000 - 3 * 1000)).2) :=
  (dispense_forwards_remainder (MoneyHandler.ThousandHandler 3)
    (MoneyHandler.FiveHundredHandler 5)
    [MoneyHandler.TwoHundredHandler 10, MoneyHandler.HundredHandler 20] 4000
    (by decide) (by decide)).1

end COR

/-! ## Theorems: debt simplification -/

namespace Splitwise

/-- The number of entries of one row whose amount satisfies `p`. -/
theorem entriesWhere_length (p : ℚ → Bool) (balances : Balances) :
    (entriesWhere p balances).length
      = (balances.map (fun row => (row.2.filter (fun b => p b.2)).length)).sum := by
  induction balances with
  | nil => rfl
  | cons row rest ih =>
    have h : entriesWhere p (row :: rest)
        = (row.2.filter (fun b => p b.2)).map (fun b => (row.1, b.1, b.2))
          ++ entriesWhere p rest := by
      simp [entriesWhere]
    rw [h, List.length_append, List.length_map, ih]
    simp

/-- Assigning one entry of a row adds at most one entry that satisfies `p`, and none when
the assigned amount does not satisfy `p`. -/
theorem filter_set_length_le (p : ℚ → Bool) (row : StdMap ℚ) (key : String) (v : ℚ) :
    ((StdMap.set row key v).filter (fun b => p b.2)).length
      ≤ (row.filter (fun b => p b.2)).length + (if p v then 1 else 0) := by
  induction row with
  | nil =>
    by_cases hp : p v <;> simp [StdMap.set, hp]
  | cons e rest ih =>
    obtain ⟨k, w⟩ := e
    by_cases h1 : key.data < k.data
    · by_cases hp : p v <;> simp [StdMap.set, h1, hp]
    · by_cases h2 : key = k
      · by_cases hp : p v <;> by_cases hw : p w <;>
          simp [StdMap.set, h1, h2, hp, hw]
      · by_cases hw : p w
        · simp only [StdMap.set, h1, h2, if_false, List.filter_cons, hw, if_true,
            List.length_cons]
          omega
        · simp only [StdMap.set, h1, h2, if_false, List.filter_cons, hw]
          exact ih

/-- Replacing the row of `key` exchanges the count of the old row for that of the new. -/
theorem rows_set_sum (p : ℚ → Bool) (balances : Balances) (key : String)
    (row : StdMap ℚ) :
    ((StdMap.set balances key row).map (fun r => (r.2.filter (fun b => p b.2)).length)).sum
      + ((StdMap.getD balances key []).filter (fun b => p b.2)).length
      = (balances.map (fun r => (r.2.filter (fun b => p b.2)).length)).sum
        + (row.filter (fun b => p b.2)).length := by
  induction balances with
  | nil => simp [StdMap.set, StdMap.getD, StdMap.find]
  | cons e rest ih =>
    obtain ⟨k, w⟩ := e
    by_cases h1 : key.data < k.data
    · simp [StdMap.set, StdMap.getD, StdMap.find, h1]
      omega
    · by_cases h2 : key = k
      · simp [StdMap.set, StdMap.getD, StdMap.find, h1, h2]
        omega
      · have ih' := ih
        simp only [StdMap.getD] at ih'
        simp only [StdMap.set, StdMap.getD, StdMap.find, h1, h2, if_false, List.map_cons,
          List.sum_cons]
        omega

/-- One assignment `balances[a][b] = v` adds at most one entry that satisfies `p`, and
none when `v` does not satisfy `p`. -/
theorem entriesWhere_assign_le (p : ℚ → Bool) (balances : Balances) (a b : String)
    (v : ℚ) :
    (entriesWhere p (Balances.assign balances a b v)).length
      ≤ (entriesWhere p balances).length + (if p v then 1 else 0) := by
  have h1 := rows_set_sum p balances a (StdMap.set (StdMap.getD balances a []) b v)
  have h2 := filter_set_length_le p (StdMap.getD balances a []) b v
  rw [entriesWhere_length, entriesWhere_length]
  simp only [Balances.assign]
  omega

/-- One round of the loop, which assigns `s` and `-s`, adds at most one entry that
satisfies `p` when `p` never holds of an amount and of its negation together. -/
theorem entriesWhere_round_le (p : ℚ → Bool) (hp : ∀ s : ℚ, ¬ (p s = true ∧ p (-s) = true))
    (balances : Balances) (c d : String) (s : ℚ) :
    (entriesWhere p (Balances.assign (Balances.assign balances c d s) d c (-s))).length
      ≤ (entriesWhere p balances).length + 1 := by
  have h1 := entriesWhere_assign_le p balances c d s
  have h2 := entriesWhere_assign_le p (Balances.assign balances c d s) d c (-s)
  have h3 := hp s
  by_cases ha : p s = true <;> by_cases hb : p (-s) = true
  · exact absurd ⟨ha, hb⟩ h3
  · simp only [ha, hb, if_true] at h1 h2
    simp at h2
    omega
  · simp only [ha, hb, if_true] at h1 h2
    simp at h1
    omega
  · simp only [ha, hb] at h1 h2
    simp at h1 h2
    omega

namespace DebtSimplifier

/-- The loop does nothing when one of the two vectors is exhausted. -/
theorem settleLoop_done (cs ds : List (String × ℚ)) (sb : Balances)
    (h : cs = [] ∨ ds = []) : settleLoop cs ds sb = sb := by
  rcases h with h | h
  · subst h
    rw [settleLoop]
    intro _ _ _ _ _ _ h1 _
    exact List.noConfusion h1
  · subst h
    rw [settleLoop]
    intro _ _ _ _ _ _ _ h2
    exact List.noConfusion h2

/-- The loop runs at most `creditors + debtors - 1` rounds, each of which adds at most
one entry that satisfies `p`. -/
theorem settleLoop_entries_le (p : ℚ → Bool)
    (hp : ∀ s : ℚ, ¬ (p s = true ∧ p (-s) = true)) :
    ∀ (n : Nat) (cs ds : List (String × ℚ)) (sb : Balances),
      cs.length + ds.length ≤ n → cs ≠ [] → ds ≠ [] →
      (entriesWhere p (settleLoop cs ds sb)).length + 1
        ≤ (entriesWhere p sb).length + cs.length + ds.length := by
  intro n
  induction n with
  | zero =>
    intro cs ds sb hn hcs _
    cases cs with
    | nil => exact absurd rfl hcs
    | cons c cs => simp at hn
  | succ n ih =>
    intro cs ds sb hn hcs hds
    obtain ⟨⟨cid, camt⟩, cs', rfl⟩ := List.exists_cons_of_ne_nil hcs
    obtain ⟨⟨did, damt⟩, ds', rfl⟩ := List.exists_cons_of_ne_nil hds
    have hround := entriesWhere_round_le p hp sb cid did (min camt damt)
    simp only [List.length_cons] at hn ⊢
    -- the bound for a recursive call on shorter vectors
    have hrec : ∀ (xs ys : List (String × ℚ)) (sb2 : Balances),
        xs.length + ys.length ≤ n →
        (entriesWhere p sb2).length ≤ (entriesWhere p sb).length + 1 →
        xs.length + ys.length + 1 ≤ cs'.length + 1 + (ds'.length + 1) →
        (entriesWhere p (settleLoop xs ys sb2)).length + 1
          ≤ (entriesWhere p sb).length + (cs'.length + 1) + (ds'.length + 1) := by
      intro xs ys sb2 hlen hsb2 hshort
      by_cases hx : xs = []
      · rw [settleLoop_done xs ys sb2 (Or.inl hx)]
        omega
      · by_cases hy : ys = []
        · rw [settleLoop_done xs ys sb2 (Or.inr hy)]
          omega
        · have := ih xs ys sb2 hlen hx hy
          omega
    rw [settleLoop]
    split_ifs with h1 h2 h2
    · exact hrec _ _ _ (by omega) hround (by omega)
    · exact hrec _ _ _ (by simp only [List.length_cons]; omega) hround
        (by simp only [List.length_cons]; omega)
    · exact hrec _ _ _ (by simp only [List.length_cons]; omega) hround
        (by simp only [List.length_cons]; omega)
    · exfalso
      rcases le_total camt damt with h | h
      · rw [min_eq_left h, sub_self] at h1
        exact h1 (by norm_num)
      · rw [min_eq_right h, sub_self] at h2
        exact h2 (by norm_num)

/-- The map with an empty row for every user has no entry. -/
theorem emptyRows_entries (p : ℚ → Bool) (groupBalances : Balances) :
    ∀ sb : Balances, (entriesWhere p sb).length = 0 →
      (entriesWhere p (groupBalances.foldl (fun sb userBalance =>
        StdMap.set sb userBalance.1 []) sb)).length = 0 := by
  induction groupBalances with
  | nil => intro sb h; exact h
  | cons e rest ih =>
    intro sb h
    rw [List.foldl_cons]
    apply ih
    have h1 := rows_set_sum p sb e.1 []
    rw [entriesWhere_length] at h ⊢
    simp only [List.filter_nil, List.length_nil] at h1
    omega

/-- The simplified map holds at most `creditors + debtors - 1` entries that satisfy `p`. -/
theorem simplifyDebts_entries_le (p : ℚ → Bool)
    (hp : ∀ s : ℚ, ¬ (p s = true ∧ p (-s) = true)) (groupBalances : Balances)
    (hc : 1 ≤ (creditors (netAmounts groupBalances)).length)
    (hd : 1 ≤ (debtors (netAmounts groupBalances)).length) :
    (entriesWhere p (simplifyDebts groupBalances)).length + 1
      ≤ (creditors (netAmounts groupBalances)).length
        + (debtors (netAmounts groupBalances)).length := by
  have h0 := emptyRows_entries p groupBalances [] rfl
  have hlc : (sortLargestFirst (creditors (netAmounts groupBalances))).length
      = (creditors (netAmounts groupBalances)).length := List.length_insertionSort _ _
  have hld : (sortLargestFirst (debtors (netAmounts groupBalances))).length
      = (debtors (netAmounts groupBalances)).length := List.length_insertionSort _ _
  have hcs : sortLargestFirst (creditors (netAmounts groupBalances)) ≠ [] := by
    intro h; rw [h] at hlc; simp at hlc; omega
  have hds : sortLargestFirst (debtors (netAmounts groupBalances)) ≠ [] := by
    intro h; rw [h] at hld; simp at hld; omega
  have := settleLoop_entries_le p hp _ _ _
    (groupBalances.foldl (fun sb userBalance => StdMap.set sb userBalance.1 []) [])
    (le_refl _) hcs hds
  simp only [simplifyDebts]
  omega

set_option maxRecDepth 100000 in
/-- C10: for every group balance map that yields c >= 1 creditors and d >= 1 debtors,
the simplified map records at most c + d - 1 settlements, that is entries with a positive
amount ("debtor owes creditor"), and as many mirrored negative entries at most; the
bound needs neither the antisymmetry of the input nor equal totals. The group of `main`
has the balances `demoBalances`, with 2 creditors and 2 debtors, and ends with exactly 2
settlements: user4 owes user1 400 and user2 owes user3 200. -/
theorem simplifyDebts_settlement_bound (groupBalances : Balances)
    (hc : 1 ≤ (creditors (netAmounts groupBalances)).length)
    (hd : 1 ≤ (debtors (netAmounts groupBalances)).length) :
    (settlements (simplifyDebts groupBalances)).length + 1
      ≤ (creditors (netAmounts groupBalances)).length
        + (debtors (netAmounts groupBalances)).length ∧
    (mirrored (simplifyDebts groupBalances)).length + 1
      ≤ (creditors (netAmounts groupBalances)).length
        + (debtors (netAmounts groupBalances)).length ∧
    demoGroup.toOption.map (fun g => g.groupBalances) = some demoBalances ∧
    (creditors (netAmounts demoBalances)).length = 2 ∧
    (debtors (netAmounts demoBalances)).length = 2 ∧
    settlements (simplifyDebts demoBalances)
      = [("user1", "user4", 400), ("user3", "user2", 200)] ∧
    mirrored (simplifyDebts demoBalances)
      = [("user2", "user3", -200), ("user4", "user1", -400)] := by
  refine ⟨?_, ?_, ?_, ?_, ?_, ?_, ?_⟩
  · exact simplifyDebts_entries_le _ (fun s h => by
      simp only [decide_eq_true_eq] at h
      linarith [h.1, h.2]) groupBalances hc hd
  · exact simplifyDebts_entries_le _ (fun s h => by
      simp only [decide_eq_true_eq] at h
      linarith [h.1, h.2]) groupBalances hc hd
  · with_unfolding_all decide
  · with_unfolding_all decide
  · with_unfolding_all decide
  · with_unfolding_all decide
  · with_unfolding_all decide

/-- The group of `main`: 2 creditors, 2 debtors, so at most 3 settlements. -/
theorem simplifyDebts_settlement_bound_witness :
    1 ≤ (creditors (netAmounts demoBalances)).length ∧
    1 ≤ (debtors (netAmounts demoBalances)).length ∧
    (settlements (simplifyDebts demoBalances)).length + 1
      ≤ (creditors (netAmounts demoBalances)).length
        + (debtors (netAmounts demoBalances)).length :=
  ⟨by with_unfolding_all decide, by with_unfolding_all decide,
   (simplifyDebts_settlement_bound demoBalances (by with_unfolding_all decide)
     (by with_unfolding_all decide)).1⟩

end DebtSimplifier

end Splitwise

/-! ## Theorems: the nearby dark stores -/

namespace Zepto

/-- Every entry of `distList` pairs a store within reach with its distance. -/
theorem mem_distList {sqrt : ℚ → ℚ} {darkStores : List DarkStore} {ux uy maxDistance : ℚ}
    {p : ℚ × DarkStore} (hp : p ∈ distList sqrt darkStores ux uy maxDistance) :
    p.1 = p.2.distanceTo sqrt ux uy ∧ p.2 ∈ darkStores ∧ p.1 ≤ maxDistance := by
  simp only [distList, List.mem_filterMap] at hp
  obtain ⟨ds, hds, h⟩ := hp
  by_cases hd : ds.distanceTo sqrt ux uy ≤ maxDistance
  · simp only [hd, if_true, Option.some.injEq] at h
    subst h
    exact ⟨rfl, hds, hd⟩
  · simp [hd] at h

/-- The stores of `distList` are the registered stores within reach, in registration
order. -/
theorem distList_map_snd (sqrt : ℚ → ℚ) (darkStores : List DarkStore)
    (ux uy maxDistance : ℚ) :
    (distList sqrt darkStores ux uy maxDistance).map (fun p => p.2)
      = darkStores.filter (fun ds => decide (ds.distanceTo sqrt ux uy ≤ maxDistance)) := by
  induction darkStores with
  | nil => rfl
  | cons ds rest ih =>
    simp only [distList] at ih
    by_cases hd : ds.distanceTo sqrt ux uy ≤ maxDistance
    · simp [distList, List.filterMap_cons, hd, ih]
    · simp [distList, List.filterMap_cons, hd, ih]

/-- The result of a conforming sort lists the stores by non-decreasing distance. -/
theorem sorted_by_distance (sqrt : ℚ → ℚ)
    {sort : List (ℚ × DarkStore) → List (ℚ × DarkStore)} (hs : IsStdSort sort)
    (darkStores : List DarkStore) (ux uy maxDistance : ℚ) :
    (getNearbyDarkStores sqrt sort darkStores ux uy maxDistance).Pairwise
      (fun a b => a.distanceTo sqrt ux uy ≤ b.distanceTo sqrt ux uy) := by
  obtain ⟨hperm, hsorted⟩ := hs (distList sqrt darkStores ux uy maxDistance)
  simp only [getNearbyDarkStores, List.pairwise_map]
  refine hsorted.imp_of_mem ?_
  intro a b ha hb hab
  rw [← (mem_distList (hperm.mem_iff.mp ha)).1, ← (mem_distList (hperm.mem_iff.mp hb)).1]
  exact not_lt.mp hab

/-- C12: for every rounding `sqrt` and every sort that conforms to the C++ standard,
`getNearbyDarkStores(ux, uy, maxDistance)` returns exactly the registered stores whose
distance to (ux, uy) is at most maxDistance, each as often as it is registered (a
permutation of the filtered registration list), ordered by non-decreasing distance, so
its first element is a closest store; for the stores of `initialize` and the user at
(1, 1), whose squared distances are 2, 9 and 5, the order is DarkStoreA, DarkStoreC,
DarkStoreB as soon as `sqrt 2 < sqrt 5 < sqrt 9 <= 5`, as holds of the square root. -/
theorem getNearbyDarkStores_spec (sqrt : ℚ → ℚ)
    (sort : List (ℚ × DarkStore) → List (ℚ × DarkStore)) (hs : IsStdSort sort)
    (darkStores : List DarkStore) (ux uy maxDistance : ℚ) :
    (getNearbyDarkStores sqrt sort darkStores ux uy maxDistance).Perm
      (darkStores.filter (fun ds => decide (ds.distanceTo sqrt ux uy ≤ maxDistance))) ∧
    (getNearbyDarkStores sqrt sort darkStores ux uy maxDistance).Pairwise
      (fun a b => a.distanceTo sqrt ux uy ≤ b.distanceTo sqrt ux uy) ∧
    (∀ first ∈ (getNearbyDarkStores sqrt sort darkStores ux uy maxDistance).head?,
      ∀ ds ∈ getNearbyDarkStores sqrt sort darkStores ux uy maxDistance,
        first.distanceTo sqrt ux uy ≤ ds.distanceTo sqrt ux uy) ∧
    (sqrt 2 < sqrt 5 → sqrt 5 < sqrt 9 → sqrt 9 ≤ 5 →
      getNearbyDarkStores sqrt sort demoStores 1 1 5
        = [darkStoreA, darkStoreC, darkStoreB]) := by
  have hsorted := sorted_by_distance sqrt hs darkStores ux uy maxDistance
  refine ⟨?_, hsorted, ?_, ?_⟩
  · have h := ((hs (distList sqrt darkStores ux uy maxDistance)).1).map (fun p => p.2)
    rw [distList_map_snd] at h
    exact h
  · intro first hfirst ds hds
    cases hres : getNearbyDarkStores sqrt sort darkStores ux uy maxDistance with
    | nil => rw [hres] at hds; cases hds
    | cons x xs =>
      rw [hres] at hfirst hds hsorted
      simp only [List.head?_cons, Option.mem_def, Option.some.injEq] at hfirst
      subst hfirst
      rcases List.mem_cons.mp hds with h | h
      · rw [h]
      · exact List.rel_of_pairwise_cons hsorted h
  · intro h25 h59 h9
    have hl : distList sqrt demoStores 1 1 5
        = [(sqrt 2, darkStoreA), (sqrt 9, darkStoreB), (sqrt 5, darkStoreC)] := by
      have hA : darkStoreA.distanceTo sqrt 1 1 = sqrt 2 := by
        simp only [DarkStore.distanceTo, darkStoreA]; norm_num
      have hB : darkStoreB.distanceTo sqrt 1 1 = sqrt 9 := by
        simp only [DarkStore.distanceTo, darkStoreB]; norm_num
      have hC : darkStoreC.distanceTo sqrt 1 1 = sqrt 5 := by
        simp only [DarkStore.distanceTo, darkStoreC]; norm_num
      have h2 : sqrt 2 ≤ 5 := by linarith
      have h5 : sqrt 5 ≤ 5 := by linarith
      simp [distList, demoStores, hA, hB, hC, h2, h5, h9]
    obtain ⟨hperm, hsort⟩ := hs (distList sqrt demoStores 1 1 5)
    rw [hl] at hperm hsort
    -- the keys are distinct, so the sorted arrangement is strictly increasing
    have hnodup : ((sort [(sqrt 2, darkStoreA), (sqrt 9, darkStoreB),
        (sqrt 5, darkStoreC)]).map (fun p => p.1)).Nodup := by
      refine ((hperm.map (fun p => p.1)).nodup_iff).mpr ?_
      simp only [List.map_cons, List.map_nil, List.nodup_cons, List.mem_cons,
        List.mem_singleton, List.not_mem_nil, not_false_eq_true, List.nodup_nil, and_true,
        not_or]
      exact ⟨⟨by linarith, ne_of_lt h25⟩, ne_of_gt h59⟩
    have hstrict : (sort [(sqrt 2, darkStoreA), (sqrt 9, darkStoreB),
        (sqrt 5, darkStoreC)]).Pairwise (fun a b => a.1 < b.1) := by
      have h1 := (List.pairwise_map.mp hnodup).and hsort
      exact h1.imp (fun h => lt_of_le_of_ne (not_lt.mp h.2) h.1)
    have htarget : ([(sqrt 2, darkStoreA), (sqrt 5, darkStoreC),
        (sqrt 9, darkStoreB)] : List (ℚ × DarkStore)).Pairwise (fun a b => a.1 < b.1) := by
      simp only [List.pairwise_cons, List.mem_cons, List.mem_singleton, List.not_mem_nil,
        forall_eq_or_imp, forall_eq, false_imp_iff, implies_true, and_true,
        List.Pairwise.nil]
      exact ⟨⟨h25, by linarith⟩, h59⟩
    haveI : IsAntisymm (ℚ × DarkStore) (fun a b => a.1 < b.1) :=
      ⟨fun a b h1 h2 => absurd h2 (not_lt_of_lt h1)⟩
    have hperm2 : (sort [(sqrt 2, darkStoreA), (sqrt 9, darkStoreB),
        (sqrt 5, darkStoreC)]).Perm
        [(sqrt 2, darkStoreA), (sqrt 5, darkStoreC), (sqrt 9, darkStoreB)] :=
      hperm.trans ((List.Perm.swap _ _ _).cons _)
    have heq := List.eq_of_perm_of_sorted hperm2 hstrict htarget
    simp only [getNearbyDarkStores, hl, heq, List.map_cons, List.map_nil]

/-- The stable insertion sort conforms to the promise of `std::sort`. -/
theorem stableSort_isStdSort : IsStdSort stableSort := by
  intro l
  haveI : IsTotal (ℚ × DarkStore) (fun a b => a.1 ≤ b.1) := ⟨fun a b => le_total a.1 b.1⟩
  haveI : IsTrans (ℚ × DarkStore) (fun a b => a.1 ≤ b.1) :=
    ⟨fun a b c h1 h2 => le_trans h1 h2⟩
  refine ⟨List.perm_insertionSort _ l, ?_⟩
  have h := List.sorted_insertionSort (fun a b : ℚ × DarkStore => a.1 ≤ b.1) l
  exact h.imp (fun h => not_lt.mpr h)

/-- The run of `main` with a conforming sort and the rounded square roots 1.41, 2.24 and
3 of 2, 5 and 9: the order is DarkStoreA, DarkStoreC, DarkStoreB. -/
theorem getNearbyDarkStores_spec_witness :
    getNearbyDarkStores roundedSqrt stableSort demoStores 1 1 5
      = [darkStoreA, darkStoreC, darkStoreB] :=
  (getNearbyDarkStores_spec roundedSqrt stableSort stableSort_isStdSort demoStores
    1 1 5).2.2.2 (by norm_num [roundedSqrt]) (by norm_num [roundedSqrt])
    (by norm_num [roundedSqrt])

end Zepto

/-! ## Theorems: the insertion sort of `std::sort` keeps equal keys in order -/

namespace CppLib

variable {α : Type}

/-- Putting a value in by `__unguarded_linear_insert` keeps the elements in descending
order from the back to the front. -/
theorem unguarded_linear_insert_sorted (comp : α → α → Bool) (key : α → ℚ)
    (hcomp : ∀ a b, comp a b = true ↔ key a < key b) (val : α) :
    ∀ before : List α, before.Pairwise (fun x y => key y ≤ key x) →
      (unguarded_linear_insert comp val before).Pairwise (fun x y => key y ≤ key x) ∧
      (∀ x ∈ unguarded_linear_insert comp val before, x = val ∨ x ∈ before) := by
  intro before
  induction before with
  | nil =>
    intro _
    simp [unguarded_linear_insert]
  | cons next rest ih =>
    intro hs
    rw [List.pairwise_cons] at hs
    obtain ⟨i1, i2⟩ := ih hs.2
    simp only [unguarded_linear_insert]
    by_cases hc : comp val next = true
    · rw [if_pos hc]
      have hlt := (hcomp val next).1 hc
      refine ⟨List.pairwise_cons.2 ⟨?_, i1⟩, ?_⟩
      · intro x hx
        rcases i2 x hx with h | h
        · rw [h]; exact le_of_lt hlt
        · exact hs.1 x h
      · intro x hx
        rcases List.mem_cons.1 hx with h | h
        · exact Or.inr (by rw [h]; exact List.mem_cons_self _ _)
        · rcases i2 x h with h1 | h1
          · exact Or.inl h1
          · exact Or.inr (List.mem_cons_of_mem _ h1)
    · rw [if_neg hc]
      have hge : key next ≤ key val := by
        by_contra hlt
        exact hc ((hcomp val next).2 (not_le.1 hlt))
      refine ⟨List.pairwise_cons.2 ⟨?_, List.pairwise_cons.2 hs⟩, ?_⟩
      · intro x hx
        rcases List.mem_cons.1 hx with h | h
        · rw [h]; exact hge
        · exact le_trans (hs.1 x h) hge
      · intro x hx
        rcases List.mem_cons.1 hx with h | h
        · exact Or.inl h
        · exact Or.inr h

/-- Putting a value in by `__unguarded_linear_insert` does not change the order of the
elements of one key. -/
theorem unguarded_linear_insert_filter (comp : α → α → Bool) (key : α → ℚ)
    (hcomp : ∀ a b, comp a b = true ↔ key a < key b) (val : α) (k : ℚ) :
    ∀ before : List α,
      (unguarded_linear_insert comp val before).filter (fun x => decide (key x = k))
        = (val :: before).filter (fun x => decide (key x = k)) := by
  intro before
  induction before with
  | nil => simp [unguarded_linear_insert]
  | cons next rest ih =>
    simp only [unguarded_linear_insert]
    by_cases hc : comp val next = true
    · rw [if_pos hc]
      have hlt := (hcomp val next).1 hc
      rw [List.filter_cons, ih]
      by_cases hn : key next = k
      · have hv : ¬ key val = k := fun h => by rw [h, hn] at hlt; exact lt_irrefl _ hlt
        simp [List.filter_cons, hn, hv]
      · simp [List.filter_cons, hn]
    · rw [if_neg hc]

/-- One round of `__insertion_sort` keeps the descending order from the back to the
front and the order of the elements of one key. -/
theorem insertion_step_spec (comp : α → α → Bool) (key : α → ℚ)
    (hcomp : ∀ a b, comp a b = true ↔ key a < key b) (val : α) (before : List α)
    (hs : before.Pairwise (fun x y => key y ≤ key x)) :
    (insertion_step comp before val).Pairwise (fun x y => key y ≤ key x) ∧
    ∀ k : ℚ, (insertion_step comp before val).filter (fun x => decide (key x = k))
        = (val :: before).filter (fun x => decide (key x = k)) := by
  unfold insertion_step
  cases hl : before.getLast? with
  | none =>
    have hnil : before = [] := List.getLast?_eq_none_iff.1 hl
    subst hnil
    simp
  | some front =>
    simp only
    have hmem : front ∈ before := List.mem_of_getLast?_eq_some hl
    have hmin : ∀ x ∈ before, key front ≤ key x := by
      intro x hx
      obtain ⟨init, hinit⟩ : ∃ init, before = init ++ [front] := by
        have hne : before ≠ [] := List.ne_nil_of_mem hmem
        refine ⟨before.dropLast, ?_⟩
        have h1 := List.dropLast_append_getLast hne
        have h2 : before.getLast hne = front := by
          have := List.getLast?_eq_getLast before hne
          rw [this] at hl
          exact Option.some.inj hl
        rw [h2] at h1
        exact h1.symm
      rw [hinit] at hx hs
      rcases List.mem_append.1 hx with h | h
      · exact (List.pairwise_append.1 hs).2.2 x h front (List.mem_singleton.2 rfl)
      · rw [List.mem_singleton.1 h]
    by_cases hc : comp val front = true
    · rw [if_pos hc]
      have hlt := (hcomp val front).1 hc
      refine ⟨?_, ?_⟩
      · rw [List.pairwise_append]
        refine ⟨hs, List.pairwise_singleton _ _, ?_⟩
        intro x hx y hy
        rw [List.mem_singleton.1 hy]
        exact le_of_lt (lt_of_lt_of_le hlt (hmin x hx))
      · intro k
        rw [List.filter_append, List.filter_cons]
        by_cases hv : key val = k
        · have hnone : before.filter (fun x => decide (key x = k)) = [] := by
            rw [List.filter_eq_nil_iff]
            intro x hx hk
            have h1 := hmin x hx
            have h2 : key x = k := by simpa using hk
            rw [h2, ← hv] at h1
            exact absurd (lt_of_lt_of_le hlt h1) (lt_irrefl _)
          simp [hv, hnone]
        · simp [hv]
    · rw [if_neg hc]
      exact ⟨(unguarded_linear_insert_sorted comp key hcomp val before hs).1,
        fun k => unguarded_linear_insert_filter comp key hcomp val k before⟩

/-- The loop of `__insertion_sort` keeps the descending order from the back to the front
and the order of the elements of one key. -/
theorem insertion_loop_spec (comp : α → α → Bool) (key : α → ℚ)
    (hcomp : ∀ a b, comp a b = true ↔ key a < key b) :
    ∀ (a before : List α), before.Pairwise (fun x y => key y ≤ key x) →
      (a.foldl (insertion_step comp) before).Pairwise (fun x y => key y ≤ key x) ∧
      ∀ k : ℚ, (a.foldl (insertion_step comp) before).filter (fun x => decide (key x = k))
        = (a.reverse ++ before).filter (fun x => decide (key x = k)) := by
  intro a
  induction a with
  | nil => intro before hs; exact ⟨hs, fun k => rfl⟩
  | cons val rest ih =>
    intro before hs
    obtain ⟨s1, s2⟩ := insertion_step_spec comp key hcomp val before hs
    obtain ⟨i1, i2⟩ := ih (insertion_step comp before val) s1
    refine ⟨i1, fun k => ?_⟩
    rw [List.foldl_cons, i2 k, List.filter_append, s2 k, List.reverse_cons,
      List.append_assoc, List.filter_append]
    rfl

/-- The function `__insertion_sort` sorts by the key and keeps the elements of one key
in the order in which they were. -/
theorem insertion_sort_stable (comp : α → α → Bool) (key : α → ℚ)
    (hcomp : ∀ a b, comp a b = true ↔ key a < key b) (a : List α) :
    (insertion_sort comp a).Pairwise (fun x y => key x ≤ key y) ∧
    ∀ k : ℚ, (insertion_sort comp a).filter (fun x => decide (key x = k))
      = a.filter (fun x => decide (key x = k)) := by
  obtain ⟨h1, h2⟩ := insertion_loop_spec comp key hcomp a [] List.Pairwise.nil
  unfold insertion_sort
  refine ⟨List.pairwise_reverse.2 h1, fun k => ?_⟩
  rw [List.filter_reverse, h2 k, List.append_nil, List.filter_reverse, List.reverse_reverse]

/-- On at most 16 elements `std::sort` is its insertion sort. -/
theorem sort_eq_insertion_sort (comp : α → α → Bool) (a : List α) (h : a.length ≤ 16) :
    sort comp a = insertion_sort comp a := by
  unfold sort
  by_cases h0 : a.length = 0
  · rw [if_pos h0]
    have : a = [] := List.length_eq_zero.1 h0
    subst this
    rfl
  · rw [if_neg h0]
    have hloop : ∀ d, introsort_loop comp d a 0 a.length = a := by
      intro d
      have hng : ¬ a.length - 0 > 16 := by omega
      cases d with
      | zero => rw [introsort_loop, if_neg hng]
      | succ d => rw [introsort_loop, if_neg hng]
    rw [hloop]
    unfold final_insertion_sort
    rw [if_neg (by omega)]

end CppLib

/-! ## Theorems: stores at the same distance -/

namespace Zepto

/-- The comparison of `getNearbyDarkStores` compares the distances. -/
theorem byDistance_iff (a b : ℚ × DarkStore) : byDistance a b = true ↔ a.1 < b.1 := by
  simp [byDistance]

/-- The vector `distList` has one entry for each registered store within reach. -/
theorem distList_length (sqrt : ℚ → ℚ) (darkStores : List DarkStore) (ux uy maxDistance : ℚ) :
    (distList sqrt darkStores ux uy maxDistance).length
      = (darkStores.filter
          (fun ds => decide (ds.distanceTo sqrt ux uy ≤ maxDistance))).length := by
  induction darkStores with
  | nil => rfl
  | cons ds rest ih =>
    unfold distList at ih ⊢
    by_cases h : ds.distanceTo sqrt ux uy ≤ maxDistance
    · simp [List.filterMap_cons, List.filter_cons, h, ih]
    · simp [List.filterMap_cons, List.filter_cons, h, ih]

set_option maxRecDepth 1000000 in
set_option maxHeartbeats 4000000 in
/-- C13 as stated fails on the code: seventeen stores at the same place, registered as
Store1 to Store17, are all at distance 1 from the user, and `getNearbyDarkStores` returns
them with Store9 first and Store1 in the tenth place, so Store9 is listed before Store1
although it was registered after it. -/
theorem seventeen_ties_reordered :
    (∀ ds ∈ seventeenStores, ds.distanceTo roundedSqrt 0 0 = 1) ∧
    (getNearbyDarkStores roundedSqrt stdSort seventeenStores 0 0 5).map (fun ds => ds.name)
      = ["Store9", "Store17", "Store16", "Store15", "Store14", "Store13", "Store12",
         "Store11", "Store10", "Store1", "Store8", "Store7", "Store6", "Store5", "Store4",
         "Store3", "Store2"] ∧
    [(⟨"Store1", 1, 0, []⟩ : DarkStore), ⟨"Store9", 1, 0, []⟩].Sublist seventeenStores ∧
    ¬ [(⟨"Store1", 1, 0, []⟩ : DarkStore), ⟨"Store9", 1, 0, []⟩].Sublist
        (getNearbyDarkStores roundedSqrt stdSort seventeenStores 0 0 5) ∧
    ¬ TiesKeepRegistrationOrder roundedSqrt seventeenStores
        (getNearbyDarkStores roundedSqrt stdSort seventeenStores 0 0 5) 0 0 5 := by
  have hres : getNearbyDarkStores roundedSqrt stdSort seventeenStores 0 0 5
      = ["Store9", "Store17", "Store16", "Store15", "Store14", "Store13", "Store12",
         "Store11", "Store10", "Store1", "Store8", "Store7", "Store6", "Store5", "Store4",
         "Store3", "Store2"].map (fun name => (⟨name, 1, 0, []⟩ : DarkStore)) := by
    with_unfolding_all decide
  have hsub : [(⟨"Store1", 1, 0, []⟩ : DarkStore), ⟨"Store9", 1, 0, []⟩].Sublist
      seventeenStores := by
    decide
  have hnot : ¬ [(⟨"Store1", 1, 0, []⟩ : DarkStore), ⟨"Store9", 1, 0, []⟩].Sublist
      (getNearbyDarkStores roundedSqrt stdSort seventeenStores 0 0 5) := by
    rw [hres]
    decide
  refine ⟨by with_unfolding_all decide, ?_, hsub, hnot, ?_⟩
  · rw [hres]
    rfl
  · intro h
    exact hnot (h ⟨"Store1", 1, 0, []⟩ ⟨"Store9", 1, 0, []⟩ (by with_unfolding_all decide)
      (by with_unfolding_all decide) hsub)

/-- C13 amended: when at most 16 registered stores are within `maxDistance` of the user,
any two of them at exactly the same distance appear in the result of
`getNearbyDarkStores` in the order in which they were registered, and a store listed
before another one is never farther away than it, so the first store of the result is
the first registered of the closest stores. With more than 16 stores within reach the
`std::sort` of the library moves stores of the same distance past each other. -/
theorem ties_kept_up_to_sixteen (sqrt : ℚ → ℚ) (darkStores : List DarkStore)
    (ux uy maxDistance : ℚ)
    (hfew : (darkStores.filter
      (fun ds => decide (ds.distanceTo sqrt ux uy ≤ maxDistance))).length ≤ 16) :
    TiesKeepRegistrationOrder sqrt darkStores
      (getNearbyDarkStores sqrt stdSort darkStores ux uy maxDistance) ux uy maxDistance ∧
    (∀ a b : DarkStore,
      [a, b].Sublist (getNearbyDarkStores sqrt stdSort darkStores ux uy maxDistance) →
      a.distanceTo sqrt ux uy ≤ b.distanceTo sqrt ux uy) := by
  have hlen : (distList sqrt darkStores ux uy maxDistance).length ≤ 16 := by
    rw [distList_length]
    exact hfew
  have hsort : stdSort (distList sqrt darkStores ux uy maxDistance)
      = CppLib.insertion_sort byDistance (distList sqrt darkStores ux uy maxDistance) :=
    CppLib.sort_eq_insertion_sort byDistance _ hlen
  obtain ⟨hsorted, hfilter⟩ := CppLib.insertion_sort_stable byDistance
    (fun p : ℚ × DarkStore => p.1) byDistance_iff (distList sqrt darkStores ux uy maxDistance)
  constructor
  · intro a b hab ha hsub
    have hb : b.distanceTo sqrt ux uy ≤ maxDistance := hab ▸ ha
    have h1 : [(a.distanceTo sqrt ux uy, a), (b.distanceTo sqrt ux uy, b)].Sublist
        (distList sqrt darkStores ux uy maxDistance) := by
      have h2 := hsub.filterMap (fun ds =>
        if ds.distanceTo sqrt ux uy ≤ maxDistance then some (ds.distanceTo sqrt ux uy, ds)
        else none)
      simpa [distList, ha, hb] using h2
    have h3 := h1.filter (fun p : ℚ × DarkStore => decide (p.1 = a.distanceTo sqrt ux uy))
    rw [← hfilter (a.distanceTo sqrt ux uy)] at h3
    have h4 : [(a.distanceTo sqrt ux uy, a), (b.distanceTo sqrt ux uy, b)].Sublist
        (CppLib.insertion_sort byDistance (distList sqrt darkStores ux uy maxDistance)) := by
      have h5 : List.filter (fun p : ℚ × DarkStore => decide (p.1 = a.distanceTo sqrt ux uy))
          [(a.distanceTo sqrt ux uy, a), (b.distanceTo sqrt ux uy, b)]
          = [(a.distanceTo sqrt ux uy, a), (b.distanceTo sqrt ux uy, b)] := by
        simp [List.filter_cons, hab]
      rw [h5] at h3
      exact h3.trans (List.filter_sublist _)
    have h6 := h4.map (fun p => p.2)
    simpa [getNearbyDarkStores, hsort] using h6
  · intro a b hsub
    have hmem : ∀ p ∈ CppLib.insertion_sort byDistance
        (distList sqrt darkStores ux uy maxDistance), p.1 = p.2.distanceTo sqrt ux uy := by
      intro p hp
      have h1 : p ∈ (CppLib.insertion_sort byDistance
          (distList sqrt darkStores ux uy maxDistance)).filter
          (fun q : ℚ × DarkStore => decide (q.1 = p.1)) := by
        rw [List.mem_filter]
        exact ⟨hp, by simp⟩
      rw [hfilter p.1] at h1
      exact (mem_distList (List.mem_filter.1 h1).1).1
    have hpair : (getNearbyDarkStores sqrt stdSort darkStores ux uy maxDistance).Pairwise
        (fun s t => s.distanceTo sqrt ux uy ≤ t.distanceTo sqrt ux uy) := by
      rw [getNearbyDarkStores, hsort, List.pairwise_map]
      refine List.Pairwise.imp_of_mem ?_ hsorted
      intro p q hp hq hle
      rw [← hmem p hp, ← hmem q hq]
      exact hle
    exact List.rel_of_pairwise_cons (hpair.sublist hsub) (List.mem_singleton.mpr rfl)

/-- Two stores at the same place, registered as First and Second: both are within reach,
and First stays before Second. -/
theorem ties_kept_up_to_sixteen_witness :
    [(⟨"First", 1, 0, []⟩ : DarkStore), ⟨"Second", 1, 0, []⟩].Sublist
      (getNearbyDarkStores roundedSqrt stdSort twinStores 0 0 5) :=
  (ties_kept_up_to_sixteen roundedSqrt twinStores 0 0 5
    (by with_unfolding_all decide)).1 ⟨"First", 1, 0, []⟩
    ⟨"Second", 1, 0, []⟩ (by with_unfolding_all decide) (by with_unfolding_all decide)
    (List.Sublist.refl _)

end Zepto

/-! ## Theorems: the retrying payment proxy -/

namespace PaymentGateway

/-- The loop from `attempt` on: a success is the first one at or after `attempt` and
within the retry count, and its call is the last call; a failure means that every call
from `attempt` up to the retry count failed, and all of them were made. -/
theorem attemptLoop_spec (realGateway : Nat → Bool) (retries : Int) :
    ∀ (n attempt : Nat), (retries - attempt).toNat = n →
      ((attemptLoop realGateway retries attempt).result = true →
        attempt < (attemptLoop realGateway retries attempt).calls ∧
        ((attemptLoop realGateway retries attempt).calls : Int) ≤ retries ∧
        realGateway ((attemptLoop realGateway retries attempt).calls - 1) = true ∧
        ∀ k, attempt ≤ k → k < (attemptLoop realGateway retries attempt).calls - 1 →
          realGateway k = false) ∧
      ((attemptLoop realGateway retries attempt).result = false →
        ((attemptLoop realGateway retries attempt).calls : Int) = max (attempt : Int) retries ∧
        ∀ k : Nat, attempt ≤ k → (k : Int) < retries → realGateway k = false) := by
  intro n
  induction n with
  | zero =>
    intro attempt hn
    have hlt : ¬ (attempt : Int) < retries := by omega
    rw [attemptLoop]
    simp only [hlt, if_false]
    refine ⟨fun h => by simp at h, fun _ => ⟨?_, ?_⟩⟩
    · rw [max_eq_left (by omega)]
    · intro k hk hk2
      omega
  | succ n ih =>
    intro attempt hn
    have hlt : (attempt : Int) < retries := by omega
    have ih' := ih (attempt + 1) (by push_cast; omega)
    rw [attemptLoop]
    simp only [hlt, if_true]
    by_cases hg : realGateway attempt = true
    · simp only [hg, if_true]
      refine ⟨fun _ => ⟨by omega, by push_cast; omega, by simpa using hg, ?_⟩,
        fun h => by simp at h⟩
      intro k hk hk2
      simp only [Nat.add_sub_cancel] at hk2
      omega
    · have hg' : realGateway attempt = false := by simpa using hg
      simp only [hg', Bool.false_eq_true, if_false]
      refine ⟨fun h => ?_, fun h => ?_⟩
      · obtain ⟨h1, h2, h3, h4⟩ := ih'.1 h
        refine ⟨by omega, h2, h3, ?_⟩
        intro k hk hk2
        rcases Nat.eq_or_lt_of_le hk with heq | hgt
        · rw [← heq]; exact hg'
        · exact h4 k hgt hk2
      · obtain ⟨h1, h2⟩ := ih'.2 h
        refine ⟨?_, ?_⟩
        · rw [h1]
          push_cast
          rw [max_eq_right (by omega), max_eq_right (by omega)]
        · intro k hk hk2
          rcases Nat.eq_or_lt_of_le hk with heq | hgt
          · rw [← heq]; exact hg'
          · exact h2 k hgt hk2

/-- C14: for every sequence of outcomes of the wrapped gateway and every retry count N,
the proxy calls the wrapped gateway at most N times; it returns true exactly when one of
the first N calls succeeds, and then its last call is the first successful one (it stops
right after it); it returns false exactly when all of the first N calls fail, and then it
has made exactly N calls; for N <= 0 it returns false without any call. The factory
builds the proxies with N = 3 (Paytm) and N = 1 (Razorpay). -/
theorem proxy_retries (realGateway : Nat → Bool) (retries : Int) :
    ((processPayment realGateway retries).calls : Int) ≤ max 0 retries ∧
    ((processPayment realGateway retries).result = true ↔
      ∃ k : Nat, (k : Int) < retries ∧ realGateway k = true) ∧
    ((processPayment realGateway retries).result = true →
      (processPayment realGateway retries).calls ≥ 1 ∧
      realGateway ((processPayment realGateway retries).calls - 1) = true ∧
      ∀ k, k < (processPayment realGateway retries).calls - 1 → realGateway k = false) ∧
    ((processPayment realGateway retries).result = false ↔
      ∀ k : Nat, (k : Int) < retries → realGateway k = false) ∧
    ((processPayment realGateway retries).result = false →
      ((processPayment realGateway retries).calls : Int) = max 0 retries) ∧
    (retries ≤ 0 → (processPayment realGateway retries).result = false ∧
      (processPayment realGateway retries).calls = 0) ∧
    GatewayFactory.retries GatewayType.PAYTM = 3 ∧
    GatewayFactory.retries GatewayType.RAZORPAY = 1 := by
  have hspec := attemptLoop_spec realGateway retries (retries - (0 : Nat)).toNat 0 rfl
  simp only [processPayment]
  obtain ⟨hT, hF⟩ := hspec
  have hcases : (attemptLoop realGateway retries 0).result = true ∨
      (attemptLoop realGateway retries 0).result = false := by
    cases (attemptLoop realGateway retries 0).result <;> simp
  have hiffT : (attemptLoop realGateway retries 0).result = true ↔
      ∃ k : Nat, (k : Int) < retries ∧ realGateway k = true := by
    constructor
    · intro h
      obtain ⟨h1, h2, h3, _⟩ := hT h
      exact ⟨(attemptLoop realGateway retries 0).calls - 1, by omega, h3⟩
    · rintro ⟨k, hk, hgk⟩
      rcases hcases with h | h
      · exact h
      · have := (hF h).2 k (Nat.zero_le k) hk
        rw [this] at hgk
        cases hgk
  have hiffF : (attemptLoop realGateway retries 0).result = false ↔
      ∀ k : Nat, (k : Int) < retries → realGateway k = false := by
    constructor
    · intro h k hk
      exact (hF h).2 k (Nat.zero_le k) hk
    · intro h
      rcases hcases with h1 | h1
      · obtain ⟨k, hk, hgk⟩ := hiffT.mp h1
        rw [h k hk] at hgk
        cases hgk
      · exact h1
  refine ⟨?_, hiffT, ?_, hiffF, ?_, ?_, rfl, rfl⟩
  · rcases hcases with h | h
    · have := (hT h).2.1
      exact le_trans this (le_max_right _ _)
    · have := (hF h).1
      simpa using le_of_eq this
  · intro h
    obtain ⟨h1, _, h3, h4⟩ := hT h
    exact ⟨h1, h3, fun k hk => h4 k (Nat.zero_le k) hk⟩
  · intro h
    simpa using (hF h).1
  · intro hle
    have hres : (attemptLoop realGateway retries 0).result = false :=
      hiffF.mpr (fun k hk => by omega)
    refine ⟨hres, ?_⟩
    have := (hF hres).1
    rw [max_eq_left (by simpa using hle)] at this
    exact_mod_cast this

/-- A gateway that fails twice and then succeeds, behind the Paytm proxy (N = 3): the
third call is the last one and the payment succeeds. -/
theorem proxy_retries_witness :
    (processPayment (fun k => decide (k = 2)) 3).result = true ∧
    (processPayment (fun k => decide (k = 2)) 3).calls ≥ 1 ∧
    (fun k => decide (k = 2)) ((processPayment (fun k => decide (k = 2)) 3).calls - 1)
      = true :=
  have h := proxy_retries (fun k => decide (k = 2)) 3
  have hres : (processPayment (fun k => decide (k = 2)) 3).result = true :=
    h.2.1.mpr ⟨2, by decide, by decide⟩
  ⟨hres, (h.2.2.1 hres).1, (h.2.2.1 hres).2.1⟩

end PaymentGateway

/-! ## Theorems: the memento round trip -/

namespace Memento

/-- C20: for every database content and every sequence of insert, update and remove
operations performed after `beginTransaction`, `rollbackTransaction` restores the records
to exactly the map they were at `beginTransaction` (and leaves no backup); and a
`rollbackTransaction` without a backup, which is the case of a new manager, after a
commit and after a rollback, leaves the database and the manager unchanged. In `main`
the rollback of the second transaction returns to the two committed records. -/
theorem rollback_restores (db : Database) (tx : TransactionManager) (ops : List Op) :
    ((tx.beginTransaction db).rollbackTransaction (ops.foldl Op.apply db)) = (⟨none⟩, db) ∧
    (∀ (tx0 : TransactionManager) (db0 : Database), tx0.backup = none →
      tx0.rollbackTransaction db0 = (tx0, db0)) ∧
    TransactionManager.new.backup = none ∧
    tx.commitTransaction.backup = none ∧
    (tx.rollbackTransaction db).1.backup = none ∧
    ((TransactionManager.new.beginTransaction demoCommitted).rollbackTransaction
      ([Op.insert "user3" "Saurav", Op.insert "user4" "Manish"].foldl Op.apply
        demoCommitted)).2.records = [("user1", "Aditya"), ("user2", "Rohit")] := by
  refine ⟨rfl, ?_, rfl, rfl, ?_, by decide⟩
  · intro tx0 db0 h
    simp only [TransactionManager.rollbackTransaction, h]
  · cases hb : tx.backup with
    | none => simp only [TransactionManager.rollbackTransaction, hb]
    | some m => simp only [TransactionManager.rollbackTransaction, hb]

/-- A new manager has no backup, so its rollback changes nothing. -/
theorem rollback_restores_witness :
    TransactionManager.new.rollbackTransaction demoCommitted
      = (TransactionManager.new, demoCommitted) :=
  (rollback_restores demoCommitted TransactionManager.new []).2.1
    TransactionManager.new demoCommitted rfl

end Memento

/-! ## Theorems: the music player -/

namespace MusicPlayer

open Player

/-- A failure of `hasNext` is a dereferenced null pointer, never a thrown error. -/
theorem strategyHasNext_error {p : Player} {f : Failure}
    (h : p.strategyHasNext = Except.error f) : f = Failure.undefinedBehaviour := by
  unfold Player.strategyHasNext at h
  split at h
  · cases h; rfl
  · unfold SequentialPlayStrategy.hasNext at h
    split at h
    · cases h; rfl
    · cases h
  · cases h
  · unfold CustomQueueStrategy.hasNext at h
    split at h
    · cases h; rfl
    · cases h

theorem songAt_error {pl : Playlist} {i : Int} {f : Failure}
    (h : pl.songAt i = Except.error f) : f = Failure.undefinedBehaviour := by
  unfold Playlist.songAt at h
  split at h
  · split at h
    · cases h
    · cases h; rfl
  · cases h; rfl

theorem strategyNext_error {p : Player} {f : Failure}
    (h : p.strategyNext = Except.error f) :
    f ≠ Failure.runtime_error "No playlist loaded." := by
  unfold Player.strategyNext at h
  split at h
  · cases h; decide
  · split at h
    · cases h
    · rename_i f' hf
      cases h
      unfold SequentialPlayStrategy.next at hf
      split at hf
      · cases hf; decide
      · split at hf
        · cases hf; decide
        · split at hf
          · cases hf
          · rename_i g hg
            cases hf
            rw [songAt_error hg]
            decide
  · split at h
    · cases h
    · rename_i f' hf
      cases h
      unfold RandomPlayStrategy.next at hf
      split at hf
      · cases hf; decide
      · split at hf
        · cases hf; decide
        · split at hf
          · cases hf; decide
          · dsimp only at hf
            split at hf
            · cases hf; decide
            · cases hf
  · split at h
    · cases h
    · rename_i f' hf
      cases h
      unfold CustomQueueStrategy.next at hf
      split at hf
      · cases hf; decide
      · split at hf
        · cases hf; decide
        · split at hf
          · cases hf
          · split at hf
            · cases hf
            · rename_i g hg
              cases hf
              rw [songAt_error hg]
              decide

theorem strategyHasPrevious_error {p : Player} {f : Failure}
    (h : p.strategyHasPrevious = Except.error f) : f = Failure.undefinedBehaviour := by
  unfold Player.strategyHasPrevious at h
  split at h <;> cases h
  rfl

theorem strategyPrevious_error {p : Player} {f : Failure}
    (h : p.strategyPrevious = Except.error f) :
    f ≠ Failure.runtime_error "No playlist loaded." := by
  unfold Player.strategyPrevious at h
  split at h
  · cases h; decide
  · split at h
    · cases h
    · rename_i f' hf
      cases h
      unfold SequentialPlayStrategy.previous at hf
      split at hf
      · cases hf; decide
      · split at hf
        · cases hf; decide
        · split at hf
          · cases hf
          · rename_i g hg
            cases hf
            rw [songAt_error hg]
            decide
  · split at h
    · cases h
    · rename_i f' hf
      cases h
      unfold RandomPlayStrategy.previous at hf
      split at hf
      · cases hf; decide
      · cases hf
  · split at h
    · cases h
    · rename_i f' hf
      cases h
      unfold CustomQueueStrategy.previous at hf
      split at hf
      · cases hf; decide
      · split at hf
        · cases hf; decide
        · split at hf
          · cases hf
          · split at hf
            · cases hf
            · rename_i g hg
              cases hf
              rw [songAt_error hg]
              decide

theorem playOnDevice_error {p : Player} {song : Song} {f : Failure}
    (h : (p.playOnDevice song).2 = some f) :
    f ≠ Failure.runtime_error "No playlist loaded." := by
  unfold Player.playOnDevice at h
  split at h
  · simp only [Option.some.injEq] at h
    subst h
    decide
  · cases h

/-- Playing a song touches neither the sequential nor the custom queue strategy. -/
theorem playOnDevice_strategies (p : Player) (song : Song) :
    (p.playOnDevice song).1.sequentialStrategy = p.sequentialStrategy ∧
    (p.playOnDevice song).1.customQueueStrategy = p.customQueueStrategy := by
  unfold Player.playOnDevice
  split <;> exact ⟨rfl, rfl⟩

theorem playLoop_error (fuel : Nat) : ∀ (p : Player) (r : Player × Option Failure),
    playLoop fuel p = some r → r.2 ≠ some (Failure.runtime_error "No playlist loaded.") := by
  induction fuel with
  | zero => intro p r h; cases h
  | succ n ih =>
    intro p r h
    unfold Player.playLoop at h
    split at h
    · rename_i f hf
      cases h
      rw [strategyHasNext_error hf]
      simp
    · cases h
      simp
    · split at h
      · rename_i f hf
        cases h
        have := strategyNext_error hf
        simpa using this
      · rename_i song p1 hn
        split at h
        · rename_i p2 f hp
          cases h
          have hp2 : (p1.playOnDevice song).2 = some f := by rw [hp]
          have := playOnDevice_error hp2
          simpa using this
        · exact ih _ r h

/-- C17 as stated fails for the custom queue strategy: after the first song of the
playlist was queued and three tracks were played, the current index is 2, `hasPrevious`
holds, and `playPreviousTrack` replays the queued song from the stack of played queued
songs, which is the first song of the playlist, at index 0. -/
theorem customQueue_steps_back_to_first :
    demoCustomQueue.customQueueStrategy.currentIndex = 2 ∧
    demoCustomQueue.customQueueStrategy.hasPrevious = true ∧
    demoCustomQueue.playPreviousTrack.2 = none ∧
    demoCustomQueue.playPreviousTrack.1.customQueueStrategy.currentIndex = 0 ∧
    demoCustomQueue.playPreviousTrack.1.audioEngine.currentSong = demoPlaylist.songList[0]? := by
  decide

/-- C17 amended: `SequentialPlayStrategy::hasPrevious` and
`CustomQueueStrategy::hasPrevious` return true exactly when currentIndex - 1 > 0, that
is currentIndex >= 2; so with either strategy, when the current song is at index 1,
`playPreviousTrack` reports no previous song and changes nothing; with the sequential
strategy, and with the custom queue strategy while its stack of played queued songs is
empty, `playPreviousTrack` either leaves the index or lowers it by one to an index >= 1,
so it never steps back to the first song (index 0). In `main`, after the playlist of
four songs was played, the two calls step back to index 2 and index 1, and a third call
would stay at index 1. -/
theorem hasPrevious_off_by_one :
    (∀ s : SequentialPlayStrategy, s.hasPrevious = true ↔ s.currentIndex ≥ 2) ∧
    (∀ s : CustomQueueStrategy, s.hasPrevious = true ↔ s.currentIndex ≥ 2) ∧
    (∀ p : Player, p.loadedPlaylist.isSome →
      (p.playStrategy = some PlayStrategyType.SEQUENTIAL ∧
          p.sequentialStrategy.currentIndex = 1) ∨
        (p.playStrategy = some PlayStrategyType.CUSTOM_QUEUE ∧
          p.customQueueStrategy.currentIndex = 1) →
      p.playPreviousTrack = (p, none)) ∧
    (∀ p : Player, p.playStrategy = some PlayStrategyType.SEQUENTIAL →
      p.playPreviousTrack.1.sequentialStrategy.currentIndex
          = p.sequentialStrategy.currentIndex ∨
        (p.playPreviousTrack.1.sequentialStrategy.currentIndex
            = p.sequentialStrategy.currentIndex - 1 ∧
          p.playPreviousTrack.1.sequentialStrategy.currentIndex ≥ 1)) ∧
    (∀ p : Player, p.playStrategy = some PlayStrategyType.CUSTOM_QUEUE →
      p.customQueueStrategy.prevStack = [] →
      p.playPreviousTrack.1.customQueueStrategy.currentIndex
          = p.customQueueStrategy.currentIndex ∨
        (p.playPreviousTrack.1.customQueueStrategy.currentIndex
            = p.customQueueStrategy.currentIndex - 1 ∧
          p.playPreviousTrack.1.customQueueStrategy.currentIndex ≥ 1)) ∧
    (playAllTracks 5 demoSequential).map (fun r =>
        let a := r.1.playPreviousTrack
        let b := a.1.playPreviousTrack
        let c := b.1.playPreviousTrack
        [r.1, a.1, b.1, c.1].map (fun q => q.sequentialStrategy.currentIndex))
      = some [3, 2, 1, 1] := by
  refine ⟨?_, ?_, ?_, ?_, ?_, by decide⟩
  · intro s
    simp only [SequentialPlayStrategy.hasPrevious, decide_eq_true_eq]
    omega
  · intro s
    simp only [CustomQueueStrategy.hasPrevious, decide_eq_true_eq]
    omega
  · intro p hl h
    obtain ⟨pl, hpl⟩ := Option.isSome_iff_exists.mp hl
    rcases h with ⟨hs, hi⟩ | ⟨hs, hi⟩
    · simp [Player.playPreviousTrack, hpl, Player.strategyHasPrevious, hs,
        SequentialPlayStrategy.hasPrevious, hi]
    · simp [Player.playPreviousTrack, hpl, Player.strategyHasPrevious, hs,
        CustomQueueStrategy.hasPrevious, hi]
  · intro p hs
    unfold Player.playPreviousTrack
    split
    · left; rfl
    · simp only [Player.strategyHasPrevious, hs]
      by_cases hp : p.sequentialStrategy.hasPrevious = true
      · simp only [hp]
        have hge : p.sequentialStrategy.currentIndex ≥ 2 := by
          simp only [SequentialPlayStrategy.hasPrevious, decide_eq_true_eq] at hp
          omega
        simp only [Player.strategyPrevious, hs]
        cases hprev : p.sequentialStrategy.previous with
        | error f => left; rfl
        | ok r =>
          obtain ⟨song, s⟩ := r
          have hidx : s.currentIndex = p.sequentialStrategy.currentIndex - 1 := by
            unfold SequentialPlayStrategy.previous at hprev
            split at hprev
            · cases hprev
            · split at hprev
              · cases hprev
              · split at hprev
                · cases hprev; rfl
                · cases hprev
          right
          rw [(playOnDevice_strategies _ song).1]
          exact ⟨hidx, by simp only [hidx]; omega⟩
      · have hp' : p.sequentialStrategy.hasPrevious = false := by simpa using hp
        simp [hp']
  · intro p hs hstack
    unfold Player.playPreviousTrack
    split
    · left; rfl
    · simp only [Player.strategyHasPrevious, hs]
      by_cases hp : p.customQueueStrategy.hasPrevious = true
      · simp only [hp]
        have hge : p.customQueueStrategy.currentIndex ≥ 2 := by
          simp only [CustomQueueStrategy.hasPrevious, decide_eq_true_eq] at hp
          omega
        simp only [Player.strategyPrevious, hs]
        cases hprev : p.customQueueStrategy.previous with
        | error f => left; rfl
        | ok r =>
          obtain ⟨song, s⟩ := r
          have hidx : s.currentIndex = p.customQueueStrategy.currentIndex - 1 := by
            unfold CustomQueueStrategy.previous at hprev
            rw [hstack] at hprev
            split at hprev
            · cases hprev
            · split at hprev
              · cases hprev
              · simp only at hprev
                split at hprev
                · cases hprev; rfl
                · cases hprev
          right
          rw [(playOnDevice_strategies _ song).2]
          exact ⟨hidx, by simp only [hidx]; omega⟩
      · have hp' : p.customQueueStrategy.hasPrevious = false := by simpa using hp
        simp [hp']

/-- The player of `main` after the playlist was played and two tracks were stepped back:
the current song is at index 1 and `playPreviousTrack` changes nothing. -/
theorem hasPrevious_off_by_one_witness :
    ({ demoSequential with
        sequentialStrategy := ⟨some demoPlaylist, 1⟩ } : Player).playPreviousTrack.2 = none :=
  congrArg Prod.snd (hasPrevious_off_by_one.2.2.1
    { demoSequential with sequentialStrategy := ⟨some demoPlaylist, 1⟩ } (by decide)
    (Or.inl ⟨by decide, by decide⟩))

/-- C18: `playAllTracks`, `playNextTrack` and `playPreviousTrack` fail with the runtime
error "No playlist loaded." if and only if no playlist has been loaded (`loadedPlaylist`
is null); in that case the whole state is left as it was, in particular the play
strategies and the audio engine. Every other failure of the three methods is a different
error. -/
theorem no_playlist_loaded_error (p : Player) (fuel : Nat) :
    (p.loadedPlaylist = none →
      playAllTracks fuel p = some (p, some (Failure.runtime_error "No playlist loaded.")) ∧
      p.playNextTrack = (p, some (Failure.runtime_error "No playlist loaded.")) ∧
      p.playPreviousTrack = (p, some (Failure.runtime_error "No playlist loaded."))) ∧
    (p.loadedPlaylist ≠ none →
      (∀ r, playAllTracks fuel p = some r →
        r.2 ≠ some (Failure.runtime_error "No playlist loaded.")) ∧
      p.playNextTrack.2 ≠ some (Failure.runtime_error "No playlist loaded.") ∧
      p.playPreviousTrack.2 ≠ some (Failure.runtime_error "No playlist loaded.")) := by
  constructor
  · intro h
    simp only [Player.playAllTracks, Player.playNextTrack, Player.playPreviousTrack, h,
      and_self]
  · intro h
    obtain ⟨pl, hpl⟩ := Option.ne_none_iff_exists'.mp h
    refine ⟨?_, ?_, ?_⟩
    · intro r hr
      simp only [Player.playAllTracks, hpl] at hr
      exact playLoop_error fuel p r hr
    · simp only [Player.playNextTrack, hpl]
      split
      · rename_i f hf
        rw [strategyHasNext_error hf]
        simp
      · simp
      · split
        · rename_i f hf
          have := strategyNext_error hf
          simpa using this
        · rename_i song p1 hn
          cases hp : (p1.playOnDevice song).2 with
          | none => simp
          | some f =>
            have := playOnDevice_error hp
            simpa using this
    · simp only [Player.playPreviousTrack, hpl]
      split
      · rename_i f hf
        rw [strategyHasPrevious_error hf]
        simp
      · simp
      · split
        · rename_i f hf
          have := strategyPrevious_error hf
          simpa using this
        · rename_i song p1 hn
          cases hp : (p1.playOnDevice song).2 with
          | none => simp
          | some f =>
            have := playOnDevice_error hp
            simpa using this

/-- A new player has no playlist loaded: `playNextTrack` throws and changes nothing. -/
theorem no_playlist_loaded_error_witness :
    (Player.new (fun _ => 0)).playNextTrack
      = (Player.new (fun _ => 0), some (Failure.runtime_error "No playlist loaded.")) :=
  ((no_playlist_loaded_error (Player.new (fun _ => 0)) 0).1 rfl).2.1

end MusicPlayer

/-! ## Theorems: the ordered map and leaving a group -/

namespace Splitwise

namespace StdMap

variable {V : Type}

theorem find_set_self (m : StdMap V) (k : String) (v : V) :
    find (set m k v) k = some v := by
  induction m with
  | nil => simp [set, find, lt_irrefl]
  | cons e rest ih =>
    obtain ⟨k0, v0⟩ := e
    by_cases h1 : k.data < k0.data
    · simp [set, find, h1, lt_irrefl]
    · by_cases h2 : k = k0
      · simp [set, find, h1, h2, lt_irrefl]
      · simp [set, find, h1, h2, ih]

theorem find_set_ne (m : StdMap V) {k k' : String} (v : V) (hne : k' ≠ k) :
    find (set m k v) k' = find m k' := by
  induction m with
  | nil =>
    by_cases h : k'.data < k.data <;> simp [set, find, h, hne]
  | cons e rest ih =>
    obtain ⟨k0, v0⟩ := e
    by_cases h1 : k.data < k0.data
    · simp only [set, h1, if_true]
      by_cases h3 : k'.data < k.data
      · have h4 : k'.data < k0.data := lt_trans h3 h1
        simp [find, h3, h4]
      · rw [find]
        simp only [h3, if_false, hne]
    · by_cases h2 : k = k0
      · subst h2
        simp only [set, h1, if_false, if_true]
        by_cases h3 : k'.data < k.data <;> simp [find, h3, hne]
      · simp only [set, h1, h2, if_false]
        by_cases h3 : k'.data < k0.data
        · simp [find, h3]
        · by_cases h4 : k' = k0
          · simp [find, h3, h4]
          · simp [find, h3, h4, ih]

theorem getD_set_self (m : StdMap V) (k : String) (v d : V) :
    getD (set m k v) k d = v := by
  simp [getD, find_set_self]

theorem getD_set_ne (m : StdMap V) {k k' : String} (v d : V) (hne : k' ≠ k) :
    getD (set m k v) k' d = getD m k' d := by
  simp [getD, find_set_ne m v hne]

/-- The keys to the right of a key of a well-formed map are above it, so a lookup of
that key in the rest finds nothing. -/
theorem find_of_lt_all (m : StdMap V) (k : String)
    (h : ∀ e ∈ m, k.data < e.1.data) : find m k = none := by
  cases m with
  | nil => rfl
  | cons e rest =>
    have := h e (List.mem_cons_self _ _)
    simp [find, this]

theorem WF.tail {e : String × V} {rest : StdMap V} (h : WF (e :: rest)) : WF rest := by
  simp only [WF, List.map_cons, List.pairwise_cons] at h
  exact h.2

theorem WF.head_lt {e : String × V} {rest : StdMap V} (h : WF (e :: rest)) :
    ∀ e' ∈ rest, e.1.data < e'.1.data := by
  simp only [WF, List.map_cons, List.pairwise_cons, List.mem_map, forall_exists_index,
    and_imp, forall_apply_eq_imp_iff₂] at h
  exact h.1

theorem find_erase_self (m : StdMap V) (k : String) (h : WF m) :
    find (erase m k) k = none := by
  induction m with
  | nil => rfl
  | cons e rest ih =>
    obtain ⟨k0, v0⟩ := e
    by_cases h1 : k.data < k0.data
    · simp [erase, find, h1]
    · by_cases h2 : k = k0
      · subst h2
        simp only [erase, h1, if_false, if_true]
        exact find_of_lt_all rest k (WF.head_lt h)
      · simp only [erase, h1, h2, if_false, find]
        exact ih (WF.tail h)

theorem mem_of_mem_erase (m : StdMap V) (k : String) {e : String × V}
    (h : e ∈ erase m k) : e ∈ m := by
  induction m with
  | nil => simp [erase] at h
  | cons e0 rest ih =>
    obtain ⟨k0, v0⟩ := e0
    by_cases h1 : k.data < k0.data
    · simpa [erase, h1] using h
    · by_cases h2 : k = k0
      · subst h2
        simp only [erase, h1, if_false, if_true] at h
        exact List.mem_cons_of_mem _ h
      · simp only [erase, h1, h2, if_false, List.mem_cons] at h
        rcases h with h | h
        · exact h ▸ List.mem_cons_self _ _
        · exact List.mem_cons_of_mem _ (ih h)

/-- A lookup commutes with a change of all values that keeps the keys. -/
theorem find_map_values {W : Type} (m : StdMap V) (f : String × V → W) (k : String) :
    find (m.map (fun e => (e.1, f e))) k = none ↔ find m k = none := by
  induction m with
  | nil => simp [find]
  | cons e rest ih =>
    obtain ⟨k0, v0⟩ := e
    by_cases h1 : k.data < k0.data
    · simp [find, h1]
    · by_cases h2 : k = k0
      · simp [find, h1, h2]
      · simpa [find, h1, h2] using ih

end StdMap

namespace Group

/-- `canUserLeaveGroup` of a member is false exactly when the member has an outstanding
balance. -/
theorem canUserLeaveGroup_eq (g : Group) (u : String) (hm : g.isMember u = true) :
    (g.canUserLeaveGroup u = Except.ok false ↔ g.hasOutstandingBalance u) ∧
    (g.canUserLeaveGroup u = Except.ok true ↔ ¬ g.hasOutstandingBalance u) := by
  have hany : (StdMap.getD g.groupBalances u []).any
      (fun balance => decide (|balance.2| > 0.01)) = true ↔ g.hasOutstandingBalance u := by
    simp only [List.any_eq_true, decide_eq_true_eq, hasOutstandingBalance]
  simp only [canUserLeaveGroup, hm, Bool.not_true, Bool.false_eq_true, if_false]
  constructor
  · rw [← hany]
    cases (StdMap.getD g.groupBalances u []).any
      (fun balance => decide (|balance.2| > 0.01)) <;> simp
  · rw [← hany]
    cases (StdMap.getD g.groupBalances u []).any
      (fun balance => decide (|balance.2| > 0.01)) <;> simp

set_option maxRecDepth 100000 in
/-- C19: for a member u of a group with well-formed balance maps, `removeMember(u)`
returns false and leaves the member list and all group balances unchanged if and only if
u has some balance of absolute value greater than 0.01 in its sheet; otherwise it returns
true and afterwards u is not in the member list, is no member any more, and no remaining
balance sheet has an entry for u. In `main`, after the simplification, Rohit (user2)
owes 200 and cannot leave; once he has settled 200 with user3 he can. -/
theorem removeMember_spec (g : Group) (u : String) (hm : g.isMember u = true)
    (hwf : Balances.WF g.groupBalances) :
    (g.removeMember u = Except.ok (false, g) ↔ g.hasOutstandingBalance u) ∧
    (¬ g.hasOutstandingBalance u →
      ∃ g', g.removeMember u = Except.ok (true, g') ∧
        u ∉ g'.members ∧ g'.isMember u = false ∧
        ∀ row ∈ g'.groupBalances, StdMap.find row.2 u = none) ∧
    (demoSimplified.removeMember "user2").toOption = some (false, demoSimplified) ∧
    ((demoSimplified.settlePayment "user2" "user3" 200).2.removeMember "user2").toOption
      = some (true, ⟨["user1", "user3", "user4"],
          [("user1", [("user4", 400)]), ("user3", []), ("user4", [("user1", -400)])]⟩) := by
  obtain ⟨hF, hT⟩ := canUserLeaveGroup_eq g u hm
  refine ⟨?_, ?_, by with_unfolding_all decide, by with_unfolding_all decide⟩
  · constructor
    · intro h
      by_contra hno
      have := hT.mpr hno
      simp only [removeMember, this] at h
      cases h
    · intro h
      simp only [removeMember, hF.mpr h]
  · intro hno
    refine ⟨{ members := g.members.filter (fun member => decide (member ≠ u))
              groupBalances := (StdMap.erase g.groupBalances u).map
                (fun memberBalance => (memberBalance.1, StdMap.erase memberBalance.2 u)) },
      by simp only [removeMember, hT.mpr hno], ?_, ?_, ?_⟩
    · simp [List.mem_filter]
    · simp only [isMember]
      have h1 := StdMap.find_erase_self g.groupBalances u hwf.1
      have h2 := (StdMap.find_map_values (StdMap.erase g.groupBalances u)
        (fun e => StdMap.erase e.2 u) u).mpr h1
      rw [h2]
      rfl
    · intro row hrow
      simp only [List.mem_map] at hrow
      obtain ⟨r, hr, rfl⟩ := hrow
      exact StdMap.find_erase_self r.2 u (hwf.2 r (StdMap.mem_of_mem_erase _ _ hr))

/-- Rohit after the settlement: no outstanding balance, so he leaves the group. -/
theorem removeMember_spec_witness :
    ∃ g', (demoSimplified.settlePayment "user2" "user3" 200).2.removeMember "user2"
        = Except.ok (true, g') ∧
      "user2" ∉ g'.members ∧ g'.isMember "user2" = false ∧
      ∀ row ∈ g'.groupBalances, StdMap.find row.2 "user2" = none :=
  (removeMember_spec (demoSimplified.settlePayment "user2" "user3" 200).2 "user2"
    (by with_unfolding_all decide)
    (by with_unfolding_all decide)).2.1 (by with_unfolding_all decide)

end Group

end Splitwise

/-! ## Theorems: the debt simplification settles everyone exactly -/

namespace Splitwise

namespace StdMap

variable {V : Type}

/-- An entry of the map after `m[k] = v` is the new entry or an entry of `m`. -/
theorem mem_set (m : StdMap V) (k : String) (v : V) {e : String × V}
    (h : e ∈ set m k v) : e = (k, v) ∨ e ∈ m := by
  induction m with
  | nil =>
    simp only [set, List.mem_singleton] at h
    exact Or.inl h
  | cons e0 rest ih =>
    obtain ⟨k0, v0⟩ := e0
    by_cases h1 : k.data < k0.data
    · simp only [set, h1, if_true, List.mem_cons] at h
      rcases h with h | h | h
      · exact Or.inl h
      · exact Or.inr (h ▸ List.mem_cons_self _ _)
      · exact Or.inr (List.mem_cons_of_mem _ h)
    · by_cases h2 : k = k0
      · subst h2
        simp only [set, h1, if_false, if_true, List.mem_cons] at h
        rcases h with h | h
        · exact Or.inl h
        · exact Or.inr (List.mem_cons_of_mem _ h)
      · simp only [set, h1, h2, if_false, List.mem_cons] at h
        rcases h with h | h
        · exact Or.inr (h ▸ List.mem_cons_self _ _)
        · rcases ih h with h | h
          · exact Or.inl h
          · exact Or.inr (List.mem_cons_of_mem _ h)

/-- A key below all keys of a well-formed map can be put in front of it. -/
theorem WF.cons {e : String × V} {rest : StdMap V} (h1 : ∀ e' ∈ rest, e.1.data < e'.1.data)
    (h2 : WF rest) : WF (e :: rest) := by
  simp only [WF, List.map_cons, List.pairwise_cons, List.mem_map, forall_exists_index,
    and_imp, forall_apply_eq_imp_iff₂]
  exact ⟨h1, h2⟩

/-- The assignment `m[k] = v` keeps the keys sorted. -/
theorem set_WF (m : StdMap V) (k : String) (v : V) (h : WF m) : WF (set m k v) := by
  induction m with
  | nil => simp [set, WF]
  | cons e0 rest ih =>
    obtain ⟨k0, v0⟩ := e0
    by_cases h1 : k.data < k0.data
    · simp only [set, h1, if_true]
      refine WF.cons ?_ h
      intro e' he'
      rcases List.mem_cons.mp he' with he' | he'
      · rw [he']; exact h1
      · exact lt_trans h1 (WF.head_lt h e' he')
    · by_cases h2 : k = k0
      · subst h2
        simp only [set, h1, if_false, if_true]
        exact WF.cons (WF.head_lt h) (WF.tail h)
      · simp only [set, h1, h2, if_false]
        refine WF.cons ?_ (ih (WF.tail h))
        intro e' he'
        rcases mem_set rest k v he' with he' | he'
        · rw [he']
          rcases lt_trichotomy k.data k0.data with h3 | h3 | h3
          · exact absurd h3 h1
          · exact absurd (String.ext h3) h2
          · exact h3
        · exact WF.head_lt h e' he'

/-- What `find` returns is an entry of the map. -/
theorem mem_of_find (m : StdMap V) {k : String} {v : V} (h : find m k = some v) :
    (k, v) ∈ m := by
  induction m with
  | nil => simp [find] at h
  | cons e0 rest ih =>
    obtain ⟨k0, v0⟩ := e0
    by_cases h1 : k.data < k0.data
    · simp [find, h1] at h
    · by_cases h2 : k = k0
      · subst h2
        simp only [find, h1, if_false, if_true, Option.some.injEq] at h
        subst h
        exact List.mem_cons_self _ _
      · simp only [find, h1, h2, if_false] at h
        exact List.mem_cons_of_mem _ (ih h)

/-- In a well-formed map `find` returns the value of every entry. -/
theorem find_of_mem (m : StdMap V) {k : String} {v : V} (hwf : WF m) (h : (k, v) ∈ m) :
    find m k = some v := by
  induction m with
  | nil => cases h
  | cons e0 rest ih =>
    obtain ⟨k0, v0⟩ := e0
    rcases List.mem_cons.mp h with h | h
    · cases h
      simp [find, lt_irrefl]
    · have hlt := WF.head_lt hwf (k, v) h
      have h1 : ¬ k.data < k0.data := not_lt_of_lt hlt
      have h2 : k ≠ k0 := by
        intro heq
        subst heq
        exact lt_irrefl _ hlt
      simp only [find, h1, h2, if_false]
      exact ih (WF.tail hwf) h

/-- A key that no entry has is not found. -/
theorem find_none_of_not_mem (m : StdMap V) {k : String} (h : ∀ e ∈ m, e.1 ≠ k) :
    find m k = none := by
  cases hf : find m k with
  | none => rfl
  | some v => exact absurd rfl (h (k, v) (mem_of_find m hf))

/-- A well-formed map has no key twice. -/
theorem keys_nodup (m : StdMap V) (hwf : WF m) : (m.map (fun e => e.1)).Nodup := by
  induction m with
  | nil => simp
  | cons e0 rest ih =>
    simp only [List.map_cons, List.nodup_cons, List.mem_map, not_exists, not_and]
    refine ⟨?_, ih (WF.tail hwf)⟩
    intro e' he' heq
    have := WF.head_lt hwf e' he'
    rw [heq] at this
    exact lt_irrefl _ this

/-- The sum of the values after an assignment. -/
theorem sum_set (m : StdMap ℚ) (k : String) (v : ℚ) :
    ((set m k v).map (fun e => e.2)).sum
      = (m.map (fun e => e.2)).sum - getD m k 0 + v := by
  induction m with
  | nil => simp [set, getD, find]
  | cons e0 rest ih =>
    obtain ⟨k0, v0⟩ := e0
    by_cases h1 : k.data < k0.data
    · simp [set, getD, find, h1]
      ring
    · by_cases h2 : k = k0
      · simp [set, getD, find, h1, h2]
        ring
      · simp only [getD] at ih
        simp only [set, getD, find, h1, h2, if_false, List.map_cons, List.sum_cons, ih]
        ring

/-- In a well-formed map at most one entry has the key `p`, so a sum that only counts
the entries with key `p` is the summand for the value that the lookup finds. -/
theorem sum_key (m : StdMap ℚ) (p : String) (f : ℚ → ℚ) (hf : f 0 = 0) (hwf : WF m) :
    (m.map (fun e => if e.1 = p then f e.2 else 0)).sum = f (getD m p 0) := by
  induction m with
  | nil => simp [getD, find, hf]
  | cons e0 rest ih =>
    obtain ⟨k0, v0⟩ := e0
    have ih' := ih (WF.tail hwf)
    by_cases h2 : k0 = p
    · subst h2
      have hrest : (rest.map (fun e => if e.1 = k0 then f e.2 else 0)).sum = 0 := by
        apply List.sum_eq_zero
        intro x hx
        simp only [List.mem_map] at hx
        obtain ⟨e, he, rfl⟩ := hx
        have hlt := WF.head_lt hwf e he
        have : e.1 ≠ k0 := by
          intro heq
          rw [heq] at hlt
          exact lt_irrefl _ hlt
        simp [this]
      simp [getD, find, lt_irrefl, hrest]
    · have hne : p ≠ k0 := fun h => h2 h.symm
      by_cases h1 : p.data < k0.data
      · have hrest : (rest.map (fun e => if e.1 = p then f e.2 else 0)).sum = 0 := by
          apply List.sum_eq_zero
          intro x hx
          simp only [List.mem_map] at hx
          obtain ⟨e, he, rfl⟩ := hx
          have hlt := lt_trans h1 (WF.head_lt hwf e he)
          have : e.1 ≠ p := by
            intro heq
            rw [heq] at hlt
            exact lt_irrefl _ hlt
          simp [this]
        simp [getD, find, h1, h2, hrest, hf]
      · simp only [getD] at ih'
        simp [getD, find, h1, h2, hne, ih']

end StdMap

end Splitwise

namespace Splitwise

/-- The sum of a quantity of the values after an assignment, for any value type. -/
theorem StdMap.sum_set_of {V : Type} (g : V → ℚ) (d : V) (hd : g d = 0) (m : StdMap V)
    (k : String) (v : V) :
    ((StdMap.set m k v).map (fun e => g e.2)).sum
      = (m.map (fun e => g e.2)).sum - g (StdMap.getD m k d) + g v := by
  induction m with
  | nil => simp [StdMap.set, StdMap.getD, StdMap.find, hd]
  | cons e0 rest ih =>
    obtain ⟨k0, v0⟩ := e0
    by_cases h1 : k.data < k0.data
    · simp [StdMap.set, StdMap.getD, StdMap.find, h1, hd]
      ring
    · by_cases h2 : k = k0
      · simp [StdMap.set, StdMap.getD, StdMap.find, h1, h2]
        ring
      · simp only [StdMap.getD] at ih
        simp only [StdMap.set, StdMap.getD, StdMap.find, h1, h2, if_false, List.map_cons,
          List.sum_cons, ih]
        ring

namespace Balances

/-- The entries after `balances[a][b] = v`. -/
theorem lookup_assign (sb : Balances) (a b : String) (v : ℚ) (a' b' : String) :
    lookup (assign sb a b v) a' b' = if a' = a ∧ b' = b then v else lookup sb a' b' := by
  by_cases ha : a' = a
  · subst ha
    by_cases hb : b' = b
    · subst hb
      simp [lookup, assign, StdMap.getD_set_self]
    · simp [lookup, assign, StdMap.getD_set_self, StdMap.getD_set_ne _ _ _ hb, hb]
  · simp [lookup, assign, StdMap.getD_set_ne _ _ _ ha, ha]

/-- The sum of a sheet after `balances[a][b] = v`. -/
theorem rowSum_assign (sb : Balances) (a b : String) (v : ℚ) (p : String) :
    rowSum (assign sb a b v) p
      = rowSum sb p + (if p = a then v - lookup sb a b else 0) := by
  by_cases hp : p = a
  · subst hp
    simp only [rowSum, assign, StdMap.getD_set_self, StdMap.sum_set, lookup, if_true]
    ring
  · simp [rowSum, assign, StdMap.getD_set_ne _ _ _ hp, hp]

/-- The sum of all sheets after `balances[a][b] = v`. -/
theorem total_assign (sb : Balances) (a b : String) (v : ℚ) :
    total (assign sb a b v) = total sb + v - lookup sb a b := by
  have h := StdMap.sum_set_of (fun row : StdMap ℚ => (row.map (fun e => e.2)).sum) []
    (by simp) sb a (StdMap.set (StdMap.getD sb a []) b v)
  simp only [total, assign, lookup]
  rw [h, StdMap.sum_set]
  ring

/-- One round of the loop: `sb[c][d] = s` and `sb[d][c] = -s` on fresh entries. -/
theorem round_spec (sb : Balances) {c d : String} (s : ℚ) (hcd : c ≠ d)
    (h1 : lookup sb c d = 0) (h2 : lookup sb d c = 0) :
    (∀ p, rowSum (assign (assign sb c d s) d c (-s)) p
        = rowSum sb p + (if p = c then s else 0) - (if p = d then s else 0)) ∧
    total (assign (assign sb c d s) d c (-s)) = total sb ∧
    (∀ a b, (a ≠ c ∧ a ≠ d) ∨ (b ≠ c ∧ b ≠ d) →
      lookup (assign (assign sb c d s) d c (-s)) a b = lookup sb a b) := by
  have h3 : lookup (assign sb c d s) d c = 0 := by
    rw [lookup_assign]
    have : ¬ (d = c ∧ c = d) := fun h => hcd h.2
    simp [this, h2]
  refine ⟨?_, ?_, ?_⟩
  · intro p
    rw [rowSum_assign, rowSum_assign, h1, h3]
    by_cases hpc : p = c
    · have hpd : p ≠ d := fun h => hcd (hpc ▸ h)
      simp [hpc, hpd, hcd]
    · by_cases hpd : p = d
      · simp [hpc, hpd]
        ring
      · simp [hpc, hpd]
  · rw [total_assign, total_assign, h1, h3]
    ring
  · intro a b h
    rw [lookup_assign, lookup_assign]
    have n1 : ¬ (a = d ∧ b = c) := by
      rintro ⟨rfl, rfl⟩
      rcases h with h | h
      · exact h.2 rfl
      · exact h.1 rfl
    have n2 : ¬ (a = c ∧ b = d) := by
      rintro ⟨rfl, rfl⟩
      rcases h with h | h
      · exact h.1 rfl
      · exact h.2 rfl
    simp [n1, n2]

end Balances

/-- What a vector holds for `p`, entry by entry. -/
theorem credit_cons (e : String × ℚ) (l : List (String × ℚ)) (p : String) :
    credit (e :: l) p = (if p = e.1 then e.2 else 0) + credit l p := by
  simp only [credit, weighted, List.map_cons, List.sum_cons]
  by_cases h : e.1 = p
  · simp [h]
  · have h' : ¬ p = e.1 := fun h2 => h h2.symm
    simp [h, h']

/-- An empty vector holds nothing for `p`. -/
theorem credit_nil (p : String) : credit [] p = 0 := by
  simp [credit, weighted]

end Splitwise

namespace Splitwise

namespace DebtSimplifier

/-- A whole number is below the tolerance 0.01 exactly when it is not positive. -/
theorem int_lt_tolerance (n : ℤ) : ((n : ℚ) < 0.01) ↔ n ≤ 0 := by
  constructor
  · intro h
    by_contra hn
    have h1 : (1 : ℤ) ≤ n := by omega
    have h2 : (1 : ℚ) ≤ (n : ℚ) := by exact_mod_cast h1
    norm_num at h
    linarith
  · intro h
    have h2 : (n : ℚ) ≤ 0 := by exact_mod_cast h
    norm_num
    linarith

/-- One unfolding of the loop: the round on the two heads, then the loop on the vectors
from which the settled heads are dropped. -/
theorem settleLoop_cons (c d : String) (x y : ℚ) (cs ds : List (String × ℚ))
    (sb : Balances) :
    settleLoop ((c, x) :: cs) ((d, y) :: ds) sb
      = settleLoop (if x - min x y < 0.01 then cs else (c, x - min x y) :: cs)
          (if y - min x y < 0.01 then ds else (d, y - min x y) :: ds)
          (Balances.assign (Balances.assign sb c d (min x y)) d c (-(min x y))) := by
  rw [settleLoop]
  split_ifs <;> rfl

/-- What becomes of one vector in a round in which `s` of the amount of its head is
settled. -/
theorem shrink_spec (c : String) (a m : ℤ) (l : List (String × ℚ)) (hm : m ≤ a)
    (hl : ∀ e ∈ l, ∃ k : ℤ, e.2 = k ∧ 1 ≤ k) :
    ((if ((a : ℚ) - (m : ℚ)) < 0.01 then l else (c, (a : ℚ) - (m : ℚ)) :: l).map
        (fun e => e.1)).Sublist (((c, (a : ℚ)) :: l).map (fun e => e.1)) ∧
    (∀ e ∈ (if ((a : ℚ) - (m : ℚ)) < 0.01 then l else (c, (a : ℚ) - (m : ℚ)) :: l),
      ∃ k : ℤ, e.2 = k ∧ 1 ≤ k) ∧
    ((if ((a : ℚ) - (m : ℚ)) < 0.01 then l else (c, (a : ℚ) - (m : ℚ)) :: l).map
        (fun e => e.2)).sum = (a : ℚ) + (l.map (fun e => e.2)).sum - (m : ℚ) ∧
    (∀ p, credit (if ((a : ℚ) - (m : ℚ)) < 0.01 then l else (c, (a : ℚ) - (m : ℚ)) :: l) p
      = credit ((c, (a : ℚ)) :: l) p - (if p = c then (m : ℚ) else 0)) ∧
    (a = m → (if ((a : ℚ) - (m : ℚ)) < 0.01 then l else (c, (a : ℚ) - (m : ℚ)) :: l) = l) ∧
    (if ((a : ℚ) - (m : ℚ)) < 0.01 then l else (c, (a : ℚ) - (m : ℚ)) :: l).length
      ≤ l.length + 1 := by
  have hcast : (a : ℚ) - (m : ℚ) = ((a - m : ℤ) : ℚ) := by push_cast; ring
  by_cases hlt : ((a : ℚ) - (m : ℚ)) < 0.01
  · have hzero : a - m = 0 := by
      have := (int_lt_tolerance (a - m)).mp (hcast ▸ hlt)
      omega
    have hq : (a : ℚ) = (m : ℚ) := by
      have : a = m := by omega
      rw [this]
    simp only [hlt, if_true]
    refine ⟨List.sublist_cons_self _ _, hl, by rw [hq]; ring, ?_, fun _ => trivial, by omega⟩
    intro p
    rw [credit_cons]
    simp only [hq]
    ring
  · have hpos : 1 ≤ a - m := by
      have := (int_lt_tolerance (a - m)).not.mp (hcast ▸ hlt)
      omega
    simp only [hlt, if_false]
    refine ⟨List.Sublist.refl _, ?_, by simp only [List.map_cons, List.sum_cons]; ring, ?_,
      ?_, by simp⟩
    · intro e he
      rcases List.mem_cons.mp he with he | he
      · exact ⟨a - m, by rw [he]; exact hcast, hpos⟩
      · exact hl e he
    · intro p
      rw [credit_cons, credit_cons]
      by_cases hp : p = c <;> simp [hp]
      ring
    · intro h
      omega

/-- A non-empty vector of amounts that are at least 1 has a positive sum. -/
theorem sum_pos_of_ne_nil (l : List (String × ℚ)) (hl : ∀ e ∈ l, ∃ k : ℤ, e.2 = k ∧ 1 ≤ k) :
    0 ≤ (l.map (fun e => e.2)).sum ∧ (l ≠ [] → 0 < (l.map (fun e => e.2)).sum) := by
  induction l with
  | nil => simp
  | cons e rest ih =>
    obtain ⟨k, hk, hk1⟩ := hl e (List.mem_cons_self _ _)
    have h1 : (1 : ℚ) ≤ e.2 := by rw [hk]; exact_mod_cast hk1
    have h2 := (ih (fun e' he' => hl e' (List.mem_cons_of_mem _ he'))).1
    simp only [List.map_cons, List.sum_cons]
    exact ⟨by linarith, fun _ => by linarith⟩

/-- The loop on creditors and debtors with distinct ids, whole amounts of at least 1 and
equal totals, started on a map in which their pairs have no balance yet: every
participant's sheet grows by what the creditors vector holds for it and shrinks by what
the debtors vector holds for it, and the total of all sheets is unchanged. -/
theorem settleLoop_spec : ∀ (n : Nat) (cs ds : List (String × ℚ)) (sb : Balances),
    cs.length + ds.length ≤ n →
    (cs.map (fun e => e.1) ++ ds.map (fun e => e.1)).Nodup →
    (∀ e ∈ cs, ∃ k : ℤ, e.2 = k ∧ 1 ≤ k) →
    (∀ e ∈ ds, ∃ k : ℤ, e.2 = k ∧ 1 ≤ k) →
    (cs.map (fun e => e.2)).sum = (ds.map (fun e => e.2)).sum →
    (∀ c ∈ cs.map (fun e => e.1), ∀ d ∈ ds.map (fun e => e.1),
      sb.lookup c d = 0 ∧ sb.lookup d c = 0) →
    (∀ p, (settleLoop cs ds sb).rowSum p = sb.rowSum p + credit cs p - credit ds p) ∧
    (settleLoop cs ds sb).total = sb.total := by
  intro n
  induction n with
  | zero =>
    intro cs ds sb hn _ _ _ _ _
    have hcs : cs = [] := List.length_eq_zero.mp (by omega)
    have hds : ds = [] := List.length_eq_zero.mp (by omega)
    subst hcs hds
    rw [settleLoop_done [] [] sb (Or.inl rfl)]
    simp [credit_nil]
  | succ n ih =>
    intro cs ds sb hn hnd hci hdi hsum hfresh
    cases cs with
    | nil =>
      have hds : ds = [] := by
        by_contra hne
        have := (sum_pos_of_ne_nil ds hdi).2 hne
        simp only [List.map_nil, List.sum_nil] at hsum
        linarith
      subst hds
      rw [settleLoop_done [] [] sb (Or.inl rfl)]
      simp [credit_nil]
    | cons ch cs' =>
      cases ds with
      | nil =>
        exfalso
        have := (sum_pos_of_ne_nil (ch :: cs') hci).2 (List.cons_ne_nil _ _)
        simp only [List.map_nil, List.sum_nil] at hsum
        linarith
      | cons dh ds' =>
        obtain ⟨c, x⟩ := ch
        obtain ⟨d, y⟩ := dh
        obtain ⟨a, hxa, ha1⟩ := hci (c, x) (List.mem_cons_self _ _)
        obtain ⟨b, hyb, hb1⟩ := hdi (d, y) (List.mem_cons_self _ _)
        simp only at hxa hyb
        subst hxa hyb
        have hmin : min (a : ℚ) (b : ℚ) = ((min a b : ℤ) : ℚ) := (Int.cast_min).symm
        -- the ids
        simp only [List.map_cons] at hnd hfresh
        have hcd : c ≠ d := by
          intro h
          have := List.nodup_append.mp hnd
          exact this.2.2 (List.mem_cons_self _ _) (h ▸ List.mem_cons_self _ _)
        have hround := Balances.round_spec sb (min (a : ℚ) (b : ℚ)) hcd
          (hfresh c (List.mem_cons_self _ _) d (List.mem_cons_self _ _)).1
          (hfresh c (List.mem_cons_self _ _) d (List.mem_cons_self _ _)).2
        obtain ⟨hrow, htot, hlook⟩ := hround
        have hC := shrink_spec c a (min a b) cs' (min_le_left a b)
          (fun e he => hci e (List.mem_cons_of_mem _ he))
        have hD := shrink_spec d b (min a b) ds' (min_le_right a b)
          (fun e he => hdi e (List.mem_cons_of_mem _ he))
        rw [← hmin] at hC hD
        obtain ⟨hCsub, hCint, hCsum, hCcred, hCdrop, hClen⟩ := hC
        obtain ⟨hDsub, hDint, hDsum, hDcred, hDdrop, hDlen⟩ := hD
        rw [settleLoop_cons]
        -- one of the two heads is settled
        have hdropped : a = min a b ∨ b = min a b := by
          rcases le_total a b with h | h
          · left; exact (min_eq_left h).symm
          · right; exact (min_eq_right h).symm
        have hlen : (if (a : ℚ) - min (a : ℚ) (b : ℚ) < 0.01 then cs'
              else (c, (a : ℚ) - min (a : ℚ) (b : ℚ)) :: cs').length
            + (if (b : ℚ) - min (a : ℚ) (b : ℚ) < 0.01 then ds'
              else (d, (b : ℚ) - min (a : ℚ) (b : ℚ)) :: ds').length ≤ n := by
          simp only [List.length_cons] at hn
          rcases hdropped with h | h
          · rw [hCdrop h]; omega
          · rw [hDdrop h]; omega
        have hnd' : ((if (a : ℚ) - min (a : ℚ) (b : ℚ) < 0.01 then cs'
              else (c, (a : ℚ) - min (a : ℚ) (b : ℚ)) :: cs').map (fun e => e.1)
            ++ (if (b : ℚ) - min (a : ℚ) (b : ℚ) < 0.01 then ds'
              else (d, (b : ℚ) - min (a : ℚ) (b : ℚ)) :: ds').map (fun e => e.1)).Nodup :=
          hnd.sublist (List.Sublist.append hCsub hDsub)
        have hsum' : ((if (a : ℚ) - min (a : ℚ) (b : ℚ) < 0.01 then cs'
              else (c, (a : ℚ) - min (a : ℚ) (b : ℚ)) :: cs').map (fun e => e.2)).sum
            = ((if (b : ℚ) - min (a : ℚ) (b : ℚ) < 0.01 then ds'
              else (d, (b : ℚ) - min (a : ℚ) (b : ℚ)) :: ds').map (fun e => e.2)).sum := by
          rw [hCsum, hDsum]
          simp only [List.map_cons, List.sum_cons] at hsum
          linarith
        have hfresh' : ∀ c2 ∈ (if (a : ℚ) - min (a : ℚ) (b : ℚ) < 0.01 then cs'
              else (c, (a : ℚ) - min (a : ℚ) (b : ℚ)) :: cs').map (fun e => e.1),
            ∀ d2 ∈ (if (b : ℚ) - min (a : ℚ) (b : ℚ) < 0.01 then ds'
              else (d, (b : ℚ) - min (a : ℚ) (b : ℚ)) :: ds').map (fun e => e.1),
            (Balances.assign (Balances.assign sb c d (min (a : ℚ) (b : ℚ))) d c
                (-(min (a : ℚ) (b : ℚ)))).lookup c2 d2 = 0 ∧
            (Balances.assign (Balances.assign sb c d (min (a : ℚ) (b : ℚ))) d c
                (-(min (a : ℚ) (b : ℚ)))).lookup d2 c2 = 0 := by
          intro c2 hc2 d2 hd2
          have hc2' : c2 ∈ c :: cs'.map (fun e => e.1) := hCsub.subset hc2
          have hd2' : d2 ∈ d :: ds'.map (fun e => e.1) := hDsub.subset hd2
          have hdisj := (List.nodup_append.mp hnd).2.2
          have hc2d : c2 ≠ d := fun h => hdisj hc2' (h ▸ List.mem_cons_self _ _)
          have hd2c : d2 ≠ c := fun h => hdisj (List.mem_cons_self _ _) (h ▸ hd2')
          have hone : c2 ≠ c ∨ d2 ≠ d := by
            rcases hdropped with h | h
            · left
              rw [hCdrop h] at hc2
              intro heq
              have := (List.nodup_cons.mp (List.nodup_append.mp hnd).1).1
              exact this (heq ▸ hc2)
            · right
              rw [hDdrop h] at hd2
              intro heq
              have := (List.nodup_cons.mp (List.nodup_append.mp hnd).2.1).1
              exact this (heq ▸ hd2)
          have hor : (c2 ≠ c ∧ c2 ≠ d) ∨ (d2 ≠ c ∧ d2 ≠ d) := by
            rcases hone with h | h
            · exact Or.inl ⟨h, hc2d⟩
            · exact Or.inr ⟨hd2c, h⟩
          rw [hlook c2 d2 hor, hlook d2 c2 hor.symm]
          exact hfresh c2 hc2' d2 hd2'
        obtain ⟨hres, htotres⟩ := ih _ _ _ hlen hnd' hCint hDint hsum' hfresh'
        refine ⟨?_, by rw [htotres, htot]⟩
        intro p
        rw [hres p, hrow p, hCcred p, hDcred p]
        rw [hmin]
        by_cases hpc : p = c <;> by_cases hpd : p = d <;> simp [hpc, hpd] <;> ring

end DebtSimplifier

end Splitwise

namespace Splitwise

/-- A sum that only counts the entries with key `p`, for any value type. -/
theorem StdMap.sum_key_of {V : Type} (m : StdMap V) (p : String) (f : V → ℚ) (d : V)
    (hf : f d = 0) (hwf : StdMap.WF m) :
    (m.map (fun e => if e.1 = p then f e.2 else 0)).sum = f (StdMap.getD m p d) := by
  induction m with
  | nil => simp [StdMap.getD, StdMap.find, hf]
  | cons e0 rest ih =>
    obtain ⟨k0, v0⟩ := e0
    have ih' := ih (StdMap.WF.tail hwf)
    by_cases h2 : k0 = p
    · subst h2
      have hrest : (rest.map (fun e => if e.1 = k0 then f e.2 else 0)).sum = 0 := by
        apply List.sum_eq_zero
        intro x hx
        simp only [List.mem_map] at hx
        obtain ⟨e, he, rfl⟩ := hx
        have hlt := StdMap.WF.head_lt hwf e he
        have : e.1 ≠ k0 := by
          intro heq
          rw [heq] at hlt
          exact lt_irrefl _ hlt
        simp [this]
      simp [StdMap.getD, StdMap.find, lt_irrefl, hrest]
    · have hne : p ≠ k0 := fun h => h2 h.symm
      by_cases h1 : p.data < k0.data
      · have hrest : (rest.map (fun e => if e.1 = p then f e.2 else 0)).sum = 0 := by
          apply List.sum_eq_zero
          intro x hx
          simp only [List.mem_map] at hx
          obtain ⟨e, he, rfl⟩ := hx
          have hlt := lt_trans h1 (StdMap.WF.head_lt hwf e he)
          have : e.1 ≠ p := by
            intro heq
            rw [heq] at hlt
            exact lt_irrefl _ hlt
          simp [this]
        simp [StdMap.getD, StdMap.find, h1, h2, hrest, hf]
      · simp only [StdMap.getD] at ih'
        simp [StdMap.getD, StdMap.find, h1, h2, hne, ih']

namespace DebtSimplifier

/-- One step of the second loop of `simplifyDebts`, on the entry `balances[a][c] = v`. -/
theorem netStep_spec (net : StdMap ℚ) (a c : String) (v : ℚ) :
    (∀ p, StdMap.getD (if v > 0 then
          StdMap.set (StdMap.set net a (StdMap.getD net a 0 + v)) c
            (StdMap.getD (StdMap.set net a (StdMap.getD net a 0 + v)) c 0 - v)
        else net) p 0 = StdMap.getD net p 0 + contribution a c v p) ∧
    ((if v > 0 then
          StdMap.set (StdMap.set net a (StdMap.getD net a 0 + v)) c
            (StdMap.getD (StdMap.set net a (StdMap.getD net a 0 + v)) c 0 - v)
        else net).map (fun e => e.2)).sum = (net.map (fun e => e.2)).sum ∧
    (StdMap.WF net → StdMap.WF (if v > 0 then
          StdMap.set (StdMap.set net a (StdMap.getD net a 0 + v)) c
            (StdMap.getD (StdMap.set net a (StdMap.getD net a 0 + v)) c 0 - v)
        else net)) := by
  by_cases hv : v > 0
  · simp only [hv, if_true, contribution]
    refine ⟨?_, ?_, fun h => StdMap.set_WF _ _ _ (StdMap.set_WF _ _ _ h)⟩
    · intro p
      by_cases hpc : p = c
      · subst hpc
        rw [StdMap.getD_set_self]
        by_cases hpa : p = a
        · subst hpa
          rw [StdMap.getD_set_self]
          simp
        · rw [StdMap.getD_set_ne _ _ _ hpa]
          simp [hpa]
          ring
      · rw [StdMap.getD_set_ne _ _ _ hpc]
        by_cases hpa : p = a
        · subst hpa
          rw [StdMap.getD_set_self]
          simp [hpc]
        · rw [StdMap.getD_set_ne _ _ _ hpa]
          simp [hpa, hpc]
    · rw [StdMap.sum_set, StdMap.sum_set]
      ring
  · simp [hv, contribution]

/-- The inner loop over the sheet of `a`. -/
theorem netRow_spec (a : String) (row : StdMap ℚ) : ∀ net : StdMap ℚ,
    (∀ p, StdMap.getD (row.foldl (fun net balance =>
        if balance.2 > 0 then
          StdMap.set (StdMap.set net a (StdMap.getD net a 0 + balance.2)) balance.1
            (StdMap.getD (StdMap.set net a (StdMap.getD net a 0 + balance.2)) balance.1 0
              - balance.2)
        else net) net) p 0
      = StdMap.getD net p 0 + (row.map (fun e => contribution a e.1 e.2 p)).sum) ∧
    ((row.foldl (fun net balance =>
        if balance.2 > 0 then
          StdMap.set (StdMap.set net a (StdMap.getD net a 0 + balance.2)) balance.1
            (StdMap.getD (StdMap.set net a (StdMap.getD net a 0 + balance.2)) balance.1 0
              - balance.2)
        else net) net).map (fun e => e.2)).sum = (net.map (fun e => e.2)).sum ∧
    (StdMap.WF net → StdMap.WF (row.foldl (fun net balance =>
        if balance.2 > 0 then
          StdMap.set (StdMap.set net a (StdMap.getD net a 0 + balance.2)) balance.1
            (StdMap.getD (StdMap.set net a (StdMap.getD net a 0 + balance.2)) balance.1 0
              - balance.2)
        else net) net)) := by
  induction row with
  | nil => intro net; simp
  | cons e rest ih =>
    intro net
    obtain ⟨h1, h2, h3⟩ := netStep_spec net a e.1 e.2
    simp only [List.foldl_cons, List.map_cons, List.sum_cons]
    obtain ⟨i1, i2, i3⟩ := ih (if e.2 > 0 then
          StdMap.set (StdMap.set net a (StdMap.getD net a 0 + e.2)) e.1
            (StdMap.getD (StdMap.set net a (StdMap.getD net a 0 + e.2)) e.1 0 - e.2)
        else net)
    refine ⟨fun p => ?_, ?_, fun h => i3 (h3 h)⟩
    · rw [i1 p, h1 p]
      ring
    · rw [i2, h2]

/-- The outer loop over all sheets. -/
theorem netRows_spec (gb : Balances) : ∀ net : StdMap ℚ,
    (∀ p, StdMap.getD (gb.foldl (fun net userBalance =>
        userBalance.2.foldl (fun net balance =>
          if balance.2 > 0 then
            StdMap.set (StdMap.set net userBalance.1
                (StdMap.getD net userBalance.1 0 + balance.2)) balance.1
              (StdMap.getD (StdMap.set net userBalance.1
                (StdMap.getD net userBalance.1 0 + balance.2)) balance.1 0 - balance.2)
          else net) net) net) p 0
      = StdMap.getD net p 0 + netPos gb p) ∧
    ((gb.foldl (fun net userBalance =>
        userBalance.2.foldl (fun net balance =>
          if balance.2 > 0 then
            StdMap.set (StdMap.set net userBalance.1
                (StdMap.getD net userBalance.1 0 + balance.2)) balance.1
              (StdMap.getD (StdMap.set net userBalance.1
                (StdMap.getD net userBalance.1 0 + balance.2)) balance.1 0 - balance.2)
          else net) net) net).map (fun e => e.2)).sum = (net.map (fun e => e.2)).sum ∧
    (StdMap.WF net → StdMap.WF (gb.foldl (fun net userBalance =>
        userBalance.2.foldl (fun net balance =>
          if balance.2 > 0 then
            StdMap.set (StdMap.set net userBalance.1
                (StdMap.getD net userBalance.1 0 + balance.2)) balance.1
              (StdMap.getD (StdMap.set net userBalance.1
                (StdMap.getD net userBalance.1 0 + balance.2)) balance.1 0 - balance.2)
          else net) net) net)) := by
  induction gb with
  | nil => intro net; simp [netPos]
  | cons row rest ih =>
    intro net
    obtain ⟨h1, h2, h3⟩ := netRow_spec row.1 row.2 net
    simp only [List.foldl_cons]
    obtain ⟨i1, i2, i3⟩ := ih (row.2.foldl (fun (net : StdMap ℚ) (balance : String × ℚ) =>
        if balance.2 > 0 then
          StdMap.set (StdMap.set net row.1 (StdMap.getD net row.1 0 + balance.2)) balance.1
            (StdMap.getD (StdMap.set net row.1 (StdMap.getD net row.1 0 + balance.2))
              balance.1 0 - balance.2)
        else net) net)
    refine ⟨fun p => ?_, ?_, fun h => i3 (h3 h)⟩
    · rw [i1 p, h1 p]
      simp only [netPos, List.map_cons, List.sum_cons]
      ring
    · rw [i2, h2]

/-- The first loop: a well-formed map in which every user has the net amount 0. -/
theorem netInit_spec (gb : Balances) : ∀ net : StdMap ℚ,
    (∀ e ∈ net, e.2 = 0) → StdMap.WF net →
    (∀ e ∈ gb.foldl (fun net userBalance => StdMap.set net userBalance.1 0) net, e.2 = 0) ∧
    StdMap.WF (gb.foldl (fun net userBalance => StdMap.set net userBalance.1 0) net) := by
  induction gb with
  | nil => intro net h1 h2; exact ⟨h1, h2⟩
  | cons row rest ih =>
    intro net h1 h2
    simp only [List.foldl_cons]
    apply ih
    · intro e he
      rcases StdMap.mem_set net row.1 0 he with h | h
      · rw [h]
      · exact h1 e h
    · exact StdMap.set_WF _ _ _ h2

/-- A map whose values are all zero. -/
theorem zero_map (m : StdMap ℚ) (h : ∀ e ∈ m, e.2 = 0) :
    (∀ p, StdMap.getD m p 0 = 0) ∧ (m.map (fun e => e.2)).sum = 0 := by
  constructor
  · intro p
    cases hf : StdMap.find m p with
    | none => simp [StdMap.getD, hf]
    | some v =>
      have := h (p, v) (StdMap.mem_of_find m hf)
      simp only at this
      simp [StdMap.getD, hf, this]
  · apply List.sum_eq_zero
    intro x hx
    simp only [List.mem_map] at hx
    obtain ⟨e, he, rfl⟩ := hx
    exact h e he

/-- The net amounts of `simplifyDebts`: a well-formed map whose value for `p` is the sum
of the contributions of all entries, and whose values add up to zero. -/
theorem netAmounts_spec (gb : Balances) :
    (∀ p, StdMap.getD (netAmounts gb) p 0 = netPos gb p) ∧
    ((netAmounts gb).map (fun e => e.2)).sum = 0 ∧
    StdMap.WF (netAmounts gb) := by
  obtain ⟨z1, z2⟩ := netInit_spec gb [] (by simp) (by simp [StdMap.WF])
  obtain ⟨g1, g2⟩ := zero_map _ z1
  obtain ⟨h1, h2, h3⟩ := netRows_spec gb
    (gb.foldl (fun net userBalance => StdMap.set net userBalance.1 0) [])
  refine ⟨fun p => ?_, ?_, ?_⟩
  · have := h1 p
    rw [g1 p, zero_add] at this
    exact this
  · rw [← g2]
    exact h2
  · exact h3 z2

end DebtSimplifier

end Splitwise

namespace Splitwise

namespace DebtSimplifier

/-- A whole number above the tolerance is at least 1. -/
theorem int_gt_tolerance (n : ℤ) : ((n : ℚ) > 0.01) ↔ 1 ≤ n := by
  constructor
  · intro h
    by_contra hlt
    have h0 : n ≤ 0 := by omega
    have : (n : ℚ) ≤ 0 := by exact_mod_cast h0
    norm_num at h
    linarith
  · intro h
    have : (1 : ℚ) ≤ n := by exact_mod_cast h
    norm_num
    linarith

/-- A whole number below the negative tolerance is at most -1. -/
theorem int_lt_neg_tolerance (n : ℤ) : ((n : ℚ) < -0.01) ↔ n ≤ -1 := by
  constructor
  · intro h
    by_contra hlt
    have h0 : 0 ≤ n := by omega
    have : (0 : ℚ) ≤ n := by exact_mod_cast h0
    norm_num at h
    linarith
  · intro h
    have : (n : ℚ) ≤ -1 := by exact_mod_cast h
    norm_num
    linarith

/-- With whole-number net amounts the creditors and the debtors together carry every
net amount: nothing is dropped by the tolerance. -/
theorem weighted_creditors_debtors (w : String → ℚ) (l : StdMap ℚ)
    (hint : ∀ e ∈ l, ∃ k : ℤ, e.2 = k) :
    weighted w (creditors l) - weighted w (debtors l) = weighted w l := by
  induction l with
  | nil => simp [weighted, creditors, debtors]
  | cons e rest ih =>
    have ih' := ih (fun e' he' => hint e' (List.mem_cons_of_mem _ he'))
    obtain ⟨k, hk⟩ := hint e (List.mem_cons_self _ _)
    simp only [weighted, creditors, debtors] at ih' ⊢
    by_cases h1 : 1 ≤ k
    · have hc : e.2 > 0.01 := by rw [hk]; exact (int_gt_tolerance k).2 h1
      simp only [List.filterMap_cons, hc, if_true, List.map_cons, List.sum_cons]
      linarith
    · have hc : ¬ e.2 > 0.01 := by rw [hk]; exact fun h => h1 ((int_gt_tolerance k).1 h)
      by_cases h2 : k ≤ -1
      · have hd : e.2 < -0.01 := by rw [hk]; exact (int_lt_neg_tolerance k).2 h2
        simp only [List.filterMap_cons, hc, hd, if_true, if_false, List.map_cons,
          List.sum_cons]
        linarith
      · have hd : ¬ e.2 < -0.01 := by
          rw [hk]; exact fun h => h2 ((int_lt_neg_tolerance k).1 h)
        have hz : k = 0 := by omega
        have hz' : e.2 = 0 := by rw [hk, hz]; simp
        simp only [List.filterMap_cons, hc, hd, if_false, List.map_cons, List.sum_cons]
        rw [hz']
        linarith

/-- Every creditor and every debtor holds a whole amount of at least 1. -/
theorem creditors_debtors_amounts (l : StdMap ℚ) (hint : ∀ e ∈ l, ∃ k : ℤ, e.2 = k) :
    (∀ e ∈ creditors l, ∃ k : ℤ, e.2 = k ∧ 1 ≤ k) ∧
    (∀ e ∈ debtors l, ∃ k : ℤ, e.2 = k ∧ 1 ≤ k) := by
  constructor
  · intro e he
    simp only [creditors, List.mem_filterMap] at he
    obtain ⟨n, hn, hsome⟩ := he
    obtain ⟨k, hk⟩ := hint n hn
    by_cases hc : n.2 > 0.01
    · simp only [hc, if_true, Option.some.injEq] at hsome
      subst hsome
      exact ⟨k, hk, (int_gt_tolerance k).1 (by rw [← hk]; exact hc)⟩
    · simp [hc] at hsome
  · intro e he
    simp only [debtors, List.mem_filterMap] at he
    obtain ⟨n, hn, hsome⟩ := he
    obtain ⟨k, hk⟩ := hint n hn
    by_cases hc : n.2 > 0.01
    · simp [hc] at hsome
    · by_cases hd : n.2 < -0.01
      · simp only [hc, hd, if_true, if_false, Option.some.injEq] at hsome
        subst hsome
        have := (int_lt_neg_tolerance k).1 (by rw [← hk]; exact hd)
        refine ⟨-k, ?_, by omega⟩
        simp only [hk]
        push_cast
        rfl
      · simp [hc, hd] at hsome

/-- Nobody is listed twice among the creditors and the debtors. -/
theorem creditors_debtors_ids (l : StdMap ℚ) (hnd : (l.map (fun e => e.1)).Nodup) :
    ((creditors l).map (fun e => e.1) ++ (debtors l).map (fun e => e.1)).Nodup ∧
    ∀ x ∈ (creditors l).map (fun e => e.1) ++ (debtors l).map (fun e => e.1),
      x ∈ l.map (fun e => e.1) := by
  induction l with
  | nil => simp [creditors, debtors]
  | cons e rest ih =>
    simp only [List.map_cons, List.nodup_cons] at hnd
    obtain ⟨i1, i2⟩ := ih hnd.2
    simp only [creditors, debtors] at i1 i2 ⊢
    have hfresh : e.1 ∉ (List.filterMap (fun n : String × ℚ =>
          if n.2 > 0.01 then some (n.1, n.2) else none) rest).map (fun e => e.1) ++
        (List.filterMap (fun n : String × ℚ =>
          if n.2 > 0.01 then none else if n.2 < -0.01 then some (n.1, -n.2) else none)
          rest).map (fun e => e.1) := fun h => hnd.1 (i2 _ h)
    by_cases hc : e.2 > 0.01
    · simp only [List.filterMap_cons, hc, if_true, List.map_cons, List.cons_append]
      refine ⟨List.nodup_cons.2 ⟨hfresh, i1⟩, ?_⟩
      intro x hx
      rcases List.mem_cons.1 hx with h | h
      · rw [h]; exact List.mem_cons_self _ _
      · exact List.mem_cons_of_mem _ (i2 x h)
    · by_cases hd : e.2 < -0.01
      · simp only [List.filterMap_cons, hc, hd, if_true, if_false, List.map_cons]
        refine ⟨?_, ?_⟩
        · exact (List.perm_middle.nodup_iff).2 (List.nodup_cons.2 ⟨hfresh, i1⟩)
        · intro x hx
          rcases List.mem_cons.1 ((List.perm_middle.mem_iff).1 hx) with h | h
          · rw [h]; exact List.mem_cons_self _ _
          · exact List.mem_cons_of_mem _ (i2 x h)
      · simp only [List.filterMap_cons, hc, hd, if_false]
        exact ⟨i1, fun x hx => List.mem_cons_of_mem _ (i2 x hx)⟩

/-- Sorting the vector does not change what it holds for a participant. -/
theorem weighted_perm (w : String → ℚ) {l1 l2 : List (String × ℚ)} (h : l1.Perm l2) :
    weighted w l1 = weighted w l2 :=
  (h.map (fun e : String × ℚ => w e.1 * e.2)).sum_eq

/-- The sorted vector is a rearrangement of the vector. -/
theorem sortLargestFirst_perm (v : List (String × ℚ)) : (sortLargestFirst v).Perm v :=
  List.perm_insertionSort _ v

/-- The third loop of `simplifyDebts`: every sheet of the result starts empty. -/
theorem emptyInit_spec (gb : Balances) : ∀ sb : Balances,
    (∀ e ∈ sb, e.2 = []) →
    ∀ e ∈ gb.foldl (fun sb userBalance => StdMap.set sb userBalance.1 []) sb, e.2 = [] := by
  induction gb with
  | nil => intro sb h; exact h
  | cons row rest ih =>
    intro sb h
    simp only [List.foldl_cons]
    apply ih
    intro e he
    rcases StdMap.mem_set sb row.1 [] he with h' | h'
    · rw [h']
    · exact h e h'

/-- A map of empty sheets holds no balance. -/
theorem empty_sheets (sb : Balances) (h : ∀ e ∈ sb, e.2 = []) :
    (∀ a c, sb.lookup a c = 0) ∧ (∀ p, sb.rowSum p = 0) ∧ sb.total = 0 := by
  have hrow : ∀ a, StdMap.getD sb a [] = [] := by
    intro a
    cases hf : StdMap.find sb a with
    | none => simp [StdMap.getD, hf]
    | some v =>
      have := h (a, v) (StdMap.mem_of_find sb hf)
      simp only at this
      simp [StdMap.getD, hf, this]
  refine ⟨fun a c => ?_, fun p => ?_, ?_⟩
  · rw [Balances.lookup, hrow a]
    rfl
  · simp [Balances.rowSum, hrow p]
  · simp only [Balances.total]
    apply List.sum_eq_zero
    intro x hx
    simp only [List.mem_map] at hx
    obtain ⟨e, he, rfl⟩ := hx
    rw [h e he]
    rfl

end DebtSimplifier

end Splitwise

namespace Splitwise

/-- The value a well-formed map holds for the key of one of its entries. -/
theorem StdMap.getD_of_mem {V : Type} (m : StdMap V) {e : String × V} (d : V)
    (hwf : StdMap.WF m) (h : e ∈ m) : StdMap.getD m e.1 d = e.2 := by
  have := StdMap.find_of_mem m hwf (show (e.1, e.2) ∈ m from h)
  simp [StdMap.getD, this]

/-- The sheet of a participant in a well-formed balance map is well formed. -/
theorem Balances.WF.row {gb : Balances} (hwf : Balances.WF gb) (p : String) :
    StdMap.WF (StdMap.getD gb p []) := by
  cases hf : StdMap.find gb p with
  | none => simp [StdMap.getD, hf, StdMap.WF]
  | some R =>
    have := hwf.2 (p, R) (StdMap.mem_of_find gb hf)
    simp [StdMap.getD, hf, this]

/-- A balance that is missing from the sheet reads as 0. -/
theorem Balances.lookup_of_not_mem (gb : Balances) (a c : String)
    (h : c ∉ (StdMap.getD gb a []).map (fun e => e.1)) : gb.lookup a c = 0 := by
  have : StdMap.find (StdMap.getD gb a []) c = none := by
    apply StdMap.find_none_of_not_mem
    intro e he heq
    exact h (List.mem_map.2 ⟨e, he, heq⟩)
  rw [Balances.lookup]
  show (StdMap.find (StdMap.getD gb a []) c).getD 0 = 0
  rw [this]
  rfl

/-- A participant without a sheet has no balances. -/
theorem Balances.lookup_of_no_sheet (gb : Balances) (a c : String)
    (h : a ∉ gb.map (fun e => e.1)) : gb.lookup a c = 0 := by
  have : StdMap.find gb a = none := by
    apply StdMap.find_none_of_not_mem
    intro e he heq
    exact h (List.mem_map.2 ⟨e, he, heq⟩)
  simp [Balances.lookup, StdMap.getD, this, StdMap.find]

namespace DebtSimplifier

/-- A sum of differences. -/
theorem sum_map_sub {α : Type} (l : List α) (f g : α → ℚ) :
    (l.map (fun x => f x - g x)).sum = (l.map f).sum - (l.map g).sum := by
  induction l with
  | nil => simp
  | cons x rest ih => simp only [List.map_cons, List.sum_cons, ih]; ring

/-- One contribution, split into what the owner of the sheet is owed and what the
participant owes on it. -/
theorem contribution_eq (a c : String) (v : ℚ) (p : String) :
    contribution a c v p
      = (if a = p then max v 0 else 0) - (if c = p then max v 0 else 0) := by
  have e1 : (p = a) ↔ (a = p) := eq_comm
  have e2 : (p = c) ↔ (c = p) := eq_comm
  unfold contribution
  rcases le_or_lt v 0 with hv | hv
  · rw [max_eq_right hv, if_neg (not_lt.2 hv)]
    simp
  · rw [max_eq_left hv.le, if_pos hv]
    simp only [e1, e2]

/-- The contributions of one sheet, split in the same way. -/
theorem contribution_sum (a p : String) (l : StdMap ℚ) :
    (l.map (fun e => contribution a e.1 e.2 p)).sum
      = (if a = p then (l.map (fun e => max e.2 0)).sum else 0)
        - (l.map (fun e => if e.1 = p then max e.2 0 else 0)).sum := by
  induction l with
  | nil => simp
  | cons e rest ih =>
    simp only [List.map_cons, List.sum_cons]
    rw [ih, contribution_eq]
    by_cases ha : a = p
    · simp only [ha, if_true]
      ring
    · simp only [ha, if_false]
      ring

/-- Two duplicate-free key lists give the same sum of a function that vanishes on the
keys they do not share. -/
theorem sum_keys_eq (l1 l2 : List String) (h : String → ℚ) (h1 : l1.Nodup) (h2 : l2.Nodup)
    (z1 : ∀ k ∈ l1, k ∉ l2 → h k = 0) (z2 : ∀ k ∈ l2, k ∉ l1 → h k = 0) :
    (l1.map h).sum = (l2.map h).sum := by
  rw [← List.sum_toFinset h h1, ← List.sum_toFinset h h2]
  have u1 : l1.toFinset.sum h = (l1.toFinset ∪ l2.toFinset).sum h := by
    apply Finset.sum_subset Finset.subset_union_left
    intro k hk hk1
    rcases Finset.mem_union.1 hk with hh | hh
    · exact absurd hh hk1
    · exact z2 k (List.mem_toFinset.1 hh) (fun hh1 => hk1 (List.mem_toFinset.2 hh1))
  have u2 : l2.toFinset.sum h = (l1.toFinset ∪ l2.toFinset).sum h := by
    apply Finset.sum_subset Finset.subset_union_right
    intro k hk hk2
    rcases Finset.mem_union.1 hk with hh | hh
    · exact z1 k (List.mem_toFinset.1 hh) (fun hh2 => hk2 (List.mem_toFinset.2 hh2))
    · exact absurd hh hk2
  rw [u1, u2]

/-- On an antisymmetric balance map the net amount that `simplifyDebts` computes for a
participant from the positive entries is the sum of the participant's own sheet. -/
theorem netPos_eq_rowSum (gb : Balances) (hwf : Balances.WF gb)
    (hanti : Balances.Antisymmetric gb) (p : String) : netPos gb p = gb.rowSum p := by
  have hR : StdMap.WF (StdMap.getD gb p []) := Balances.WF.row hwf p
  -- what the owners are owed on the sheet of `p`
  have hA : (gb.map (fun row => if row.1 = p then (row.2.map (fun e => max e.2 0)).sum
      else 0)).sum = ((StdMap.getD gb p []).map (fun e => max e.2 0)).sum :=
    StdMap.sum_key_of gb p (fun l => (l.map (fun e => max e.2 0)).sum) [] (by simp) hwf.1
  -- what `p` owes on the sheets of the others
  have hB : (gb.map (fun row => (row.2.map (fun e => if e.1 = p then max e.2 0 else 0)).sum)).sum
      = ((gb.map (fun e => e.1)).map (fun k => max (- gb.lookup p k) 0)).sum := by
    rw [List.map_map]
    congr 1
    apply List.map_congr_left
    intro row hrow
    rw [StdMap.sum_key row.2 p (fun v => max v 0) (by simp) (hwf.2 row hrow)]
    simp only [Function.comp]
    have h1 : gb.lookup row.1 p = StdMap.getD row.2 p 0 := by
      rw [Balances.lookup, StdMap.getD_of_mem gb [] hwf.1 hrow]
    rw [← h1, hanti row.1 p]
  -- the negative entries of the sheet of `p`
  have hC : ((StdMap.getD gb p []).map (fun e => max (- e.2) 0)).sum
      = (((StdMap.getD gb p []).map (fun e => e.1)).map
          (fun k => max (- gb.lookup p k) 0)).sum := by
    rw [List.map_map]
    congr 1
    apply List.map_congr_left
    intro e he
    simp only [Function.comp, Balances.lookup]
    rw [StdMap.getD_of_mem _ 0 hR he]
  have hD : ((gb.map (fun e => e.1)).map (fun k => max (- gb.lookup p k) 0)).sum
      = (((StdMap.getD gb p []).map (fun e => e.1)).map
          (fun k => max (- gb.lookup p k) 0)).sum := by
    apply sum_keys_eq _ _ _ (StdMap.keys_nodup gb hwf.1) (StdMap.keys_nodup _ hR)
    · intro k _ hk
      rw [Balances.lookup_of_not_mem gb p k hk]
      simp
    · intro k _ hk
      rw [hanti p k, Balances.lookup_of_no_sheet gb k p hk]
      simp
  have hE : gb.rowSum p = ((StdMap.getD gb p []).map (fun e => max e.2 0)).sum
      - ((StdMap.getD gb p []).map (fun e => max (- e.2) 0)).sum := by
    rw [← sum_map_sub, Balances.rowSum]
    congr 1
    apply List.map_congr_left
    intro e _
    rcases le_total e.2 0 with h | h
    · rw [max_eq_right h, max_eq_left (by linarith)]
      ring
    · rw [max_eq_left h, max_eq_right (by linarith)]
      ring
  have hF : netPos gb p = (gb.map (fun row =>
      (if row.1 = p then (row.2.map (fun e => max e.2 0)).sum else 0)
        - (row.2.map (fun e => if e.1 = p then max e.2 0 else 0)).sum)).sum := by
    rw [netPos]
    congr 1
    apply List.map_congr_left
    intro row _
    exact contribution_sum row.1 p row.2
  rw [hF, sum_map_sub, hA, hB, hD, ← hC, ← hE]

end DebtSimplifier

end Splitwise

namespace Splitwise

/-- A check of the entries is enough for antisymmetry: every recorded balance has its
negation recorded on the other participant's sheet. -/
theorem Balances.antisymmetric_of_entries (gb : Balances)
    (h : ∀ row ∈ gb, ∀ e ∈ row.2, gb.lookup e.1 row.1 = - e.2) :
    Balances.Antisymmetric gb := by
  have key : ∀ a c, gb.lookup a c ≠ 0 → gb.lookup c a = - gb.lookup a c := by
    intro a c hne
    cases hf : StdMap.find gb a with
    | none =>
      exfalso
      apply hne
      simp [Balances.lookup, StdMap.getD, hf, StdMap.find]
    | some R =>
      have hR : StdMap.getD gb a [] = R := by simp [StdMap.getD, hf]
      cases hg : StdMap.find R c with
      | none =>
        exfalso
        apply hne
        rw [Balances.lookup, hR]
        simp [StdMap.getD, hg]
      | some v =>
        have hv : gb.lookup a c = v := by
          rw [Balances.lookup, hR]
          simp [StdMap.getD, hg]
        rw [hv]
        exact h (a, R) (StdMap.mem_of_find gb hf) (c, v) (StdMap.mem_of_find R hg)
  intro a c
  by_cases h1 : gb.lookup a c = 0
  · by_cases h2 : gb.lookup c a = 0
    · rw [h1, h2, neg_zero]
    · exact key c a h2
  · rw [key a c h1, neg_neg]

/-- A check of the denominators is enough for whole-number amounts. -/
theorem Balances.wholeNumbers_of_den (gb : Balances)
    (h : ∀ row ∈ gb, ∀ e ∈ row.2, e.2.den = 1) : Balances.WholeNumbers gb := by
  intro row hrow e he
  exact ⟨e.2.num, (Rat.coe_int_num_of_den_eq_one (h row hrow e he)).symm⟩

namespace DebtSimplifier

/-- A sum of whole numbers is a whole number. -/
theorem sum_whole (l : List ℚ) (h : ∀ x ∈ l, ∃ k : ℤ, x = k) : ∃ k : ℤ, l.sum = k := by
  induction l with
  | nil => exact ⟨0, by simp⟩
  | cons x rest ih =>
    obtain ⟨k1, h1⟩ := h x (List.mem_cons_self _ _)
    obtain ⟨k2, h2⟩ := ih (fun y hy => h y (List.mem_cons_of_mem _ hy))
    refine ⟨k1 + k2, ?_⟩
    rw [List.sum_cons, h1, h2]
    push_cast
    rfl

/-- With whole-number balances every net amount is a whole number. -/
theorem netPos_whole (gb : Balances) (hwhole : Balances.WholeNumbers gb) (p : String) :
    ∃ k : ℤ, netPos gb p = k := by
  apply sum_whole
  intro x hx
  simp only [List.mem_map] at hx
  obtain ⟨row, hrow, rfl⟩ := hx
  apply sum_whole
  intro y hy
  simp only [List.mem_map] at hy
  obtain ⟨e, he, rfl⟩ := hy
  obtain ⟨k, hk⟩ := hwhole row hrow e he
  have hw : ∀ (c : Prop) [Decidable c], ∃ j : ℤ, (if c then e.2 else 0) = j := by
    intro c _
    by_cases hc : c
    · exact ⟨k, by simp [hc, hk]⟩
    · exact ⟨0, by simp [hc]⟩
  obtain ⟨j1, h1⟩ := hw (p = row.1)
  obtain ⟨j2, h2⟩ := hw (p = e.1)
  simp only [contribution]
  by_cases hv : e.2 > 0
  · refine ⟨j1 - j2, ?_⟩
    rw [if_pos hv, h1, h2]
    push_cast
    rfl
  · exact ⟨0, by rw [if_neg hv]; simp⟩

/-- What the whole of `simplifyDebts` does on a well-formed map of whole-number
balances: every sheet of the result sums to the net amount computed by the function, and
all sheets together sum to zero. -/
theorem simplifyDebts_net (gb : Balances) (hwhole : Balances.WholeNumbers gb) :
    (∀ p, (simplifyDebts gb).rowSum p = StdMap.getD (netAmounts gb) p 0) ∧
    (simplifyDebts gb).total = 0 := by
  obtain ⟨n1, n2, n3⟩ := netAmounts_spec gb
  have hint : ∀ e ∈ netAmounts gb, ∃ k : ℤ, e.2 = k := by
    intro e he
    obtain ⟨k, hk⟩ := netPos_whole gb hwhole e.1
    refine ⟨k, ?_⟩
    rw [← hk, ← n1 e.1, StdMap.getD_of_mem _ 0 n3 he]
  obtain ⟨a1, a2⟩ := creditors_debtors_amounts (netAmounts gb) hint
  obtain ⟨i1, _⟩ := creditors_debtors_ids (netAmounts gb) (StdMap.keys_nodup _ n3)
  have pc := sortLargestFirst_perm (creditors (netAmounts gb))
  have pd := sortLargestFirst_perm (debtors (netAmounts gb))
  obtain ⟨e1, e2, e3⟩ := empty_sheets _ (emptyInit_spec gb [] (by simp))
  have hone : ∀ l : List (String × ℚ), weighted (fun _ => 1) l = (l.map (fun e => e.2)).sum := by
    intro l
    simp [weighted]
  have hsum : ((sortLargestFirst (creditors (netAmounts gb))).map (fun e => e.2)).sum
      = ((sortLargestFirst (debtors (netAmounts gb))).map (fun e => e.2)).sum := by
    have := weighted_creditors_debtors (fun _ => 1) (netAmounts gb) hint
    rw [hone, hone, hone, n2] at this
    rw [(pc.map (fun e : String × ℚ => e.2)).sum_eq, (pd.map (fun e : String × ℚ => e.2)).sum_eq]
    linarith
  obtain ⟨r1, r2⟩ := settleLoop_spec _ (sortLargestFirst (creditors (netAmounts gb)))
    (sortLargestFirst (debtors (netAmounts gb)))
    (gb.foldl (fun sb userBalance => StdMap.set sb userBalance.1 []) [])
    (le_refl _)
    (((pc.map (fun e : String × ℚ => e.1)).append
      (pd.map (fun e : String × ℚ => e.1))).nodup_iff.2 i1)
    (fun e he => a1 e (pc.mem_iff.1 he))
    (fun e he => a2 e (pd.mem_iff.1 he))
    hsum
    (fun c _ d _ => ⟨e1 c d, e1 d c⟩)
  refine ⟨fun p => ?_, ?_⟩
  · have hr : (simplifyDebts gb).rowSum p
        = 0 + credit (sortLargestFirst (creditors (netAmounts gb))) p
          - credit (sortLargestFirst (debtors (netAmounts gb))) p := by
      rw [← e2 p]
      exact r1 p
    rw [hr, credit, credit, weighted_perm _ pc, weighted_perm _ pd, zero_add,
      weighted_creditors_debtors _ (netAmounts gb) hint, weighted]
    rw [← StdMap.sum_key (netAmounts gb) p (fun v => v) rfl n3]
    congr 1
    apply List.map_congr_left
    intro e _
    by_cases h : e.1 = p
    · simp [h]
    · simp [h]
  · exact r2.trans e3

end DebtSimplifier

end Splitwise

namespace Splitwise

namespace DebtSimplifier

/-- Claim C11: `DebtSimplifier::simplifyDebts` settles everyone exactly. For every
antisymmetric balance map with whole-number amounts and for every participant `p`, the
sum of the balances of `p` in the simplified map equals the net amount of `p` in the
input map, which is both the sum of the input sheet of `p` and the net amount the function
computes; so paying the simplified balances leaves every participant at zero, and the
balances of the simplified map sum to zero over all participants. -/
theorem simplifyDebts_settles_exactly (gb : Balances) (hwf : Balances.WF gb)
    (hanti : Balances.Antisymmetric gb) (hwhole : Balances.WholeNumbers gb) :
    (∀ p, (simplifyDebts gb).rowSum p = gb.rowSum p) ∧
    (∀ p, StdMap.getD (netAmounts gb) p 0 = gb.rowSum p) ∧
    (∀ p, gb.rowSum p - (simplifyDebts gb).rowSum p = 0) ∧
    (simplifyDebts gb).total = 0 := by
  obtain ⟨s1, s2⟩ := simplifyDebts_net gb hwhole
  have hnet : ∀ p, StdMap.getD (netAmounts gb) p 0 = gb.rowSum p := by
    intro p
    rw [(netAmounts_spec gb).1 p, netPos_eq_rowSum gb hwf hanti p]
  have hrow : ∀ p, (simplifyDebts gb).rowSum p = gb.rowSum p := by
    intro p
    rw [s1 p, hnet p]
  exact ⟨hrow, hnet, fun p => by rw [hrow p, sub_self], s2⟩

set_option maxRecDepth 100000 in
/-- The hostel group of `main` is an antisymmetric map of whole-number balances, so its
simplified balances settle user1 .. user4 exactly. -/
theorem simplifyDebts_settles_exactly_witness :
    Balances.WF demoBalances ∧ Balances.Antisymmetric demoBalances ∧
    Balances.WholeNumbers demoBalances ∧
    ((∀ p, (simplifyDebts demoBalances).rowSum p = demoBalances.rowSum p) ∧
     (∀ p, StdMap.getD (netAmounts demoBalances) p 0 = demoBalances.rowSum p) ∧
     (∀ p, demoBalances.rowSum p - (simplifyDebts demoBalances).rowSum p = 0) ∧
     (simplifyDebts demoBalances).total = 0) :=
  ⟨by decide,
   Balances.antisymmetric_of_entries demoBalances (by with_unfolding_all decide),
   Balances.wholeNumbers_of_den demoBalances (by with_unfolding_all decide),
   simplifyDebts_settles_exactly demoBalances (by decide)
     (Balances.antisymmetric_of_entries demoBalances (by with_unfolding_all decide))
     (Balances.wholeNumbers_of_den demoBalances (by with_unfolding_all decide))⟩

end DebtSimplifier

end Splitwise

/-! ## Theorems: the chess rules leave the board as it was -/

namespace Chess

/-- The slot of the position of slot `i` is `i`. -/
theorem Position.slot_ofSlot (i : Nat) : (Position.ofSlot i).slot = i := by
  show (((i / 8 : Nat) : Int) * 8 + ((i % 8 : Nat) : Int)).toNat = i
  omega

/-- The position of a slot of the table is on the board. -/
theorem Position.isValid_ofSlot (i : Nat) (h : i < 64) : (Position.ofSlot i).isValid = true := by
  simp only [Position.isValid, Position.ofSlot, Bool.and_eq_true, decide_eq_true_eq]
  omega

/-- A position on the board has one of the 64 slots. -/
theorem Position.slot_lt (p : Position) (h : p.isValid = true) : p.slot < 64 := by
  simp only [Position.isValid, Bool.and_eq_true, decide_eq_true_eq] at h
  unfold Position.slot
  omega

/-- What `wouldMoveCauseCheck` does to one table: after the simulated move and its undo
the table is what it was. -/
theorem restore_table (l : List (Option Piece)) (i j : Nat) (m : Piece)
    (hi : i < l.length) (hj : j < l.length) (hm : l.getD i none = some m) :
    (match l.getD j none with
      | some captured =>
        ((((if (l.getD j none).isSome then (l.set i none).set j none else l.set i none).set j
          (some m)).set j none).set i (some m)).set j (some captured)
      | none =>
        (((if (l.getD j none).isSome then (l.set i none).set j none else l.set i none).set j
          (some m)).set j none).set i (some m)) = l := by
  have hi' : l[i]? = some (some m) := by
    rw [List.getD_eq_getElem?_getD, List.getElem?_eq_getElem hi] at hm
    rw [List.getElem?_eq_getElem hi]
    simpa using hm
  cases hc : l.getD j none with
  | none =>
    have hj' : l[j]? = some none := by
      rw [List.getD_eq_getElem?_getD, List.getElem?_eq_getElem hj] at hc
      rw [List.getElem?_eq_getElem hj]
      simpa using hc
    apply List.ext_getElem?
    intro n
    simp only [Option.isSome_none, Bool.false_eq_true, if_false, List.getElem?_set,
      List.length_set]
    by_cases h1 : i = n
    · subst h1
      simp [hi, hi']
    · by_cases h2 : j = n
      · subst h2
        simp [h1, hj, hj']
      · simp [h1, h2]
  | some c =>
    have hj' : l[j]? = some (some c) := by
      rw [List.getD_eq_getElem?_getD, List.getElem?_eq_getElem hj] at hc
      rw [List.getElem?_eq_getElem hj]
      simpa using hc
    apply List.ext_getElem?
    intro n
    simp only [Option.isSome_some, if_true, List.getElem?_set, List.length_set]
    by_cases h2 : j = n
    · subst h2
      simp [hj, hj']
    · by_cases h1 : i = n
      · subst h1
        simp [h2, hi, hi']
      · simp [h1, h2]

namespace Board

/-- The method `placePiece` keeps the class invariant. -/
theorem WF.placePiece {b : Board} (h : WF b) (pos : Position) (piece : Piece) :
    WF (b.placePiece pos piece) := by
  obtain ⟨h1, h2⟩ := h
  exact ⟨by simp [Board.placePiece, h1], by simp [Board.placePiece, h2]⟩

/-- The method `removePiece` keeps the class invariant. -/
theorem WF.removePiece {b : Board} (h : WF b) (pos : Position) : WF (b.removePiece pos) := by
  obtain ⟨h1, h2⟩ := h
  exact ⟨by simp [Board.removePiece, h1], by simp [Board.removePiece, h2]⟩

/-- Every position the loop of `getAllPiecesOfColor` collects is the position of a slot
that holds a piece. -/
theorem mem_piecesOfColorFrom (color : Color) : ∀ (l : List (Option Piece)) (i : Nat)
    (pos : Position), pos ∈ piecesOfColorFrom color l i →
    ∃ j, j < l.length ∧ pos = Position.ofSlot (i + j) ∧ (l.getD j none).isSome = true := by
  intro l
  induction l with
  | nil => intro i pos h; simp [piecesOfColorFrom] at h
  | cons s rest ih =>
    intro i pos h
    have step : pos ∈ piecesOfColorFrom color rest (i + 1) →
        ∃ j, j < (s :: rest).length ∧ pos = Position.ofSlot (i + j) ∧
          ((s :: rest).getD j none).isSome = true := by
      intro h'
      obtain ⟨j, hj, hp, hs⟩ := ih (i + 1) pos h'
      refine ⟨j + 1, by simp only [List.length_cons]; omega, ?_, by simpa using hs⟩
      rw [hp]
      congr 1
      omega
    cases s with
    | none => exact step (by simpa [piecesOfColorFrom] using h)
    | some piece =>
      simp only [piecesOfColorFrom] at h
      by_cases hc : piece.color = color
      · simp only [hc, if_true, List.mem_cons] at h
        rcases h with h | h
        · exact ⟨0, by simp, by simpa using h, by simp⟩
        · exact step h
      · simp only [hc, if_false] at h
        exact step h

/-- On a board that meets the class invariant every position of `getAllPiecesOfColor`
is on the board and holds a piece in the array. -/
theorem getAllPiecesOfColor_spec {b : Board} (h : WF b) (color : Color) (pos : Position)
    (hp : pos ∈ b.getAllPiecesOfColor color) :
    pos.isValid = true ∧ (b.getPiece pos).isSome = true := by
  obtain ⟨j, hj, hpos, hs⟩ := mem_piecesOfColorFrom color _ 0 pos hp
  rw [h.2, h.1] at hj
  rw [zero_add] at hpos
  rw [h.2] at hs
  subst hpos
  exact ⟨Position.isValid_ofSlot j hj, by rw [Board.getPiece, Position.slot_ofSlot]; exact hs⟩

end Board

/-- The loop of the king and of the knight lists positions on the board only. -/
theorem stepMoves_valid (b : Board) (color : Color) (currentPos : Position)
    (offsets : List (Int × Int)) :
    ∀ t ∈ stepMoves b color currentPos offsets, t.isValid = true := by
  intro t ht
  simp only [stepMoves, List.mem_filterMap] at ht
  obtain ⟨d, _, hd⟩ := ht
  split at hd
  · rename_i hcond
    simp only [Option.some.injEq] at hd
    subst hd
    simp only [Bool.and_eq_true] at hcond
    exact hcond.1
  · exact absurd hd (by simp)

/-- The inner loop of the sliding pieces lists positions on the board only. -/
theorem slide_valid (b : Board) (color : Color) (currentPos : Position) (d : Int × Int) :
    ∀ (steps : List Int), ∀ t ∈ slide b color currentPos d steps, t.isValid = true := by
  intro steps
  induction steps with
  | nil => intro t ht; simp [slide] at ht
  | cons i rest ih =>
    intro t ht
    simp only [slide] at ht
    split at ht
    · simp at ht
    · rename_i hv
      split at ht
      · simp at ht
      · split at ht
        · simp only [List.mem_singleton] at ht
          subst ht
          simpa using hv
        · rcases List.mem_cons.1 ht with h | h
          · subst h
            simpa using hv
          · exact ih t h

/-- The loops of the queen, the rook and the bishop list positions on the board only. -/
theorem slideMoves_valid (b : Board) (color : Color) (currentPos : Position)
    (directions : List (Int × Int)) :
    ∀ t ∈ slideMoves b color currentPos directions, t.isValid = true := by
  intro t ht
  simp only [slideMoves, List.mem_flatMap] at ht
  obtain ⟨d, _, hd⟩ := ht
  exact slide_valid b color currentPos d _ t hd

/-- The pawn lists positions on the board only. -/
theorem pawnMoves_valid (b : Board) (color : Color) (hasMoved : Bool) (currentPos : Position) :
    ∀ t ∈ pawnMoves b color hasMoved currentPos, t.isValid = true := by
  intro t ht
  simp only [pawnMoves] at ht
  generalize (if color = Color.WHITE then (-1 : Int) else 1) = direction at ht
  simp only [List.mem_append] at ht
  rcases ht with (ht | ht) | ht
  · split at ht
    · rename_i h1
      simp only [Bool.and_eq_true] at h1
      rcases List.mem_cons.1 ht with h | h
      · subst h
        exact h1.1
      · split at h
        · split at h
          · rename_i h2
            simp only [Bool.and_eq_true] at h2
            simp only [List.mem_singleton] at h
            subst h
            exact h2.1
          · simp at h
        · simp at h
    · simp at ht
  · split at ht
    · rename_i h1
      simp only [Bool.and_eq_true] at h1
      simp only [List.mem_singleton] at ht
      subst ht
      exact h1.1.1
    · simp at ht
  · split at ht
    · rename_i h1
      simp only [Bool.and_eq_true] at h1
      simp only [List.mem_singleton] at ht
      subst ht
      exact h1.1.1
    · simp at ht

/-- Every piece lists positions on the board only. -/
theorem getPossibleMoves_valid (piece : Piece) (currentPos : Position) (b : Board) :
    ∀ t ∈ piece.getPossibleMoves currentPos b, t.isValid = true := by
  intro t ht
  unfold Piece.getPossibleMoves at ht
  split at ht
  · exact stepMoves_valid _ _ _ _ t ht
  · exact slideMoves_valid _ _ _ _ t ht
  · exact slideMoves_valid _ _ _ _ t ht
  · exact slideMoves_valid _ _ _ _ t ht
  · exact stepMoves_valid _ _ _ _ t ht
  · exact pawnMoves_valid _ _ _ _ t ht

namespace StandardChessRules

/-- The loop of `isInCheck` returns when every position it visits holds a piece. -/
theorem attacked_returns (b : Board) (kingPos : Position) :
    ∀ l : List Position, (∀ pos ∈ l, (b.getPiece pos).isSome = true) →
      ∃ r, attacked b kingPos l = some r := by
  intro l
  induction l with
  | nil => intro _; exact ⟨false, rfl⟩
  | cons pos rest ih =>
    intro h
    have hp := h pos (List.mem_cons_self _ _)
    cases hg : b.getPiece pos with
    | none => rw [hg] at hp; simp at hp
    | some piece =>
      simp only [attacked, hg]
      split
      · exact ⟨true, rfl⟩
      · exact ih (fun p hp' => h p (List.mem_cons_of_mem _ hp'))

/-- On a board that meets the class invariant `isInCheck` returns. -/
theorem isInCheck_returns {b : Board} (h : Board.WF b) (color : Color) :
    ∃ r, isInCheck color b = some r := by
  simp only [isInCheck]
  split
  · exact ⟨false, rfl⟩
  · exact attacked_returns b _ _
      (fun pos hp => (Board.getAllPiecesOfColor_spec h color.opponent pos hp).2)

/-- The simulation of `wouldMoveCauseCheck` ends on the board it started from. -/
theorem wouldMoveCauseCheck_restores (move : Move) (b : Board) (kingColor : Color)
    (hb : Board.WF b) (hfrom : move.getFrom.isValid = true) (hto : move.getTo.isValid = true)
    (movingPiece : Piece) (hpiece : b.getPiece move.getFrom = some movingPiece) :
    ∃ r, wouldMoveCauseCheck move b kingColor = some (r, b) := by
  obtain ⟨bd, pp⟩ := b
  obtain ⟨hlen, hsync⟩ := hb
  simp only at hlen hsync
  subst hsync
  have hi : move.getFrom.slot < pp.length := by
    rw [hlen]; exact Position.slot_lt _ hfrom
  have hj : move.getTo.slot < pp.length := by
    rw [hlen]; exact Position.slot_lt _ hto
  have hm : pp.getD move.getFrom.slot none = some movingPiece := hpiece
  have key := restore_table pp move.getFrom.slot move.getTo.slot movingPiece hi hj hm
  have hwf0 : Board.WF (Board.removePiece ⟨pp, pp⟩ move.getFrom) :=
    Board.WF.removePiece ⟨hlen, rfl⟩ _
  cases hc : Board.getPiece ⟨pp, pp⟩ move.getTo with
  | none =>
    have hc' : pp.getD move.getTo.slot none = none := hc
    rw [hc'] at key
    simp only [Option.isSome_none, Bool.false_eq_true, if_false] at key
    obtain ⟨r, hr⟩ := isInCheck_returns
      (Board.WF.placePiece hwf0 move.getTo movingPiece) kingColor
    refine ⟨r, ?_⟩
    simp only [wouldMoveCauseCheck, hfrom, hto, Bool.and_self, Bool.not_true,
      Bool.false_eq_true, if_false, hpiece, hc, Option.isSome_none, hr]
    simp only [Board.placePiece, Board.removePiece, key]
  | some c =>
    have hc' : pp.getD move.getTo.slot none = some c := hc
    rw [hc'] at key
    simp only [Option.isSome_some, if_true] at key
    obtain ⟨r, hr⟩ := isInCheck_returns
      (Board.WF.placePiece (Board.WF.removePiece hwf0 move.getTo) move.getTo movingPiece)
      kingColor
    refine ⟨r, ?_⟩
    simp only [wouldMoveCauseCheck, hfrom, hto, Bool.and_self, Bool.not_true,
      Bool.false_eq_true, if_false, hpiece, hc, Option.isSome_some, if_true, hr]
    simp only [Board.placePiece, Board.removePiece, key]

/-- The method `isValidMove` ends on the board it started from. -/
theorem isValidMove_restores (move : Move) (b : Board) (hb : Board.WF b)
    (hfrom : move.getFrom.isValid = true) (piece : Piece)
    (hmove : move.getPiece = some piece) (hpiece : b.getPiece move.getFrom = some piece) :
    ∃ r, isValidMove move b = some (r, b) := by
  simp only [isValidMove, hmove]
  split
  · exact ⟨false, rfl⟩
  · rename_i hany
    have hto : move.getTo.isValid = true := by
      have : (piece.getPossibleMoves move.getFrom b).any
          (fun pos => decide (pos = move.getTo)) = true := by simpa using hany
      obtain ⟨t, ht, heq⟩ := List.any_eq_true.1 this
      have : t = move.getTo := by simpa using heq
      rw [← this]
      exact getPossibleMoves_valid piece move.getFrom b t ht
    obtain ⟨r, hr⟩ := wouldMoveCauseCheck_restores move b piece.color hb hfrom hto piece hpiece
    rw [hr]
    exact ⟨!r, rfl⟩

/-- The inner loop of `isCheckmate` and `isStalemate` ends on the board it started
from. -/
theorem hasValidTarget_restores (pos : Position) (piece : Piece) (b : Board)
    (hb : Board.WF b) (hpos : pos.isValid = true) (hpiece : b.getPiece pos = some piece) :
    ∀ targets : List Position, ∃ r, hasValidTarget pos piece targets b = some (r, b) := by
  intro targets
  induction targets with
  | nil => exact ⟨false, rfl⟩
  | cons t rest ih =>
    obtain ⟨r, hr⟩ := isValidMove_restores ⟨pos, t, some piece, b.getPiece t⟩ b hb hpos piece
      rfl hpiece
    simp only [hasValidTarget, hr]
    cases r with
    | true => exact ⟨true, rfl⟩
    | false => exact ih

/-- The outer loop of `isCheckmate` and `isStalemate` ends on the board it started
from. -/
theorem hasValidMove_restores (b : Board) (hb : Board.WF b) :
    ∀ l : List Position, (∀ pos ∈ l, pos.isValid = true ∧ (b.getPiece pos).isSome = true) →
      ∃ r, hasValidMove l b = some (r, b) := by
  intro l
  induction l with
  | nil => intro _; exact ⟨false, rfl⟩
  | cons pos rest ih =>
    intro h
    obtain ⟨hv, hs⟩ := h pos (List.mem_cons_self _ _)
    cases hg : b.getPiece pos with
    | none => rw [hg] at hs; simp at hs
    | some piece =>
      obtain ⟨r, hr⟩ := hasValidTarget_restores pos piece b hb hv hg
        (piece.getPossibleMoves pos b)
      simp only [hasValidMove, hg, hr]
      cases r with
      | true => exact ⟨true, rfl⟩
      | false => exact ih (fun p hp => h p (List.mem_cons_of_mem _ hp))

/-- The method `isCheckmate` ends on the board it started from. -/
theorem isCheckmate_restores (color : Color) (b : Board) (hb : Board.WF b) :
    ∃ r, isCheckmate color b = some (r, b) := by
  obtain ⟨c, hc⟩ := isInCheck_returns hb color
  simp only [isCheckmate, hc]
  cases c with
  | false => exact ⟨false, rfl⟩
  | true =>
    obtain ⟨r, hr⟩ := hasValidMove_restores b hb (b.getAllPiecesOfColor color)
      (fun pos hp => Board.getAllPiecesOfColor_spec hb color pos hp)
    simp only [hr]
    exact ⟨!r, rfl⟩

/-- The method `isStalemate` ends on the board it started from. -/
theorem isStalemate_restores (color : Color) (b : Board) (hb : Board.WF b) :
    ∃ r, isStalemate color b = some (r, b) := by
  obtain ⟨c, hc⟩ := isInCheck_returns hb color
  simp only [isStalemate, hc]
  cases c with
  | true => exact ⟨false, rfl⟩
  | false =>
    obtain ⟨r, hr⟩ := hasValidMove_restores b hb (b.getAllPiecesOfColor color)
      (fun pos hp => Board.getAllPiecesOfColor_spec hb color pos hp)
    simp only [hr]
    exact ⟨!r, rfl⟩

end StandardChessRules

end Chess

namespace Chess

/-- Claim C15: chess move validation is pure. On every board (64 cells, the map in step
with the array) and for every move whose from-square is on the board and holds the moving
piece, `StandardChessRules::isValidMove` and, for a target square on the board,
`wouldMoveCauseCheck` return and leave the board exactly as it was before the call, and
so do `isCheckmate` and `isStalemate`: the array and the map hold the same pieces on
every square, the piece on the target square included, with the same `hasMoved` flags. -/
theorem validation_leaves_board (b : Board) (move : Move) (piece : Piece)
    (kingColor color : Color) (hb : Board.WF b) (hfrom : move.getFrom.isValid = true)
    (hmove : move.getPiece = some piece) (hpiece : b.getPiece move.getFrom = some piece) :
    (∃ r, StandardChessRules.isValidMove move b = some (r, b)) ∧
    (move.getTo.isValid = true →
      ∃ r, StandardChessRules.wouldMoveCauseCheck move b kingColor = some (r, b)) ∧
    (∃ r, StandardChessRules.isCheckmate color b = some (r, b)) ∧
    (∃ r, StandardChessRules.isStalemate color b = some (r, b)) :=
  ⟨StandardChessRules.isValidMove_restores move b hb hfrom piece hmove hpiece,
   fun hto => StandardChessRules.wouldMoveCauseCheck_restores move b kingColor hb hfrom hto
     piece hpiece,
   StandardChessRules.isCheckmate_restores color b hb,
   StandardChessRules.isStalemate_restores color b hb⟩

/-- The opening move e2-e4 of the white pawn on the initial board is validated without a
trace on the board. -/
theorem validation_leaves_board_witness :
    (∃ r, StandardChessRules.isValidMove
      ⟨⟨6, 4⟩, ⟨4, 4⟩, some ⟨Color.WHITE, PieceType.PAWN, false⟩, none⟩ Board.new
        = some (r, Board.new)) ∧
    (∃ r, StandardChessRules.wouldMoveCauseCheck
      ⟨⟨6, 4⟩, ⟨4, 4⟩, some ⟨Color.WHITE, PieceType.PAWN, false⟩, none⟩ Board.new Color.WHITE
        = some (r, Board.new)) ∧
    (∃ r, StandardChessRules.isCheckmate Color.BLACK Board.new = some (r, Board.new)) ∧
    (∃ r, StandardChessRules.isStalemate Color.BLACK Board.new = some (r, Board.new)) :=
  have h := validation_leaves_board Board.new
    ⟨⟨6, 4⟩, ⟨4, 4⟩, some ⟨Color.WHITE, PieceType.PAWN, false⟩, none⟩
    ⟨Color.WHITE, PieceType.PAWN, false⟩ Color.WHITE Color.BLACK
    (by decide) (by decide) rfl (by decide)
  ⟨h.1, h.2.1 (by decide), h.2.2.1, h.2.2.2⟩

set_option maxRecDepth 1000000 in
set_option maxHeartbeats 4000000 in
/-- Claim C16: Scholar's Mate. From the initial position the seven moves e2-e4, e7-e5,
Bf1-c4, Nb8-c6, Qd1-h5, Ng8-f6, Qh5xf7 are each accepted by `Match::makeMove`; after the
last one `isCheckmate` holds for black on the board of the match, the match is
COMPLETED, white's score is 1030 and black's is 980. -/
theorem scholarsMate_is_checkmate :
    (Match.makeMoves demoMatch scholarsMateMoves).map
      (fun r => (r.1, r.2.status, r.2.whitePlayer.score, r.2.blackPlayer.score,
        (StandardChessRules.isCheckmate Color.BLACK r.2.board).map (fun c => c.1)))
    = some ([true, true, true, true, true, true, true], GameStatus.COMPLETED, 1030, 980,
        some true) := by
  decide

end Chess

/-! ## Theorems: the in-order iterator -/

namespace IteratorPattern

/-- The in-order traversal lists every node once. -/
theorem inorder_length (t : BinaryTree) : (inorder t).length = t.size := by
  induction t with
  | nil => rfl
  | node data left right ihl ihr =>
    simp only [inorder, BinaryTree.size, List.length_append, List.length_cons, ihl, ihr]
    omega

namespace BinaryTreeInorderIterator

/-- After `pushLefts(node)` the stack has to return the traversal of `node` first. -/
theorem pending_pushLefts (t : BinaryTree) : ∀ stk : List BinaryTree,
    pending (pushLefts stk t) = inorder t ++ pending stk := by
  induction t with
  | nil => intro stk; rfl
  | node data left right ihl _ =>
    intro stk
    simp only [pushLefts, ihl, pending, inorder, List.append_assoc, List.cons_append]

/-- The method `pushLefts` pushes no null pointer. -/
theorem pushLefts_nonnull (t : BinaryTree) : ∀ stk : List BinaryTree,
    (∀ s ∈ stk, s ≠ BinaryTree.nil) → ∀ s ∈ pushLefts stk t, s ≠ BinaryTree.nil := by
  induction t with
  | nil => intro stk h; exact h
  | node data left right ihl _ =>
    intro stk h
    simp only [pushLefts]
    apply ihl
    intro s hs
    rcases List.mem_cons.1 hs with h1 | h1
    · rw [h1]; exact fun hh => BinaryTree.noConfusion hh
    · exact h s h1

/-- With enough calls allowed the loop returns everything the stack has pending and ends
on the empty stack. -/
theorem drain_spec : ∀ (fuel : Nat) (stk : List BinaryTree) (curr : BinaryTree),
    (∀ s ∈ stk, s ≠ BinaryTree.nil) → (pending stk).length ≤ fuel →
    drain fuel ⟨stk, curr⟩ = some (pending stk, ⟨[], curr⟩) := by
  intro fuel
  induction fuel with
  | zero =>
    intro stk curr hnn hlen
    cases stk with
    | nil => simp [drain, hasNext, pending]
    | cons s rest =>
      cases s with
      | nil => exact absurd rfl (hnn _ (List.mem_cons_self _ _))
      | node data left right => simp [pending] at hlen
  | succ fuel ih =>
    intro stk curr hnn hlen
    cases stk with
    | nil => simp [drain, hasNext, pending]
    | cons s rest =>
      cases s with
      | nil => exact absurd rfl (hnn _ (List.mem_cons_self _ _))
      | node data left right =>
        have hrest : ∀ s ∈ rest, s ≠ BinaryTree.nil :=
          fun s hs => hnn s (List.mem_cons_of_mem _ hs)
        have hlen' : (pending (pushLefts rest right)).length ≤ fuel := by
          rw [pending_pushLefts]
          simp only [pending, List.length_cons] at hlen
          omega
        have := ih (pushLefts rest right) curr (pushLefts_nonnull right rest hrest) hlen'
        simp only [drain, hasNext, next, List.isEmpty_cons, Bool.not_false, if_true, this,
          pending, pending_pushLefts]

/-- With fewer calls allowed than values pending the loop does not get to its end. -/
theorem drain_short : ∀ (fuel : Nat) (stk : List BinaryTree) (curr : BinaryTree),
    (∀ s ∈ stk, s ≠ BinaryTree.nil) → fuel < (pending stk).length →
    drain fuel ⟨stk, curr⟩ = none := by
  intro fuel
  induction fuel with
  | zero =>
    intro stk curr hnn hlen
    cases stk with
    | nil => simp [pending] at hlen
    | cons s rest => simp [drain, hasNext]
  | succ fuel ih =>
    intro stk curr hnn hlen
    cases stk with
    | nil => simp [pending] at hlen
    | cons s rest =>
      cases s with
      | nil => exact absurd rfl (hnn _ (List.mem_cons_self _ _))
      | node data left right =>
        have hrest : ∀ s ∈ rest, s ≠ BinaryTree.nil :=
          fun s hs => hnn s (List.mem_cons_of_mem _ hs)
        have hlen' : fuel < (pending (pushLefts rest right)).length := by
          rw [pending_pushLefts]
          simp only [pending, List.length_cons] at hlen
          omega
        have := ih (pushLefts rest right) curr (pushLefts_nonnull right rest hrest) hlen'
        simp only [drain, hasNext, next, List.isEmpty_cons, Bool.not_false, if_true, this]

/-- Claim C21: for every finite binary tree, calling `next()` while `hasNext()` is true
returns exactly the values of the recursive in-order traversal, in that order: the loop
allowed at least as many calls as the tree has nodes returns `inorder root` and ends on an
iterator whose `hasNext()` is false; the traversal has one value per node, and the loop
allowed fewer calls does not reach its end, so it makes exactly one call per node. The
tree 2 with children 1 and 3 yields 1, 2, 3. -/
theorem inorder_iterator (root : BinaryTree) (fuel : Nat) (h : root.size ≤ fuel) :
    (∃ it, drain fuel (new root) = some (inorder root, it) ∧ it.hasNext = false) ∧
    (inorder root).length = root.size ∧
    (∀ fewer, fewer < root.size → drain fewer (new root) = none) ∧
    drain 3 (new demoTree) = some ([1, 2, 3], ⟨[], demoTree⟩) := by
  have hp : pending (pushLefts [] root) = inorder root := by
    rw [pending_pushLefts]
    simp [pending]
  have hnn : ∀ s ∈ pushLefts [] root, s ≠ BinaryTree.nil :=
    pushLefts_nonnull root [] (by simp)
  refine ⟨⟨⟨[], root⟩, ?_, rfl⟩, inorder_length root, ?_, by decide⟩
  · have := drain_spec fuel (pushLefts [] root) root hnn
      (by rw [hp, inorder_length]; exact h)
    rw [hp] at this
    exact this
  · intro fewer hf
    exact drain_short fewer (pushLefts [] root) root hnn
      (by rw [hp, inorder_length]; exact hf)

/-- The tree of `main` has three nodes; three calls return 1, 2, 3. -/
theorem inorder_iterator_witness :
    (∃ it, drain 3 (new demoTree) = some (inorder demoTree, it) ∧ it.hasNext = false) ∧
    (inorder demoTree).length = demoTree.size ∧
    (∀ fewer, fewer < demoTree.size → drain fewer (new demoTree) = none) ∧
    drain 3 (new demoTree) = some ([1, 2, 3], ⟨[], demoTree⟩) :=
  inorder_iterator demoTree 3 (by decide)

end BinaryTreeInorderIterator

end IteratorPattern

/-! ## Theorems: the cash dispenser chain conserves the amount -/

namespace COR

/-- Writing back the stock of a handler leaves the handler as it is. -/
theorem setNumNotes_self (h : MoneyHandler) : h.setNumNotes h.numNotes = h := by
  cases h <;> rfl

/-- A request of 0 changes nothing and prints nothing. -/
theorem dispense_zero (hs : List MoneyHandler) (hstock : ∀ h ∈ hs, 0 ≤ h.numNotes) :
    dispense hs 0 = (hs, []) := by
  cases hs with
  | nil => rfl
  | cons h rest =>
    have h0 := hstock h (List.mem_cons_self _ _)
    have hd := denomination_pos h
    have hng : ¬ (0 : Int) > h.numNotes := by omega
    have hq : Int.tdiv 0 h.denomination = 0 := Int.zero_tdiv _
    cases rest with
    | nil => simp [dispense, hq, hng, setNumNotes_self]
    | cons n ns => simp [dispense, hq, hng, setNumNotes_self]

/-- The arithmetic of one handler for a non-negative request and a non-negative stock:
the number of notes `k` it issues is the smaller of the quotient and its stock, and what
remains is not negative. -/
theorem notes_bounds (h : MoneyHandler) (amount : Int) (hstock : 0 ≤ h.numNotes)
    (hamount : 0 ≤ amount) :
    0 ≤ min (amount / h.denomination) h.numNotes ∧
    min (amount / h.denomination) h.numNotes ≤ h.numNotes ∧
    0 ≤ amount - min (amount / h.denomination) h.numNotes * h.denomination := by
  have hd := denomination_pos h
  have hq0 : 0 ≤ amount / h.denomination := Int.ediv_nonneg hamount (le_of_lt hd)
  have hle : amount / h.denomination * h.denomination ≤ amount :=
    Int.ediv_mul_le amount (ne_of_gt hd)
  have hmul : min (amount / h.denomination) h.numNotes * h.denomination
      ≤ amount / h.denomination * h.denomination :=
    Int.mul_le_mul_of_nonneg_right (min_le_left _ _) (le_of_lt hd)
  exact ⟨le_min hq0 hstock, min_le_right _ _, by omega⟩

/-- The last handler of a chain: it issues `k` notes and reports what remains, if
anything remains. -/
theorem dispense_last (h : MoneyHandler) (amount : Int) (hamount : 0 ≤ amount) :
    dispense [h] amount =
      ([h.setNumNotes (h.numNotes - min (amount / h.denomination) h.numNotes)],
       (if min (amount / h.denomination) h.numNotes > 0
          then [Msg.dispensing (min (amount / h.denomination) h.numNotes) h.denomination]
          else []) ++
        (if amount - min (amount / h.denomination) h.numNotes * h.denomination > 0
          then [Msg.cannotBeFulfilled
            (amount - min (amount / h.denomination) h.numNotes * h.denomination)]
          else [])) := by
  have hd := denomination_pos h
  have hq : Int.tdiv amount h.denomination = amount / h.denomination :=
    Int.tdiv_eq_ediv hamount (le_of_lt hd)
  by_cases hgt : amount / h.denomination > h.numNotes
  · rw [min_eq_right (le_of_lt hgt)]
    by_cases hr : amount - h.numNotes * h.denomination > 0
    · simp [dispense, hq, hgt, hr]
    · simp [dispense, hq, hgt, hr]
  · rw [min_eq_left (not_lt.1 hgt)]
    by_cases hr : amount - amount / h.denomination * h.denomination > 0
    · simp [dispense, hq, hgt, hr]
    · simp [dispense, hq, hgt, hr]

/-- A handler with a next handler: it issues `k` notes and the rest of the chain serves
what remains. -/
theorem dispense_step (h n : MoneyHandler) (ns : List MoneyHandler) (amount : Int)
    (hstock : 0 ≤ h.numNotes) (hrest : ∀ h' ∈ n :: ns, 0 ≤ h'.numNotes)
    (hamount : 0 ≤ amount) :
    dispense (h :: n :: ns) amount =
      (h.setNumNotes (h.numNotes - min (amount / h.denomination) h.numNotes) ::
        (dispense (n :: ns)
          (amount - min (amount / h.denomination) h.numNotes * h.denomination)).1,
       (if min (amount / h.denomination) h.numNotes > 0
          then [Msg.dispensing (min (amount / h.denomination) h.numNotes) h.denomination]
          else []) ++
        (dispense (n :: ns)
          (amount - min (amount / h.denomination) h.numNotes * h.denomination)).2) := by
  have hd := denomination_pos h
  have hq : Int.tdiv amount h.denomination = amount / h.denomination :=
    Int.tdiv_eq_ediv hamount (le_of_lt hd)
  have hb := (notes_bounds h amount hstock hamount).2.2
  by_cases hgt : amount / h.denomination > h.numNotes
  · rw [min_eq_right (le_of_lt hgt)] at hb ⊢
    by_cases hr : amount - h.numNotes * h.denomination > 0
    · simp [dispense, hq, hgt, hr]
    · have hr0 : amount - h.numNotes * h.denomination = 0 := by omega
      rw [hr0, dispense_zero (n :: ns) hrest]
      simp [dispense, hq, hgt, hr0]
  · rw [min_eq_left (not_lt.1 hgt)] at hb ⊢
    by_cases hr : amount - amount / h.denomination * h.denomination > 0
    · simp [dispense, hq, hgt, hr]
    · have hr0 : amount - amount / h.denomination * h.denomination = 0 := by omega
      rw [hr0, dispense_zero (n :: ns) hrest]
      simp [dispense, hq, hgt, hr0]

/-- The notes announced by two runs of lines. -/
theorem issued_append (d : Int) (l1 l2 : List Msg) :
    issued d (l1 ++ l2) = issued d l1 + issued d l2 := by
  induction l1 with
  | nil => simp [issued]
  | cons m rest ih =>
    cases m with
    | dispensing notes d' =>
      rw [List.cons_append]
      simp only [issued]
      rw [ih]
      ring
    | cannotBeFulfilled r =>
      rw [List.cons_append]
      simp only [issued]
      rw [ih]

/-- The remainders reported by two runs of lines. -/
theorem unfulfilled_append (l1 l2 : List Msg) :
    unfulfilled (l1 ++ l2) = unfulfilled l1 ++ unfulfilled l2 := by
  induction l1 with
  | nil => simp [unfulfilled]
  | cons m rest ih =>
    cases m with
    | dispensing notes d' =>
      rw [List.cons_append]
      simp only [unfulfilled]
      rw [ih]
    | cannotBeFulfilled r =>
      rw [List.cons_append]
      simp only [unfulfilled]
      rw [ih]
      rfl

/-- The line of a handler that issues `k` notes announces `k` notes of its denomination
and none of another. -/
theorem issued_line (d d' k : Int) (hk : 0 ≤ k) :
    issued d (if k > 0 then [Msg.dispensing k d'] else []) = (if d' = d then k else 0) ∧
    unfulfilled (if k > 0 then [Msg.dispensing k d'] else []) = [] := by
  by_cases h : k > 0
  · simp [h, issued, unfulfilled]
  · have : k = 0 := by omega
    simp [this, issued, unfulfilled]

/-- The report of the last handler announces no notes and carries the remainder. -/
theorem issued_report (d r : Int) :
    issued d (if r > 0 then [Msg.cannotBeFulfilled r] else []) = 0 ∧
    unfulfilled (if r > 0 then [Msg.cannotBeFulfilled r] else [])
      = (if r > 0 then [r] else []) := by
  by_cases h : r > 0
  · simp [h, issued, unfulfilled]
  · simp [h, issued, unfulfilled]

/-- Claim C27: cash dispenser conservation. For every amount >= 0 and all non-negative
note stocks, `dispense(amount)` through the chain 1000, 500, 200, 100 issues counts
`k1000`, `k500`, `k200`, `k100` (the counts its lines announce) and reports a remainder
`r` (no report when `r = 0`) with
`1000*k1000 + 500*k500 + 200*k200 + 100*k100 + r = amount`; each count is between 0 and
the stock before, the stock afterwards is the stock before minus the count and is not
negative, and `r >= 0`. -/
theorem dispense_conserves (amount n1000 n500 n200 n100 : Int) (hamount : 0 ≤ amount)
    (h1000 : 0 ≤ n1000) (h500 : 0 ≤ n500) (h200 : 0 ≤ n200) (h100 : 0 ≤ n100) :
    ∃ k1000 k500 k200 k100 r : Int,
      (dispense (chain n1000 n500 n200 n100) amount).1
        = chain (n1000 - k1000) (n500 - k500) (n200 - k200) (n100 - k100) ∧
      issued 1000 (dispense (chain n1000 n500 n200 n100) amount).2 = k1000 ∧
      issued 500 (dispense (chain n1000 n500 n200 n100) amount).2 = k500 ∧
      issued 200 (dispense (chain n1000 n500 n200 n100) amount).2 = k200 ∧
      issued 100 (dispense (chain n1000 n500 n200 n100) amount).2 = k100 ∧
      unfulfilled (dispense (chain n1000 n500 n200 n100) amount).2
        = (if r > 0 then [r] else []) ∧
      1000 * k1000 + 500 * k500 + 200 * k200 + 100 * k100 + r = amount ∧
      (0 ≤ k1000 ∧ k1000 ≤ n1000) ∧ (0 ≤ k500 ∧ k500 ≤ n500) ∧
      (0 ≤ k200 ∧ k200 ≤ n200) ∧ (0 ≤ k100 ∧ k100 ≤ n100) ∧
      0 ≤ n1000 - k1000 ∧ 0 ≤ n500 - k500 ∧ 0 ≤ n200 - k200 ∧ 0 ≤ n100 - k100 ∧
      0 ≤ r := by
  have b1 := notes_bounds (MoneyHandler.ThousandHandler n1000) amount h1000 hamount
  have s1 := dispense_step (MoneyHandler.ThousandHandler n1000)
    (MoneyHandler.FiveHundredHandler n500)
    [MoneyHandler.TwoHundredHandler n200, MoneyHandler.HundredHandler n100] amount h1000
    (by simp [MoneyHandler.numNotes, h500, h200, h100]) hamount
  simp only [MoneyHandler.denomination, MoneyHandler.numNotes, MoneyHandler.setNumNotes]
    at b1 s1
  generalize min (amount / 1000) n1000 = k1 at b1 s1
  obtain ⟨b1a, b1b, b1c⟩ := b1
  have b2 := notes_bounds (MoneyHandler.FiveHundredHandler n500) (amount - k1 * 1000) h500 b1c
  have s2 := dispense_step (MoneyHandler.FiveHundredHandler n500)
    (MoneyHandler.TwoHundredHandler n200) [MoneyHandler.HundredHandler n100]
    (amount - k1 * 1000) h500 (by simp [MoneyHandler.numNotes, h200, h100]) b1c
  simp only [MoneyHandler.denomination, MoneyHandler.numNotes, MoneyHandler.setNumNotes]
    at b2 s2
  generalize min ((amount - k1 * 1000) / 500) n500 = k2 at b2 s2
  obtain ⟨b2a, b2b, b2c⟩ := b2
  have b3 := notes_bounds (MoneyHandler.TwoHundredHandler n200)
    (amount - k1 * 1000 - k2 * 500) h200 b2c
  have s3 := dispense_step (MoneyHandler.TwoHundredHandler n200)
    (MoneyHandler.HundredHandler n100) [] (amount - k1 * 1000 - k2 * 500) h200
    (by simp [MoneyHandler.numNotes, h100]) b2c
  simp only [MoneyHandler.denomination, MoneyHandler.numNotes, MoneyHandler.setNumNotes]
    at b3 s3
  generalize min ((amount - k1 * 1000 - k2 * 500) / 200) n200 = k3 at b3 s3
  obtain ⟨b3a, b3b, b3c⟩ := b3
  have b4 := notes_bounds (MoneyHandler.HundredHandler n100)
    (amount - k1 * 1000 - k2 * 500 - k3 * 200) h100 b3c
  have s4 := dispense_last (MoneyHandler.HundredHandler n100)
    (amount - k1 * 1000 - k2 * 500 - k3 * 200) b3c
  simp only [MoneyHandler.denomination, MoneyHandler.numNotes, MoneyHandler.setNumNotes]
    at b4 s4
  generalize min ((amount - k1 * 1000 - k2 * 500 - k3 * 200) / 100) n100 = k4 at b4 s4
  obtain ⟨b4a, b4b, b4c⟩ := b4
  refine ⟨k1, k2, k3, k4, amount - k1 * 1000 - k2 * 500 - k3 * 200 - k4 * 100, ?_⟩
  have hall : dispense (chain n1000 n500 n200 n100) amount =
      (chain (n1000 - k1) (n500 - k2) (n200 - k3) (n100 - k4),
       (if k1 > 0 then [Msg.dispensing k1 1000] else []) ++
       ((if k2 > 0 then [Msg.dispensing k2 500] else []) ++
       ((if k3 > 0 then [Msg.dispensing k3 200] else []) ++
       ((if k4 > 0 then [Msg.dispensing k4 100] else []) ++
        (if amount - k1 * 1000 - k2 * 500 - k3 * 200 - k4 * 100 > 0
          then [Msg.cannotBeFulfilled (amount - k1 * 1000 - k2 * 500 - k3 * 200 - k4 * 100)]
          else []))))) := by
    rw [chain, s1, s2, s3, s4]
    rfl
  rw [hall]
  refine ⟨rfl, ?_, ?_, ?_, ?_, ?_, by ring, ⟨b1a, b1b⟩, ⟨b2a, b2b⟩, ⟨b3a, b3b⟩, ⟨b4a, b4b⟩,
    by omega, by omega, by omega, by omega, b4c⟩
  · simp only [issued_append, (issued_line 1000 1000 k1 b1a).1, (issued_line 1000 500 k2 b2a).1,
      (issued_line 1000 200 k3 b3a).1, (issued_line 1000 100 k4 b4a).1,
      (issued_report 1000 _).1]
    norm_num
  · simp only [issued_append, (issued_line 500 1000 k1 b1a).1, (issued_line 500 500 k2 b2a).1,
      (issued_line 500 200 k3 b3a).1, (issued_line 500 100 k4 b4a).1,
      (issued_report 500 _).1]
    norm_num
  · simp only [issued_append, (issued_line 200 1000 k1 b1a).1, (issued_line 200 500 k2 b2a).1,
      (issued_line 200 200 k3 b3a).1, (issued_line 200 100 k4 b4a).1,
      (issued_report 200 _).1]
    norm_num
  · simp only [issued_append, (issued_line 100 1000 k1 b1a).1, (issued_line 100 500 k2 b2a).1,
      (issued_line 100 200 k3 b3a).1, (issued_line 100 100 k4 b4a).1,
      (issued_report 100 _).1]
    norm_num
  · simp only [unfulfilled_append, (issued_line 0 1000 k1 b1a).2, (issued_line 0 500 k2 b2a).2,
      (issued_line 0 200 k3 b3a).2, (issued_line 0 100 k4 b4a).2, List.nil_append,
      (issued_report 0 _).2]

/-- The request 4000 of `main` against the stocks 3, 5, 10, 20: the issued notes and the
remainder add up to 4000. -/
theorem dispense_conserves_witness :
    ∃ k1000 k500 k200 k100 r : Int,
      (dispense (chain 3 5 10 20) 4000).1
        = chain (3 - k1000) (5 - k500) (10 - k200) (20 - k100) ∧
      issued 1000 (dispense (chain 3 5 10 20) 4000).2 = k1000 ∧
      issued 500 (dispense (chain 3 5 10 20) 4000).2 = k500 ∧
      issued 200 (dispense (chain 3 5 10 20) 4000).2 = k200 ∧
      issued 100 (dispense (chain 3 5 10 20) 4000).2 = k100 ∧
      unfulfilled (dispense (chain 3 5 10 20) 4000).2 = (if r > 0 then [r] else []) ∧
      1000 * k1000 + 500 * k500 + 200 * k200 + 100 * k100 + r = 4000 ∧
      (0 ≤ k1000 ∧ k1000 ≤ 3) ∧ (0 ≤ k500 ∧ k500 ≤ 5) ∧
      (0 ≤ k200 ∧ k200 ≤ 10) ∧ (0 ≤ k100 ∧ k100 ≤ 20) ∧
      0 ≤ 3 - k1000 ∧ 0 ≤ 5 - k500 ∧ 0 ≤ 10 - k200 ∧ 0 ≤ 20 - k100 ∧
      0 ≤ r :=
  dispense_conserves 4000 3 5 10 20 (by decide) (by decide) (by decide) (by decide)
    (by decide)

end COR

/-! ## Theorems: quitting a match and matchmaking -/

namespace Chess

end Chess

namespace Chess

namespace ScoreBasedMatching

/-- A difference of scores of absolute value at most `INT_MAX` is computed exactly. -/
theorem scoreDiff_exact (d : Int) (h : |d| ≤ INT_MAX) :
    CppLib.abs (CppLib.wrapInt d) = |d| := by
  have hb := abs_le.1 h
  unfold INT_MAX at hb
  rw [CppLib.wrapInt_of_inRange d ⟨by omega, hb.2⟩]
  unfold CppLib.abs
  by_cases hneg : d < 0
  · rw [if_pos hneg, abs_of_neg hneg]
    exact CppLib.wrapInt_of_inRange _ ⟨by omega, by omega⟩
  · rw [if_neg hneg, abs_of_nonneg (not_lt.1 hneg)]

/-- One round of the loop keeps the invariant. -/
theorem step_invariant (scoreTolerance : Int) (user : User) (htol : scoreTolerance < INT_MAX)
    (seen : List User) (st : Option User × Int) (w : User)
    (hw : w.id ≠ user.id → |w.score - user.score| ≤ INT_MAX)
    (h : LoopInvariant scoreTolerance user seen st) :
    LoopInvariant scoreTolerance user (seen ++ [w]) (step scoreTolerance user st w) := by
  unfold step
  by_cases hid : w.id ≠ user.id
  · rw [if_pos hid]
    dsimp only
    rw [scoreDiff_exact _ (hw hid)]
    by_cases hc : |w.score - user.score| ≤ scoreTolerance ∧ |w.score - user.score| < st.2
    · rw [if_pos hc]
      right
      refine ⟨w, seen, [], rfl, rfl, rfl, ⟨hid, hc.1⟩, ?_, by simp⟩
      intro x hx hex
      rcases h with ⟨_, _, hnone⟩ | ⟨m, l1, l2, _, hd, hseen, _, h1, h2⟩
      · exact absurd hex (hnone x hx)
      · rw [hd] at hc
        rw [hseen] at hx
        rcases List.mem_append.1 hx with hx1 | hx2
        · exact lt_trans hc.2 (h1 x hx1 hex)
        · rcases List.mem_cons.1 hx2 with hxm | hx3
          · rw [hxm]; exact hc.2
          · exact lt_of_lt_of_le hc.2 (h2 x hx3 hex)
    · rw [if_neg hc]
      rcases h with ⟨hn, hmax, hnone⟩ | ⟨m, l1, l2, hm, hd, hseen, hem, h1, h2⟩
      · left
        refine ⟨hn, hmax, ?_⟩
        intro x hx
        rcases List.mem_append.1 hx with hx1 | hx2
        · exact hnone x hx1
        · rw [List.mem_singleton.1 hx2]
          intro hex
          apply hc
          exact ⟨hex.2, by rw [hmax]; exact lt_of_le_of_lt hex.2 htol⟩
      · right
        refine ⟨m, l1, l2 ++ [w], hm, hd, by rw [hseen]; simp, hem, h1, ?_⟩
        intro x hx hex
        rcases List.mem_append.1 hx with hx1 | hx2
        · exact h2 x hx1 hex
        · rw [List.mem_singleton.1 hx2] at hex ⊢
          rw [hd] at hc
          by_contra hlt
          exact hc ⟨hex.2, not_le.1 hlt⟩
  · rw [if_neg hid]
    have hne : ¬ Eligible scoreTolerance user w := fun hex => hid hex.1
    rcases h with ⟨hn, hmax, hnone⟩ | ⟨m, l1, l2, hm, hd, hseen, hem, h1, h2⟩
    · left
      refine ⟨hn, hmax, ?_⟩
      intro x hx
      rcases List.mem_append.1 hx with hx1 | hx2
      · exact hnone x hx1
      · rw [List.mem_singleton.1 hx2]; exact hne
    · right
      refine ⟨m, l1, l2 ++ [w], hm, hd, by rw [hseen]; simp, hem, h1, ?_⟩
      intro x hx hex
      rcases List.mem_append.1 hx with hx1 | hx2
      · exact h2 x hx1 hex
      · rw [List.mem_singleton.1 hx2] at hex
        exact absurd hex hne

/-- The loop keeps the invariant. -/
theorem foldl_invariant (scoreTolerance : Int) (user : User) (htol : scoreTolerance < INT_MAX) :
    ∀ (l seen : List User) (st : Option User × Int),
      (∀ w ∈ l, w.id ≠ user.id → |w.score - user.score| ≤ INT_MAX) →
      LoopInvariant scoreTolerance user seen st →
      LoopInvariant scoreTolerance user (seen ++ l)
        (l.foldl (step scoreTolerance user) st) := by
  intro l
  induction l with
  | nil => intro seen st _ h; simpa using h
  | cons w rest ih =>
    intro seen st hfit h
    have := ih (seen ++ [w]) _ (fun x hx => hfit x (List.mem_cons_of_mem _ hx))
      (step_invariant scoreTolerance user htol seen st w
        (hfit w (List.mem_cons_self _ _)) h)
    simpa using this

end ScoreBasedMatching

set_option maxRecDepth 100000 in
/-- Claim C25 as stated fails in two ways. With a tolerance of `INT_MAX` a waiting user
with another id whose score differs by exactly `INT_MAX` is within the tolerance, and
`findMatch` returns null. With the tolerance 100 of the program, a waiting user whose
score differs by 4294967246 from the score of the user is returned, because the `int`
difference of the two scores is 50. -/
theorem findMatch_fails_at_int_limits :
    (lowScorer.id ≠ saurav.id ∧ |lowScorer.score - saurav.score| ≤ INT_MAX ∧
      ScoreBasedMatching.findMatch INT_MAX saurav [lowScorer] = none) ∧
    (|farScorer.score - topScorer.score| = 4294967246 ∧
      ¬ |farScorer.score - topScorer.score| ≤ 100 ∧
      ScoreBasedMatching.findMatch 100 topScorer [farScorer] = some farScorer) := by
  decide

set_option maxRecDepth 100000 in
/-- Claim C25, amended: chess matchmaking. For a tolerance below `INT_MAX` (the program
uses 100) and waiting users whose scores differ from the score of the user by at most
`INT_MAX`, `ScoreBasedMatching::findMatch(user, waiting)` returns null exactly when no
waiting user with a different id is within the tolerance; otherwise it returns a waiting
user with a different id and a score difference within the tolerance that is strictly
smaller than that of every eligible user before it in the list and not larger than that
of every eligible user after it. In the demo the first requester waits, the second is
matched with the first, and the third waits. -/
theorem findMatch_spec (scoreTolerance : Int) (user : User) (waitingUsers : List User)
    (htol : scoreTolerance < INT_MAX)
    (hfit : ∀ w ∈ waitingUsers, w.id ≠ user.id → |w.score - user.score| ≤ INT_MAX) :
    (ScoreBasedMatching.findMatch scoreTolerance user waitingUsers = none ↔
      ∀ w ∈ waitingUsers, ¬ (w.id ≠ user.id ∧ |w.score - user.score| ≤ scoreTolerance)) ∧
    (∀ m, ScoreBasedMatching.findMatch scoreTolerance user waitingUsers = some m →
      ∃ l1 l2, waitingUsers = l1 ++ m :: l2 ∧
        m.id ≠ user.id ∧ |m.score - user.score| ≤ scoreTolerance ∧
        (∀ w ∈ l1, w.id ≠ user.id → |w.score - user.score| ≤ scoreTolerance →
          |m.score - user.score| < |w.score - user.score|) ∧
        (∀ w ∈ l2, w.id ≠ user.id → |w.score - user.score| ≤ scoreTolerance →
          |m.score - user.score| ≤ |w.score - user.score|)) ∧
    ((GameManager.new.requestMatch saurav).waitingUsers = [saurav] ∧
     (GameManager.new.requestMatch saurav).activeMatches = [] ∧
     ((GameManager.new.requestMatch saurav).requestMatch manish).waitingUsers = [] ∧
     (((GameManager.new.requestMatch saurav).requestMatch manish).activeMatches.map
        (fun e => (e.2.whitePlayer, e.2.blackPlayer))) = [(manish, saurav)] ∧
     (((GameManager.new.requestMatch saurav).requestMatch manish).requestMatch
        abhishek).waitingUsers = [abhishek] ∧
     ((((GameManager.new.requestMatch saurav).requestMatch manish).requestMatch
        abhishek).activeMatches.map
        (fun e => (e.2.whitePlayer, e.2.blackPlayer))) = [(manish, saurav)]) := by
  have hinv := ScoreBasedMatching.foldl_invariant scoreTolerance user htol waitingUsers []
    (none, INT_MAX) hfit (Or.inl ⟨rfl, rfl, by simp⟩)
  simp only [List.nil_append] at hinv
  refine ⟨⟨?_, ?_⟩, ?_, by decide⟩
  · intro hnone
    rcases hinv with ⟨_, _, h⟩ | ⟨m, l1, l2, hm, _⟩
    · exact h
    · rw [ScoreBasedMatching.findMatch, hm] at hnone
      exact absurd hnone (by simp)
  · intro hall
    rcases hinv with ⟨hn, _, _⟩ | ⟨m, l1, l2, _, _, hseen, hem, _⟩
    · exact hn
    · exact absurd hem (hall m (by rw [hseen]; simp))
  · intro m hm
    rcases hinv with ⟨hn, _, _⟩ | ⟨m', l1, l2, hm', _, hseen, hem, h1, h2⟩
    · rw [ScoreBasedMatching.findMatch, hn] at hm
      exact absurd hm (by simp)
    · rw [ScoreBasedMatching.findMatch, hm'] at hm
      have : m' = m := by simpa using hm
      subst this
      exact ⟨l1, l2, hseen, hem.1, hem.2, fun w hw a b => h1 w hw ⟨a, b⟩,
        fun w hw a b => h2 w hw ⟨a, b⟩⟩

set_option maxRecDepth 100000 in
/-- The matchmaking of `main`: tolerance 100, Manish asks while Saurav waits. -/
theorem findMatch_spec_witness :
    ScoreBasedMatching.findMatch 100 manish [saurav] = some saurav ∧
    ∃ l1 l2, [saurav] = l1 ++ saurav :: l2 ∧ saurav.id ≠ manish.id :=
  ⟨by decide,
   have h := (findMatch_spec 100 manish [saurav] (by decide) (by decide)).2.1 saurav
     (by decide)
   match h with
   | ⟨l1, l2, h1, h2, _⟩ => ⟨l1, l2, h1, h2⟩⟩

end Chess

/-! ## Theorems: the size of a folder -/

namespace CompositePattern

/-- Reducing twice is reducing once. -/
theorem wrapInt_idem (x : Int) : CppLib.wrapInt (CppLib.wrapInt x) = CppLib.wrapInt x :=
  CppLib.wrapInt_of_inRange _ (CppLib.wrapInt_inRange x)

/-- Adding to a reduced total a size that agrees with `s` after reduction. -/
theorem wrapInt_step (t g s : Int) (h : CppLib.wrapInt g = CppLib.wrapInt s) :
    CppLib.wrapInt (CppLib.wrapInt t + g) = CppLib.wrapInt (t + s) := by
  rw [CppLib.wrapInt_wrapInt_add, ← CppLib.wrapInt_add_wrapInt t g, h,
    CppLib.wrapInt_add_wrapInt]

mutual

/-- The size of an item agrees, in the 32 bits of an `int`, with the sum of the sizes of
the files below it. -/
theorem getSize_eq_sum : ∀ item : FileSystemItem,
    CppLib.wrapInt item.getSize = CppLib.wrapInt item.leafSizes.sum
  | FileSystemItem.File _ size => by
    simp [FileSystemItem.getSize, FileSystemItem.leafSizes]
  | FileSystemItem.Folder _ children => by
    have h := sumSizes_eq_sum children 0
    have h0 : CppLib.wrapInt 0 = 0 := by decide
    rw [h0, zero_add] at h
    rw [FileSystemItem.getSize, FileSystemItem.leafSizes, h, wrapInt_idem]

/-- The loop of `Folder::getSize` adds the sizes of the files below the children, in the
32 bits of an `int`. -/
theorem sumSizes_eq_sum : ∀ (children : List FileSystemItem) (total : Int),
    sumSizes children (CppLib.wrapInt total)
      = CppLib.wrapInt (total + (leafSizesOf children).sum)
  | [], total => by simp [sumSizes, leafSizesOf]
  | child :: rest, total => by
    rw [sumSizes, wrapInt_step total child.getSize child.leafSizes.sum (getSize_eq_sum child),
      sumSizes_eq_sum rest, leafSizesOf, List.sum_append, add_assoc]

end

/-- The size of a folder is the sum of the sizes of the files below it, reduced to the 32
bits of an `int`. -/
theorem folder_getSize_wrap (name : String) (children : List FileSystemItem) :
    (FileSystemItem.Folder name children).getSize
      = CppLib.wrapInt (FileSystemItem.Folder name children).leafSizes.sum := by
  have h := sumSizes_eq_sum children 0
  have h0 : CppLib.wrapInt 0 = 0 := by decide
  rw [h0, zero_add] at h
  rw [FileSystemItem.getSize, FileSystemItem.leafSizes, h]

/-- Claim C23 as stated fails when the sum leaves the range of `int`: a folder with a
file of size 2147483647 and a file of size 1 has `getSize() = -2147483648`, while the
sizes of its files sum to 2147483648. -/
theorem getSize_leaves_int_range :
    bigFolder.leafSizes = [2147483647, 1] ∧
    bigFolder.leafSizes.sum = 2147483648 ∧
    bigFolder.getSize = -2147483648 ∧
    bigFolder.getSize ≠ bigFolder.leafSizes.sum := by
  decide

/-- Claim C23, amended: for every finite tree of folders and files, `Folder::getSize`
equals the sum of the sizes of all `File` leaves anywhere in its subtree whenever that
sum is within the range of `int`, and in general that sum reduced to the 32 bits of an
`int`; an empty folder has size 0 and the root of the demo, with five files of size 1,
has size 5. -/
theorem folder_getSize (name : String) (children : List FileSystemItem) :
    (CppLib.InIntRange (FileSystemItem.Folder name children).leafSizes.sum →
      (FileSystemItem.Folder name children).getSize
        = (FileSystemItem.Folder name children).leafSizes.sum) ∧
    (FileSystemItem.Folder name children).getSize
      = CppLib.wrapInt (FileSystemItem.Folder name children).leafSizes.sum ∧
    (FileSystemItem.Folder name []).getSize = 0 ∧
    root.leafSizes = [1, 1, 1, 1, 1] ∧
    root.getSize = 5 := by
  refine ⟨fun h => ?_, folder_getSize_wrap name children, ?_, ?_, ?_⟩
  · rw [folder_getSize_wrap, CppLib.wrapInt_of_inRange _ h]
  · simp [FileSystemItem.getSize, sumSizes]
  · simp [root, docs, images, FileSystemItem.add, FileSystemItem.leafSizes, leafSizesOf]
  · decide

/-- The folder `docs` of `main` holds two files of size 1: their sum 2 is within the
range of `int` and is the size of the folder. -/
theorem folder_getSize_witness :
    (FileSystemItem.Folder "docs"
      [FileSystemItem.File "resume.pdf" 1, FileSystemItem.File "notes.txt" 1]).getSize
    = (FileSystemItem.Folder "docs"
      [FileSystemItem.File "resume.pdf" 1, FileSystemItem.File "notes.txt" 1]).leafSizes.sum :=
  (folder_getSize "docs"
    [FileSystemItem.File "resume.pdf" 1, FileSystemItem.File "notes.txt" 1]).1
    ⟨by decide, by decide⟩

end CompositePattern

/-! ## Theorems: the broadcast of the chat room -/

namespace MediatorPattern

namespace ChatMediator

/-- The flag `isMuted` is set exactly when the pair `(c, sender)` is in the mute list. -/
theorem isMuted_iff (sender c : String) (mutes : List (String × String)) :
    isMuted sender c mutes = true ↔ (c, sender) ∈ mutes := by
  induction mutes with
  | nil => simp [isMuted]
  | cons p rest ih =>
    obtain ⟨p1, p2⟩ := p
    simp only [isMuted, List.mem_cons, Prod.mk.injEq]
    by_cases h : sender = p2 ∧ c = p1
    · simp [h]
    · rw [if_neg h, ih]
      constructor
      · intro hr; exact Or.inr hr
      · intro hr
        rcases hr with ⟨h1, h2⟩ | hr
        · exact absurd ⟨h2, h1⟩ h
        · exact hr

/-- The loop of `send` delivers to the colleagues that pass the two tests, in order. -/
theorem deliver_eq (mutes : List (String × String)) (sender msg : String)
    (colleagues : List String) :
    deliver mutes sender msg colleagues
      = (colleagues.filter (fun c => decide (c ≠ sender ∧ (c, sender) ∉ mutes))).map
          (fun c => Msg.gotFrom c sender msg) := by
  induction colleagues with
  | nil => rfl
  | cons c rest ih =>
    by_cases h1 : c = sender
    · have hd : ¬ (decide (c ≠ sender ∧ (c, sender) ∉ mutes) = true) := by simp [h1]
      rw [List.filter_cons]
      rw [if_neg hd, deliver, if_pos h1, ih]
    · by_cases h2 : isMuted sender c mutes = true
      · have h3 : (c, sender) ∈ mutes := (isMuted_iff sender c mutes).1 h2
        have hd : ¬ (decide (c ≠ sender ∧ (c, sender) ∉ mutes) = true) := by simp [h3]
        rw [List.filter_cons]
        rw [if_neg hd, deliver, if_neg h1, if_pos h2, ih]
      · have h3 : (c, sender) ∉ mutes := fun hh => h2 ((isMuted_iff sender c mutes).2 hh)
        have hd : decide (c ≠ sender ∧ (c, sender) ∉ mutes) = true := by simp [h1, h3]
        rw [List.filter_cons]
        rw [if_pos hd, deliver, if_neg h1, if_neg h2, ih, List.map_cons]

end ChatMediator

/-- Claim C24: `ChatMediator::send(from, msg)` delivers `msg` once to each registered
colleague whose name differs from `from` and who has not muted `from` (no pair
`(colleague, from)` in the mute list), in registration order, and to nobody else. In the
demo Rohan has muted Mohan: a broadcast from Rohan reaches Neha and Mohan, a broadcast
from Mohan reaches Neha only. -/
theorem send_delivers (m : ChatMediator) (sender msg : String) :
    m.send sender msg = Msg.broadcasts sender msg ::
      (m.colleagues.filter (fun c => decide (c ≠ sender ∧ (c, sender) ∉ m.mutes))).map
        (fun c => Msg.gotFrom c sender msg) ∧
    chatRoom.send "Rohan" "Hello Everyone!" =
      [Msg.broadcasts "Rohan" "Hello Everyone!",
       Msg.gotFrom "Neha" "Rohan" "Hello Everyone!",
       Msg.gotFrom "Mohan" "Rohan" "Hello Everyone!"] ∧
    chatRoom.send "Mohan" "Hi" =
      [Msg.broadcasts "Mohan" "Hi", Msg.gotFrom "Neha" "Mohan" "Hi"] := by
  refine ⟨?_, by decide, by decide⟩
  rw [ChatMediator.send, ChatMediator.deliver_eq]

end MediatorPattern

/-! ## Theorems: random play returns every song once -/

namespace MusicPlayer

namespace RandomPlayStrategy

/-- The swap-and-pop of `next`: the selected song and the songs left are a rearrangement
of the songs there were. -/
theorem perm_swap_pop (l : List Song) (idx : Nat) (h : idx < l.length) (last : Song)
    (hlast : l.getLast? = some last) :
    (l[idx] :: (l.set idx last).dropLast).Perm l := by
  have hl : l.dropLast ++ [last] = l := List.dropLast_append_getLast? last hlast
  generalize l.dropLast = init at hl
  subst hl
  simp only [List.length_append, List.length_singleton] at h
  by_cases hi : idx < init.length
  · rw [List.getElem_append_left hi, List.set_append_left _ _ hi, List.dropLast_concat]
    have h1 : init.set idx last = init.take idx ++ last :: init.drop (idx + 1) := by
      rw [List.set_eq_take_append_cons_drop, if_pos hi]
    have h2 : init = init.take idx ++ init[idx] :: init.drop (idx + 1) := by
      rw [← List.drop_eq_getElem_cons hi, List.take_append_drop]
    rw [h1]
    nth_rewrite 4 [h2]
    refine (List.Perm.cons _ List.perm_middle).trans ?_
    refine (List.Perm.swap _ _ _).trans ?_
    refine List.Perm.trans ?_ (List.perm_append_singleton _ _).symm
    exact List.Perm.cons _ List.perm_middle.symm
  · have hidx : idx = init.length := by omega
    subst hidx
    have hset : (init ++ [last]).set init.length last = init ++ [last] := by
      rw [List.set_append_right _ _ (le_refl _)]
      simp
    rw [hset, List.dropLast_concat]
    have hget : (init ++ [last])[init.length] = last := by simp
    rw [hget]
    exact (List.perm_append_singleton _ _).symm

/-- One call of `next` on a strategy that has songs left. -/
theorem next_spec (s : RandomPlayStrategy) (p : Playlist) (r : Nat)
    (hp : s.currentPlaylist = some p) (hsize : p.getSize ≠ 0) (hne : s.remainingSongs ≠ []) :
    ∃ song s1, s.next r = Except.ok (song, s1) ∧ s1.currentPlaylist = some p ∧
      (song :: s1.remainingSongs).Perm s.remainingSongs ∧
      s1.remainingSongs.length + 1 = s.remainingSongs.length := by
  obtain ⟨last, hlast⟩ : ∃ last, s.remainingSongs.getLast? = some last := by
    cases hg : s.remainingSongs.getLast? with
    | none => exact absurd (List.getLast?_eq_none_iff.1 hg) hne
    | some last => exact ⟨last, rfl⟩
  have hpos : 0 < s.remainingSongs.length := List.length_pos.2 hne
  have hidx : r % s.remainingSongs.length < s.remainingSongs.length := Nat.mod_lt _ hpos
  refine ⟨s.remainingSongs[r % s.remainingSongs.length],
    { s with remainingSongs := (s.remainingSongs.set (r % s.remainingSongs.length) last).dropLast,
             history := s.remainingSongs[r % s.remainingSongs.length] :: s.history },
    ?_, hp, perm_swap_pop _ _ hidx last hlast, ?_⟩
  · simp only [next, hp, hsize, if_false, hlast, List.getElem?_eq_getElem hidx]
  · simp only [List.length_dropLast, List.length_set]
    omega

/-- With enough calls allowed the loop returns a rearrangement of the songs left and
ends with no song left. -/
theorem playWhileHasNext_spec (rand : Nat → Nat) (p : Playlist) (hsize : p.getSize ≠ 0) :
    ∀ (fuel k : Nat) (s : RandomPlayStrategy), s.currentPlaylist = some p →
      s.remainingSongs.length ≤ fuel →
      ∃ songs s1, playWhileHasNext rand fuel k s = some (songs, s1) ∧
        songs.Perm s.remainingSongs ∧ s1.remainingSongs = [] ∧
        s1.currentPlaylist = some p := by
  intro fuel
  induction fuel with
  | zero =>
    intro k s hp hlen
    have hnil : s.remainingSongs = [] := List.length_eq_zero.1 (by omega)
    exact ⟨[], s, by simp [playWhileHasNext, hasNext, hnil], by rw [hnil], hnil, hp⟩
  | succ fuel ih =>
    intro k s hp hlen
    by_cases hnil : s.remainingSongs = []
    · exact ⟨[], s, by simp [playWhileHasNext, hasNext, hnil], by rw [hnil], hnil, hp⟩
    · obtain ⟨song, s1, hnext, hp1, hperm, hlen1⟩ := next_spec s p (rand k) hp hsize hnil
      obtain ⟨songs, s2, hrun, hperm2, hnil2, hp2⟩ := ih (k + 1) s1 hp1 (by omega)
      refine ⟨song :: songs, s2, ?_, (List.Perm.cons _ hperm2).trans hperm, hnil2, hp2⟩
      have hhas : s.hasNext = true := by
        cases hl : s.remainingSongs with
        | nil => exact absurd hl hnil
        | cons a l => simp [hasNext, hp, hl]
      rw [playWhileHasNext, if_pos hhas]
      simp only [hnext, hrun]

/-- With fewer calls allowed than songs left the loop does not get to its end. -/
theorem playWhileHasNext_short (rand : Nat → Nat) (p : Playlist) (hsize : p.getSize ≠ 0) :
    ∀ (fuel k : Nat) (s : RandomPlayStrategy), s.currentPlaylist = some p →
      fuel < s.remainingSongs.length → playWhileHasNext rand fuel k s = none := by
  intro fuel
  induction fuel with
  | zero =>
    intro k s hp hlen
    have hhas : s.hasNext = true := by
      cases hl : s.remainingSongs with
      | nil => rw [hl] at hlen; simp at hlen
      | cons a l => simp [hasNext, hp, hl]
    rw [playWhileHasNext, if_pos hhas]
  | succ fuel ih =>
    intro k s hp hlen
    have hnil : s.remainingSongs ≠ [] := by
      intro hl; rw [hl] at hlen; simp at hlen
    have hhas : s.hasNext = true := by
      cases hl : s.remainingSongs with
      | nil => exact absurd hl hnil
      | cons a l => simp [hasNext, hp, hl]
    obtain ⟨song, s1, hnext, hp1, _, hlen1⟩ := next_spec s p (rand k) hp hsize hnil
    have := ih (k + 1) s1 hp1 (by omega)
    rw [playWhileHasNext, if_pos hhas]
    simp only [hnext, this]

/-- Claim C29: random play. After `setPlaylist` on a non-empty playlist, for every
sequence of random draws, calling `next()` while `hasNext()` is true returns a
rearrangement of the songs of the playlist, so every song of a playlist of distinct songs
exactly once, in as many calls as the playlist has songs and not in fewer; after that
`hasNext()` is false and `next()` fails with "No songs left to play". -/
theorem random_play_once (s0 : RandomPlayStrategy) (p : Playlist) (rand : Nat → Nat)
    (fuel : Nat) (hsize : p.getSize ≠ 0) (hfuel : p.songList.length ≤ fuel) :
    (∃ songs s1, playWhileHasNext rand fuel 0 (s0.setPlaylist (some p)) = some (songs, s1) ∧
      songs.Perm p.songList ∧ songs.length = p.songList.length ∧
      (p.songList.Nodup → songs.Nodup) ∧ (∀ song, song ∈ songs ↔ song ∈ p.songList) ∧
      s1.hasNext = false ∧
      ∀ r, s1.next r = Except.error (Failure.runtime_error "No songs left to play")) ∧
    (∀ fewer, fewer < p.songList.length →
      playWhileHasNext rand fewer 0 (s0.setPlaylist (some p)) = none) := by
  have hset : s0.setPlaylist (some p) = ⟨some p, p.songList, []⟩ := by
    simp [setPlaylist, hsize]
  rw [hset]
  constructor
  · obtain ⟨songs, s1, hrun, hperm, hnil, hp1⟩ :=
      playWhileHasNext_spec rand p hsize fuel 0 ⟨some p, p.songList, []⟩ rfl hfuel
    refine ⟨songs, s1, hrun, hperm, hperm.length_eq, fun hnd => hperm.nodup_iff.2 hnd,
      fun song => hperm.mem_iff, ?_, ?_⟩
    · simp [hasNext, hnil]
    · intro r
      simp [next, hp1, hsize, hnil]
  · intro fewer hf
    exact playWhileHasNext_short rand p hsize fewer 0 ⟨some p, p.songList, []⟩ rfl hf

/-- The playlist "Bollywood Vibes" of `main` with the draws 0, 1, 2, ...: four calls
return its four songs. -/
theorem random_play_once_witness :
    (∃ songs s1, playWhileHasNext (fun k => k) 4 0 (new.setPlaylist (some demoPlaylist))
        = some (songs, s1) ∧
      songs.Perm demoPlaylist.songList ∧ songs.length = demoPlaylist.songList.length ∧
      (demoPlaylist.songList.Nodup → songs.Nodup) ∧
      (∀ song, song ∈ songs ↔ song ∈ demoPlaylist.songList) ∧
      s1.hasNext = false ∧
      ∀ r, s1.next r = Except.error (Failure.runtime_error "No songs left to play")) ∧
    (∀ fewer, fewer < demoPlaylist.songList.length →
      playWhileHasNext (fun k => k) fewer 0 (new.setPlaylist (some demoPlaylist)) = none) :=
  random_play_once new demoPlaylist (fun k => k) 4 (by decide) (by decide)

end RandomPlayStrategy

end MusicPlayer

/-! ## Theorems: the chain of coupons -/

namespace DiscountCoupon

/-- The claim that every applicable coupon subtracts its discount from the running total
fails when the discount exceeds the running total: with a flat 950 off registered before
10 % off Clothing, a cart with one jacket of 1000 stands at 50 when the seasonal discount
of 100 is applied, and `applyAll` returns 0, not 50 - 100. -/
theorem applyAll_floors_at_zero :
    (applyDiscount [BulkPurchaseDiscount 500 950] jacketCart).currentTotal = 50 ∧
    (SeasonalOffer 10 "Clothing").isApplicable
      (applyDiscount [BulkPurchaseDiscount 500 950] jacketCart) = true ∧
    (SeasonalOffer 10 "Clothing").getDiscount
      (applyDiscount [BulkPurchaseDiscount 500 950] jacketCart) = 100 ∧
    CouponManager.applyAll flatThenSeasonal jacketCart = 0 ∧
    CouponManager.applyAll flatThenSeasonal jacketCart ≠ 50 - 100 := by
  norm_num [CouponManager.applyAll, demoCoupons, flatThenSeasonal, CouponManager.registerCoupon,
    applyDiscount, SeasonalOffer, LoyaltyDiscount, BulkPurchaseDiscount, BankingCoupon,
    getStrategy, DiscountStrategy.calculate, Cart.categorySubtotal, Cart.applyDiscount,
    demoCart, jacketCart, Cart.new, Cart.addProduct, Cart.setLoyaltyMember,
    Cart.setPaymentBank, CartItem.itemTotal]

/-- Claim C22, as the code has it: `CouponManager::applyAll` visits the coupons in
registration order; a coupon that is not applicable is skipped, an applicable coupon
lowers the running current total by its discount, but not below 0, and the chain stops
after the first applicable coupon that is not combinable; the value returned is the
resulting current total. The discount of `SeasonalOffer` is its percentage of the subtotal
of the items of its category, the other three coupons compute theirs on the running
current total. For the demo cart the result is exactly 22865. -/
theorem applyAll_chain (coupon : Coupon) (rest : List Coupon) (cart : Cart) :
    CouponManager.applyAll [] cart = cart.currentTotal ∧
    CouponManager.registerCoupon rest coupon = rest ++ [coupon] ∧
    (coupon.isApplicable cart = false →
      CouponManager.applyAll (coupon :: rest) cart = CouponManager.applyAll rest cart) ∧
    (coupon.isApplicable cart = true → coupon.isCombinable = true →
      CouponManager.applyAll (coupon :: rest) cart = CouponManager.applyAll rest
        { cart with currentTotal := max 0 (cart.currentTotal - coupon.getDiscount cart) }) ∧
    (coupon.isApplicable cart = true → coupon.isCombinable = false →
      CouponManager.applyAll (coupon :: rest) cart
        = max 0 (cart.currentTotal - coupon.getDiscount cart)) ∧
    (∀ pct cat, (SeasonalOffer pct cat).getDiscount cart
      = pct / 100 * cart.categorySubtotal cat) ∧
    (∀ pct, (LoyaltyDiscount pct).getDiscount cart = pct / 100 * cart.currentTotal) ∧
    (∀ thr off, (BulkPurchaseDiscount thr off).getDiscount cart = min off cart.currentTotal) ∧
    (∀ b ms pct cap, (BankingCoupon b ms pct cap).getDiscount cart
      = min cap (pct / 100 * cart.currentTotal)) ∧
    demoCart.originalTotal = 25000 ∧
    CouponManager.applyAll demoCoupons demoCart = 22865 := by
  have hfloor : ∀ x : ℚ, (if x < 0 then 0 else x) = max 0 x := by
    intro x
    by_cases h : x < 0
    · rw [if_pos h, max_eq_left (le_of_lt h)]
    · rw [if_neg h, max_eq_right (not_lt.1 h)]
  have hcat : ("Electronics" = "Clothing") = False := eq_false (by decide)
  refine ⟨rfl, rfl, ?_, ?_, ?_, fun _ _ => rfl, fun _ => rfl, fun _ _ => rfl, ?_, ?_, ?_⟩
  rotate_left 4
  · norm_num [CouponManager.applyAll, demoCoupons, flatThenSeasonal, CouponManager.registerCoupon,
    applyDiscount, SeasonalOffer, LoyaltyDiscount, BulkPurchaseDiscount, BankingCoupon,
    getStrategy, DiscountStrategy.calculate, Cart.categorySubtotal, Cart.applyDiscount,
    demoCart, jacketCart, Cart.new, Cart.addProduct, Cart.setLoyaltyMember,
    Cart.setPaymentBank, CartItem.itemTotal]
  · norm_num [hcat, CouponManager.applyAll, demoCoupons, flatThenSeasonal, CouponManager.registerCoupon,
    applyDiscount, SeasonalOffer, LoyaltyDiscount, BulkPurchaseDiscount, BankingCoupon,
    getStrategy, DiscountStrategy.calculate, Cart.categorySubtotal, Cart.applyDiscount,
    demoCart, jacketCart, Cart.new, Cart.addProduct, Cart.setLoyaltyMember,
    Cart.setPaymentBank, CartItem.itemTotal]
  · intro h
    simp [CouponManager.applyAll, applyDiscount, h]
  · intro h1 h2
    simp only [CouponManager.applyAll, applyDiscount, h1, h2, if_true, Bool.not_true,
      Bool.false_eq_true, if_false, Cart.applyDiscount, hfloor]
  · intro h1 h2
    simp only [CouponManager.applyAll, applyDiscount, h1, h2, if_true, Bool.not_false,
      Cart.applyDiscount, hfloor]
  · intro b ms pct cap
    show (if pct / 100 * cart.currentTotal > cap then cap else pct / 100 * cart.currentTotal)
      = min cap (pct / 100 * cart.currentTotal)
    by_cases h : pct / 100 * cart.currentTotal > cap
    · rw [if_pos h, min_eq_left (le_of_lt h)]
    · rw [if_neg h, min_eq_right (not_lt.1 h)]

end DiscountCoupon

namespace DiscountCoupon

/-- The first coupon of `main` on the cart of `main`: 10 % off Clothing is applicable and
combinable, so the rest of the chain runs on the total lowered by its discount. -/
theorem applyAll_chain_witness :
    CouponManager.applyAll (SeasonalOffer 10 "Clothing" :: [LoyaltyDiscount 5]) demoCart
      = CouponManager.applyAll [LoyaltyDiscount 5]
          { demoCart with
            currentTotal := max 0
              (demoCart.currentTotal - (SeasonalOffer 10 "Clothing").getDiscount demoCart) } :=
  (applyAll_chain (SeasonalOffer 10 "Clothing") [LoyaltyDiscount 5] demoCart).2.2.2.1
    (by decide) rfl

end DiscountCoupon

/-! ## Theorems: the decimal digits of `std::to_string` -/

namespace CppLib

/-- The code of the character of a decimal digit is 48 plus the digit. -/
theorem digitChar_toNat : ∀ k, k < 10 → (Nat.digitChar k).toNat - 48 = k := by
  decide

/-- A decimal digit is not an underscore and not a minus sign. -/
theorem digitChar_ne : ∀ k, k < 10 → Nat.digitChar k ≠ '_' ∧ Nat.digitChar k ≠ '-' := by
  decide

/-- The digits are put in front of what is there already. -/
theorem toDigitsCore_append (fuel : Nat) : ∀ (n : Nat) (ds : List Char),
    Nat.toDigitsCore 10 fuel n ds = Nat.toDigitsCore 10 fuel n [] ++ ds := by
  induction fuel with
  | zero => intro n ds; simp [Nat.toDigitsCore]
  | succ fuel ih =>
    intro n ds
    simp only [Nat.toDigitsCore]
    by_cases h : n / 10 = 0
    · simp [h]
    · simp only [h, if_false]
      rw [ih (n / 10) (Nat.digitChar (n % 10) :: ds), ih (n / 10) [Nat.digitChar (n % 10)]]
      simp

/-- Every character of the digits is a decimal digit. -/
theorem toDigitsCore_chars (fuel : Nat) : ∀ (n : Nat),
    ∀ c ∈ Nat.toDigitsCore 10 fuel n [], c ≠ '_' ∧ c ≠ '-' := by
  induction fuel with
  | zero => intro n c hc; simp [Nat.toDigitsCore] at hc
  | succ fuel ih =>
    intro n c hc
    simp only [Nat.toDigitsCore] at hc
    by_cases h : n / 10 = 0
    · simp only [h, if_true, List.mem_singleton] at hc
      rw [hc]
      exact digitChar_ne _ (Nat.mod_lt _ (by decide))
    · simp only [h, if_false] at hc
      rw [toDigitsCore_append] at hc
      rcases List.mem_append.1 hc with hc1 | hc2
      · exact ih _ c hc1
      · rw [List.mem_singleton.1 hc2]
        exact digitChar_ne _ (Nat.mod_lt _ (by decide))

/-- The digits of a number write the number. -/
theorem toDigitsCore_value (fuel : Nat) : ∀ (n : Nat), n < fuel →
    (Nat.toDigitsCore 10 fuel n []).foldl (fun a c => 10 * a + (c.toNat - 48)) 0 = n := by
  induction fuel with
  | zero => intro n h; omega
  | succ fuel ih =>
    intro n hn
    simp only [Nat.toDigitsCore]
    by_cases h : n / 10 = 0
    · simp only [h, if_true, List.foldl_cons, List.foldl_nil]
      rw [digitChar_toNat _ (Nat.mod_lt _ (by decide))]
      omega
    · simp only [h, if_false]
      rw [toDigitsCore_append, List.foldl_append, ih (n / 10) (by omega)]
      simp only [List.foldl_cons, List.foldl_nil]
      rw [digitChar_toNat _ (Nat.mod_lt _ (by decide))]
      omega

/-- The string of a number has no underscore. -/
theorem to_string_no_underscore (n : Int) : '_' ∉ (to_string n).data := by
  intro h
  cases n with
  | ofNat m => exact (toDigitsCore_chars _ m _ h).1 rfl
  | negSucc m =>
    rcases List.mem_cons.1 h with h1 | h1
    · exact absurd h1 (by decide)
    · exact (toDigitsCore_chars _ (m + 1) _ h1).1 rfl

/-- Different numbers have different strings. -/
theorem to_string_injective (a b : Int) (h : to_string a = to_string b) : a = b := by
  have hnat : ∀ m m' : Nat, Nat.toDigits 10 m = Nat.toDigits 10 m' → m = m' := by
    intro m m' hm
    have h1 := toDigitsCore_value (m + 1) m (by omega)
    have h2 := toDigitsCore_value (m' + 1) m' (by omega)
    unfold Nat.toDigits at hm
    rw [hm] at h1
    omega
  cases a with
  | ofNat m =>
    cases b with
    | ofNat m' =>
      have : Nat.toDigits 10 m = Nat.toDigits 10 m' := congrArg String.data h
      rw [hnat m m' this]
    | negSucc m' =>
      exfalso
      have : Nat.toDigits 10 m = '-' :: Nat.toDigits 10 (m' + 1) := congrArg String.data h
      have hmem : '-' ∈ Nat.toDigits 10 m := by rw [this]; exact List.mem_cons_self _ _
      exact (toDigitsCore_chars _ m _ hmem).2 rfl
  | negSucc m =>
    cases b with
    | ofNat m' =>
      exfalso
      have : '-' :: Nat.toDigits 10 (m + 1) = Nat.toDigits 10 m' := congrArg String.data h
      have hmem : '-' ∈ Nat.toDigits 10 m' := by rw [← this]; exact List.mem_cons_self _ _
      exact (toDigitsCore_chars _ m' _ hmem).2 rfl
    | negSucc m' =>
      have : Nat.toDigits 10 (m + 1) = Nat.toDigits 10 (m' + 1) :=
        (List.cons.inj (congrArg String.data h)).2
      have := hnat _ _ this
      have : m = m' := by omega
      rw [this]

end CppLib

/-! ## Theorems: which requests share a flyweight -/

namespace Flyweight

/-- The position found holds an entry with the key. -/
theorem position_spec (k : String) : ∀ (l : List (String × AsteroidFlyweight)) (i : Nat),
    position k l = some i → ∃ e, l[i]? = some e ∧ e.1 = k := by
  intro l
  induction l with
  | nil => intro i h; simp [position] at h
  | cons e rest ih =>
    intro i h
    simp only [position] at h
    by_cases he : e.1 = k
    · simp only [he, if_true, Option.some.injEq] at h
      subst h
      exact ⟨e, by simp, he⟩
    · simp only [he, if_false, Option.map_eq_some'] at h
      obtain ⟨j, hj, hij⟩ := h
      subst hij
      obtain ⟨e', h1, h2⟩ := ih j hj
      exact ⟨e', by simpa using h1, h2⟩

/-- A key is found exactly when an entry has it. -/
theorem position_none_iff (k : String) (l : List (String × AsteroidFlyweight)) :
    position k l = none ↔ k ∉ l.map (fun e => e.1) := by
  induction l with
  | nil => simp [position]
  | cons e rest ih =>
    simp only [position, List.map_cons, List.mem_cons, not_or]
    by_cases he : e.1 = k
    · simp [he]
    · have he' : ¬ k = e.1 := fun h => he h.symm
      simp [he, he', ih]

/-- New entries at the end do not change the position of a key that is found. -/
theorem position_append (k : String) (l ext : List (String × AsteroidFlyweight)) (i : Nat)
    (h : position k l = some i) : position k (l ++ ext) = some i := by
  induction l generalizing i with
  | nil => simp [position] at h
  | cons e rest ih =>
    simp only [position, List.cons_append] at h ⊢
    by_cases he : e.1 = k
    · simpa [he] using h
    · simp only [he, if_false, Option.map_eq_some'] at h ⊢
      obtain ⟨j, hj, hij⟩ := h
      exact ⟨j, ih j hj, hij⟩

/-- A key that is not found is found at the end once its entry is added. -/
theorem position_new (k : String) (v : AsteroidFlyweight)
    (l : List (String × AsteroidFlyweight)) (h : position k l = none) :
    position k (l ++ [(k, v)]) = some l.length := by
  induction l with
  | nil => simp [position]
  | cons e rest ih =>
    simp only [position] at h
    by_cases he : e.1 = k
    · simp [he] at h
    · simp only [he, if_false, Option.map_eq_none'] at h
      simp [position, he, ih h]

/-- Two keys that a map gives the same flyweight are the same key. -/
theorem owns_same (l : List (String × AsteroidFlyweight)) (h1 h2 : Nat) (k1 k2 : String)
    (o1 : Owns l h1 k1) (o2 : Owns l h2 k2) : h1 = h2 ↔ k1 = k2 := by
  constructor
  · intro hh
    subst hh
    obtain ⟨e1, g1, e1k⟩ := position_spec k1 l h1 o1
    obtain ⟨e2, g2, e2k⟩ := position_spec k2 l h1 o2
    rw [g1] at g2
    have : e1 = e2 := by simpa using g2
    rw [← e1k, ← e2k, this]
  · intro hk
    subst hk
    have : some h1 = some h2 := o1.symm.trans o2
    simpa using this

namespace AsteroidFactory

/-- One call of `getAsteroid`: the map grows at its end only, the flyweight returned
stands for the key, no key is entered twice and the only key that can be new is the key
of the request. -/
theorem getAsteroid_spec (fw : List (String × AsteroidFlyweight)) (r : Request) :
    (∃ ext, (getAsteroid fw r).2 = fw ++ ext) ∧
    Owns (getAsteroid fw r).2 (getAsteroid fw r).1 r.key ∧
    ((fw.map (fun e => e.1)).Nodup → ((getAsteroid fw r).2.map (fun e => e.1)).Nodup) ∧
    (∀ k, k ∈ (getAsteroid fw r).2.map (fun e => e.1) ↔
      k ∈ fw.map (fun e => e.1) ∨ k = r.key) := by
  unfold getAsteroid
  cases hp : position r.key fw with
  | some i =>
    have hmem : r.key ∈ fw.map (fun e => e.1) := by
      by_contra hn
      rw [(position_none_iff r.key fw).2 hn] at hp
      exact absurd hp (by simp)
    refine ⟨⟨[], by simp⟩, hp, fun h => h, ?_⟩
    intro k
    constructor
    · intro h; exact Or.inl h
    · intro h
      rcases h with h | h
      · exact h
      · rw [h]; exact hmem
  | none =>
    have hnot := (position_none_iff r.key fw).1 hp
    refine ⟨⟨_, rfl⟩, position_new _ _ _ hp, ?_, ?_⟩
    · intro hnd
      simp only [List.map_append, List.map_cons, List.map_nil]
      exact List.Nodup.append hnd (List.nodup_singleton _)
        (by
          intro x hx hx'
          rw [List.mem_singleton.1 hx'] at hx
          exact hnot hx)
    · intro k
      simp

/-- A run of calls of `getAsteroid`: every flyweight returned stands for the key of its
request in the map the run leaves; the map has no key twice and holds the keys it held
and the keys requested. -/
theorem getAsteroids_spec : ∀ (reqs : List Request) (fw : List (String × AsteroidFlyweight)),
    (∃ ext, (getAsteroids fw reqs).2 = fw ++ ext) ∧
    (∀ p ∈ reqs.zip (getAsteroids fw reqs).1, Owns (getAsteroids fw reqs).2 p.2 p.1.key) ∧
    ((fw.map (fun e => e.1)).Nodup → ((getAsteroids fw reqs).2.map (fun e => e.1)).Nodup) ∧
    (∀ k, k ∈ (getAsteroids fw reqs).2.map (fun e => e.1) ↔
      k ∈ fw.map (fun e => e.1) ∨ k ∈ reqs.map Request.key) := by
  intro reqs
  induction reqs with
  | nil =>
    intro fw
    exact ⟨⟨[], by simp [getAsteroids]⟩, by simp [getAsteroids], fun h => h,
      by simp [getAsteroids]⟩
  | cons r rest ih =>
    intro fw
    obtain ⟨⟨ext1, he1⟩, ho1, hn1, hk1⟩ := getAsteroid_spec fw r
    obtain ⟨⟨ext2, he2⟩, ho2, hn2, hk2⟩ := ih (getAsteroid fw r).2
    simp only [getAsteroids]
    refine ⟨⟨ext1 ++ ext2, by rw [he2, he1, List.append_assoc]⟩, ?_, fun h => hn2 (hn1 h), ?_⟩
    · intro p hp
      simp only [List.zip_cons_cons, List.mem_cons] at hp
      rcases hp with hp | hp
      · rw [hp]
        show position r.key _ = some _
        rw [he2]
        exact position_append _ _ _ _ ho1
      · exact ho2 p hp
    · intro k
      rw [hk2 k, hk1 k]
      simp only [List.map_cons, List.mem_cons]
      tauto

end AsteroidFactory

/-- A text without underscore in front of an underscore can be cut off in one way
only. -/
theorem split_underscore : ∀ (a a' l l' : List Char), '_' ∉ a → '_' ∉ a' →
    a ++ '_' :: l = a' ++ '_' :: l' → a = a' ∧ l = l' := by
  intro a
  induction a with
  | nil =>
    intro a' l l' _ ha' h
    cases a' with
    | nil => exact ⟨rfl, by simpa using h⟩
    | cons c rest =>
      exfalso
      simp only [List.nil_append, List.cons_append, List.cons.injEq] at h
      exact ha' (by rw [← h.1]; exact List.mem_cons_self _ _)
  | cons c rest ih =>
    intro a' l l' ha ha' h
    cases a' with
    | nil =>
      exfalso
      simp only [List.nil_append, List.cons_append, List.cons.injEq] at h
      exact ha (by rw [h.1]; exact List.mem_cons_self _ _)
    | cons c' rest' =>
      simp only [List.cons_append, List.cons.injEq] at h
      obtain ⟨h1, h2⟩ := ih rest' l l' (fun hh => ha (List.mem_cons_of_mem _ hh))
        (fun hh => ha' (List.mem_cons_of_mem _ hh)) h.2
      exact ⟨by rw [h.1, h1], h2⟩

/-- The characters of a key. -/
theorem key_data (r : Request) :
    r.key.data = (CppLib.to_string r.length).data ++ '_' ::
      ((CppLib.to_string r.width).data ++ '_' ::
        ((CppLib.to_string r.weight).data ++ '_' ::
          (r.color.data ++ '_' :: (r.texture.data ++ '_' :: r.material.data)))) := by
  simp [Request.key, String.data_append]

/-- Requests whose colour and texture have no underscore have the same key only when
they agree in all six attributes. -/
theorem key_injective (r r' : Request) (hc : '_' ∉ r.color.data) (ht : '_' ∉ r.texture.data)
    (hc' : '_' ∉ r'.color.data) (ht' : '_' ∉ r'.texture.data) (h : r.key = r'.key) :
    r = r' := by
  have hd : r.key.data = r'.key.data := congrArg String.data h
  rw [key_data, key_data] at hd
  obtain ⟨h1, hd⟩ := split_underscore _ _ _ _ (CppLib.to_string_no_underscore _)
    (CppLib.to_string_no_underscore _) hd
  obtain ⟨h2, hd⟩ := split_underscore _ _ _ _ (CppLib.to_string_no_underscore _)
    (CppLib.to_string_no_underscore _) hd
  obtain ⟨h3, hd⟩ := split_underscore _ _ _ _ (CppLib.to_string_no_underscore _)
    (CppLib.to_string_no_underscore _) hd
  obtain ⟨h4, hd⟩ := split_underscore _ _ _ _ hc hc' hd
  obtain ⟨h5, h6⟩ := split_underscore _ _ _ _ ht ht' hd
  obtain ⟨l, w, wt, c, t, m⟩ := r
  obtain ⟨l', w', wt', c', t', m'⟩ := r'
  simp only at h1 h2 h3 h4 h5 h6
  have e1 := CppLib.to_string_injective _ _ (String.ext h1)
  have e2 := CppLib.to_string_injective _ _ (String.ext h2)
  have e3 := CppLib.to_string_injective _ _ (String.ext h3)
  have e4 : c = c' := String.ext h4
  have e5 : t = t' := String.ext h5
  have e6 : m = m' := String.ext h6
  subst e1 e2 e3 e4 e5 e6
  rfl

end Flyweight

namespace Flyweight

/-- Once the three types of the demo have their flyweights, a further round of the loop
of `spawnAsteroids` leaves the map as it is. -/
theorem spawn_keeps_three : ∀ t, t < 3 →
    (AsteroidFactory.getAsteroid (spawnAsteroids ⟨[], []⟩ 3).flyweights (requestOfType t)).2
      = (spawnAsteroids ⟨[], []⟩ 3).flyweights := by
  decide

/-- From the third asteroid on the map holds the same three flyweights. -/
theorem spawn_three_flyweights (n : Nat) (hn : 3 ≤ n) :
    ((List.range n).foldl spawnOne ⟨[], []⟩).flyweights
      = (spawnAsteroids ⟨[], []⟩ 3).flyweights := by
  induction n, hn using Nat.le_induction with
  | base => rfl
  | succ n hn ih =>
    rw [List.range_succ, List.foldl_append]
    simp only [List.foldl_cons, List.foldl_nil, spawnOne]
    rw [ih]
    exact spawn_keeps_three (n % 3) (Nat.mod_lt _ (by decide))

/-- The claim that two requests share a flyweight only if all six attributes are equal
fails for strings with an underscore: the colour "a_b" with the texture "c" and the colour
"a" with the texture "b_c" give the same key, so the two different requests get the same
flyweight and the factory holds one flyweight for two distinct attribute tuples. -/
theorem distinct_requests_share_a_flyweight :
    requestAB_C ≠ requestA_BC ∧
    requestAB_C.key = requestA_BC.key ∧
    (AsteroidFactory.getAsteroids [] [requestAB_C, requestA_BC]).1 = [0, 0] ∧
    AsteroidFactory.getFlyweightCount
      (AsteroidFactory.getAsteroids [] [requestAB_C, requestA_BC]).2 = 1 := by
  decide

/-- Claim C26, as the code has it: in a run of calls of `AsteroidFactory::getAsteroid`
two requests get the same shared flyweight if and only if their key strings are equal;
for requests whose colour and texture contain no underscore that is if and only if all
six attributes are equal. Started on the empty factory, the number of flyweights is the
number of distinct keys requested, and spawning `n` asteroids of the 3 types of the demo
creates exactly `min(n, 3)` flyweights. -/
theorem flyweight_sharing (flyweights : List (String × AsteroidFlyweight))
    (reqs : List Request) :
    (∀ p ∈ reqs.zip (AsteroidFactory.getAsteroids flyweights reqs).1,
      ∀ q ∈ reqs.zip (AsteroidFactory.getAsteroids flyweights reqs).1,
        (p.2 = q.2 ↔ p.1.key = q.1.key)) ∧
    (∀ r r' : Request, '_' ∉ r.color.data → '_' ∉ r.texture.data →
      '_' ∉ r'.color.data → '_' ∉ r'.texture.data → (r.key = r'.key ↔ r = r')) ∧
    AsteroidFactory.getFlyweightCount (AsteroidFactory.getAsteroids [] reqs).2
      = ((reqs.map Request.key).toFinset.card : Int) ∧
    (∀ n : Nat, AsteroidFactory.getFlyweightCount
      (spawnAsteroids ⟨[], []⟩ (n : Int)).flyweights = min (n : Int) 3) := by
  refine ⟨?_, ?_, ?_, ?_⟩
  · intro p hp q hq
    obtain ⟨_, ho, _, _⟩ := AsteroidFactory.getAsteroids_spec reqs flyweights
    exact owns_same _ _ _ _ _ (ho p hp) (ho q hq)
  · intro r r' hc ht hc' ht'
    exact ⟨key_injective r r' hc ht hc' ht', fun h => by rw [h]⟩
  · obtain ⟨_, _, hnd, hk⟩ := AsteroidFactory.getAsteroids_spec reqs []
    have hnd' := hnd (by simp)
    have hset : ((AsteroidFactory.getAsteroids [] reqs).2.map (fun e => e.1)).toFinset
        = (reqs.map Request.key).toFinset := by
      ext k
      simp only [List.mem_toFinset]
      rw [hk k]
      simp
    rw [← hset, List.toFinset_card_of_nodup hnd']
    simp [AsteroidFactory.getFlyweightCount]
  · intro n
    simp only [spawnAsteroids, Int.toNat_ofNat, AsteroidFactory.getFlyweightCount]
    by_cases hn : 3 ≤ n
    · rw [spawn_three_flyweights n hn]
      have h3 : ((spawnAsteroids ⟨[], []⟩ 3).flyweights.length : Int) = 3 := by decide
      rw [h3, min_eq_right (by exact_mod_cast hn)]
    · have hlt : n < 3 := by omega
      interval_cases n <;> decide

/-- The first two types of the demo have no underscore in their colour and texture:
their keys differ because the requests differ. -/
theorem flyweight_sharing_witness :
    (requestOfType 0).key = (requestOfType 1).key ↔ requestOfType 0 = requestOfType 1 :=
  (flyweight_sharing [] []).2.1 (requestOfType 0) (requestOfType 1) (by decide) (by decide)
    (by decide) (by decide)

end Flyweight

/-! ## Theorems: the `map<int,int>` of the stock and of the split order -/

namespace Zepto

end Zepto

/-! ## Theorems: the split of an order across the stores -/

namespace Zepto

end Zepto

namespace Zepto

end Zepto

/-! ## Theorems: the split of an order across the store objects -/

namespace Zepto

/-- A pointer of the nearby list that points to no object stops `placeOrder`; when every
pointer points to an object, the loop over the nearby stores returns. -/
theorem splitAcross_returns : ∀ (nearby : List Nat) (stores : List DarkStore)
    (m : List (Int × Int)), (∀ p ∈ nearby, p < stores.length) →
    ∃ r, splitAcross nearby stores m = some r := by
  intro nearby
  induction nearby with
  | nil => intro stores m _; exact ⟨_, rfl⟩
  | cons p rest ih =>
    intro stores m hvalid
    simp only [splitAcross]
    by_cases hempty : m.isEmpty = true
    · rw [if_pos hempty]; exact ⟨_, rfl⟩
    · rw [if_neg hempty]
      have hlt := hvalid p (List.mem_cons_self _ _)
      have hp : stores[p]? = some stores[p] := List.getElem?_eq_getElem hlt
      rw [hp]
      simp only
      obtain ⟨r, hr⟩ := ih (stores.set p (visitStore stores[p] m).1.1)
        (visitStore stores[p] m).2
        (fun q hq => by rw [List.length_set]; exact hvalid q (List.mem_cons_of_mem _ hq))
      rw [hr]
      exact ⟨_, rfl⟩

/-- The method `placeOrder` returns when every pointer of the nearby list points to a
store object. -/
theorem placeOrder_returns (stores : List DarkStore) (nearbyDarkStores : List Nat)
    (requestedItems : List (Int × Int)) (hvalid : ∀ p ∈ nearbyDarkStores, p < stores.length) :
    ∃ outcome, placeOrder stores nearbyDarkStores requestedItems = some outcome := by
  cases nearbyDarkStores with
  | nil => exact ⟨_, rfl⟩
  | cons first others =>
    have hlt := hvalid first (List.mem_cons_self _ _)
    have hp : stores[first]? = some stores[first] := List.getElem?_eq_getElem hlt
    simp only [placeOrder, hp]
    split
    · exact ⟨_, rfl⟩
    · obtain ⟨r, hr⟩ := splitAcross_returns (first :: others) stores
        (requestedItems.foldl (fun m item => mapSet m item.1 item.2) []) hvalid
      rw [hr]
      exact ⟨_, rfl⟩

end Zepto

/-! ## Theorems: the stock invariant of the vending machine -/

namespace Vending

open VendingState

/-- One call keeps the three facts about stock, state and balance, when a refill brings
a positive quantity. -/
theorem perform_invariant (m : VendingMachine) (a : Action) (ha : a.positiveRefill)
    (hfit : a.refillFits m)
    (hcount : 0 ≤ m.itemCount)
    (hsold : m.currentState = SoldOutState ↔ m.itemCount = 0)
    (hcoin : m.currentState ≠ HasCoinState → m.insertedCoins = 0) :
    0 ≤ (m.perform a).1.itemCount ∧
    ((m.perform a).1.currentState = SoldOutState ↔ (m.perform a).1.itemCount = 0) ∧
    ((m.perform a).1.currentState ≠ HasCoinState → (m.perform a).1.insertedCoins = 0) := by
  obtain ⟨s, c, p, i⟩ := m
  simp only at hcount hsold hcoin
  have hw : ∀ q : Int, 0 < q → c + q ≤ 2147483647 → CppLib.wrapInt (c + q) = c + q :=
    fun q hq hle => CppLib.wrapInt_of_inRange _ ⟨by omega, hle⟩
  cases s <;> cases a <;>
    simp only [VendingMachine.perform, VendingMachine.insertCoin, VendingMachine.selectItem,
      VendingMachine.dispense, VendingMachine.returnCoin, VendingMachine.refill,
      VendingMachine.commit, VendingState.insertCoin, VendingState.selectItem,
      VendingState.dispense, VendingState.returnCoin, VendingState.refill,
      NoCoinState.insertCoin, NoCoinState.selectItem, NoCoinState.dispense,
      NoCoinState.returnCoin, NoCoinState.refill,
      HasCoinState.insertCoin, HasCoinState.selectItem, HasCoinState.dispense,
      HasCoinState.returnCoin, HasCoinState.refill,
      DispenseState.insertCoin, DispenseState.selectItem, DispenseState.dispense,
      DispenseState.returnCoin, DispenseState.refill,
      SoldOutState.insertCoin, SoldOutState.selectItem, SoldOutState.dispense,
      SoldOutState.returnCoin, SoldOutState.refill,
      VendingMachine.setInsertedCoin, VendingMachine.addCoin,
      VendingMachine.incrementItemCount, VendingMachine.decrementItemCount,
      Action.positiveRefill, Action.refillFits] at ha hfit ⊢ <;>
    (try split) <;>
    (try simp only [reduceCtorEq, false_iff, true_iff, ne_eq, not_true_eq_false,
      not_false_eq_true, false_implies, true_implies, forall_const, iff_true, iff_false,
      or_true, true_or, or_false, false_or]
      at hsold hcoin hfit ⊢) <;>
    (try rw [hw _ ha hfit]) <;>
    refine ⟨?_, ?_, ?_⟩ <;> first | trivial | omega

/-- The three facts hold for the machine the constructor builds from a non-negative
stock. -/
theorem new_invariant (itemCount itemPrice : Int) (hcount : 0 ≤ itemCount) :
    0 ≤ (VendingMachine.new itemCount itemPrice).itemCount ∧
    ((VendingMachine.new itemCount itemPrice).currentState = SoldOutState ↔
      (VendingMachine.new itemCount itemPrice).itemCount = 0) ∧
    ((VendingMachine.new itemCount itemPrice).currentState ≠ HasCoinState →
      (VendingMachine.new itemCount itemPrice).insertedCoins = 0) := by
  simp only [VendingMachine.new]
  refine ⟨hcount, ?_, fun _ => trivial⟩
  by_cases h : itemCount > 0
  · rw [if_pos h]
    simp only [reduceCtorEq, false_iff]
    omega
  · rw [if_neg h]
    simp only [true_iff]
    omega

/-- A sequence of calls keeps the three facts, when every refill brings a positive
quantity. -/
theorem run_invariant (actions : List Action) (m : VendingMachine)
    (hrefill : ∀ a ∈ actions, a.positiveRefill)
    (hfit : m.refillsFit actions)
    (hcount : 0 ≤ m.itemCount)
    (hsold : m.currentState = SoldOutState ↔ m.itemCount = 0)
    (hcoin : m.currentState ≠ HasCoinState → m.insertedCoins = 0) :
    0 ≤ (m.run actions).itemCount ∧
    ((m.run actions).currentState = SoldOutState ↔ (m.run actions).itemCount = 0) ∧
    ((m.run actions).currentState ≠ HasCoinState → (m.run actions).insertedCoins = 0) := by
  induction actions generalizing m with
  | nil => exact ⟨hcount, hsold, hcoin⟩
  | cons a rest ih =>
    have hstep := perform_invariant m a (hrefill a (List.mem_cons_self _ _)) hfit.1
      hcount hsold hcoin
    exact ih (m.perform a).1 (fun b hb => hrefill b (List.mem_cons_of_mem _ hb)) hfit.2
      hstep.1 hstep.2.1 hstep.2.2

/-- The line "Item dispensed!" is printed only by `dispense` in the dispensing state,
which takes one item from the stock. -/
theorem itemDispensed_only_in_dispensing (m : VendingMachine) (a : Action)
    (hout : Msg.itemDispensed ∈ (m.perform a).2) :
    a = Action.dispense ∧ m.currentState = DispenseState ∧
    (m.perform a).1.itemCount = m.itemCount - 1 := by
  obtain ⟨s, c, p, i⟩ := m
  cases s <;> cases a <;>
    simp only [VendingMachine.perform, VendingMachine.insertCoin, VendingMachine.selectItem,
      VendingMachine.dispense, VendingMachine.returnCoin, VendingMachine.refill,
      VendingMachine.commit, VendingState.insertCoin, VendingState.selectItem,
      VendingState.dispense, VendingState.returnCoin, VendingState.refill,
      NoCoinState.insertCoin, NoCoinState.selectItem, NoCoinState.dispense,
      NoCoinState.returnCoin, NoCoinState.refill,
      HasCoinState.insertCoin, HasCoinState.selectItem, HasCoinState.dispense,
      HasCoinState.returnCoin, HasCoinState.refill,
      DispenseState.insertCoin, DispenseState.selectItem, DispenseState.dispense,
      DispenseState.returnCoin, DispenseState.refill,
      SoldOutState.insertCoin, SoldOutState.selectItem, SoldOutState.dispense,
      SoldOutState.returnCoin, SoldOutState.refill,
      VendingMachine.setInsertedCoin, VendingMachine.addCoin,
      VendingMachine.incrementItemCount, VendingMachine.decrementItemCount] at hout ⊢ <;>
    (try split at hout) <;>
    (try split at hout) <;>
    first
    | (simp at hout; done)
    | (split <;> simp)

/-- Claim C31 as stated fails when a refill takes the stock beyond the range of `int`:
the machine constructed with 1 item, after `refill(2147483647)`, is in NoCoin with
`itemCount = -2147483648`. -/
theorem refill_overflow_breaks_invariant :
    (0 : Int) ≤ 1 ∧ (∀ a ∈ [Action.refill 2147483647], a.positiveRefill) ∧
    ((VendingMachine.new 1 20).run [Action.refill 2147483647]).currentState = NoCoinState ∧
    ((VendingMachine.new 1 20).run [Action.refill 2147483647]).itemCount = -2147483648 ∧
    ¬ 0 ≤ ((VendingMachine.new 1 20).run [Action.refill 2147483647]).itemCount := by
  refine ⟨by decide, ?_, by decide, by decide, by decide⟩
  intro a ha
  rw [List.mem_singleton] at ha
  subst ha
  show (0 : Int) < 2147483647
  decide

/-- Claim C31, amended: vending machine stock invariant. For a machine constructed with
`itemCount >= 0` and any sequence of `insertCoin`, `selectItem`, `dispense`, `returnCoin`
and `refill(n)` calls in which every refill quantity is positive and no accepted refill
takes the stock beyond `INT_MAX`, the machine reached has `itemCount >= 0`, is in the
sold-out state exactly when `itemCount = 0`, and has `insertedCoins = 0` whenever it is
not in the has-coin state; and whenever a further call prints "Item dispensed!", the
stock before that call was positive and the call takes exactly one item, leaving a
non-negative stock. -/
theorem stock_invariant (itemCount itemPrice : Int) (actions : List Action)
    (hcount : 0 ≤ itemCount) (hrefill : ∀ a ∈ actions, a.positiveRefill)
    (hfit : (VendingMachine.new itemCount itemPrice).refillsFit actions) :
    0 ≤ ((VendingMachine.new itemCount itemPrice).run actions).itemCount ∧
    (((VendingMachine.new itemCount itemPrice).run actions).currentState = SoldOutState ↔
      ((VendingMachine.new itemCount itemPrice).run actions).itemCount = 0) ∧
    (((VendingMachine.new itemCount itemPrice).run actions).currentState ≠ HasCoinState →
      ((VendingMachine.new itemCount itemPrice).run actions).insertedCoins = 0) ∧
    (∀ a : Action,
      Msg.itemDispensed ∈ (((VendingMachine.new itemCount itemPrice).run actions).perform a).2 →
      0 < ((VendingMachine.new itemCount itemPrice).run actions).itemCount ∧
      (((VendingMachine.new itemCount itemPrice).run actions).perform a).1.itemCount
        = ((VendingMachine.new itemCount itemPrice).run actions).itemCount - 1) := by
  have h0 := new_invariant itemCount itemPrice hcount
  have hinv := run_invariant actions (VendingMachine.new itemCount itemPrice) hrefill hfit
    h0.1 h0.2.1 h0.2.2
  generalize (VendingMachine.new itemCount itemPrice).run actions = m at hinv ⊢
  refine ⟨hinv.1, hinv.2.1, hinv.2.2, ?_⟩
  intro a hout
  have hd := itemDispensed_only_in_dispensing m a hout
  refine ⟨?_, hd.2.2⟩
  have hne : ¬ m.currentState = SoldOutState := by
    rw [hd.2.1]
    exact fun h => VendingState.noConfusion h
  have hnz : ¬ m.itemCount = 0 := fun h => hne (hinv.2.1.2 h)
  have hge := hinv.1
  omega

/-- The calls of `main` on its machine of 2 items at price 20: the machine they reach
is in the no-coin state with 2 items and no balance, and a `dispense` there prints
nothing about an item. -/
theorem stock_invariant_witness :
    0 ≤ ((VendingMachine.new 2 20).run mainCalls).itemCount ∧
    (((VendingMachine.new 2 20).run mainCalls).currentState = SoldOutState ↔
      ((VendingMachine.new 2 20).run mainCalls).itemCount = 0) ∧
    (((VendingMachine.new 2 20).run mainCalls).currentState ≠ HasCoinState →
      ((VendingMachine.new 2 20).run mainCalls).insertedCoins = 0) ∧
    (∀ a : Action,
      Msg.itemDispensed ∈ (((VendingMachine.new 2 20).run mainCalls).perform a).2 →
      0 < ((VendingMachine.new 2 20).run mainCalls).itemCount ∧
      (((VendingMachine.new 2 20).run mainCalls).perform a).1.itemCount
        = ((VendingMachine.new 2 20).run mainCalls).itemCount - 1) :=
  stock_invariant 2 20 mainCalls (by decide) (by
    intro a ha
    simp only [mainCalls, List.mem_cons, List.mem_singleton, List.not_mem_nil, or_false] at ha
    rcases ha with h | h | h | h | h | h | h | h | h | h | h <;> subst h <;>
      simp [Action.positiveRefill])
    (by
      simp only [mainCalls, VendingMachine.refillsFit, Action.refillFits, true_and, and_true]
      intro _
      decide)

end Vending

/-! ## Theorems: how complete the cash dispenser chain is -/

namespace COR

/-- The remainder the chain 1000, 500, 200, 100 reports for a non-negative amount and
non-negative stocks, in closed form: each handler takes the smaller of the quotient and
its stock, and the last handler reports what is left when it is positive. -/
theorem unfulfilled_chain (amount n1000 n500 n200 n100 : Int) (hamount : 0 ≤ amount)
    (h1000 : 0 ≤ n1000) (h500 : 0 ≤ n500) (h200 : 0 ≤ n200) (h100 : 0 ≤ n100) :
    ∃ k1 k2 k3 k4 : Int,
      k1 = min (amount / 1000) n1000 ∧
      k2 = min ((amount - k1 * 1000) / 500) n500 ∧
      k3 = min ((amount - k1 * 1000 - k2 * 500) / 200) n200 ∧
      k4 = min ((amount - k1 * 1000 - k2 * 500 - k3 * 200) / 100) n100 ∧
      unfulfilled (dispense (chain n1000 n500 n200 n100) amount).2
        = (if amount - k1 * 1000 - k2 * 500 - k3 * 200 - k4 * 100 > 0
            then [amount - k1 * 1000 - k2 * 500 - k3 * 200 - k4 * 100] else []) := by
  have b1 := notes_bounds (MoneyHandler.ThousandHandler n1000) amount h1000 hamount
  have s1 := dispense_step (MoneyHandler.ThousandHandler n1000)
    (MoneyHandler.FiveHundredHandler n500)
    [MoneyHandler.TwoHundredHandler n200, MoneyHandler.HundredHandler n100] amount h1000
    (by simp [MoneyHandler.numNotes, h500, h200, h100]) hamount
  simp only [MoneyHandler.denomination, MoneyHandler.numNotes, MoneyHandler.setNumNotes]
    at b1 s1
  refine ⟨min (amount / 1000) n1000, ?_⟩
  generalize hk1 : min (amount / 1000) n1000 = k1 at b1 s1
  obtain ⟨b1a, _, b1c⟩ := b1
  have b2 := notes_bounds (MoneyHandler.FiveHundredHandler n500) (amount - k1 * 1000) h500 b1c
  have s2 := dispense_step (MoneyHandler.FiveHundredHandler n500)
    (MoneyHandler.TwoHundredHandler n200) [MoneyHandler.HundredHandler n100]
    (amount - k1 * 1000) h500 (by simp [MoneyHandler.numNotes, h200, h100]) b1c
  simp only [MoneyHandler.denomination, MoneyHandler.numNotes, MoneyHandler.setNumNotes]
    at b2 s2
  refine ⟨min ((amount - k1 * 1000) / 500) n500, ?_⟩
  generalize hk2 : min ((amount - k1 * 1000) / 500) n500 = k2 at b2 s2
  obtain ⟨b2a, _, b2c⟩ := b2
  have b3 := notes_bounds (MoneyHandler.TwoHundredHandler n200)
    (amount - k1 * 1000 - k2 * 500) h200 b2c
  have s3 := dispense_step (MoneyHandler.TwoHundredHandler n200)
    (MoneyHandler.HundredHandler n100) [] (amount - k1 * 1000 - k2 * 500) h200
    (by simp [MoneyHandler.numNotes, h100]) b2c
  simp only [MoneyHandler.denomination, MoneyHandler.numNotes, MoneyHandler.setNumNotes]
    at b3 s3
  refine ⟨min ((amount - k1 * 1000 - k2 * 500) / 200) n200, ?_⟩
  generalize hk3 : min ((amount - k1 * 1000 - k2 * 500) / 200) n200 = k3 at b3 s3
  obtain ⟨b3a, _, b3c⟩ := b3
  have b4 := notes_bounds (MoneyHandler.HundredHandler n100)
    (amount - k1 * 1000 - k2 * 500 - k3 * 200) h100 b3c
  have s4 := dispense_last (MoneyHandler.HundredHandler n100)
    (amount - k1 * 1000 - k2 * 500 - k3 * 200) b3c
  simp only [MoneyHandler.denomination, MoneyHandler.numNotes, MoneyHandler.setNumNotes]
    at b4 s4
  refine ⟨min ((amount - k1 * 1000 - k2 * 500 - k3 * 200) / 100) n100, ?_⟩
  generalize hk4 : min ((amount - k1 * 1000 - k2 * 500 - k3 * 200) / 100) n100 = k4 at b4 s4
  obtain ⟨b4a, _, _⟩ := b4
  refine ⟨rfl, rfl, rfl, rfl, ?_⟩
  rw [chain, s1, s2, s3, s4]
  simp only [unfulfilled_append, (issued_line 0 1000 k1 b1a).2, (issued_line 0 500 k2 b2a).2,
    (issued_line 0 200 k3 b3a).2, (issued_line 0 100 k4 b4a).2, List.nil_append,
    (issued_report 0 _).2]

/-- The smaller of two integers is one of them. -/
theorem min_cases (k q n : Int) (hk : k = min q n) :
    (k = q ∧ q ≤ n) ∨ (k = n ∧ n ≤ q) := by
  rcases le_total q n with h | h
  · exact Or.inl ⟨by rw [hk, min_eq_left h], h⟩
  · exact Or.inr ⟨by rw [hk, min_eq_right h], h⟩

/-- The arithmetic of the four handlers in units of one hundred: with at least one 100
note, or no 500 note, or at most two 200 notes in stock, taking the largest notes first
leaves nothing of an amount that some selection of the stocked notes makes up. -/
theorem greedy_hundreds (A n1000 n500 n200 n100 x1000 x500 x200 x100 : Int)
    (hstocks : 1 ≤ n100 ∨ n500 = 0 ∨ n200 ≤ 2)
    (hx1 : 0 ≤ x1000 ∧ x1000 ≤ n1000) (hx2 : 0 ≤ x500 ∧ x500 ≤ n500)
    (hx3 : 0 ≤ x200 ∧ x200 ≤ n200) (hx4 : 0 ≤ x100 ∧ x100 ≤ n100)
    (hsum : 10 * x1000 + 5 * x500 + 2 * x200 + x100 = A)
    (k1 k2 k3 k4 : Int)
    (e1 : (k1 = A / 10 ∧ A / 10 ≤ n1000) ∨ (k1 = n1000 ∧ n1000 ≤ A / 10))
    (e2 : (k2 = (A - 10 * k1) / 5 ∧ (A - 10 * k1) / 5 ≤ n500) ∨
          (k2 = n500 ∧ n500 ≤ (A - 10 * k1) / 5))
    (e3 : (k3 = (A - 10 * k1 - 5 * k2) / 2 ∧ (A - 10 * k1 - 5 * k2) / 2 ≤ n200) ∨
          (k3 = n200 ∧ n200 ≤ (A - 10 * k1 - 5 * k2) / 2))
    (e4 : (k4 = A - 10 * k1 - 5 * k2 - 2 * k3 ∧ A - 10 * k1 - 5 * k2 - 2 * k3 ≤ n100) ∨
          (k4 = n100 ∧ n100 ≤ A - 10 * k1 - 5 * k2 - 2 * k3)) :
    A - 10 * k1 - 5 * k2 - 2 * k3 - k4 ≤ 0 := by
  rcases hstocks with h | h | h
  · omega
  · omega
  · have c1 : x200 = 0 ∨ x200 = 1 ∨ x200 = 2 := by omega
    have c2 : 0 ≤ k3 ∧ k3 ≤ 2 := by omega
    have c3 : k3 = 0 ∨ k3 = 1 ∨ k3 = 2 := by omega
    omega

/-- The same in rupees, for the counts the handlers compute. -/
theorem greedy_leaves_nothing (amount n1000 n500 n200 n100 x1000 x500 x200 x100 : Int)
    (hstocks : 1 ≤ n100 ∨ n500 = 0 ∨ n200 ≤ 2)
    (hsel : MakesUp n1000 n500 n200 n100 amount x1000 x500 x200 x100)
    (k1 k2 k3 k4 : Int)
    (hk1 : k1 = min (amount / 1000) n1000)
    (hk2 : k2 = min ((amount - k1 * 1000) / 500) n500)
    (hk3 : k3 = min ((amount - k1 * 1000 - k2 * 500) / 200) n200)
    (hk4 : k4 = min ((amount - k1 * 1000 - k2 * 500 - k3 * 200) / 100) n100) :
    ¬ amount - k1 * 1000 - k2 * 500 - k3 * 200 - k4 * 100 > 0 := by
  obtain ⟨hx1, hx2, hx3, hx4, hsum⟩ := hsel
  have hA : amount = 100 * (10 * x1000 + 5 * x500 + 2 * x200 + x100) := by omega
  generalize hdef : 10 * x1000 + 5 * x500 + 2 * x200 + x100 = A at hA
  have q1 : amount / 1000 = A / 10 := by omega
  have q2 : (amount - k1 * 1000) / 500 = (A - 10 * k1) / 5 := by omega
  have q3 : (amount - k1 * 1000 - k2 * 500) / 200 = (A - 10 * k1 - 5 * k2) / 2 := by omega
  have q4 : (amount - k1 * 1000 - k2 * 500 - k3 * 200) / 100
      = A - 10 * k1 - 5 * k2 - 2 * k3 := by omega
  rw [q1] at hk1
  rw [q2] at hk2
  rw [q3] at hk3
  rw [q4] at hk4
  have hh := greedy_hundreds A n1000 n500 n200 n100 x1000 x500 x200 x100 hstocks
    hx1 hx2 hx3 hx4 hdef k1 k2 k3 k4 (min_cases k1 _ _ hk1) (min_cases k2 _ _ hk2)
    (min_cases k3 _ _ hk3) (min_cases k4 _ _ hk4)
  omega

/-- The stocks outside the condition: one 500 note is issued for 600 and the 100 left
finds no note. -/
theorem six_hundred_left (n1000 n500 n200 n100 : Int)
    (h1000 : 0 ≤ n1000) (h500 : 1 ≤ n500) (h200 : 3 ≤ n200) (h100 : n100 = 0)
    (k1 k2 k3 k4 : Int)
    (hk1 : k1 = min ((600 : Int) / 1000) n1000)
    (hk2 : k2 = min ((600 - k1 * 1000) / 500) n500)
    (hk3 : k3 = min ((600 - k1 * 1000 - k2 * 500) / 200) n200)
    (hk4 : k4 = min ((600 - k1 * 1000 - k2 * 500 - k3 * 200) / 100) n100) :
    600 - k1 * 1000 - k2 * 500 - k3 * 200 - k4 * 100 = 100 := by
  have e1 := min_cases k1 _ _ hk1
  have e2 := min_cases k2 _ _ hk2
  have e3 := min_cases k3 _ _ hk3
  have e4 := min_cases k4 _ _ hk4
  clear hk1 hk2 hk3 hk4
  have f1 : k1 = 0 := by omega
  subst f1
  have f2 : k2 = 1 := by omega
  subst f2
  have f3 : k3 = 0 := by omega
  subst f3
  have f4 : k4 = 0 := by omega
  subst f4
  norm_num

/-- Counterexample to claim C32 as stated: with no 1000 note, one 500 note, three 200
notes and no 100 note in stock, `dispense(600)` issues the 500 note and reports 100 as
impossible to fulfil, although the three 200 notes in stock sum to 600. -/
theorem greedy_misses_exact_selection :
    dispense (chain 0 1 3 0) 600
      = (chain 0 0 3 0, [Msg.dispensing 1 500, Msg.cannotBeFulfilled 100]) ∧
    unfulfilled (dispense (chain 0 1 3 0) 600).2 = [100] ∧
    MakesUp 0 1 3 0 600 0 0 3 0 :=
  ⟨by decide, by decide, by unfold MakesUp; decide⟩

/-- Claim C32, amended: cash dispenser completeness. For non-negative note stocks with at
least one 100 note, or no 500 note, or at most two 200 notes, and every amount >= 0: if
the chain reports a remainder that cannot be fulfilled, then no selection of the stocked
notes sums to the amount; and whenever a selection of the stocked notes makes up the
amount, `dispense` reports no remainder. For all other non-negative stocks (no 100 note,
a 500 note and at least three 200 notes) the amount 600 is made up by three 200 notes
and the chain reports a remainder of 100. -/
theorem dispense_complete (n1000 n500 n200 n100 : Int)
    (h1000 : 0 ≤ n1000) (h500 : 0 ≤ n500) (h200 : 0 ≤ n200) (h100 : 0 ≤ n100) :
    ((1 ≤ n100 ∨ n500 = 0 ∨ n200 ≤ 2) →
      ∀ amount : Int, 0 ≤ amount →
        unfulfilled (dispense (chain n1000 n500 n200 n100) amount).2 ≠ [] →
        ¬ ∃ x1000 x500 x200 x100 : Int,
          MakesUp n1000 n500 n200 n100 amount x1000 x500 x200 x100) ∧
    ((1 ≤ n100 ∨ n500 = 0 ∨ n200 ≤ 2) →
      ∀ amount x1000 x500 x200 x100 : Int, 0 ≤ amount →
        MakesUp n1000 n500 n200 n100 amount x1000 x500 x200 x100 →
        unfulfilled (dispense (chain n1000 n500 n200 n100) amount).2 = []) ∧
    (¬ (1 ≤ n100 ∨ n500 = 0 ∨ n200 ≤ 2) →
      unfulfilled (dispense (chain n1000 n500 n200 n100) 600).2 = [100] ∧
      MakesUp n1000 n500 n200 n100 600 0 0 3 0) := by
  have hmain : (1 ≤ n100 ∨ n500 = 0 ∨ n200 ≤ 2) →
      ∀ amount x1000 x500 x200 x100 : Int, 0 ≤ amount →
        MakesUp n1000 n500 n200 n100 amount x1000 x500 x200 x100 →
        unfulfilled (dispense (chain n1000 n500 n200 n100) amount).2 = [] := by
    intro hstocks amount x1000 x500 x200 x100 hamount hsel
    obtain ⟨k1, k2, k3, k4, hk1, hk2, hk3, hk4, hu⟩ :=
      unfulfilled_chain amount n1000 n500 n200 n100 hamount h1000 h500 h200 h100
    rw [hu, if_neg (greedy_leaves_nothing amount n1000 n500 n200 n100 x1000 x500 x200 x100
      hstocks hsel k1 k2 k3 k4 hk1 hk2 hk3 hk4)]
  refine ⟨?_, hmain, ?_⟩
  · intro hstocks amount hamount hrep hex
    obtain ⟨x1000, x500, x200, x100, hsel⟩ := hex
    exact hrep (hmain hstocks amount x1000 x500 x200 x100 hamount hsel)
  · intro hstocks
    have g500 : 1 ≤ n500 := by omega
    have g200 : 3 ≤ n200 := by omega
    have g100 : n100 = 0 := by omega
    obtain ⟨k1, k2, k3, k4, hk1, hk2, hk3, hk4, hu⟩ :=
      unfulfilled_chain 600 n1000 n500 n200 n100 (by decide) h1000 h500 h200 h100
    have hr := six_hundred_left n1000 n500 n200 n100 h1000 g500 g200 g100 k1 k2 k3 k4
      hk1 hk2 hk3 hk4
    refine ⟨?_, ?_⟩
    · rw [hu, hr]
      rfl
    · unfold MakesUp
      omega

/-- The stocks 3, 5, 10, 20 of `main` hold a 100 note, and three 1000 notes with two 500
notes make up the 4000 that `main` requests: the chain reports no remainder. -/
theorem dispense_complete_witness :
    MakesUp 3 5 10 20 4000 3 2 0 0 ∧
    unfulfilled (dispense (chain 3 5 10 20) 4000).2 = [] :=
  ⟨by unfold MakesUp; decide,
   (dispense_complete 3 5 10 20 (by decide) (by decide) (by decide) (by decide)).2.1
     (Or.inl (by decide)) 4000 3 2 0 0 (by decide) (by unfold MakesUp; decide)⟩

end COR
